import Mathlib

/-!
# MLFQ scheduler of `kernel/proc.c`: shallow embedding and verification

Data model.  The process table `proc[NPROC]` is a function from slot index to
PCB; the loops over the table visit the slots `0 .. NPROC-1`.  A
`struct proc *` is an `Option Nat`: `none` is the null pointer, `some i` is
`&proc[i]`.  A `void *` channel is an `Option Nat` as well, and the PCB pointer
`&proc[i]` used as a channel is `some i`.  The queue array `queues[NQUEUE]` is
a function from the `int` level to a head/tail pair; the levels of the C array
are 0, 1, 2.  `struct proc`, `struct proc_queue` and `enum procstate` are
declared in `proc.h`; their fields and constructors are the ones `proc.c` uses.
The constants `NPROC`, `Q0_TICKS`, `Q1_TICKS`, `Q2_TICKS` of `param.h` and
`proc.h` are parameters, gathered in `Config`.

Execution model.  One core is modelled (`cpus[0]`), and every operation runs
atomically.  Spinlocks do not change the data and are not part of the data
model; the `acquire` and `release` calls on PCB locks are listed as events
(`lock_event`) for `allocproc` and for the level loop of the scheduler.
Loops that follow a pointer chain (`while`) take a fuel argument and
return `none` when the fuel runs out; a panic or a store through a null
`myproc()` is `none` as well.  `int` values are integers; the pid counter
wraps at 32 bits.
-/

namespace MLFQ

/-- The `enum procstate` of `proc.h`. -/
inductive procstate where
  | UNUSED
  | USED
  | SLEEPING
  | RUNNABLE
  | RUNNING
  | ZOMBIE
deriving DecidableEq, Repr

/-- The fields of `struct proc` that `proc.c` reads or writes as data.  The
kernel stack, saved context, open files, working directory and name are owned
by collaborators and never decide control flow here; they are left out. -/
structure proc where
  state : procstate
  chan : Option Nat
  killed : Int
  xstate : Int
  pid : Int
  parent : Option Nat
  trapframe : Option Nat
  pagetable : Option Nat
  sz : Nat
  queue_level : Int
  remaining_ticks : Int
  original_queue : Int
  next_in_queue : Option Nat
deriving DecidableEq, Repr

/-- The `struct proc_queue`: head and tail pointers into the table. -/
structure proc_queue where
  head : Option Nat
  tail : Option Nat
deriving DecidableEq, Repr

/-- The constants of `param.h` and `proc.h` that `proc.c` uses. -/
structure Config where
  NPROC : Nat
  Q0_TICKS : Int
  Q1_TICKS : Int
  Q2_TICKS : Int
deriving DecidableEq, Repr

/-- The global variables of `proc.c` (one core). -/
structure Kernel where
  proc : Nat → proc
  queues : Int → proc_queue
  nextpid : Int
  initproc : Option Nat
  cpu_proc : Option Nat
  promote_needed : Int

/-- Store into one cell of an array. -/
def setAt {ι α : Type} [DecidableEq ι] (f : ι → α) (i : ι) (v : α) : ι → α :=
  fun j => if j = i then v else f j

/-- The assignment `p->next_in_queue = v`. -/
def setNext (ps : Nat → proc) (i : Nat) (v : Option Nat) : Nat → proc :=
  setAt ps i { ps i with next_in_queue := v }

/-- Two's complement wrap of a 32 bit `int`. -/
def wrap32 (x : Int) : Int := (x + 2147483648) % 4294967296 - 2147483648

/-- A zero-filled PCB, as in the `.bss` image before `procinit`. -/
def proc_zero : proc :=
  { state := procstate.UNUSED, chan := none, killed := 0, xstate := 0, pid := 0,
    parent := none, trapframe := none, pagetable := none, sz := 0,
    queue_level := 0, remaining_ticks := 0, original_queue := 0,
    next_in_queue := none }

/-- The image of the globals at boot: zero-filled, `nextpid = 1`. -/
def boot_image : Kernel :=
  { proc := fun _ => proc_zero, queues := fun _ => ⟨none, none⟩, nextpid := 1,
    initproc := none, cpu_proc := none, promote_needed := 0 }

/-- `enqueue_proc(p, level)`.  With a non-null head and a null tail the C code
dereferences null; the model performs no store through the null pointer. -/
def enqueue_proc (k : Kernel) (p : Option Nat) (level : Int) : Kernel :=
  match p with
  | none => k
  | some i =>
    match (k.queues level).head with
    | none =>
      { k with
        queues := setAt k.queues level ⟨some i, some i⟩
        proc := setNext k.proc i none }
    | some h =>
      let ps1 := match (k.queues level).tail with
        | some t => setNext k.proc t (some i)
        | none => k.proc
      { k with
        queues := setAt k.queues level ⟨some h, some i⟩
        proc := setNext ps1 i none }

/-- `dequeue_proc(level)`: the returned pointer and the new globals. -/
def dequeue_proc (k : Kernel) (level : Int) : Option Nat × Kernel :=
  match (k.queues level).head with
  | none => (none, k)
  | some i =>
    let q1 : proc_queue := ⟨(k.proc i).next_in_queue, (k.queues level).tail⟩
    let q2 : proc_queue := if q1.tail = some i then ⟨q1.head, none⟩ else q1
    (some i, { k with queues := setAt k.queues level q2, proc := setNext k.proc i none })

/-- The search loop of `remove_from_queue`:
`while (prev != 0 && prev->next_in_queue != p) prev = prev->next_in_queue;`
The result is the final value of `prev`, or `none` when the fuel runs out. -/
def find_prev (ps : Nat → proc) (p : Nat) : Nat → Option Nat → Option (Option Nat)
  | 0, _ => none
  | _ + 1, none => some none
  | fuel + 1, some v =>
    if (ps v).next_in_queue = some p then some (some v)
    else find_prev ps p fuel (ps v).next_in_queue

/-- `remove_from_queue(p, level)`; `none` when the search loop runs out of fuel
and for a null `p`, which the last statement of the C function dereferences. -/
def remove_from_queue (fuel : Nat) (k : Kernel) (p : Option Nat) (level : Int) :
    Option Kernel :=
  match p with
  | none => none
  | some i =>
    if (k.queues level).head = some i then
      let q1 : proc_queue := ⟨(k.proc i).next_in_queue, (k.queues level).tail⟩
      let q2 : proc_queue := if q1.tail = some i then ⟨q1.head, none⟩ else q1
      some { k with queues := setAt k.queues level q2, proc := setNext k.proc i none }
    else
      match find_prev k.proc i fuel (k.queues level).head with
      | none => none
      | some none => some { k with proc := setNext k.proc i none }
      | some (some v) =>
        let ps1 := setNext k.proc v (k.proc i).next_in_queue
        let q := k.queues level
        let q2 : proc_queue := if q.tail = some i then ⟨q.head, some v⟩ else q
        some { k with queues := setAt k.queues level q2, proc := setNext ps1 i none }

/-- The first loop of `procinit`: every slot becomes `UNUSED`. -/
def procinit_table (n : Nat) (ps : Nat → proc) : Nat → proc :=
  (List.range n).foldl (fun acc i => setAt acc i { acc i with state := procstate.UNUSED }) ps

/-- `procinit()`. -/
def procinit (cfg : Config) (k : Kernel) : Kernel :=
  let ps := procinit_table cfg.NPROC k.proc
  let qs := (List.range 3).foldl
    (fun acc (i : Nat) => setAt acc (i : Int) (⟨none, none⟩ : proc_queue)) k.queues
  { k with proc := ps, queues := qs }

/-- Number of priority levels: the source declares `queues[NQUEUE]; // Q0, Q1, Q2`
and `procinit` initialises three queues. -/
def NQUEUE : Nat := 3

/-- Local variables of the first `while` loop of `promote_processes`. -/
structure sweep_vars where
  prev : Option Nat
  current : Option Nat
  to_promote_head : Option Nat
  to_promote_tail : Option Nat
deriving DecidableEq, Repr

/-- The first `while` loop of `promote_processes` for one level: every member
whose state is `RUNNABLE` is unlinked and appended to the local list. -/
def promote_sweep (level : Int) : Nat → Kernel → sweep_vars → Option (Kernel × sweep_vars)
  | 0, _, _ => none
  | fuel + 1, k, v =>
    match v.current with
    | none => some (k, v)
    | some c =>
      let next := (k.proc c).next_in_queue
      if (k.proc c).state = procstate.RUNNABLE then
        let q := k.queues level
        let q1 : proc_queue := match v.prev with
          | none => ⟨next, q.tail⟩
          | some _ => q
        let ps1 := match v.prev with
          | none => k.proc
          | some pv => setNext k.proc pv next
        let q2 : proc_queue := if q1.tail = some c then ⟨q1.head, v.prev⟩ else q1
        let ps2 := setNext ps1 c none
        let ps3 := match v.to_promote_tail with
          | none => ps2
          | some t => setNext ps2 t (some c)
        let hd := match v.to_promote_tail with
          | none => some c
          | some _ => v.to_promote_head
        promote_sweep level fuel { k with queues := setAt k.queues level q2, proc := ps3 }
          { prev := v.prev, current := next, to_promote_head := hd, to_promote_tail := some c }
      else
        promote_sweep level fuel k
          { prev := some c, current := next, to_promote_head := v.to_promote_head,
            to_promote_tail := v.to_promote_tail }

/-- The second `while` loop of `promote_processes`: each gathered PCB gets level
0 and the level 0 quantum if it is still `RUNNABLE`, and is enqueued at level 0. -/
def promote_requeue (cfg : Config) : Nat → Kernel → Option Nat → Option Kernel
  | 0, _, _ => none
  | _ + 1, k, none => some k
  | fuel + 1, k, some c =>
    let nxt := (k.proc c).next_in_queue
    let k1 : Kernel :=
      if (k.proc c).state = procstate.RUNNABLE then
        { k with proc := (setAt k.proc c
            { k.proc c with queue_level := 0, remaining_ticks := cfg.Q0_TICKS }) }
      else k
    promote_requeue cfg fuel (enqueue_proc k1 (some c) 0) nxt

/-- One step of the table scan of `promote_processes` over the running PCBs. -/
def promote_running_one (cfg : Config) (k : Kernel) (i : Nat) : Kernel :=
  if (k.proc i).state = procstate.RUNNING ∧ (k.proc i).queue_level > 0 then
    { k with proc := (setAt k.proc i
        { k.proc i with queue_level := 0, remaining_ticks := cfg.Q0_TICKS }) }
  else k

/-- The table scan of `promote_processes` over the running PCBs. -/
def promote_running (cfg : Config) (k : Kernel) : Kernel :=
  (List.range cfg.NPROC).foldl (promote_running_one cfg) k

/-- The body of the outer `for` loop of `promote_processes` for one level. -/
def promote_level (cfg : Config) (fuel : Nat) (k : Kernel) (level : Int) : Option Kernel :=
  match promote_sweep level fuel k
      { prev := none, current := (k.queues level).head, to_promote_head := none,
        to_promote_tail := none } with
  | none => none
  | some (k1, v) =>
    match promote_requeue cfg fuel k1 v.to_promote_head with
    | none => none
    | some k2 => some (promote_running cfg k2)

/-- `promote_processes()`: levels 1 and 2 in turn. -/
def promote_processes (cfg : Config) (fuel : Nat) (k : Kernel) : Option Kernel :=
  match promote_level cfg fuel k 1 with
  | none => none
  | some k1 => promote_level cfg fuel k1 2

/-- `myproc()`: the current process of the core. -/
def myproc (k : Kernel) : Option Nat := k.cpu_proc

/-- `allocpid()`: the pid handed out and the new globals. -/
def allocpid (k : Kernel) : Int × Kernel :=
  (k.nextpid, { k with nextpid := wrap32 (k.nextpid + 1) })

/-- `freeproc(p)`.  Freeing the trapframe page and the page table is done by
collaborators; the pointers are cleared. -/
def freeproc (k : Kernel) (i : Nat) : Kernel :=
  { k with proc := (setAt k.proc i
      { k.proc i with
        trapframe := none, pagetable := none, sz := 0, pid := 0, parent := none,
        chan := none, killed := 0, xstate := 0, state := procstate.UNUSED }) }

/-- `allocproc()`.  The results of `kalloc()` and of `proc_pagetable(p)` are
inputs: `kalloc_res` and `pagetable_res` (`none` is a failed allocation). -/
def allocproc (cfg : Config) (kalloc_res pagetable_res : Option Nat) (k : Kernel) :
    Option Nat × Kernel :=
  match (List.range cfg.NPROC).find? (fun i => (k.proc i).state = procstate.UNUSED) with
  | none => (none, k)
  | some i =>
    let (pid, k1) := allocpid k
    let k2 : Kernel :=
      { k1 with proc := (setAt k1.proc i
          { k1.proc i with
            pid := pid, state := procstate.USED, queue_level := 0,
            remaining_ticks := cfg.Q0_TICKS, original_queue := 0 }) }
    let k3 := enqueue_proc k2 (some i) 0
    let k4 : Kernel :=
      { k3 with proc := setAt k3.proc i { k3.proc i with trapframe := kalloc_res } }
    match kalloc_res with
    | none => (none, freeproc k4 i)
    | some _ =>
      let k5 : Kernel :=
        { k4 with proc := setAt k4.proc i { k4.proc i with pagetable := pagetable_res } }
      match pagetable_res with
      | none => (none, freeproc k5 i)
      | some _ => (some i, k5)

/-- `userinit()`.  When `allocproc` returns null the C code stores through a
null pointer; the model reports that as `none`. -/
def userinit (cfg : Config) (kalloc_res pagetable_res : Option Nat) (k : Kernel) :
    Option Kernel :=
  match allocproc cfg kalloc_res pagetable_res k with
  | (none, _) => none
  | (some i, k1) =>
    some { k1 with
      initproc := some i
      proc := setAt k1.proc i { k1.proc i with state := procstate.RUNNABLE } }

/-- `kfork()`: the return value and the new globals; `none` when there is no
current process (the C code then reads through a null pointer).
`uvmcopy_ok` is the outcome of the address-space copy. -/
def kfork (cfg : Config) (kalloc_res pagetable_res : Option Nat) (uvmcopy_ok : Bool)
    (k : Kernel) : Option (Int × Kernel) :=
  match myproc k with
  | none => none
  | some p =>
    match allocproc cfg kalloc_res pagetable_res k with
    | (none, k1) => some (-1, k1)
    | (some np, k1) =>
      if uvmcopy_ok = false then some (-1, freeproc k1 np)
      else
        let k2 : Kernel :=
          { k1 with proc := setAt k1.proc np { k1.proc np with sz := (k1.proc p).sz } }
        let pid := (k2.proc np).pid
        let k3 : Kernel :=
          { k2 with proc := setAt k2.proc np { k2.proc np with parent := some p } }
        let k4 : Kernel :=
          { k3 with proc := (setAt k3.proc np
              { k3.proc np with state := procstate.RUNNABLE }) }
        some (pid, k4)

/-- One step of the loop of `wakeup(chan)` at slot `i`. -/
def wakeup_one (cfg : Config) (chan : Option Nat) (k : Kernel) (i : Nat) : Kernel :=
  if some i ≠ myproc k then
    if (k.proc i).state = procstate.SLEEPING ∧ (k.proc i).chan = chan then
      let p1 : proc :=
        { k.proc i with state := procstate.RUNNABLE, queue_level := (k.proc i).original_queue }
      let p2 : proc :=
        if p1.queue_level = 0 then { p1 with remaining_ticks := cfg.Q0_TICKS }
        else if p1.queue_level = 1 then { p1 with remaining_ticks := cfg.Q1_TICKS }
        else if p1.queue_level = 2 then { p1 with remaining_ticks := cfg.Q2_TICKS }
        else p1
      enqueue_proc { k with proc := setAt k.proc i p2 } (some i) p2.queue_level
    else k
  else k

/-- `wakeup(chan)`. -/
def wakeup (cfg : Config) (k : Kernel) (chan : Option Nat) : Kernel :=
  (List.range cfg.NPROC).foldl (wakeup_one cfg chan) k

/-- One step of the loop of `reparent(p)` at slot `i`. -/
def reparent_one (cfg : Config) (p : Option Nat) (k : Kernel) (i : Nat) : Kernel :=
  if (k.proc i).parent = p then
    wakeup cfg { k with proc := setAt k.proc i { k.proc i with parent := k.initproc } }
      k.initproc
  else k

/-- `reparent(p)`. -/
def reparent (cfg : Config) (k : Kernel) (p : Option Nat) : Kernel :=
  (List.range cfg.NPROC).foldl (reparent_one cfg p) k

/-- The scheduler's code after `swtch` returns from the dispatched PCB `p`:
`c->proc = 0; if (p->state == RUNNABLE) enqueue_proc(p, p->queue_level);`. -/
def scheduler_return (k : Kernel) (p : Nat) : Kernel :=
  let k1 : Kernel := { k with cpu_proc := none }
  if (k1.proc p).state = procstate.RUNNABLE then
    enqueue_proc k1 (some p) (k1.proc p).queue_level
  else k1

/-- `sched()` up to the moment the scheduler has taken over again: panics
(`none`) without a current process or when that process is still `RUNNING`;
otherwise `swtch` resumes the scheduler after its own `swtch`. -/
def sched (k : Kernel) : Option Kernel :=
  match myproc k with
  | none => none
  | some p =>
    if (k.proc p).state = procstate.RUNNING then none
    else some (scheduler_return k p)

/-- `yield()` up to the call of `sched()`. -/
def yield_body (k : Kernel) : Option Kernel :=
  match myproc k with
  | none => none
  | some p =>
    some { k with proc := setAt k.proc p { k.proc p with state := procstate.RUNNABLE } }

/-- `yield()` until the scheduler runs again. -/
def yield (k : Kernel) : Option Kernel :=
  (yield_body k).bind sched

/-- `sleep(chan, lk)` up to the call of `sched()`. -/
def sleep_body (fuel : Nat) (k : Kernel) (chan : Option Nat) : Option Kernel :=
  match myproc k with
  | none => none
  | some p =>
    let k1 : Kernel :=
      { k with proc := (setAt k.proc p
          { k.proc p with chan := chan, state := procstate.SLEEPING }) }
    let k2 : Kernel :=
      { k1 with proc := (setAt k1.proc p
          { k1.proc p with original_queue := (k1.proc p).queue_level }) }
    remove_from_queue fuel k2 (some p) (k2.proc p).queue_level

/-- `sleep(chan, lk)` until the scheduler runs again. -/
def sleep (fuel : Nat) (k : Kernel) (chan : Option Nat) : Option Kernel :=
  (sleep_body fuel k chan).bind sched

/-- The end of `sleep` once the sleeper runs again: `p->chan = 0`. -/
def sleep_tidy (k : Kernel) : Option Kernel :=
  match myproc k with
  | none => none
  | some p => some { k with proc := setAt k.proc p { k.proc p with chan := none } }

/-- The scan of `kkill(pid)` over the given slots. -/
def kkill_scan (pid : Int) : List Nat → Kernel → Int × Kernel
  | [], k => (-1, k)
  | i :: rest, k =>
    if (k.proc i).pid = pid then
      let p1 : proc := { k.proc i with killed := 1 }
      let p2 : proc :=
        if p1.state = procstate.SLEEPING then { p1 with state := procstate.RUNNABLE } else p1
      (0, { k with proc := setAt k.proc i p2 })
    else kkill_scan pid rest k

/-- `kkill(pid)`. -/
def kkill (cfg : Config) (k : Kernel) (pid : Int) : Int × Kernel :=
  kkill_scan pid (List.range cfg.NPROC) k

/-- `kexit(status)` up to the call of `sched()`; `none` is a panic. -/
def kexit_body (cfg : Config) (k : Kernel) (status : Int) : Option Kernel :=
  match myproc k with
  | none => none
  | some p =>
    if some p = k.initproc then none
    else
      let k1 := reparent cfg k (some p)
      let k2 := wakeup cfg k1 (k1.proc p).parent
      some { k2 with proc := (setAt k2.proc p
          { k2.proc p with xstate := status, state := procstate.ZOMBIE }) }

/-- `kexit(status)` until the scheduler runs again. -/
def kexit (cfg : Config) (k : Kernel) (status : Int) : Option Kernel :=
  (kexit_body cfg k status).bind sched

/-- How one round of the `for(;;)` of `kwait` ends. -/
inductive wait_result where
  | returned (v : Int)
  | blocked
deriving DecidableEq, Repr

/-- The inner scan of `kwait` over the given slots: `havekids` so far, then
either an early return (value and globals) or the final `havekids`. -/
def kwait_scan (p : Nat) (addr : Nat) (copyout_ok : Bool) :
    List Nat → Bool → Kernel → Sum (Int × Kernel) Bool
  | [], havekids, _ => Sum.inr havekids
  | i :: rest, havekids, k =>
    if (k.proc i).parent = some p then
      if (k.proc i).state = procstate.ZOMBIE then
        let pid := (k.proc i).pid
        if addr ≠ 0 ∧ copyout_ok = false then Sum.inl (-1, k)
        else Sum.inl (pid, freeproc k i)
      else kwait_scan p addr copyout_ok rest true k
    else kwait_scan p addr copyout_ok rest havekids k

/-- One round of the `for(;;)` of `kwait(addr)`: it returns, or it sleeps on the
caller's own PCB and the scheduler runs again. -/
def kwait (cfg : Config) (fuel : Nat) (k : Kernel) (addr : Nat) (copyout_ok : Bool) :
    Option (wait_result × Kernel) :=
  match myproc k with
  | none => none
  | some p =>
    match kwait_scan p addr copyout_ok (List.range cfg.NPROC) false k with
    | Sum.inl (v, k1) => some (wait_result.returned v, k1)
    | Sum.inr havekids =>
      if havekids = false ∨ (k.proc p).killed ≠ 0 then some (wait_result.returned (-1), k)
      else (sleep fuel k (some p)).map (fun k1 => (wait_result.blocked, k1))

/-- The level scan of one scheduler iteration up to `swtch`: the dispatched PCB
with the level it came from, if any, and the globals at that moment. -/
def scheduler_scan : List Int → Kernel → Option (Nat × Int) × Kernel
  | [], k => (none, k)
  | level :: rest, k =>
    match dequeue_proc k level with
    | (none, k1) => scheduler_scan rest k1
    | (some p, k1) =>
      if (k1.proc p).state = procstate.RUNNABLE then
        (some (p, level),
          { k1 with
            proc := setAt k1.proc p { k1.proc p with state := procstate.RUNNING }
            cpu_proc := some p })
      else scheduler_scan rest k1

/-- The levels visited by the scan, in order: `0 .. NQUEUE-1`. -/
def scan_levels : List Int := (List.range NQUEUE).map (fun (n : Nat) => (n : Int))

/-- The promotion check at the top of a scheduler iteration. -/
def scheduler_promote (cfg : Config) (fuel : Nat) (k : Kernel) : Option Kernel :=
  if k.promote_needed ≠ 0 then promote_processes cfg fuel { k with promote_needed := 0 }
  else some k

/-- One scheduler iteration up to `swtch` (or to `wfi` when nothing was found). -/
def scheduler_dispatch (cfg : Config) (fuel : Nat) (k : Kernel) :
    Option (Option (Nat × Int) × Kernel) :=
  (scheduler_promote cfg fuel k).map (scheduler_scan scan_levels)

/-- The chain of `next_in_queue` links starting at pointer `h` visits exactly
the slots of `l`, in order, and then reaches the null pointer. -/
def chain (ps : Nat → proc) : Option Nat → List Nat → Prop
  | h, [] => h = none
  | h, x :: xs => h = some x ∧ chain ps (ps x).next_in_queue xs

/-- Decision procedure for `chain`. -/
instance chain_decidable (ps : Nat → proc) : (h : Option Nat) → (l : List Nat) →
    Decidable (chain ps h l)
  | h, [] => inferInstanceAs (Decidable (h = none))
  | h, x :: xs =>
    haveI := chain_decidable ps (ps x).next_in_queue xs
    inferInstanceAs (Decidable (h = some x ∧ chain ps (ps x).next_in_queue xs))

/-- The queue of `level` is well formed and holds exactly the list `l`: the
chain from `head` is `l` and `tail` points at the last member (null if none). -/
def queue_is (k : Kernel) (level : Int) (l : List Nat) : Prop :=
  chain k.proc (k.queues level).head l ∧ (k.queues level).tail = l.getLast?

/-- Decision procedure for `queue_is`. -/
instance queue_is_decidable (k : Kernel) (level : Int) (l : List Nat) :
    Decidable (queue_is k level l) :=
  inferInstanceAs (Decidable (_ ∧ _))

/-- The slots met when following `next_in_queue` from `h` for at most `fuel` steps. -/
def walk (ps : Nat → proc) : Nat → Option Nat → List Nat
  | 0, _ => []
  | _ + 1, none => []
  | fuel + 1, some i => i :: walk ps fuel (ps i).next_in_queue

/-- Slot `i` is linked into the queue of `level`: it is met on the chain from
the head within `NPROC` steps. -/
def linked (cfg : Config) (k : Kernel) (i : Nat) (level : Int) : Prop :=
  i ∈ walk k.proc cfg.NPROC (k.queues level).head

/-- Decision procedure for `linked`. -/
instance linked_decidable (cfg : Config) (k : Kernel) (i : Nat) (level : Int) :
    Decidable (linked cfg k i level) :=
  inferInstanceAs (Decidable (_ ∈ _))

/-- The part of a PCB that is not the queue link. -/
def proc_data (p : proc) : proc := { p with next_in_queue := none }

/-- A call on one level's queue: `enqueue_proc(&proc[i], level)` or
`dequeue_proc(level)`. -/
inductive queue_op where
  | enq (i : Nat)
  | deq
deriving DecidableEq, Repr

/-- Run a sequence of queue calls on one level; the pointers returned by the
`dequeue_proc` calls are collected in call order. -/
def run_queue_ops (level : Int) : List queue_op → Kernel → List (Option Nat) × Kernel
  | [], k => ([], k)
  | queue_op.enq i :: ops, k => run_queue_ops level ops (enqueue_proc k (some i) level)
  | queue_op.deq :: ops, k =>
    let r := dequeue_proc k level
    let rest := run_queue_ops level ops r.2
    (r.1 :: rest.1, rest.2)

/-- The FIFO list the specification describes: enqueue appends at the tail,
dequeue returns and removes the head, or returns none on the empty list. -/
def fifo_run : List queue_op → List Nat → List (Option Nat) × List Nat
  | [], l => ([], l)
  | queue_op.enq i :: ops, l => fifo_run ops (l ++ [i])
  | queue_op.deq :: ops, l =>
    let rest := fifo_run ops l.tail
    (l.head? :: rest.1, rest.2)

/-- Every `enqueue_proc` of the sequence is on a PCB that is not in the queue
at that moment. -/
def ops_fresh : List queue_op → List Nat → Prop
  | [], _ => True
  | queue_op.enq i :: ops, l => i ∉ l ∧ ops_fresh ops (l ++ [i])
  | queue_op.deq :: ops, l => ops_fresh ops l.tail

/-- Decision procedure for `ops_fresh`. -/
instance ops_fresh_decidable : (ops : List queue_op) → (l : List Nat) →
    Decidable (ops_fresh ops l)
  | [], _ => inferInstanceAs (Decidable True)
  | queue_op.enq i :: ops, l =>
    haveI := ops_fresh_decidable ops (l ++ [i])
    inferInstanceAs (Decidable (i ∉ l ∧ ops_fresh ops (l ++ [i])))
  | queue_op.deq :: ops, l => ops_fresh_decidable ops l.tail

/-- A small configuration used for concrete runs: four slots, quanta 3, 6, 12. -/
def cfg4 : Config := { NPROC := 4, Q0_TICKS := 3, Q1_TICKS := 6, Q2_TICKS := 12 }

/-- A concrete table: slot 0 runs with pid 1, slot 1 sleeps on channel 7 with
pid 2 at level 1, slot 2 is runnable with pid 3 and is the only member of the
level 0 queue; slot 3 is unused. -/
def demo_sleeper : Kernel :=
  { proc :=
      setAt (setAt (setAt (fun _ => proc_zero)
        0 { proc_zero with state := procstate.RUNNING, pid := 1, remaining_ticks := 2 })
        1 { proc_zero with state := procstate.SLEEPING, pid := 2, chan := some 7,
                           queue_level := 1, original_queue := 1, parent := some 0 })
        2 { proc_zero with state := procstate.RUNNABLE, pid := 3, remaining_ticks := 3,
                           parent := some 0 }
    queues := setAt (fun _ => ⟨none, none⟩) 0 ⟨some 2, some 2⟩
    nextpid := 4
    initproc := some 0
    cpu_proc := some 0
    promote_needed := 0 }

/-- The guard of the loop of `wakeup(chan)` at slot `i`: not the caller,
`SLEEPING`, and sleeping on `chan`. -/
def wakes (k : Kernel) (chan : Option Nat) (i : Nat) : Prop :=
  some i ≠ myproc k ∧ (k.proc i).state = procstate.SLEEPING ∧ (k.proc i).chan = chan

/-- Decision procedure for `wakes`. -/
instance wakes_decidable (k : Kernel) (chan : Option Nat) (i : Nat) :
    Decidable (wakes k chan i) :=
  inferInstanceAs (Decidable (_ ∧ _ ∧ _))

/-- The PCB after the assignments `wakeup` makes to a woken slot. -/
def wake_proc (cfg : Config) (p : proc) : proc :=
  let p1 : proc := { p with state := procstate.RUNNABLE, queue_level := p.original_queue }
  if p1.queue_level = 0 then { p1 with remaining_ticks := cfg.Q0_TICKS }
  else if p1.queue_level = 1 then { p1 with remaining_ticks := cfg.Q1_TICKS }
  else if p1.queue_level = 2 then { p1 with remaining_ticks := cfg.Q2_TICKS }
  else p1

/-- The three priority queues are well formed, the queue of level `L` holds the
list `ql L`, and no slot is in the lists of two levels. -/
def queues_wf (k : Kernel) (ql : Int → List Nat) : Prop :=
  (∀ L ∈ scan_levels, queue_is k L (ql L)) ∧
  (∀ L ∈ scan_levels, ∀ M ∈ scan_levels, L ≠ M → ∀ x ∈ ql L, x ∉ ql M)

/-- Decision procedure for `queues_wf`. -/
instance queues_wf_decidable (k : Kernel) (ql : Int → List Nat) :
    Decidable (queues_wf k ql) :=
  inferInstanceAs (Decidable (_ ∧ _))

/-- The two assignments of a promotion: `queue_level = 0` and
`remaining_ticks = Q0_TICKS`. -/
def promoted (cfg : Config) (p : proc) : proc :=
  { p with queue_level := 0, remaining_ticks := cfg.Q0_TICKS }

/-- The part of a PCB that is neither the queue link nor the level and quantum. -/
def proc_ident (p : proc) : proc :=
  { p with next_in_queue := none, queue_level := 0, remaining_ticks := 0 }

/-- A concrete table with members on all three levels: slot 0 runs at level 2;
level 0 holds slot 3; level 1 holds slot 1 (`RUNNABLE`) and then slot 4
(`USED`); level 2 holds slot 2 (`RUNNABLE`). -/
def demo_levels : Kernel :=
  { proc :=
      setAt (setAt (setAt (setAt (setAt (fun _ => proc_zero)
        0 { proc_zero with state := procstate.RUNNING, pid := 1, queue_level := 2,
                           remaining_ticks := 5 })
        1 { proc_zero with state := procstate.RUNNABLE, pid := 2, queue_level := 1,
                           remaining_ticks := 6, next_in_queue := some 4 })
        2 { proc_zero with state := procstate.RUNNABLE, pid := 3, queue_level := 2,
                           remaining_ticks := 12 })
        3 { proc_zero with state := procstate.RUNNABLE, pid := 4, remaining_ticks := 3 })
        4 { proc_zero with state := procstate.USED, pid := 5, queue_level := 1,
                           remaining_ticks := 6 }
    queues := setAt (setAt (setAt (fun _ => ⟨none, none⟩) 0 ⟨some 3, some 3⟩)
      1 ⟨some 1, some 4⟩) 2 ⟨some 2, some 2⟩
    nextpid := 6
    initproc := some 0
    cpu_proc := some 0
    promote_needed := 1 }

/-- The lists held by the queues of `demo_levels`. -/
def demo_levels_lists (L : Int) : List Nat :=
  if L = 0 then [3] else if L = 1 then [1, 4] else if L = 2 then [2] else []

/-- Configuration with six slots and the quanta 3, 6, 12. -/
def cfg6 : Config := { NPROC := 6, Q0_TICKS := 3, Q1_TICKS := 6, Q2_TICKS := 12 }

/-- A concrete table for the level scan: level 0 holds slot 0, which is `USED`
(claimed by `allocproc`, not yet made `RUNNABLE`), and then the `RUNNABLE` slot
1; level 1 holds the `RUNNABLE` slot 2; no process is running. -/
def demo_skip : Kernel :=
  { proc :=
      setAt (setAt (setAt (fun _ => proc_zero)
        0 { proc_zero with state := procstate.USED, pid := 3, remaining_ticks := 3,
                           next_in_queue := some 1 })
        1 { proc_zero with state := procstate.RUNNABLE, pid := 1, remaining_ticks := 3 })
        2 { proc_zero with state := procstate.RUNNABLE, pid := 2, queue_level := 1,
                           remaining_ticks := 6 }
    queues := setAt (setAt (fun _ => ⟨none, none⟩) 0 ⟨some 0, some 1⟩) 1 ⟨some 2, some 2⟩
    nextpid := 4
    initproc := some 1
    cpu_proc := none
    promote_needed := 0 }

/-- The operations of `proc.c` as events of one core.  Results of collaborators
(`kalloc`, `proc_pagetable`, `uvmcopy`, `copyout`) are carried by the event. -/
inductive Op where
  | allocproc (kalloc_res pagetable_res : Option Nat)
  | userinit (kalloc_res pagetable_res : Option Nat)
  | kfork (kalloc_res pagetable_res : Option Nat) (uvmcopy_ok : Bool)
  | dispatch
  | yield
  | sleep (chan : Option Nat)
  | sleep_tidy
  | wakeup (chan : Option Nat)
  | kkill (pid : Int)
  | kexit (status : Int)
  | kwait (addr : Nat) (copyout_ok : Bool)
  | promote_processes
deriving DecidableEq, Repr

/-- The globals after one event, `none` when the event cannot run to its end
(no current process, a panic, fuel exhausted).  `dispatch` is one scheduler
iteration up to `swtch`; it runs only while the core has no current process.
`yield`, `sleep`, `kexit` and a blocking `kwait` end when the scheduler has
taken over again. -/
def apply_op (cfg : Config) (fuel : Nat) : Op → Kernel → Option Kernel
  | Op.allocproc tf pt, k => some (allocproc cfg tf pt k).2
  | Op.userinit tf pt, k => userinit cfg tf pt k
  | Op.kfork tf pt ok, k => (kfork cfg tf pt ok k).map Prod.snd
  | Op.dispatch, k =>
    if k.cpu_proc = none then (scheduler_dispatch cfg fuel k).map Prod.snd else none
  | Op.yield, k => yield k
  | Op.sleep chan, k => sleep fuel k chan
  | Op.sleep_tidy, k => sleep_tidy k
  | Op.wakeup chan, k => some (wakeup cfg k chan)
  | Op.kkill pid, k => some (kkill cfg k pid).2
  | Op.kexit status, k => kexit cfg k status
  | Op.kwait addr ok, k => (kwait cfg fuel k addr ok).map Prod.snd
  | Op.promote_processes, k => promote_processes cfg fuel k

/-- Run a sequence of events, each with its own fuel. -/
def run_ops (cfg : Config) : List (Nat × Op) → Kernel → Option Kernel
  | [], k => some k
  | (fuel, op) :: rest, k => (apply_op cfg fuel op k).bind (run_ops cfg rest)

/-- The event follows the intended paths: the collaborators' allocations and
copies succeed, and `kkill` does not hit a `SLEEPING` PCB. -/
def op_intended (cfg : Config) : Op → Kernel → Prop
  | Op.allocproc tf pt, _ => tf ≠ none ∧ pt ≠ none
  | Op.userinit tf pt, _ => tf ≠ none ∧ pt ≠ none
  | Op.kfork tf pt ok, _ => tf ≠ none ∧ pt ≠ none ∧ ok = true
  | Op.kkill pid, k =>
    ∀ p ∈ (List.range cfg.NPROC).find? (fun i => decide ((k.proc i).pid = pid)),
      (k.proc p).state ≠ procstate.SLEEPING
  | Op.dispatch, _ => True
  | Op.yield, _ => True
  | Op.sleep _, _ => True
  | Op.sleep_tidy, _ => True
  | Op.wakeup _, _ => True
  | Op.kexit _, _ => True
  | Op.kwait _ _, _ => True
  | Op.promote_processes, _ => True

/-- Decision procedure for `op_intended`. -/
instance op_intended_decidable (cfg : Config) :
    (op : Op) → (k : Kernel) → Decidable (op_intended cfg op k)
  | Op.allocproc tf pt, _ => inferInstanceAs (Decidable (tf ≠ none ∧ pt ≠ none))
  | Op.userinit tf pt, _ => inferInstanceAs (Decidable (tf ≠ none ∧ pt ≠ none))
  | Op.kfork tf pt ok, _ => inferInstanceAs (Decidable (tf ≠ none ∧ pt ≠ none ∧ ok = true))
  | Op.kkill pid, k =>
    inferInstanceAs (Decidable
      (∀ p ∈ (List.range cfg.NPROC).find? (fun i => decide ((k.proc i).pid = pid)),
        (k.proc p).state ≠ procstate.SLEEPING))
  | Op.dispatch, _ => inferInstanceAs (Decidable True)
  | Op.yield, _ => inferInstanceAs (Decidable True)
  | Op.sleep _, _ => inferInstanceAs (Decidable True)
  | Op.sleep_tidy, _ => inferInstanceAs (Decidable True)
  | Op.wakeup _, _ => inferInstanceAs (Decidable True)
  | Op.kexit _, _ => inferInstanceAs (Decidable True)
  | Op.kwait _ _, _ => inferInstanceAs (Decidable True)
  | Op.promote_processes, _ => inferInstanceAs (Decidable True)

/-- Run a sequence of events along the intended paths only: `none` as soon as
an event leaves them or cannot run to its end. -/
def run_intended (cfg : Config) : List (Nat × Op) → Kernel → Option Kernel
  | [], k => some k
  | (fuel, op) :: rest, k =>
    if op_intended cfg op k then (apply_op cfg fuel op k).bind (run_intended cfg rest)
    else none

/-- A run of the boot scenario: `userinit`, a dispatch of the first process,
two `kfork` calls, `yield`, a dispatch of the first child, its `sleep` on
channel 7, a dispatch of the second child and its `wakeup` of channel 7. -/
def demo_run : List (Nat × Op) :=
  [(1, Op.userinit (some 1) (some 2)), (1, Op.dispatch),
   (1, Op.kfork (some 3) (some 4) true), (1, Op.kfork (some 5) (some 6) true),
   (1, Op.yield), (1, Op.dispatch), (4, Op.sleep (some 7)), (1, Op.dispatch),
   (1, Op.wakeup (some 7))]

/-- The invariant of the scheduler data on the intended paths: the queues are
well formed with contents `ql`; every queue member is a slot of the table in
state `USED` or `RUNNABLE`; every `RUNNABLE` slot is a queue member; levels are
in range; the current process of the core is a `RUNNING` slot. -/
def sched_inv (cfg : Config) (k : Kernel) (ql : Int → List Nat) : Prop :=
  queues_wf k ql ∧
  (∀ L ∈ scan_levels, ∀ x ∈ ql L, x < cfg.NPROC ∧
    ((k.proc x).state = procstate.USED ∨ (k.proc x).state = procstate.RUNNABLE)) ∧
  (∀ x, x < cfg.NPROC → (k.proc x).state = procstate.RUNNABLE →
    ∃ L ∈ scan_levels, x ∈ ql L) ∧
  (∀ x, x < cfg.NPROC →
    (k.proc x).queue_level ∈ scan_levels ∧ (k.proc x).original_queue ∈ scan_levels) ∧
  (∀ c, k.cpu_proc = some c → c < cfg.NPROC ∧ (k.proc c).state = procstate.RUNNING)

/-- The `ZOMBIE` children of slot `p`, in table order. -/
def zombie_children (cfg : Config) (k : Kernel) (p : Nat) : List Nat :=
  (List.range cfg.NPROC).filter
    (fun i => decide ((k.proc i).parent = some p ∧ (k.proc i).state = procstate.ZOMBIE))

/-- The word at `&pp->xstate` that the scan of `kwait` hands to `copyout`: the
exit status of the PCB at which the scan stops, read before `freeproc`. -/
def kwait_copyout_src (p : Nat) : List Nat → Kernel → Option Int
  | [], _ => none
  | i :: rest, k =>
    if (k.proc i).parent = some p then
      if (k.proc i).state = procstate.ZOMBIE then some (k.proc i).xstate
      else kwait_copyout_src p rest k
    else kwait_copyout_src p rest k

/-- Successive `kwait(addr)` calls of the current process, each with the same
outcome of `copyout`: the results in call order and the final globals. -/
def kwait_calls (cfg : Config) (fuel : Nat) (addr : Nat) (copyout_ok : Bool) :
    Nat → Kernel → Option (List wait_result × Kernel)
  | 0, k => some ([], k)
  | n + 1, k =>
    match kwait cfg fuel k addr copyout_ok with
    | none => none
    | some (r, k1) =>
      (kwait_calls cfg fuel addr copyout_ok n k1).map (fun x => (r :: x.1, x.2))

/-- A concrete table for `kwait`: slot 0 runs with pid 1 and is the parent of
the other three; slot 1 is a `ZOMBIE` with pid 2 and exit status 5; slot 2 is
`RUNNABLE` with pid 3 in the level 0 queue; slot 3 is a `ZOMBIE` with pid 4 and
exit status 9. -/
def demo_zombies : Kernel :=
  { proc :=
      setAt (setAt (setAt (setAt (fun _ => proc_zero)
        0 { proc_zero with state := procstate.RUNNING, pid := 1, remaining_ticks := 2 })
        1 { proc_zero with state := procstate.ZOMBIE, pid := 2, xstate := 5,
                           parent := some 0 })
        2 { proc_zero with state := procstate.RUNNABLE, pid := 3, remaining_ticks := 3,
                           parent := some 0 })
        3 { proc_zero with state := procstate.ZOMBIE, pid := 4, xstate := 9,
                           killed := 1, parent := some 0 }
    queues := setAt (fun _ => ⟨none, none⟩) 0 ⟨some 2, some 2⟩
    nextpid := 5
    initproc := none
    cpu_proc := some 0
    promote_needed := 0 }

/-- The table `demo_sleeper` with the killed flag of the running slot 0 set. -/
def demo_killed : Kernel :=
  { demo_sleeper with
    proc := setAt demo_sleeper.proc 0 { demo_sleeper.proc 0 with killed := 1 } }

/-- An `acquire` or a `release` of the spinlock `p->lock` of one PCB.  The
other spinlocks of the file (`wait_lock`, `pid_lock`, `promote_lock` and the
queue locks) are not PCB locks and make no event. -/
inductive lock_event where
  | acquire (i : Nat)
  | release (i : Nat)
deriving DecidableEq, Repr

/-- The PCB locks the core holds after a sequence of events, starting with the
locks of `held`. -/
def locks_after (held : List Nat) : List lock_event → List Nat
  | [] => held
  | lock_event.acquire i :: evs => locks_after (i :: held) evs
  | lock_event.release i :: evs => locks_after (held.erase i) evs

/-- At some point of the sequence the core holds the locks of two different
PCBs. -/
def holds_two (held : List Nat) (evs : List lock_event) : Prop :=
  ∃ n a b, a ≠ b ∧ a ∈ locks_after held (evs.take n) ∧ b ∈ locks_after held (evs.take n)

/-- The assignments of `allocproc` at the label `found:` for slot `i`, up to
and including `enqueue_proc(p, 0)`. -/
def allocproc_found (cfg : Config) (k : Kernel) (i : Nat) : Kernel :=
  let (pid, k1) := allocpid k
  let k2 : Kernel :=
    { k1 with proc := (setAt k1.proc i
        { k1.proc i with
          pid := pid, state := procstate.USED, queue_level := 0,
          remaining_ticks := cfg.Q0_TICKS, original_queue := 0 }) }
  enqueue_proc k2 (some i) 0

/-- The calls on PCB locks made by the scan loop of `allocproc` over the given
slots: each slot is locked, a slot that is not `UNUSED` is unlocked again, and
the loop is left at the first `UNUSED` slot with its lock held. -/
def allocproc_scan_locks : List Nat → Kernel → List lock_event
  | [], _ => []
  | i :: rest, k =>
    if (k.proc i).state = procstate.UNUSED then [lock_event.acquire i]
    else lock_event.acquire i :: lock_event.release i :: allocproc_scan_locks rest k

/-- The calls on PCB locks made by `allocproc()`: those of the scan and, on
the two failure paths, the `release(&p->lock)` that follows `freeproc(p)`. -/
def allocproc_locks (cfg : Config) (kalloc_res pagetable_res : Option Nat) (k : Kernel) :
    List lock_event :=
  allocproc_scan_locks (List.range cfg.NPROC) k ++
    match (List.range cfg.NPROC).find? (fun i => (k.proc i).state = procstate.UNUSED) with
    | none => []
    | some i =>
      match kalloc_res with
      | none => [lock_event.release i]
      | some _ =>
        match pagetable_res with
        | none => [lock_event.release i]
        | some _ => []

/-- The boot image with the pid counter at the largest `int`. -/
def demo_lastpid : Kernel := { boot_image with nextpid := 2147483647 }

/-- The assignment sites of `proc.c` on one PCB, as a relation between the PCB
before and after: a store of the queue link (`enqueue_proc`, `dequeue_proc`,
`remove_from_queue`, `promote_processes`); the assignments at `found:` in
`allocproc`, made to an `UNUSED` slot; the stores of the trapframe and page
table pointers; `freeproc`; the stores of `sz`, `parent` and
`state = RUNNABLE` in `userinit`, `kfork`, `reparent` and `yield`; a promotion
(`queue_level = 0` with the level 0 quantum); the assignments of `wakeup` to a
`SLEEPING` PCB; those of `sleep` before and after `sched()`; those of `kkill`;
those of `kexit`; and the scheduler's `state = RUNNING` on a `RUNNABLE` PCB. -/
inductive pcb_update (cfg : Config) : proc → proc → Prop where
  | link (p : proc) (v : Option Nat) : pcb_update cfg p { p with next_in_queue := v }
  | claim (p : proc) (pid : Int) : p.state = procstate.UNUSED →
      pcb_update cfg p
        { p with
          pid := pid, state := procstate.USED, queue_level := 0,
          remaining_ticks := cfg.Q0_TICKS, original_queue := 0 }
  | trapframe (p : proc) (v : Option Nat) : pcb_update cfg p { p with trapframe := v }
  | pagetable (p : proc) (v : Option Nat) : pcb_update cfg p { p with pagetable := v }
  | free (p : proc) :
      pcb_update cfg p
        { p with
          trapframe := none, pagetable := none, sz := 0, pid := 0, parent := none,
          chan := none, killed := 0, xstate := 0, state := procstate.UNUSED }
  | size (p : proc) (v : Nat) : pcb_update cfg p { p with sz := v }
  | parent (p : proc) (v : Option Nat) : pcb_update cfg p { p with parent := v }
  | runnable (p : proc) : pcb_update cfg p { p with state := procstate.RUNNABLE }
  | promote (p : proc) : pcb_update cfg p (promoted cfg p)
  | wake (p : proc) : p.state = procstate.SLEEPING → pcb_update cfg p (wake_proc cfg p)
  | sleep (p : proc) (chan : Option Nat) :
      pcb_update cfg p
        { p with chan := chan, state := procstate.SLEEPING, original_queue := p.queue_level }
  | tidy (p : proc) : pcb_update cfg p { p with chan := none }
  | kill (p : proc) :
      pcb_update cfg p
        (if p.state = procstate.SLEEPING then
          { p with killed := 1, state := procstate.RUNNABLE }
         else { p with killed := 1 })
  | exit (p : proc) (status : Int) :
      pcb_update cfg p { p with xstate := status, state := procstate.ZOMBIE }
  | dispatch (p : proc) : p.state = procstate.RUNNABLE →
      pcb_update cfg p { p with state := procstate.RUNNING }

/-- Every PCB of `k'` comes from the PCB in the same slot of `k` by a sequence
of assignment sites. -/
def procs_reach (cfg : Config) (k k' : Kernel) : Prop :=
  ∀ j, Relation.ReflTransGen (pcb_update cfg) (k.proc j) (k'.proc j)

/-- A run that takes failure paths: `userinit`, a dispatch of the first
process, a `kfork` whose `kalloc` fails, a `kfork` that succeeds, `kkill(0)`,
a `sleep` on channel 7, a dispatch of the child, `kkill(1)` on the sleeper and
a `wakeup` of channel 7. -/
def demo_run_failures : List (Nat × Op) :=
  [(1, Op.userinit (some 1) (some 2)), (1, Op.dispatch),
   (1, Op.kfork none (some 4) true), (1, Op.kfork (some 3) (some 4) true),
   (1, Op.kkill 0), (4, Op.sleep (some 7)), (1, Op.dispatch), (1, Op.kkill 1),
   (1, Op.wakeup (some 7))]

/-- The table of four slots after `userinit` and the dispatch of the first
process: slot 0 runs with pid 1, the slots 1, 2, 3 are `UNUSED`. -/
def demo_first_running : Kernel :=
  (run_ops cfg4 [(1, Op.userinit (some 1) (some 2)), (1, Op.dispatch)]
    (procinit cfg4 boot_image)).getD boot_image

/-- Specification: the edges of the state graph, `UNUSED → USED`,
`USED → RUNNABLE`, `RUNNABLE → RUNNING`, `RUNNING → RUNNABLE`,
`RUNNING → SLEEPING`, `SLEEPING → RUNNABLE`, `RUNNING → ZOMBIE` and
`ZOMBIE → UNUSED`. -/
def spec_state_edge (a b : procstate) : Prop :=
  (a, b) ∈ [(procstate.UNUSED, procstate.USED), (procstate.USED, procstate.RUNNABLE),
    (procstate.RUNNABLE, procstate.RUNNING), (procstate.RUNNING, procstate.RUNNABLE),
    (procstate.RUNNING, procstate.SLEEPING), (procstate.SLEEPING, procstate.RUNNABLE),
    (procstate.RUNNING, procstate.ZOMBIE), (procstate.ZOMBIE, procstate.UNUSED)]

/-- Decision procedure for `spec_state_edge`. -/
instance spec_state_edge_decidable (a b : procstate) : Decidable (spec_state_edge a b) :=
  inferInstanceAs (Decidable (_ ∈ _))

/-- The edges the code follows: those of the specification's graph and
`USED → UNUSED`, taken when `freeproc` rolls back a failed creation. -/
def code_state_edge (a b : procstate) : Prop :=
  spec_state_edge a b ∨ (a = procstate.USED ∧ b = procstate.UNUSED)

/-- Decision procedure for `code_state_edge`. -/
instance code_state_edge_decidable (a b : procstate) : Decidable (code_state_edge a b) :=
  inferInstanceAs (Decidable (_ ∨ _))

/-- From `k` to `k'` every PCB keeps its state or moves along one edge of `E`. -/
def states_follow (E : procstate → procstate → Prop) (k k' : Kernel) : Prop :=
  ∀ j, (k'.proc j).state = (k.proc j).state ∨ E (k.proc j).state (k'.proc j).state

/-- Every `SLEEPING` slot of the table is in no queue and has its
`original_queue` among the levels: what `sleep` leaves behind, and what
`wakeup` relies on when it enqueues. -/
def sleepers_unlinked (cfg : Config) (k : Kernel) (ql : Int → List Nat) : Prop :=
  ∀ i, i < cfg.NPROC → (k.proc i).state = procstate.SLEEPING →
    (k.proc i).original_queue ∈ scan_levels ∧ ∀ M ∈ scan_levels, i ∉ ql M

/-- Decision procedure for `sleepers_unlinked`. -/
instance sleepers_unlinked_decidable (cfg : Config) (k : Kernel) (ql : Int → List Nat) :
    Decidable (sleepers_unlinked cfg k ql) :=
  inferInstanceAs (Decidable (∀ i, i < cfg.NPROC → _))

/-- A concrete table for `kexit`: slot 0 is the root process, `SLEEPING` in
`kwait` on its own PCB; slot 1 runs with pid 2 and is the caller; its children
are slot 2, `RUNNABLE` in the level 0 queue, and slot 3, `SLEEPING` on channel
9 with `original_queue = 1`. -/
def demo_exit : Kernel :=
  { proc :=
      setAt (setAt (setAt (setAt (fun _ => proc_zero)
        0 { proc_zero with state := procstate.SLEEPING, pid := 1, chan := some 0 })
        1 { proc_zero with state := procstate.RUNNING, pid := 2, remaining_ticks := 2,
                           parent := some 0 })
        2 { proc_zero with state := procstate.RUNNABLE, pid := 3, remaining_ticks := 3,
                           parent := some 1 })
        3 { proc_zero with state := procstate.SLEEPING, pid := 4, chan := some 9,
                           queue_level := 1, original_queue := 1, parent := some 1 }
    queues := setAt (fun _ => ⟨none, none⟩) 0 ⟨some 2, some 2⟩
    nextpid := 5
    initproc := some 0
    cpu_proc := some 1
    promote_needed := 0 }

/-- The calls on PCB locks made by the level loop of one scheduler iteration
up to `swtch`, or to the end of the loop when nothing is dispatched: each
dequeued PCB is locked with `acquire(&p->lock)`; the only `release(&p->lock)`
of the loop stands inside the `if (p->state == RUNNABLE)` block, after `swtch`
has returned, so a dequeued PCB that is not `RUNNABLE` makes no release event. -/
def scheduler_scan_locks : List Int → Kernel → List lock_event
  | [], _ => []
  | level :: rest, k =>
    match dequeue_proc k level with
    | (none, k1) => scheduler_scan_locks rest k1
    | (some p, k1) =>
      if (k1.proc p).state = procstate.RUNNABLE then [lock_event.acquire p]
      else lock_event.acquire p :: scheduler_scan_locks rest k1

/-- The table of four slots after `userinit`, the dispatch of the first
process, a `kfork` whose `kalloc` fails and a `yield`: the level 0 queue holds
slot 1, which is `UNUSED`, and then the `RUNNABLE` slot 0; no process runs and
no PCB lock is held. -/
def demo_failed_fork : Kernel :=
  (run_ops cfg4
    [(1, Op.userinit (some 1) (some 2)), (1, Op.dispatch), (1, Op.kfork none (some 4) true),
     (1, Op.yield)] (procinit cfg4 boot_image)).getD boot_image

/-- The table `demo_levels` at the moment its running slot 0, whose
`queue_level` is 2, has set itself `RUNNABLE` in `yield` and enters `sched()`. -/
def demo_yielded : Kernel := (yield_body demo_levels).getD boot_image

/-- The table `demo_levels` after a promotion sweep that ran while slot 0 was
running (its `queue_level` went from 2 to 0), at the moment slot 0 has set
itself `RUNNABLE` in `yield` and enters `sched()`. -/
def demo_promoted_yielded : Kernel :=
  (yield_body ((promote_processes cfg6 4 demo_levels).getD boot_image)).getD boot_image

/-- The table `demo_sleeper` at the moment its running slot 0 has gone to
sleep on channel 9 and enters `sched()`. -/
def demo_asleep : Kernel := (sleep_body 5 demo_sleeper (some 9)).getD boot_image

/-- The calls on PCB locks made by the code of the level loop in one whole
scheduler iteration: `acquire(&p->lock)` after every successful
`dequeue_proc`; for a `RUNNABLE` PCB the `release(&p->lock)` at the end of the
`if (p->state == RUNNABLE)` block, reached when `swtch` has returned with the
lock of `p` held, after which `found = 1` ends the loop; no release for a
dequeued PCB in any other state. -/
def scheduler_iteration_locks : List Int → Kernel → List lock_event
  | [], _ => []
  | level :: rest, k =>
    match dequeue_proc k level with
    | (none, k1) => scheduler_iteration_locks rest k1
    | (some p, k1) =>
      if (k1.proc p).state = procstate.RUNNABLE then
        [lock_event.acquire p, lock_event.release p]
      else lock_event.acquire p :: scheduler_iteration_locks rest k1

/-- Specification: the structural invariant of the priority queue of one
level.  Head is null if and only if tail is null; the chain from head through
`next_in_queue` is finite (it is a list `l` that ends at the null pointer) and
acyclic (`l` has no duplicates); its last element is tail; and the link of tail
is null. -/
def queue_structure (k : Kernel) (level : Int) : Prop :=
  ((k.queues level).head = none ↔ (k.queues level).tail = none) ∧
  ∃ l : List Nat, chain k.proc (k.queues level).head l ∧ l.Nodup ∧
    l.getLast? = (k.queues level).tail ∧
    ∀ t, (k.queues level).tail = some t → (k.proc t).next_in_queue = none

/-- A call of one of the four queue operations: `enqueue_proc(&proc[i], level)`,
`dequeue_proc(level)`, `remove_from_queue(&proc[i], level)` or
`promote_processes()`. -/
inductive queue_call where
  | enqueue (i : Nat) (level : Int)
  | dequeue (level : Int)
  | remove (i : Nat) (level : Int)
  | promote
deriving DecidableEq, Repr

/-- The globals after one queue call; `none` when a loop runs out of fuel. -/
def apply_queue_call (cfg : Config) (fuel : Nat) : queue_call → Kernel → Option Kernel
  | queue_call.enqueue i level, k => some (enqueue_proc k (some i) level)
  | queue_call.dequeue level, k => some (dequeue_proc k level).2
  | queue_call.remove i level, k => remove_from_queue fuel k (some i) level
  | queue_call.promote, k => promote_processes cfg fuel k

/-- The conditions under which the queue calls are made: the level is one of the
array; `enqueue_proc` is given a slot of the table that is linked into no
queue; `remove_from_queue` is given a PCB that is not linked into the queue of
a different level. -/
def queue_call_ok (cfg : Config) : queue_call → Kernel → Prop
  | queue_call.enqueue i level, k =>
    i < cfg.NPROC ∧ level ∈ scan_levels ∧ ∀ M ∈ scan_levels, ¬ linked cfg k i M
  | queue_call.dequeue level, _ => level ∈ scan_levels
  | queue_call.remove i level, k =>
    level ∈ scan_levels ∧ ∀ M ∈ scan_levels, M ≠ level → ¬ linked cfg k i M
  | queue_call.promote, _ => True

/-- Decision procedure for `queue_call_ok`. -/
instance queue_call_ok_decidable (cfg : Config) :
    (c : queue_call) → (k : Kernel) → Decidable (queue_call_ok cfg c k)
  | queue_call.enqueue i level, k =>
    inferInstanceAs (Decidable
      (i < cfg.NPROC ∧ level ∈ scan_levels ∧ ∀ M ∈ scan_levels, ¬ linked cfg k i M))
  | queue_call.dequeue level, _ => inferInstanceAs (Decidable (level ∈ scan_levels))
  | queue_call.remove i level, k =>
    inferInstanceAs (Decidable
      (level ∈ scan_levels ∧ ∀ M ∈ scan_levels, M ≠ level → ¬ linked cfg k i M))
  | queue_call.promote, _ => inferInstanceAs (Decidable True)

/-- Run a sequence of queue calls. -/
def run_queue_calls (cfg : Config) (fuel : Nat) : List queue_call → Kernel → Option Kernel
  | [], k => some k
  | c :: rest, k => (apply_queue_call cfg fuel c k).bind (run_queue_calls cfg fuel rest)

/-- Every call of the sequence is made under its condition, in the state in
which it is made. -/
def calls_ok (cfg : Config) (fuel : Nat) : List queue_call → Kernel → Prop
  | [], _ => True
  | c :: rest, k =>
    queue_call_ok cfg c k ∧
      match apply_queue_call cfg fuel c k with
      | none => True
      | some k1 => calls_ok cfg fuel rest k1

/-- Decision procedure for `calls_ok`. -/
instance calls_ok_decidable (cfg : Config) (fuel : Nat) :
    (calls : List queue_call) → (k : Kernel) → Decidable (calls_ok cfg fuel calls k)
  | [], _ => inferInstanceAs (Decidable True)
  | c :: rest, k =>
    haveI : Decidable (match apply_queue_call cfg fuel c k with
        | none => True
        | some k1 => calls_ok cfg fuel rest k1) :=
      match apply_queue_call cfg fuel c k with
      | none => inferInstanceAs (Decidable True)
      | some k1 => calls_ok_decidable cfg fuel rest k1
    inferInstanceAs (Decidable (queue_call_ok cfg c k ∧ _))

/-- A sequence of queue calls on a table of four slots: three enqueues on two
levels, a dequeue, a removal from the middle of a level, a promotion sweep and
two more enqueues. -/
def demo_calls : List queue_call :=
  [queue_call.enqueue 0 1, queue_call.enqueue 2 1, queue_call.enqueue 1 1,
   queue_call.enqueue 3 0, queue_call.dequeue 0, queue_call.remove 2 1,
   queue_call.promote, queue_call.enqueue 3 2, queue_call.enqueue 2 2,
   queue_call.remove 3 2]

/-- The table of four slots after `userinit`, the dispatch of the first
process and a `kfork` whose `kalloc` fails: slot 0 runs, the slots 1, 2, 3 are
`UNUSED`, and the level 0 queue holds slot 1, which the failed `kfork` claimed,
enqueued and released. -/
def demo_fork_failed : Kernel :=
  (run_ops cfg4
    [(1, Op.userinit (some 1) (some 2)), (1, Op.dispatch), (1, Op.kfork none (some 4) true)]
    (procinit cfg4 boot_image)).getD boot_image

/-- The table `demo_fork_failed` after `n` more `kfork` calls of the running
slot 0, all collaborators succeeding. -/
def demo_forks (n : Nat) : Kernel :=
  (run_ops cfg4 (List.replicate n (1, Op.kfork (some 5) (some 6) true))
    demo_fork_failed).getD boot_image

/-- The pid `allocproc()` takes from `allocpid()` in state `k`: the value of
`nextpid`, when the scan finds an `UNUSED` slot; none when the table is full
and `allocpid()` is not called. -/
def allocproc_pid (cfg : Config) (k : Kernel) : Option Int :=
  ((List.range cfg.NPROC).find? (fun i => (k.proc i).state = procstate.UNUSED)).map
    (fun _ => k.nextpid)

/-- The pid one event takes from `allocpid()`, if any: only `allocproc`, and
`userinit` and `kfork` through it, call `allocpid()`. -/
def op_allocpid (cfg : Config) : Op → Kernel → Option Int
  | Op.allocproc _ _, k => allocproc_pid cfg k
  | Op.userinit _ _, k => allocproc_pid cfg k
  | Op.kfork _ _ _, k => allocproc_pid cfg k
  | _, _ => none

/-- The pids assigned by `allocpid()` along a run, in the order of assignment. -/
def assigned_pids (cfg : Config) : List (Nat × Op) → Kernel → List Int
  | [], _ => []
  | (fuel, op) :: rest, k =>
    match apply_op cfg fuel op k with
    | none => []
    | some k1 => (op_allocpid cfg op k).toList ++ assigned_pids cfg rest k1

/-- From `k` to `k'` the pid counter is incremented if `n` is a pid taken from
`allocpid()` and is unchanged if not, and every PCB keeps its pid, or has pid 0
(`freeproc`), or has the pid `n`. -/
def pids_step (n : Option Int) (k k' : Kernel) : Prop :=
  k'.nextpid = (match n with
    | some _ => wrap32 (k.nextpid + 1)
    | none => k.nextpid) ∧
  ∀ j, (k'.proc j).pid = (k.proc j).pid ∨ (k'.proc j).pid = 0 ∨ n = some (k'.proc j).pid

/-! # Theorems -/

/-! ## Arrays and links -/

@[simp] theorem setAt_same {ι α : Type} [DecidableEq ι] (f : ι → α) (i : ι) (v : α) :
    setAt f i v i = v := by
  simp [setAt]

theorem setAt_ne {ι α : Type} [DecidableEq ι] (f : ι → α) {i j : ι} (v : α) (h : j ≠ i) :
    setAt f i v j = f j := by
  simp [setAt, h]

theorem setAt_apply {ι α : Type} [DecidableEq ι] (f : ι → α) (i j : ι) (v : α) :
    setAt f i v j = if j = i then v else f j := rfl

theorem setNext_apply (ps : Nat → proc) (i j : Nat) (v : Option Nat) :
    setNext ps i v j = if j = i then { ps i with next_in_queue := v } else ps j := rfl

@[simp] theorem setNext_next_same (ps : Nat → proc) (i : Nat) (v : Option Nat) :
    (setNext ps i v i).next_in_queue = v := by
  simp [setNext]

theorem setNext_ne (ps : Nat → proc) {i j : Nat} (v : Option Nat) (h : j ≠ i) :
    setNext ps i v j = ps j := by
  simp [setNext, setAt, h]

@[simp] theorem setNext_state (ps : Nat → proc) (i j : Nat) (v : Option Nat) :
    (setNext ps i v j).state = (ps j).state := by
  by_cases h : j = i
  · subst h; simp [setNext]
  · rw [setNext_ne ps v h]

@[simp] theorem setNext_queue_level (ps : Nat → proc) (i j : Nat) (v : Option Nat) :
    (setNext ps i v j).queue_level = (ps j).queue_level := by
  by_cases h : j = i
  · subst h; simp [setNext]
  · rw [setNext_ne ps v h]

@[simp] theorem setNext_original_queue (ps : Nat → proc) (i j : Nat) (v : Option Nat) :
    (setNext ps i v j).original_queue = (ps j).original_queue := by
  by_cases h : j = i
  · subst h; simp [setNext]
  · rw [setNext_ne ps v h]

@[simp] theorem setNext_remaining_ticks (ps : Nat → proc) (i j : Nat) (v : Option Nat) :
    (setNext ps i v j).remaining_ticks = (ps j).remaining_ticks := by
  by_cases h : j = i
  · subst h; simp [setNext]
  · rw [setNext_ne ps v h]

@[simp] theorem setNext_chan (ps : Nat → proc) (i j : Nat) (v : Option Nat) :
    (setNext ps i v j).chan = (ps j).chan := by
  by_cases h : j = i
  · subst h; simp [setNext]
  · rw [setNext_ne ps v h]

@[simp] theorem setNext_killed (ps : Nat → proc) (i j : Nat) (v : Option Nat) :
    (setNext ps i v j).killed = (ps j).killed := by
  by_cases h : j = i
  · subst h; simp [setNext]
  · rw [setNext_ne ps v h]

@[simp] theorem setNext_pid (ps : Nat → proc) (i j : Nat) (v : Option Nat) :
    (setNext ps i v j).pid = (ps j).pid := by
  by_cases h : j = i
  · subst h; simp [setNext]
  · rw [setNext_ne ps v h]

@[simp] theorem setNext_parent (ps : Nat → proc) (i j : Nat) (v : Option Nat) :
    (setNext ps i v j).parent = (ps j).parent := by
  by_cases h : j = i
  · subst h; simp [setNext]
  · rw [setNext_ne ps v h]

@[simp] theorem setNext_xstate (ps : Nat → proc) (i j : Nat) (v : Option Nat) :
    (setNext ps i v j).xstate = (ps j).xstate := by
  by_cases h : j = i
  · subst h; simp [setNext]
  · rw [setNext_ne ps v h]

/-! ## Chains -/

theorem chain_nil (ps : Nat → proc) (h : Option Nat) : chain ps h [] ↔ h = none := Iff.rfl

theorem chain_cons (ps : Nat → proc) (h : Option Nat) (x : Nat) (xs : List Nat) :
    chain ps h (x :: xs) ↔ h = some x ∧ chain ps (ps x).next_in_queue xs := Iff.rfl

/-- The chain from a pointer determines the list. -/
theorem chain_unique (ps : Nat → proc) :
    ∀ (l1 l2 : List Nat) (h : Option Nat), chain ps h l1 → chain ps h l2 → l1 = l2
  | [], [], _, _, _ => rfl
  | [], _ :: _, h, h1, h2 => by
    rw [chain_nil] at h1; rw [chain_cons] at h2
    rw [h1] at h2; exact absurd h2.1 (by simp)
  | _ :: _, [], h, h1, h2 => by
    rw [chain_nil] at h2; rw [chain_cons] at h1
    rw [h2] at h1; exact absurd h1.1 (by simp)
  | x :: xs, y :: ys, h, h1, h2 => by
    rw [chain_cons] at h1 h2
    have hxy : x = y := by
      have := h1.1.symm.trans h2.1
      simpa using this
    subst hxy
    rw [chain_unique ps xs ys _ h1.2 h2.2]

/-- Links that agree on the members give the same chain. -/
theorem chain_congr (ps ps' : Nat → proc) :
    ∀ (l : List Nat) (h : Option Nat),
      (∀ x ∈ l, (ps' x).next_in_queue = (ps x).next_in_queue) → chain ps h l → chain ps' h l
  | [], _, _, hc => hc
  | x :: xs, h, hag, hc => by
    rw [chain_cons] at hc ⊢
    refine ⟨hc.1, ?_⟩
    rw [hag x (List.mem_cons_self _ _)]
    exact chain_congr ps ps' xs _ (fun y hy => hag y (List.mem_cons_of_mem _ hy)) hc.2

/-- From a member onwards the chain is the rest of the list. -/
theorem chain_split (ps : Nat → proc) :
    ∀ (a b : List Nat) (h : Option Nat) (x : Nat),
      chain ps h (a ++ x :: b) → chain ps (some x) (x :: b)
  | [], b, h, x, hc => by
    rw [List.nil_append, chain_cons] at hc
    rw [chain_cons]; exact ⟨rfl, hc.2⟩
  | y :: a, b, h, x, hc => by
    rw [List.cons_append, chain_cons] at hc
    exact chain_split ps a b _ x hc.2

/-- A chain that reaches null visits no slot twice. -/
theorem chain_nodup (ps : Nat → proc) :
    ∀ (l : List Nat) (h : Option Nat), chain ps h l → l.Nodup
  | [], _, _ => List.nodup_nil
  | x :: xs, h, hc => by
    have hc' := hc
    rw [chain_cons] at hc
    refine List.nodup_cons.mpr ⟨?_, chain_nodup ps xs _ hc.2⟩
    intro hx
    obtain ⟨a, b, hab⟩ := List.append_of_mem hx
    have h1 : chain ps (some x) (x :: b) := by
      apply chain_split ps a b (ps x).next_in_queue x
      rw [← hab]; exact hc.2
    have h2 : chain ps (some x) (x :: xs) := by
      rw [chain_cons]; exact ⟨rfl, hc.2⟩
    have h3 := chain_unique ps _ _ _ h1 h2
    have h4 : b = xs := by simpa using h3
    have h5 := congrArg List.length hab
    rw [h4] at h5
    simp at h5
    omega

/-- Appending a slot to a non-empty chain: the old last member points at the
new slot and the new slot points at null. -/
theorem chain_snoc (ps ps' : Nat → proc) (i t : Nat) :
    ∀ (a : List Nat) (h : Option Nat),
      chain ps h (a ++ [t]) →
      (∀ x ∈ a, (ps' x).next_in_queue = (ps x).next_in_queue) →
      (ps' t).next_in_queue = some i → (ps' i).next_in_queue = none →
      chain ps' h (a ++ [t] ++ [i])
  | [], h, hc, _, ht, hi => by
    simp only [List.nil_append, List.singleton_append, chain_cons, chain_nil] at hc ⊢
    exact ⟨hc.1, ht, hi⟩
  | y :: a, h, hc, hag, ht, hi => by
    simp only [List.cons_append, chain_cons] at hc ⊢
    refine ⟨hc.1, ?_⟩
    rw [hag y (List.mem_cons_self _ _)]
    exact chain_snoc ps ps' i t a _ hc.2 (fun x hx => hag x (List.mem_cons_of_mem _ hx)) ht hi

/-- With enough fuel the walk from the head is the list of the chain. -/
theorem walk_of_chain (ps : Nat → proc) :
    ∀ (l : List Nat) (h : Option Nat) (fuel : Nat),
      chain ps h l → l.length ≤ fuel → walk ps fuel h = l
  | [], h, fuel, hc, _ => by
    rw [chain_nil] at hc; subst hc
    cases fuel <;> rfl
  | x :: xs, h, fuel, hc, hf => by
    rw [chain_cons] at hc
    obtain ⟨rfl, hc2⟩ := hc
    cases fuel with
    | zero => simp at hf
    | succ f =>
      simp only [walk]
      rw [walk_of_chain ps xs _ f hc2 (by simpa using hf)]

/-! ## Queues as lists -/

theorem queue_is_nodup {k : Kernel} {level : Int} {l : List Nat} (h : queue_is k level l) :
    l.Nodup :=
  chain_nodup k.proc l _ h.1

theorem queue_is_unique {k : Kernel} {level : Int} {l1 l2 : List Nat}
    (h1 : queue_is k level l1) (h2 : queue_is k level l2) : l1 = l2 :=
  chain_unique k.proc l1 l2 _ h1.1 h2.1

/-- A queue keeps its list when its head/tail pair and the links of its members
are untouched. -/
theorem queue_is_congr {k k' : Kernel} {level : Int} {l : List Nat}
    (hq : k'.queues level = k.queues level)
    (hn : ∀ x ∈ l, (k'.proc x).next_in_queue = (k.proc x).next_in_queue)
    (h : queue_is k level l) : queue_is k' level l := by
  unfold queue_is at h ⊢
  rw [hq]
  exact ⟨chain_congr k.proc k'.proc l _ hn h.1, h.2⟩

theorem queue_is_nil_iff (k : Kernel) (level : Int) :
    queue_is k level [] ↔ (k.queues level).head = none ∧ (k.queues level).tail = none := by
  simp [queue_is, chain]

theorem queue_is_head {k : Kernel} {level : Int} {l : List Nat} (h : queue_is k level l) :
    (k.queues level).head = l.head? := by
  cases l with
  | nil => exact h.1
  | cons x xs => exact h.1.1

theorem walk_of_queue_is {k : Kernel} {level : Int} {l : List Nat} (h : queue_is k level l)
    {fuel : Nat} (hf : l.length ≤ fuel) : walk k.proc fuel (k.queues level).head = l :=
  walk_of_chain k.proc l _ fuel h.1 hf

/-- In a well-formed queue only a one-element list has its head as tail. -/
theorem getLast?_cons_eq_head {x : Nat} {xs : List Nat} (hnd : (x :: xs).Nodup)
    (h : (x :: xs).getLast? = some x) : xs = [] := by
  cases xs with
  | nil => rfl
  | cons y ys =>
    exfalso
    rw [List.getLast?_cons_cons] at h
    have hm : x ∈ y :: ys := List.mem_of_getLast?_eq_some h
    exact (List.nodup_cons.mp hnd).1 hm

/-! ## `enqueue_proc` -/

/-- `enqueue_proc` appends at the tail. -/
theorem enqueue_proc_queue_is {k : Kernel} {i : Nat} {level : Int} {l : List Nat}
    (h : queue_is k level l) (hi : i ∉ l) :
    queue_is (enqueue_proc k (some i) level) level (l ++ [i]) := by
  have hnd := queue_is_nodup h
  rcases List.eq_nil_or_concat l with hl | ⟨a, t, hl⟩
  · subst hl
    obtain ⟨hh, _⟩ := (queue_is_nil_iff k level).mp h
    simp [enqueue_proc, hh, queue_is, chain]
  · rw [List.concat_eq_append] at hl
    subst hl
    have hhead := queue_is_head h
    have htail : (k.queues level).tail = some t := by rw [h.2]; simp
    obtain ⟨hd, hhd⟩ : ∃ hd, (k.queues level).head = some hd := by
      rw [hhead]; cases a <;> simp
    have hti : t ≠ i := by
      intro e; apply hi; simp [e]
    have hta : t ∉ a := by
      intro hm
      have := List.nodup_append.mp hnd
      exact this.2.2 hm (List.mem_singleton_self t) 
    simp only [enqueue_proc, hhd, htail]
    refine ⟨?_, by simp⟩
    simp only [setAt_same]
    rw [← hhd]
    apply chain_snoc k.proc _ i t a _ h.1
    · intro x hx
      have hxi : x ≠ i := by
        intro e; apply hi; simp [← e, hx]
      have hxt : x ≠ t := by
        intro e; exact hta (e ▸ hx)
      rw [setNext_ne _ _ hxi, setNext_ne _ _ hxt]
    · rw [setNext_ne _ _ hti, setNext_next_same]
    · rw [setNext_next_same]

/-- `enqueue_proc` on one level leaves another level's queue alone when that
queue holds neither the new slot nor the old tail. -/
theorem enqueue_proc_queue_is_other {k : Kernel} {i : Nat} {level lv : Int} {l : List Nat}
    (hne : lv ≠ level) (h : queue_is k lv l) (hi : i ∉ l)
    (ht : ∀ t, (k.queues level).tail = some t → t ∉ l) :
    queue_is (enqueue_proc k (some i) level) lv l := by
  apply queue_is_congr _ _ h
  · unfold enqueue_proc
    cases hh : (k.queues level).head <;> simp [setAt_ne _ _ hne]
  · intro x hx
    have hxi : x ≠ i := fun e => hi (e ▸ hx)
    unfold enqueue_proc
    cases hh : (k.queues level).head with
    | none => simp [setNext_ne _ _ hxi]
    | some hd =>
      cases htl : (k.queues level).tail with
      | none => simp [setNext_ne _ _ hxi]
      | some t =>
        have hxt : x ≠ t := fun e => ht t htl (e ▸ hx)
        simp [setNext_ne _ _ hxi, setNext_ne _ _ hxt]


theorem setNext_data (ps : Nat → proc) (i j : Nat) (v : Option Nat) :
    proc_data (setNext ps i v j) = proc_data (ps j) := by
  by_cases h : j = i
  · subst h; simp [setNext, proc_data]
  · rw [setNext_ne ps v h]

/-- `enqueue_proc` writes links only. -/
theorem enqueue_proc_data (k : Kernel) (p : Option Nat) (level : Int) (j : Nat) :
    proc_data ((enqueue_proc k p level).proc j) = proc_data (k.proc j) := by
  unfold enqueue_proc
  cases p with
  | none => rfl
  | some i =>
    cases hh : (k.queues level).head with
    | none => simp [setNext_data]
    | some hd =>
      cases htl : (k.queues level).tail <;> simp [setNext_data]

/-! ## `dequeue_proc` -/

theorem dequeue_proc_fst (k : Kernel) (level : Int) :
    (dequeue_proc k level).1 = (k.queues level).head := by
  unfold dequeue_proc
  cases (k.queues level).head <;> rfl

/-- `dequeue_proc` on an empty queue returns null and changes nothing. -/
theorem dequeue_proc_nil {k : Kernel} {level : Int} (h : queue_is k level []) :
    dequeue_proc k level = (none, k) := by
  obtain ⟨hh, _⟩ := (queue_is_nil_iff k level).mp h
  simp [dequeue_proc, hh]

/-- `dequeue_proc` returns and removes the head. -/
theorem dequeue_proc_cons {k : Kernel} {level : Int} {x : Nat} {xs : List Nat}
    (h : queue_is k level (x :: xs)) :
    (dequeue_proc k level).1 = some x ∧ queue_is (dequeue_proc k level).2 level xs := by
  have hnd := queue_is_nodup h
  have hx : x ∉ xs := (List.nodup_cons.mp hnd).1
  obtain ⟨⟨hh, hc⟩, ht⟩ := h
  refine ⟨by rw [dequeue_proc_fst, hh], ?_⟩
  simp only [dequeue_proc, hh]
  constructor
  · have hhead : (setAt k.queues level
        (if (k.queues level).tail = some x then
          (⟨(k.proc x).next_in_queue, none⟩ : proc_queue)
         else ⟨(k.proc x).next_in_queue, (k.queues level).tail⟩) level).head
          = (k.proc x).next_in_queue := by
      rw [setAt_same]; split <;> rfl
    show chain _ (setAt k.queues level _ level).head xs
    rw [hhead]
    refine chain_congr k.proc _ xs _ (fun y hy => ?_) hc
    have hyx : y ≠ x := fun e => hx (e ▸ hy)
    show (setNext k.proc x none y).next_in_queue = _
    rw [setNext_ne _ _ hyx]
  · show (setAt k.queues level _ level).tail = _
    rw [setAt_same]
    by_cases hte : (k.queues level).tail = some x
    · rw [if_pos hte]
      have : xs = [] := getLast?_cons_eq_head hnd (ht ▸ hte)
      subst this; rfl
    · rw [if_neg hte]
      cases xs with
      | nil => exact absurd ht hte
      | cons y ys => rw [ht, List.getLast?_cons_cons]

/-- `dequeue_proc` on one level leaves another level's queue alone when that
queue does not hold the dequeued slot. -/
theorem dequeue_proc_queue_is_other {k : Kernel} {level lv : Int} {l : List Nat}
    (hne : lv ≠ level) (h : queue_is k lv l)
    (hx : ∀ x, (k.queues level).head = some x → x ∉ l) :
    queue_is (dequeue_proc k level).2 lv l := by
  apply queue_is_congr _ _ h
  · unfold dequeue_proc
    cases hh : (k.queues level).head <;> simp [setAt_ne _ _ hne]
  · intro y hy
    unfold dequeue_proc
    cases hh : (k.queues level).head with
    | none => rfl
    | some x =>
      have : y ≠ x := fun e => hx x hh (e ▸ hy)
      simp [setNext_ne _ _ this]

/-- `dequeue_proc` writes links only. -/
theorem dequeue_proc_data (k : Kernel) (level : Int) (j : Nat) :
    proc_data ((dequeue_proc k level).2.proc j) = proc_data (k.proc j) := by
  unfold dequeue_proc
  cases hh : (k.queues level).head with
  | none => rfl
  | some x => simp [setNext_data]

/-! ## `remove_from_queue` -/

theorem chain_next_ne_of_not_mem (ps : Nat → proc) {l : List Nat} {h : Option Nat} {i : Nat}
    (hc : chain ps h l) (hi : i ∉ l) : h ≠ some i := by
  cases l with
  | nil => rw [chain_nil] at hc; simp [hc]
  | cons x xs =>
    rw [chain_cons] at hc
    rw [hc.1]
    intro e
    apply hi
    simp at e
    simp [e]

/-- The search stops at null when the slot is not on the chain. -/
theorem find_prev_not_mem (ps : Nat → proc) (i : Nat) :
    ∀ (l : List Nat) (h : Option Nat) (fuel : Nat),
      chain ps h l → i ∉ l → l.length < fuel → find_prev ps i fuel h = some none
  | [], h, fuel, hc, _, hf => by
    rw [chain_nil] at hc; subst hc
    cases fuel with
    | zero => simp at hf
    | succ f => rfl
  | x :: xs, h, fuel, hc, hi, hf => by
    rw [chain_cons] at hc
    obtain ⟨rfl, hc2⟩ := hc
    cases fuel with
    | zero => simp at hf
    | succ f =>
      have hxs : i ∉ xs := fun hm => hi (List.mem_cons_of_mem _ hm)
      have hne := chain_next_ne_of_not_mem ps hc2 hxs
      simp only [find_prev, if_neg hne]
      exact find_prev_not_mem ps i xs _ f hc2 hxs (by simpa using hf)

/-- The search stops at the predecessor of a member that is not the head. -/
theorem find_prev_mem (ps : Nat → proc) (i v : Nat) (b : List Nat) :
    ∀ (a : List Nat) (h : Option Nat) (fuel : Nat),
      chain ps h (a ++ v :: i :: b) → i ∉ a → v ≠ i → a.length < fuel →
      find_prev ps i fuel h = some (some v)
  | [], h, fuel, hc, _, _, hf => by
    simp only [List.nil_append, chain_cons] at hc
    obtain ⟨rfl, hn, _⟩ := hc
    cases fuel with
    | zero => simp at hf
    | succ f => simp [find_prev, hn]
  | y :: a, h, fuel, hc, hi, hv, hf => by
    simp only [List.cons_append, chain_cons] at hc
    obtain ⟨rfl, hc2⟩ := hc
    cases fuel with
    | zero => simp at hf
    | succ f =>
      have hia : i ∉ a := fun hm => hi (List.mem_cons_of_mem _ hm)
      have hne : (ps y).next_in_queue ≠ some i := by
        cases a with
        | nil =>
          simp only [List.nil_append, chain_cons] at hc2
          rw [hc2.1]; simpa using hv
        | cons z a' =>
          simp only [List.cons_append, chain_cons] at hc2
          rw [hc2.1]
          intro e
          simp at e
          exact hia (by simp [e])
      simp only [find_prev, if_neg hne]
      exact find_prev_mem ps i v b a _ f hc2 hia hv (by simpa using hf)

/-- Unlinking a member that has a predecessor. -/
theorem chain_unlink (ps ps' : Nat → proc) (i v : Nat) (b : List Nat) :
    ∀ (a : List Nat) (h : Option Nat),
      chain ps h (a ++ v :: i :: b) →
      (∀ x ∈ a, (ps' x).next_in_queue = (ps x).next_in_queue) →
      (ps' v).next_in_queue = (ps i).next_in_queue →
      (∀ x ∈ b, (ps' x).next_in_queue = (ps x).next_in_queue) →
      chain ps' h (a ++ v :: b)
  | [], h, hc, _, hv, hb => by
    simp only [List.nil_append, chain_cons] at hc ⊢
    refine ⟨hc.1, ?_⟩
    rw [hv]
    exact chain_congr ps ps' b _ hb hc.2.2
  | y :: a, h, hc, ha, hv, hb => by
    simp only [List.cons_append, chain_cons] at hc ⊢
    refine ⟨hc.1, ?_⟩
    rw [ha y (List.mem_cons_self _ _)]
    exact chain_unlink ps ps' i v b a _ hc.2
      (fun x hx => ha x (List.mem_cons_of_mem _ hx)) hv hb


theorem remove_from_queue_head {k : Kernel} {i : Nat} {level : Int} (fuel : Nat)
    (hh : (k.queues level).head = some i) :
    remove_from_queue fuel k (some i) level = some (dequeue_proc k level).2 := by
  simp [remove_from_queue, dequeue_proc, hh]

/-- What `remove_from_queue(p, level)` does to a well-formed queue: it
terminates, the queue holds the old list without `p`, `p` has a null link, and
nothing but links of the members and of `p` and the pair of this level is written. -/
theorem remove_from_queue_spec {k : Kernel} {level : Int} {l : List Nat} (i fuel : Nat)
    (h : queue_is k level l) (hf : l.length < fuel) :
    ∃ k', remove_from_queue fuel k (some i) level = some k' ∧
      queue_is k' level (l.erase i) ∧
      (∀ j, proc_data (k'.proc j) = proc_data (k.proc j)) ∧
      (k'.proc i).next_in_queue = none ∧
      (∀ j, j ∉ l → j ≠ i → k'.proc j = k.proc j) ∧
      (∀ lv, lv ≠ level → k'.queues lv = k.queues lv) ∧
      k'.nextpid = k.nextpid ∧ k'.initproc = k.initproc ∧ k'.cpu_proc = k.cpu_proc ∧
      k'.promote_needed = k.promote_needed := by
  have hnd := queue_is_nodup h
  by_cases hi : i ∈ l
  · cases l with
    | nil => simp at hi
    | cons x xs =>
      by_cases hxi : x = i
      · subst hxi
        have hh : (k.queues level).head = some x := h.1.1
        refine ⟨_, remove_from_queue_head fuel hh, ?_, ?_, ?_, ?_, ?_, ?_⟩
        · rw [List.erase_cons_head]; exact (dequeue_proc_cons h).2
        · exact dequeue_proc_data k level
        · simp [dequeue_proc, hh]
        · intro j _ hj
          simp [dequeue_proc, hh, setNext_ne _ _ hj]
        · intro lv hlv
          simp [dequeue_proc, hh, setAt_ne _ _ hlv]
        · simp [dequeue_proc, hh]
      · have hixs : i ∈ xs := by
          rcases List.mem_cons.mp hi with e | hm
          · exact absurd e.symm hxi
          · exact hm
        obtain ⟨a', b, hab⟩ := List.append_of_mem hixs
        obtain ⟨a, v, hav⟩ : ∃ a v, x :: a' = a ++ [v] := by
          rcases List.eq_nil_or_concat (x :: a') with e | ⟨a, v, e⟩
          · simp at e
          · exact ⟨a, v, by rw [e, List.concat_eq_append]⟩
        have hl : x :: xs = a ++ v :: i :: b := by
          rw [hab, ← List.cons_append, hav]; simp
        have hhx : (k.queues level).head = some x := h.1.1
        have hhne : (k.queues level).head ≠ some i := by
          rw [hhx]; simpa using hxi
        rw [hl] at h hnd hf ⊢
        have hnd' : (a ++ [v] ++ i :: b).Nodup := by simpa using hnd
        have hia : i ∉ a ∧ v ≠ i ∧ i ∉ b ∧ v ∉ a ∧ v ∉ b := by
          have h1 := List.nodup_append.mp hnd
          have h2 := List.nodup_cons.mp h1.2.1
          have h3 := List.nodup_cons.mp h2.2
          refine ⟨?_, ?_, h3.1, ?_, ?_⟩
          · intro hm; exact h1.2.2 hm (by simp) 
          · intro e; exact h2.1 (by simp [e])
          · intro hm; exact h1.2.2 hm (by simp)
          · intro hm; exact h2.1 (by simp [hm])
        obtain ⟨hia, hvi, hib, hva, hvb⟩ := hia
        have hfp : find_prev k.proc i fuel (k.queues level).head = some (some v) :=
          find_prev_mem k.proc i v b a _ fuel h.1 hia hvi (by simp at hf; omega)
        have herase : (a ++ v :: i :: b).erase i = a ++ v :: b := by
          rw [List.erase_append_right _ hia, List.erase_cons_tail (by simpa using hvi),
            List.erase_cons_head]
        refine ⟨_, by simp only [remove_from_queue, if_neg hhne, hfp]; rfl, ?_, ?_, ?_, ?_, ?_, ?_⟩
        · rw [herase]
          constructor
          · have hhead : (setAt k.queues level
                (if (k.queues level).tail = some i then
                  (⟨(k.queues level).head, some v⟩ : proc_queue)
                 else k.queues level) level).head = (k.queues level).head := by
              rw [setAt_same]; split <;> rfl
            show chain _ (setAt k.queues level _ level).head _
            rw [hhead]
            apply chain_unlink k.proc _ i v b a _ h.1
            · intro y hy
              have hyi : y ≠ i := fun e => hia (e ▸ hy)
              have hyv : y ≠ v := fun e => hva (e ▸ hy)
              show (setNext (setNext k.proc v _) i none y).next_in_queue = _
              rw [setNext_ne _ _ hyi, setNext_ne _ _ hyv]
            · show (setNext (setNext k.proc v _) i none v).next_in_queue = _
              rw [setNext_ne _ _ hvi, setNext_next_same]
            · intro y hy
              have hyi : y ≠ i := fun e => hib (e ▸ hy)
              have hyv : y ≠ v := fun e => hvb (e ▸ hy)
              show (setNext (setNext k.proc v _) i none y).next_in_queue = _
              rw [setNext_ne _ _ hyi, setNext_ne _ _ hyv]
          · show (setAt k.queues level _ level).tail = _
            rw [setAt_same]
            have ht := h.2
            by_cases hte : (k.queues level).tail = some i
            · rw [if_pos hte]
              have hb : b = [] := by
                rw [ht] at hte
                have : (i :: b).getLast? = some i := by
                  rw [show a ++ v :: i :: b = (a ++ [v]) ++ i :: b by simp] at hte
                  rw [List.getLast?_append_of_ne_nil _ (by simp)] at hte
                  exact hte
                exact getLast?_cons_eq_head (List.nodup_cons.mpr
                  ⟨hib, (List.nodup_cons.mp (List.nodup_cons.mp
                    (List.nodup_append.mp hnd).2.1).2).2⟩) this
              subst hb
              simp
            · rw [if_neg hte, ht]
              cases b with
              | nil =>
                exfalso; apply hte; rw [ht]
                rw [show a ++ [v, i] = (a ++ [v]) ++ [i] by simp]
                simp
              | cons c cs =>
                rw [show a ++ v :: i :: c :: cs = (a ++ [v, i]) ++ c :: cs by simp,
                  show a ++ v :: c :: cs = (a ++ [v]) ++ c :: cs by simp,
                  List.getLast?_append_of_ne_nil _ (by simp),
                  List.getLast?_append_of_ne_nil _ (by simp)]
        · intro j
          show proc_data (setNext (setNext k.proc v _) i none j) = _
          rw [setNext_data, setNext_data]
        · show (setNext (setNext k.proc v _) i none i).next_in_queue = _
          rw [setNext_next_same]
        · intro j hj hji
          have hjv : j ≠ v := fun e => hj (by simp [e])
          show setNext (setNext k.proc v _) i none j = _
          rw [setNext_ne _ _ hji, setNext_ne _ _ hjv]
        · intro lv hlv
          show setAt k.queues level _ lv = _
          rw [setAt_ne _ _ hlv]
        · exact ⟨rfl, rfl, rfl, rfl⟩
  · have hhne : (k.queues level).head ≠ some i := chain_next_ne_of_not_mem k.proc h.1 hi
    have hfp := find_prev_not_mem k.proc i l _ fuel h.1 hi hf
    refine ⟨_, by simp only [remove_from_queue, if_neg hhne, hfp]; rfl, ?_, ?_, ?_, ?_, ?_, ?_⟩
    · rw [List.erase_of_not_mem hi]
      refine queue_is_congr ?_ ?_ h
      · rfl
      intro y hy
      have hyi : y ≠ i := fun e => hi (e ▸ hy)
      show (setNext k.proc i none y).next_in_queue = _
      rw [setNext_ne _ _ hyi]
    · intro j
      show proc_data (setNext k.proc i none j) = _
      rw [setNext_data]
    · show (setNext k.proc i none i).next_in_queue = _
      rw [setNext_next_same]
    · intro j _ hji
      show setNext k.proc i none j = _
      rw [setNext_ne _ _ hji]
    · intro lv _
      rfl
    · exact ⟨rfl, rfl, rfl, rfl⟩

/-! ## C3: each level is a FIFO list -/

theorem run_queue_ops_fifo (level : Int) :
    ∀ (ops : List queue_op) (k : Kernel) (l : List Nat),
      queue_is k level l → ops_fresh ops l →
      (run_queue_ops level ops k).1 = (fifo_run ops l).1 ∧
      queue_is (run_queue_ops level ops k).2 level (fifo_run ops l).2
  | [], k, l, h, _ => ⟨rfl, h⟩
  | queue_op.enq i :: ops, k, l, h, hf => by
    simp only [run_queue_ops, fifo_run]
    exact run_queue_ops_fifo level ops _ _ (enqueue_proc_queue_is h hf.1) hf.2
  | queue_op.deq :: ops, k, l, h, hf => by
    simp only [run_queue_ops, fifo_run]
    cases l with
    | nil =>
      rw [dequeue_proc_nil h]
      have ih := run_queue_ops_fifo level ops k [] h hf
      exact ⟨by rw [ih.1]; rfl, ih.2⟩
    | cons x xs =>
      obtain ⟨h1, h2⟩ := dequeue_proc_cons h
      have ih := run_queue_ops_fifo level ops _ xs h2 hf
      exact ⟨by rw [h1, ih.1]; rfl, ih.2⟩

/-- C3: on a well-formed queue of any level, any interleaving of `enqueue_proc`
calls (each on a PCB not in the queue at that moment) and `dequeue_proc` calls
behaves as the FIFO list: the pointers returned by the dequeues and the final
queue contents are those of the list model (append at the tail, remove at the
head), and `dequeue_proc` on an empty queue returns null and changes nothing. -/
theorem C3_queue_is_fifo (level : Int) (ops : List queue_op) (k : Kernel) (l : List Nat)
    (hq : queue_is k level l) (hfresh : ops_fresh ops l) :
    (run_queue_ops level ops k).1 = (fifo_run ops l).1 ∧
    queue_is (run_queue_ops level ops k).2 level (fifo_run ops l).2 ∧
    (∀ i, i ∉ l → queue_is (enqueue_proc k (some i) level) level (l ++ [i])) ∧
    (dequeue_proc k level).1 = l.head? ∧
    queue_is (dequeue_proc k level).2 level l.tail ∧
    (l = [] → dequeue_proc k level = (none, k)) := by
  refine ⟨(run_queue_ops_fifo level ops k l hq hfresh).1,
    (run_queue_ops_fifo level ops k l hq hfresh).2,
    fun i hi => enqueue_proc_queue_is hq hi, ?_, ?_, ?_⟩
  · rw [dequeue_proc_fst]; exact queue_is_head hq
  · cases l with
    | nil => rw [dequeue_proc_nil hq]; exact hq
    | cons x xs => exact (dequeue_proc_cons hq).2
  · intro e; subst e; exact dequeue_proc_nil hq

/-- C3 at a concrete run on level 1 of the freshly initialised kernel: the
slots come out in the order 2, 0, 3 they went in, then the queue is empty. -/
theorem C3_queue_is_fifo_witness :
    (run_queue_ops 1
      [queue_op.enq 2, queue_op.enq 0, queue_op.deq, queue_op.enq 3, queue_op.deq,
        queue_op.deq, queue_op.deq] (procinit cfg4 boot_image)).1
      = [some 2, some 0, some 3, none] :=
  (C3_queue_is_fifo 1
    [queue_op.enq 2, queue_op.enq 0, queue_op.deq, queue_op.enq 3, queue_op.deq,
      queue_op.deq, queue_op.deq] (procinit cfg4 boot_image) []
    (by decide) (by decide)).1

/-! ## `kkill` -/

theorem walk_congr (ps ps' : Nat → proc)
    (hn : ∀ j, (ps' j).next_in_queue = (ps j).next_in_queue) :
    ∀ (fuel : Nat) (h : Option Nat), walk ps' fuel h = walk ps fuel h
  | 0, _ => rfl
  | _ + 1, none => rfl
  | fuel + 1, some i => by
    simp only [walk]
    rw [hn i, walk_congr ps ps' hn fuel]

/-- The scan of `kkill` stops at the first slot of the list that carries the pid. -/
theorem kkill_scan_eq (pid : Int) :
    ∀ (l : List Nat) (k : Kernel),
      kkill_scan pid l k =
        match l.find? (fun i => decide ((k.proc i).pid = pid)) with
        | none => (-1, k)
        | some p =>
          (0, { k with proc := (setAt k.proc p
            (if (k.proc p).state = procstate.SLEEPING then
              { k.proc p with killed := 1, state := procstate.RUNNABLE }
             else { k.proc p with killed := 1 })) })
  | [], _ => rfl
  | i :: rest, k => by
    by_cases h : (k.proc i).pid = pid
    · simp only [kkill_scan, if_pos h, List.find?_cons, decide_eq_true h]
    · simp only [kkill_scan, if_neg h, List.find?_cons, decide_eq_false h]
      exact kkill_scan_eq pid rest k

/-- The result of `kkill(pid)` when `p` is the first slot with that pid. -/
theorem kkill_first (cfg : Config) (k : Kernel) (pid : Int) (p : Nat)
    (hlt : p < cfg.NPROC) (hpid : (k.proc p).pid = pid)
    (hfirst : ∀ j, j < p → (k.proc j).pid ≠ pid) :
    kkill cfg k pid =
      (0, { k with proc := (setAt k.proc p
        (if (k.proc p).state = procstate.SLEEPING then
          { k.proc p with killed := 1, state := procstate.RUNNABLE }
         else { k.proc p with killed := 1 })) }) := by
  have hf : (List.range cfg.NPROC).find? (fun i => decide ((k.proc i).pid = pid)) = some p := by
    rw [List.find?_range_eq_some]
    refine ⟨by simpa using hpid, List.mem_range.mpr hlt, ?_⟩
    intro j hj
    simpa using hfirst j hj
  unfold kkill
  rw [kkill_scan_eq, hf]

/-- C10: when `p` is the first slot in table order whose pid is `pid`,
`kkill(pid)` returns 0 and sets `p.killed = 1`; a `SLEEPING` `p` becomes
`RUNNABLE`, any other state is kept; no other slot changes; the three queue
head/tail pairs and every link are as before, so every queue holds the same
list and every PCB is linked into exactly the queues it was linked into before
(a queued `RUNNABLE` PCB stays queued, a `SLEEPING` PCB that was in no queue
ends `RUNNABLE` and in no queue). -/
theorem C10_kkill_found (cfg : Config) (k : Kernel) (pid : Int) (p : Nat)
    (hlt : p < cfg.NPROC) (hpid : (k.proc p).pid = pid)
    (hfirst : ∀ j, j < p → (k.proc j).pid ≠ pid) :
    (kkill cfg k pid).1 = 0 ∧
    ((kkill cfg k pid).2.proc p).killed = 1 ∧
    ((k.proc p).state = procstate.SLEEPING →
      ((kkill cfg k pid).2.proc p).state = procstate.RUNNABLE) ∧
    ((k.proc p).state ≠ procstate.SLEEPING →
      ((kkill cfg k pid).2.proc p).state = (k.proc p).state) ∧
    (∀ j, j ≠ p → (kkill cfg k pid).2.proc j = k.proc j) ∧
    (kkill cfg k pid).2.queues = k.queues ∧
    (∀ j, ((kkill cfg k pid).2.proc j).next_in_queue = (k.proc j).next_in_queue) ∧
    (∀ level l, queue_is (kkill cfg k pid).2 level l ↔ queue_is k level l) ∧
    (∀ j level, linked cfg (kkill cfg k pid).2 j level ↔ linked cfg k j level) := by
  have hlinks : ∀ j, ((kkill cfg k pid).2.proc j).next_in_queue = (k.proc j).next_in_queue := by
    intro j
    rw [kkill_first cfg k pid p hlt hpid hfirst]
    show (setAt k.proc p _ j).next_in_queue = _
    by_cases hj : j = p
    · subst hj; rw [setAt_same]; split <;> rfl
    · rw [setAt_ne _ _ hj]
  have hqs : (kkill cfg k pid).2.queues = k.queues := by
    rw [kkill_first cfg k pid p hlt hpid hfirst]
  refine ⟨?_, ?_, ?_, ?_, ?_, hqs, hlinks, ?_, ?_⟩
  · rw [kkill_first cfg k pid p hlt hpid hfirst]
  · rw [kkill_first cfg k pid p hlt hpid hfirst]
    show (setAt k.proc p _ p).killed = 1
    rw [setAt_same]; split <;> rfl
  · intro hs
    rw [kkill_first cfg k pid p hlt hpid hfirst]
    show (setAt k.proc p _ p).state = _
    rw [setAt_same, if_pos hs]
  · intro hs
    rw [kkill_first cfg k pid p hlt hpid hfirst]
    show (setAt k.proc p _ p).state = _
    rw [setAt_same, if_neg hs]
  · intro j hj
    rw [kkill_first cfg k pid p hlt hpid hfirst]
    show setAt k.proc p _ j = _
    rw [setAt_ne _ _ hj]
  · intro level l
    constructor
    · intro h
      refine queue_is_congr ?_ ?_ h
      · rw [hqs]
      · intro x _; exact (hlinks x).symm
    · intro h
      refine queue_is_congr ?_ ?_ h
      · rw [hqs]
      · intro x _; exact hlinks x
  · intro j level
    unfold linked
    rw [hqs, walk_congr k.proc _ hlinks]


/-- C10 at a concrete table: killing the sleeping pid 2 (slot 1) returns 0,
marks it killed and makes it `RUNNABLE`, and it is in none of the queues. -/
theorem C10_kkill_found_witness :
    (kkill cfg4 demo_sleeper 2).1 = 0 ∧
    ((kkill cfg4 demo_sleeper 2).2.proc 1).killed = 1 ∧
    ((kkill cfg4 demo_sleeper 2).2.proc 1).state = procstate.RUNNABLE ∧
    ¬ linked cfg4 (kkill cfg4 demo_sleeper 2).2 1 0 ∧
    ¬ linked cfg4 (kkill cfg4 demo_sleeper 2).2 1 1 ∧
    ¬ linked cfg4 (kkill cfg4 demo_sleeper 2).2 1 2 :=
  have h := C10_kkill_found cfg4 demo_sleeper 2 1 (by decide) (by decide) (by decide)
  ⟨h.1, h.2.1, h.2.2.1 (by decide),
    fun hl => absurd ((h.2.2.2.2.2.2.2.2 1 0).mp hl) (by decide),
    fun hl => absurd ((h.2.2.2.2.2.2.2.2 1 1).mp hl) (by decide),
    fun hl => absurd ((h.2.2.2.2.2.2.2.2 1 2).mp hl) (by decide)⟩

/-! ## The three queues together -/

theorem mem_scan_levels (L : Int) : L ∈ scan_levels ↔ L = 0 ∨ L = 1 ∨ L = 2 := by
  simp [scan_levels, NQUEUE, List.range_succ]

/-- Writes that keep the head/tail pairs and every link keep the queues. -/
theorem queues_wf_congr {k k' : Kernel} {ql : Int → List Nat}
    (hq : k'.queues = k.queues)
    (hn : ∀ x, (k'.proc x).next_in_queue = (k.proc x).next_in_queue)
    (h : queues_wf k ql) : queues_wf k' ql :=
  ⟨fun L hL => queue_is_congr (by rw [hq]) (fun x _ => hn x) (h.1 L hL), h.2⟩

theorem queues_wf_tail_mem {k : Kernel} {ql : Int → List Nat} (h : queues_wf k ql)
    {L : Int} (hL : L ∈ scan_levels) {t : Nat} (ht : (k.queues L).tail = some t) :
    t ∈ ql L := by
  have := (h.1 L hL).2
  rw [ht] at this
  exact List.mem_of_getLast?_eq_some this.symm

theorem queues_wf_head_mem {k : Kernel} {ql : Int → List Nat} (h : queues_wf k ql)
    {L : Int} (hL : L ∈ scan_levels) {t : Nat} (ht : (k.queues L).head = some t) :
    t ∈ ql L := by
  have := queue_is_head (h.1 L hL)
  rw [ht] at this
  exact List.mem_of_mem_head? this.symm

/-- `enqueue_proc` of a slot that is in no queue appends it to its level and
keeps the other levels. -/
theorem queues_wf_enqueue {k : Kernel} {ql : Int → List Nat} (h : queues_wf k ql)
    {L : Int} (hL : L ∈ scan_levels) {i : Nat} (hi : ∀ M ∈ scan_levels, i ∉ ql M) :
    queues_wf (enqueue_proc k (some i) L) (setAt ql L (ql L ++ [i])) := by
  constructor
  · intro M hM
    by_cases hML : M = L
    · subst hML
      rw [setAt_same]
      exact enqueue_proc_queue_is (h.1 M hM) (hi M hM)
    · rw [setAt_ne _ _ hML]
      apply enqueue_proc_queue_is_other hML (h.1 M hM) (hi M hM)
      intro t ht
      exact h.2 L hL M hM (Ne.symm hML) t (queues_wf_tail_mem h hL ht)
  · intro M hM N hN hMN x hx
    by_cases hML : M = L
    · subst hML
      rw [setAt_same] at hx
      rw [setAt_ne _ _ (Ne.symm hMN)]
      rcases List.mem_append.mp hx with hx | hx
      · exact h.2 M hM N hN hMN x hx
      · rw [List.mem_singleton.mp hx]; exact hi N hN
    · rw [setAt_ne _ _ hML] at hx
      by_cases hNL : N = L
      · subst hNL
        rw [setAt_same]
        intro hm
        rcases List.mem_append.mp hm with hm | hm
        · exact h.2 M hM N hN hMN x hx hm
        · rw [List.mem_singleton.mp hm] at hx; exact hi M hM hx
      · rw [setAt_ne _ _ hNL]
        exact h.2 M hM N hN hMN x hx

/-- `dequeue_proc` drops the head of its level and keeps the other levels. -/
theorem queues_wf_dequeue {k : Kernel} {ql : Int → List Nat} (h : queues_wf k ql)
    {L : Int} (hL : L ∈ scan_levels) :
    (dequeue_proc k L).1 = (ql L).head? ∧
    queues_wf (dequeue_proc k L).2 (setAt ql L (ql L).tail) := by
  refine ⟨by rw [dequeue_proc_fst]; exact queue_is_head (h.1 L hL), ?_, ?_⟩
  · intro M hM
    by_cases hML : M = L
    · subst hML
      rw [setAt_same]
      have hq := h.1 M hM
      cases hl : ql M with
      | nil => rw [hl] at hq; rw [dequeue_proc_nil hq]; exact hq
      | cons x xs => rw [hl] at hq; exact (dequeue_proc_cons hq).2
    · rw [setAt_ne _ _ hML]
      apply dequeue_proc_queue_is_other hML (h.1 M hM)
      intro x hx
      exact h.2 L hL M hM (Ne.symm hML) x (queues_wf_head_mem h hL hx)
  · intro M hM N hN hMN x hx
    have hx' : x ∈ ql M := by
      by_cases hML : M = L
      · subst hML; rw [setAt_same] at hx; exact List.mem_of_mem_tail hx
      · rw [setAt_ne _ _ hML] at hx; exact hx
    intro hm
    have hm' : x ∈ ql N := by
      by_cases hNL : N = L
      · subst hNL; rw [setAt_same] at hm; exact List.mem_of_mem_tail hm
      · rw [setAt_ne _ _ hNL] at hm; exact hm
    exact h.2 M hM N hN hMN x hx' hm'

/-- `remove_from_queue(p, L)` of a slot that is in no other level's queue
terminates, erases the slot from level `L` and keeps the other levels. -/
theorem queues_wf_remove {k : Kernel} {ql : Int → List Nat} (h : queues_wf k ql)
    {L : Int} (hL : L ∈ scan_levels) (i fuel : Nat)
    (hi : ∀ M ∈ scan_levels, M ≠ L → i ∉ ql M) (hf : (ql L).length < fuel) :
    ∃ k', remove_from_queue fuel k (some i) L = some k' ∧
      queues_wf k' (setAt ql L ((ql L).erase i)) ∧
      (∀ j, proc_data (k'.proc j) = proc_data (k.proc j)) ∧
      k'.nextpid = k.nextpid ∧ k'.initproc = k.initproc ∧ k'.cpu_proc = k.cpu_proc ∧
      k'.promote_needed = k.promote_needed := by
  obtain ⟨k', hk', hq, hdata, _, hframe, hqs, hrest⟩ :=
    remove_from_queue_spec i fuel (h.1 L hL) hf
  refine ⟨k', hk', ⟨?_, ?_⟩, hdata, hrest⟩
  · intro M hM
    by_cases hML : M = L
    · subst hML; rw [setAt_same]; exact hq
    · rw [setAt_ne _ _ hML]
      refine queue_is_congr (hqs M hML) ?_ (h.1 M hM)
      intro x hx
      rw [hframe x (fun hxl => h.2 L hL M hM (Ne.symm hML) x hxl hx)
        (fun e => hi M hM hML (e ▸ hx))]
  · intro M hM N hN hMN x hx
    have hx' : x ∈ ql M := by
      by_cases hML : M = L
      · subst hML; rw [setAt_same] at hx; exact List.mem_of_mem_erase hx
      · rw [setAt_ne _ _ hML] at hx; exact hx
    intro hm
    have hm' : x ∈ ql N := by
      by_cases hNL : N = L
      · subst hNL; rw [setAt_same] at hm; exact List.mem_of_mem_erase hm
      · rw [setAt_ne _ _ hNL] at hm; exact hm
    exact h.2 M hM N hN hMN x hx' hm'

/-! ## `wakeup` -/

theorem data_state {a b : proc} (h : proc_data a = proc_data b) : a.state = b.state := by
  have h2 := congrArg proc.state h
  exact h2

theorem data_chan {a b : proc} (h : proc_data a = proc_data b) : a.chan = b.chan := by
  have h2 := congrArg proc.chan h
  exact h2

theorem data_killed {a b : proc} (h : proc_data a = proc_data b) : a.killed = b.killed := by
  have h2 := congrArg proc.killed h
  exact h2

theorem data_xstate {a b : proc} (h : proc_data a = proc_data b) : a.xstate = b.xstate := by
  have h2 := congrArg proc.xstate h
  exact h2

theorem data_pid {a b : proc} (h : proc_data a = proc_data b) : a.pid = b.pid := by
  have h2 := congrArg proc.pid h
  exact h2

theorem data_parent {a b : proc} (h : proc_data a = proc_data b) : a.parent = b.parent := by
  have h2 := congrArg proc.parent h
  exact h2

theorem data_queue_level {a b : proc} (h : proc_data a = proc_data b) :
    a.queue_level = b.queue_level := by
  have h2 := congrArg proc.queue_level h
  exact h2

theorem data_remaining_ticks {a b : proc} (h : proc_data a = proc_data b) :
    a.remaining_ticks = b.remaining_ticks := by
  have h2 := congrArg proc.remaining_ticks h
  exact h2

theorem data_original_queue {a b : proc} (h : proc_data a = proc_data b) :
    a.original_queue = b.original_queue := by
  have h2 := congrArg proc.original_queue h
  exact h2

theorem proc_eq_of_data {a b : proc} (h : proc_data a = proc_data b)
    (hn : a.next_in_queue = b.next_in_queue) : a = b := by
  cases a; cases b
  simp only [proc_data, proc.mk.injEq] at h ⊢
  simp only [] at hn
  tauto

theorem wake_proc_next (cfg : Config) (p : proc) :
    (wake_proc cfg p).next_in_queue = p.next_in_queue := by
  unfold wake_proc
  simp only
  split_ifs <;> rfl

theorem wake_proc_state (cfg : Config) (p : proc) :
    (wake_proc cfg p).state = procstate.RUNNABLE := by
  unfold wake_proc
  simp only
  split_ifs <;> rfl

theorem wake_proc_queue_level (cfg : Config) (p : proc) :
    (wake_proc cfg p).queue_level = p.original_queue := by
  unfold wake_proc
  simp only
  split_ifs <;> rfl

theorem wake_proc_original_queue (cfg : Config) (p : proc) :
    (wake_proc cfg p).original_queue = p.original_queue := by
  unfold wake_proc
  simp only
  split_ifs <;> rfl

theorem wake_proc_ticks0 (cfg : Config) (p : proc) (h : p.original_queue = 0) :
    (wake_proc cfg p).remaining_ticks = cfg.Q0_TICKS := by
  unfold wake_proc
  simp [h]

theorem wake_proc_ticks1 (cfg : Config) (p : proc) (h : p.original_queue = 1) :
    (wake_proc cfg p).remaining_ticks = cfg.Q1_TICKS := by
  unfold wake_proc
  simp [h]

theorem wake_proc_ticks2 (cfg : Config) (p : proc) (h : p.original_queue = 2) :
    (wake_proc cfg p).remaining_ticks = cfg.Q2_TICKS := by
  unfold wake_proc
  simp [h]

theorem wake_proc_data (cfg : Config) (p : proc) :
    proc_data (wake_proc cfg p) = wake_proc cfg (proc_data p) := by
  unfold wake_proc proc_data
  simp only
  split_ifs <;> rfl

theorem wake_proc_data_congr (cfg : Config) {p q : proc} (h : proc_data p = proc_data q) :
    proc_data (wake_proc cfg p) = proc_data (wake_proc cfg q) := by
  rw [wake_proc_data, wake_proc_data, h]

theorem wakes_congr {k k' : Kernel} (chan : Option Nat) (i : Nat)
    (hd : proc_data (k'.proc i) = proc_data (k.proc i)) (hc : k'.cpu_proc = k.cpu_proc) :
    wakes k' chan i ↔ wakes k chan i := by
  unfold wakes myproc
  rw [hc, data_state hd, data_chan hd]

theorem wakeup_one_of_not_wakes (cfg : Config) {k : Kernel} {chan : Option Nat} {i : Nat}
    (h : ¬ wakes k chan i) : wakeup_one cfg chan k i = k := by
  unfold wakes at h
  unfold wakeup_one
  by_cases h1 : some i ≠ myproc k
  · rw [if_pos h1, if_neg (fun h2 => h ⟨h1, h2⟩)]
  · rw [if_neg h1]

theorem wakeup_one_of_wakes (cfg : Config) {k : Kernel} {chan : Option Nat} {i : Nat}
    (h : wakes k chan i) :
    wakeup_one cfg chan k i =
      enqueue_proc { k with proc := setAt k.proc i (wake_proc cfg (k.proc i)) } (some i)
        (k.proc i).original_queue := by
  unfold wakes at h
  unfold wakeup_one
  rw [if_pos h.1, if_pos h.2]
  show enqueue_proc { k with proc := setAt k.proc i (wake_proc cfg (k.proc i)) } (some i)
    (wake_proc cfg (k.proc i)).queue_level = _
  rw [wake_proc_queue_level]

theorem enqueue_proc_cpu_proc (k : Kernel) (p : Option Nat) (level : Int) :
    (enqueue_proc k p level).cpu_proc = k.cpu_proc := by
  unfold enqueue_proc
  cases p with
  | none => rfl
  | some i => cases (k.queues level).head <;> rfl

theorem enqueue_proc_nextpid (k : Kernel) (p : Option Nat) (level : Int) :
    (enqueue_proc k p level).nextpid = k.nextpid := by
  unfold enqueue_proc
  cases p with
  | none => rfl
  | some i => cases (k.queues level).head <;> rfl

theorem enqueue_proc_initproc (k : Kernel) (p : Option Nat) (level : Int) :
    (enqueue_proc k p level).initproc = k.initproc := by
  unfold enqueue_proc
  cases p with
  | none => rfl
  | some i => cases (k.queues level).head <;> rfl

theorem enqueue_proc_promote_needed (k : Kernel) (p : Option Nat) (level : Int) :
    (enqueue_proc k p level).promote_needed = k.promote_needed := by
  unfold enqueue_proc
  cases p with
  | none => rfl
  | some i => cases (k.queues level).head <;> rfl

theorem wakeup_one_cpu_proc (cfg : Config) (chan : Option Nat) (k : Kernel) (i : Nat) :
    (wakeup_one cfg chan k i).cpu_proc = k.cpu_proc := by
  by_cases h : wakes k chan i
  · rw [wakeup_one_of_wakes cfg h, enqueue_proc_cpu_proc]
  · rw [wakeup_one_of_not_wakes cfg h]

theorem wakeup_one_data_ne (cfg : Config) (chan : Option Nat) (k : Kernel) {i j : Nat}
    (hj : j ≠ i) :
    proc_data ((wakeup_one cfg chan k i).proc j) = proc_data (k.proc j) := by
  by_cases h : wakes k chan i
  · rw [wakeup_one_of_wakes cfg h, enqueue_proc_data]
    show proc_data (setAt k.proc i _ j) = _
    rw [setAt_ne _ _ hj]
  · rw [wakeup_one_of_not_wakes cfg h]

theorem wakeup_one_data_same (cfg : Config) {chan : Option Nat} {k : Kernel} {i : Nat}
    (h : wakes k chan i) :
    proc_data ((wakeup_one cfg chan k i).proc i) = proc_data (wake_proc cfg (k.proc i)) := by
  rw [wakeup_one_of_wakes cfg h, enqueue_proc_data]
  show proc_data (setAt k.proc i _ i) = _
  rw [setAt_same]

theorem wakeup_fold_cpu_proc (cfg : Config) (chan : Option Nat) :
    ∀ (idx : List Nat) (k : Kernel),
      (idx.foldl (wakeup_one cfg chan) k).cpu_proc = k.cpu_proc
  | [], _ => rfl
  | i :: rest, k => by
    rw [List.foldl_cons, wakeup_fold_cpu_proc cfg chan rest, wakeup_one_cpu_proc]

/-- The data of every slot after the loop of `wakeup` over a list of distinct
slots: the woken slots of the list carry the wake-up assignments, every other
slot is as before. -/
theorem wakeup_fold_data (cfg : Config) (chan : Option Nat) :
    ∀ (idx : List Nat) (k : Kernel) (j : Nat), idx.Nodup →
      proc_data ((idx.foldl (wakeup_one cfg chan) k).proc j) =
        if j ∈ idx ∧ wakes k chan j then proc_data (wake_proc cfg (k.proc j))
        else proc_data (k.proc j)
  | [], k, j, _ => by simp
  | i :: rest, k, j, hnd => by
    obtain ⟨hi, hrest⟩ := List.nodup_cons.mp hnd
    rw [List.foldl_cons, wakeup_fold_data cfg chan rest _ j hrest]
    by_cases hji : j = i
    · subst hji
      rw [if_neg (fun h => hi h.1)]
      by_cases hw : wakes k chan j
      · rw [if_pos ⟨List.mem_cons_self _ _, hw⟩, wakeup_one_data_same cfg hw]
      · rw [if_neg (fun h => hw h.2), wakeup_one_of_not_wakes cfg hw]
    · have hd := wakeup_one_data_ne cfg chan k hji
      have hwc := wakes_congr chan j hd (wakeup_one_cpu_proc cfg chan k i)
      have hmem : j ∈ i :: rest ↔ j ∈ rest := by simp [hji]
      by_cases hc : j ∈ rest ∧ wakes k chan j
      · rw [if_pos ⟨hc.1, hwc.mpr hc.2⟩, if_pos ⟨hmem.mpr hc.1, hc.2⟩,
          wake_proc_data_congr cfg hd]
      · rw [if_neg (fun h => hc ⟨h.1, hwc.mp h.2⟩), if_neg (fun h => hc ⟨hmem.mp h.1, h.2⟩), hd]


/-- The queues after the loop of `wakeup` over a list of distinct slots: each
level gets its woken slots appended in list order. -/
theorem wakeup_fold_wf (cfg : Config) (chan : Option Nat) :
    ∀ (idx : List Nat) (k : Kernel) (ql : Int → List Nat), idx.Nodup → queues_wf k ql →
      (∀ i ∈ idx, wakes k chan i →
        (k.proc i).original_queue ∈ scan_levels ∧ ∀ M ∈ scan_levels, i ∉ ql M) →
      queues_wf (idx.foldl (wakeup_one cfg chan) k)
        (fun L => ql L ++
          idx.filter (fun i => decide (wakes k chan i ∧ (k.proc i).original_queue = L)))
  | [], k, ql, _, h, _ => by simpa using h
  | i :: rest, k, ql, hnd, h, hw => by
    obtain ⟨hi, hrest⟩ := List.nodup_cons.mp hnd
    rw [List.foldl_cons]
    by_cases hwi : wakes k chan i
    · obtain ⟨hlv, hfree⟩ := hw i (List.mem_cons_self _ _) hwi
      have hmid : queues_wf
          ({ k with proc := setAt k.proc i (wake_proc cfg (k.proc i)) } : Kernel) ql := by
        refine @queues_wf_congr k _ ql rfl ?_ h
        intro x
        show (setAt k.proc i _ x).next_in_queue = _
        by_cases hx : x = i
        · subst hx; rw [setAt_same, wake_proc_next]
        · rw [setAt_ne _ _ hx]
      have h1 := queues_wf_enqueue hmid hlv hfree
      rw [← wakeup_one_of_wakes cfg hwi] at h1
      have hcong : ∀ j ∈ rest, ∀ L : Int,
          decide (wakes (wakeup_one cfg chan k i) chan j ∧
            ((wakeup_one cfg chan k i).proc j).original_queue = L)
          = decide (wakes k chan j ∧ (k.proc j).original_queue = L) := by
        intro j hj L
        have hji : j ≠ i := fun e => hi (e ▸ hj)
        have hd := wakeup_one_data_ne cfg chan k hji
        have hwc := wakes_congr chan j hd (wakeup_one_cpu_proc cfg chan k i)
        rw [data_original_queue hd]
        exact decide_eq_decide.mpr (and_congr_left (fun _ => hwc))
      have ih := wakeup_fold_wf cfg chan rest (wakeup_one cfg chan k i)
        (setAt ql (k.proc i).original_queue (ql (k.proc i).original_queue ++ [i])) hrest h1
        (by
          intro j hj hwj
          have hji : j ≠ i := fun e => hi (e ▸ hj)
          have hd := wakeup_one_data_ne cfg chan k hji
          have hwc := wakes_congr chan j hd (wakeup_one_cpu_proc cfg chan k i)
          obtain ⟨hl2, hf2⟩ := hw j (List.mem_cons_of_mem _ hj) (hwc.mp hwj)
          refine ⟨by rw [data_original_queue hd]; exact hl2, ?_⟩
          intro M hM hm
          by_cases hMe : M = (k.proc i).original_queue
          · subst hMe
            rw [setAt_same] at hm
            rcases List.mem_append.mp hm with hm | hm
            · exact hf2 _ hM hm
            · exact hji (List.mem_singleton.mp hm)
          · rw [setAt_ne _ _ hMe] at hm
            exact hf2 M hM hm)
      have hfun : (fun L => setAt ql (k.proc i).original_queue
            (ql (k.proc i).original_queue ++ [i]) L ++
            rest.filter (fun j => decide (wakes (wakeup_one cfg chan k i) chan j ∧
              ((wakeup_one cfg chan k i).proc j).original_queue = L)))
          = (fun L => ql L ++ (i :: rest).filter
              (fun j => decide (wakes k chan j ∧ (k.proc j).original_queue = L))) := by
        funext L
        rw [List.filter_congr (fun j hj => hcong j hj L)]
        by_cases hL : L = (k.proc i).original_queue
        · subst hL
          rw [setAt_same, List.filter_cons_of_pos (by simpa using hwi)]
          simp
        · rw [setAt_ne _ _ hL, List.filter_cons_of_neg (by
            simp only [decide_eq_true_eq, not_and]
            intro _ e; exact hL e.symm)]
      rw [hfun] at ih
      exact ih
    · rw [wakeup_one_of_not_wakes cfg hwi]
      have ih := wakeup_fold_wf cfg chan rest k ql hrest h
        (fun j hj hwj => hw j (List.mem_cons_of_mem _ hj) hwj)
      have hfun : (fun L => ql L ++ rest.filter
            (fun j => decide (wakes k chan j ∧ (k.proc j).original_queue = L)))
          = (fun L => ql L ++ (i :: rest).filter
              (fun j => decide (wakes k chan j ∧ (k.proc j).original_queue = L))) := by
        funext L
        rw [List.filter_cons_of_neg (by
          simp only [decide_eq_true_eq, not_and]
          intro hwk; exact absurd hwk hwi)]
      rw [hfun] at ih
      exact ih

/-- Without a woken slot the loop of `wakeup` changes nothing. -/
theorem wakeup_fold_id (cfg : Config) (chan : Option Nat) :
    ∀ (idx : List Nat) (k : Kernel), (∀ i ∈ idx, ¬ wakes k chan i) →
      idx.foldl (wakeup_one cfg chan) k = k
  | [], _, _ => rfl
  | i :: rest, k, h => by
    rw [List.foldl_cons, wakeup_one_of_not_wakes cfg (h i (List.mem_cons_self _ _))]
    exact wakeup_fold_id cfg chan rest k (fun j hj => h j (List.mem_cons_of_mem _ hj))

/-- Whenever `remove_from_queue` terminates it has written links and the
head/tail pair only. -/
theorem remove_from_queue_frame {fuel : Nat} {k k' : Kernel} {p : Option Nat} {level : Int}
    (h : remove_from_queue fuel k p level = some k') :
    (∀ j, proc_data (k'.proc j) = proc_data (k.proc j)) ∧
    k'.nextpid = k.nextpid ∧ k'.initproc = k.initproc ∧ k'.cpu_proc = k.cpu_proc ∧
    k'.promote_needed = k.promote_needed ∧
    (∀ lv, lv ≠ level → k'.queues lv = k.queues lv) := by
  unfold remove_from_queue at h
  cases p with
  | none => exact absurd h (by simp)
  | some i =>
    simp only at h
    split at h
    · simp only [Option.some.injEq] at h
      subst h
      exact ⟨fun j => setNext_data _ _ _ _, rfl, rfl, rfl, rfl,
        fun lv hlv => setAt_ne _ _ hlv⟩
    · split at h
      · exact absurd h (by simp)
      · simp only [Option.some.injEq] at h
        subst h
        exact ⟨fun j => setNext_data _ _ _ _, rfl, rfl, rfl, rfl, fun _ _ => rfl⟩
      · simp only [Option.some.injEq] at h
        subst h
        refine ⟨fun j => ?_, rfl, rfl, rfl, rfl, fun lv hlv => setAt_ne _ _ hlv⟩
        show proc_data (setNext (setNext k.proc _ _) i none j) = _
        rw [setNext_data, setNext_data]

theorem scheduler_return_not_runnable {k : Kernel} {p : Nat}
    (h : (k.proc p).state ≠ procstate.RUNNABLE) :
    scheduler_return k p = { k with cpu_proc := none } := by
  unfold scheduler_return
  simp only
  rw [if_neg h]

theorem scheduler_return_runnable {k : Kernel} {p : Nat}
    (h : (k.proc p).state = procstate.RUNNABLE) :
    scheduler_return k p =
      enqueue_proc { k with cpu_proc := none } (some p) (k.proc p).queue_level := by
  unfold scheduler_return
  simp only
  rw [if_pos h]

/-- The state in which `sleep` leaves the caller when it has handed over to the
scheduler: the caller's data and the cleared current-process slot. -/
theorem sleep_result {fuel : Nat} {k k' : Kernel} {chan : Option Nat} {c : Nat}
    (hc : myproc k = some c) (h : sleep fuel k chan = some k') :
    k'.cpu_proc = none ∧
    (k'.proc c).state = procstate.SLEEPING ∧ (k'.proc c).chan = chan ∧
    (k'.proc c).original_queue = (k.proc c).queue_level ∧
    (k'.proc c).queue_level = (k.proc c).queue_level := by
  unfold sleep at h
  obtain ⟨k1, hk1, hs⟩ := Option.bind_eq_some.mp h
  unfold sleep_body at hk1
  rw [hc] at hk1
  simp only at hk1
  obtain ⟨hd, _, _, hcpu, _, _⟩ := remove_from_queue_frame hk1
  have hdc := hd c
  simp only [setAt_same] at hdc
  have hst : (k1.proc c).state = procstate.SLEEPING := data_state hdc
  have hmy : myproc k1 = some c := by
    unfold myproc at hc ⊢
    rw [hcpu]; exact hc
  unfold sched at hs
  rw [hmy] at hs
  simp only [hst] at hs
  simp only [reduceCtorEq, if_false, Option.some.injEq] at hs
  subst hs
  rw [scheduler_return_not_runnable (by rw [hst]; simp)]
  have hql : (k1.proc c).queue_level = (k.proc c).queue_level := by
    have h2 := data_queue_level hdc
    exact h2
  exact ⟨rfl, hst, data_chan hdc, data_original_queue hdc, hql⟩

/-- C7: `wakeup(X)` called by the current process turns every other PCB that is
`SLEEPING` on `X` into a `RUNNABLE` one at `queue_level = original_queue` with
the quantum of that level, and appends it at the tail of that level's queue;
the woken PCBs of one level follow the previous members in table order.  The
queues are well formed before, the woken PCBs are in no queue and their
`original_queue` is a level.  Hence a PCB put to sleep by `sleep(X, lk)` is
back at the level it had before sleeping. -/
theorem C7_wakeup_restores (cfg : Config) (k : Kernel) (chan : Option Nat)
    (ql : Int → List Nat) (hwf : queues_wf k ql)
    (hw : ∀ i, i < cfg.NPROC → wakes k chan i →
      (k.proc i).original_queue ∈ scan_levels ∧ ∀ M ∈ scan_levels, i ∉ ql M) :
    (∀ p, p < cfg.NPROC → wakes k chan p →
      ((wakeup cfg k chan).proc p).state = procstate.RUNNABLE ∧
      ((wakeup cfg k chan).proc p).queue_level = (k.proc p).original_queue ∧
      ((k.proc p).original_queue = 0 →
        ((wakeup cfg k chan).proc p).remaining_ticks = cfg.Q0_TICKS) ∧
      ((k.proc p).original_queue = 1 →
        ((wakeup cfg k chan).proc p).remaining_ticks = cfg.Q1_TICKS) ∧
      ((k.proc p).original_queue = 2 →
        ((wakeup cfg k chan).proc p).remaining_ticks = cfg.Q2_TICKS)) ∧
    queues_wf (wakeup cfg k chan)
      (fun L => ql L ++ (List.range cfg.NPROC).filter
        (fun i => decide (wakes k chan i ∧ (k.proc i).original_queue = L))) ∧
    (∀ fuel k0 c, myproc k0 = some c → c < cfg.NPROC → sleep fuel k0 chan = some k →
      ((wakeup cfg k chan).proc c).state = procstate.RUNNABLE ∧
      ((wakeup cfg k chan).proc c).queue_level = (k0.proc c).queue_level) := by
  have hdata : ∀ p, p < cfg.NPROC → wakes k chan p →
      proc_data ((wakeup cfg k chan).proc p) = proc_data (wake_proc cfg (k.proc p)) := by
    intro p hp hwp
    unfold wakeup
    rw [wakeup_fold_data cfg chan _ k p (List.nodup_range _),
      if_pos ⟨List.mem_range.mpr hp, hwp⟩]
  refine ⟨?_, ?_, ?_⟩
  · intro p hp hwp
    have hd := hdata p hp hwp
    refine ⟨?_, ?_, ?_, ?_, ?_⟩
    · rw [data_state hd, wake_proc_state]
    · rw [data_queue_level hd, wake_proc_queue_level]
    · intro h0; rw [data_remaining_ticks hd, wake_proc_ticks0 cfg _ h0]
    · intro h1; rw [data_remaining_ticks hd, wake_proc_ticks1 cfg _ h1]
    · intro h2; rw [data_remaining_ticks hd, wake_proc_ticks2 cfg _ h2]
  · unfold wakeup
    exact wakeup_fold_wf cfg chan _ k ql (List.nodup_range _) hwf
      (fun i hi hwi => hw i (List.mem_range.mp hi) hwi)
  · intro fuel k0 c hc hlt hs
    obtain ⟨hcpu, hst, hch, hoq, _⟩ := sleep_result hc hs
    have hwc : wakes k chan c := by
      unfold wakes myproc
      rw [hcpu]
      exact ⟨by simp, hst, hch⟩
    have hd := hdata c hlt hwc
    refine ⟨?_, ?_⟩
    · rw [data_state hd, wake_proc_state]
    · rw [data_queue_level hd, wake_proc_queue_level, hoq]

/-- C7 at the concrete table `demo_sleeper`: the wake-up of channel 7 by the
running slot 0 makes slot 1 `RUNNABLE` at its level 1 with the level 1 quantum
and the only member of the level 1 queue; the level 0 queue still holds slot 2. -/
theorem C7_wakeup_restores_witness :
    ((wakeup cfg4 demo_sleeper (some 7)).proc 1).state = procstate.RUNNABLE ∧
    ((wakeup cfg4 demo_sleeper (some 7)).proc 1).queue_level = 1 ∧
    ((wakeup cfg4 demo_sleeper (some 7)).proc 1).remaining_ticks = 6 ∧
    queue_is (wakeup cfg4 demo_sleeper (some 7)) 1 [1] ∧
    queue_is (wakeup cfg4 demo_sleeper (some 7)) 0 [2] :=
  have h := C7_wakeup_restores cfg4 demo_sleeper (some 7) (fun L => if L = 0 then [2] else [])
    (by decide) (by decide)
  have h1 := h.1 1 (by decide) (by decide)
  ⟨h1.1, h1.2.1, h1.2.2.2.1 (by decide), h.2.1.1 1 (by decide), h.2.1.1 0 (by decide)⟩

/-- C8: `wakeup(X)` leaves `state`, `queue_level`, `remaining_ticks`,
`original_queue`, `chan` and `killed` (and pid, parent, exit status) of every
PCB that the loop guard rejects: the caller itself, every PCB that is not
`SLEEPING`, every PCB whose `chan` differs from `X`.  On well-formed queues
whose woken PCBs are unlinked, such a PCB is a member of a level's queue after
the call exactly if it was before.  When the guard rejects every slot of the
table the globals, the three queues included, are unchanged. -/
theorem C8_wakeup_frame (cfg : Config) (k : Kernel) (chan : Option Nat) :
    (∀ j, ¬ wakes k chan j →
      ((wakeup cfg k chan).proc j).state = (k.proc j).state ∧
      ((wakeup cfg k chan).proc j).queue_level = (k.proc j).queue_level ∧
      ((wakeup cfg k chan).proc j).remaining_ticks = (k.proc j).remaining_ticks ∧
      ((wakeup cfg k chan).proc j).original_queue = (k.proc j).original_queue ∧
      ((wakeup cfg k chan).proc j).chan = (k.proc j).chan ∧
      ((wakeup cfg k chan).proc j).killed = (k.proc j).killed ∧
      ((wakeup cfg k chan).proc j).pid = (k.proc j).pid ∧
      ((wakeup cfg k chan).proc j).parent = (k.proc j).parent ∧
      ((wakeup cfg k chan).proc j).xstate = (k.proc j).xstate) ∧
    (∀ ql, queues_wf k ql →
      (∀ i, i < cfg.NPROC → wakes k chan i →
        (k.proc i).original_queue ∈ scan_levels ∧ ∀ M ∈ scan_levels, i ∉ ql M) →
      ∀ L ∈ scan_levels, ∃ l, queue_is (wakeup cfg k chan) L l ∧
        ∀ j, ¬ wakes k chan j → (j ∈ l ↔ j ∈ ql L)) ∧
    ((∀ i, i < cfg.NPROC → ¬ wakes k chan i) → wakeup cfg k chan = k) := by
  refine ⟨?_, ?_, ?_⟩
  · intro j hj
    have hd : proc_data ((wakeup cfg k chan).proc j) = proc_data (k.proc j) := by
      unfold wakeup
      rw [wakeup_fold_data cfg chan _ k j (List.nodup_range _), if_neg (fun h => hj h.2)]
    exact ⟨data_state hd, data_queue_level hd, data_remaining_ticks hd,
      data_original_queue hd, data_chan hd, data_killed hd, data_pid hd, data_parent hd,
      data_xstate hd⟩
  · intro ql hwf hw L hL
    have h := wakeup_fold_wf cfg chan (List.range cfg.NPROC) k ql (List.nodup_range _) hwf
      (fun i hi hwi => hw i (List.mem_range.mp hi) hwi)
    refine ⟨_, h.1 L hL, ?_⟩
    intro j hj
    simp only [List.mem_append, List.mem_filter, decide_eq_true_eq]
    constructor
    · rintro (hm | ⟨_, hwj, _⟩)
      · exact hm
      · exact absurd hwj hj
    · intro hm; exact Or.inl hm
  · intro hnone
    unfold wakeup
    exact wakeup_fold_id cfg chan _ k (fun i hi => hnone i (List.mem_range.mp hi))

/-- C8 at the concrete table `demo_sleeper`: a wake-up on channel 9, on which
nobody sleeps, changes nothing; a wake-up on channel 7 leaves the runnable slot
2 with its state and quantum. -/
theorem C8_wakeup_frame_witness :
    wakeup cfg4 demo_sleeper (some 9) = demo_sleeper ∧
    ((wakeup cfg4 demo_sleeper (some 7)).proc 2).state = procstate.RUNNABLE ∧
    ((wakeup cfg4 demo_sleeper (some 7)).proc 2).remaining_ticks = 3 :=
  ⟨(C8_wakeup_frame cfg4 demo_sleeper (some 9)).2.2 (by decide),
    ((C8_wakeup_frame cfg4 demo_sleeper (some 7)).1 2 (by decide)).1,
    ((C8_wakeup_frame cfg4 demo_sleeper (some 7)).1 2 (by decide)).2.2.1⟩

/-! ## `sleep` -/

/-- C6: when the current process `c` calls `sleep(chan, lk)` at level `L`
(a valid level, well-formed queues, `c` in no queue of another level, enough
fuel for the search loop), the call reaches `sched()`, and there `c` is
`SLEEPING` on `chan` with `original_queue = L` and `queue_level = L`, the
queues are well formed and `c` is in none of the three; the queue of level `L`
is the old one without `c`, the other two are as before. -/
theorem C6_sleep_body (fuel : Nat) (k : Kernel) (chan : Option Nat) (c : Nat)
    (ql : Int → List Nat) (hc : myproc k = some c) (hwf : queues_wf k ql)
    (hL : (k.proc c).queue_level ∈ scan_levels)
    (hother : ∀ M ∈ scan_levels, M ≠ (k.proc c).queue_level → c ∉ ql M)
    (hf : (ql (k.proc c).queue_level).length < fuel) :
    ∃ k', sleep_body fuel k chan = some k' ∧
      (k'.proc c).state = procstate.SLEEPING ∧
      (k'.proc c).chan = chan ∧
      (k'.proc c).original_queue = (k.proc c).queue_level ∧
      (k'.proc c).queue_level = (k.proc c).queue_level ∧
      queues_wf k' (setAt ql (k.proc c).queue_level ((ql (k.proc c).queue_level).erase c)) ∧
      (∀ M ∈ scan_levels,
        c ∉ setAt ql (k.proc c).queue_level ((ql (k.proc c).queue_level).erase c) M) := by
  have hmid : queues_wf
      ({ k with proc := (setAt k.proc c
          { k.proc c with chan := chan, state := procstate.SLEEPING,
                           original_queue := (k.proc c).queue_level }) } : Kernel) ql := by
    refine @queues_wf_congr k _ ql rfl ?_ hwf
    intro x
    show (setAt k.proc c _ x).next_in_queue = _
    by_cases hx : x = c
    · subst hx; rw [setAt_same]
    · rw [setAt_ne _ _ hx]
  obtain ⟨k', hk', hq, hdata, _⟩ := queues_wf_remove hmid hL c fuel hother hf
  have hbody : sleep_body fuel k chan = some k' := by
    unfold sleep_body
    rw [hc]
    simp only [setAt_same]
    have he : setAt (setAt k.proc c
        { k.proc c with chan := chan, state := procstate.SLEEPING }) c
          { k.proc c with chan := chan, state := procstate.SLEEPING,
                           original_queue := (k.proc c).queue_level }
        = setAt k.proc c
          { k.proc c with chan := chan, state := procstate.SLEEPING,
                           original_queue := (k.proc c).queue_level } := by
      funext j
      by_cases hj : j = c
      · subst hj; rw [setAt_same, setAt_same]
      · rw [setAt_ne _ _ hj, setAt_ne _ _ hj, setAt_ne _ _ hj]
    rw [he]
    exact hk'
  have hdc := hdata c
  simp only [setAt_same] at hdc
  have h1 : (k'.proc c).state = procstate.SLEEPING := data_state hdc
  have h2 : (k'.proc c).chan = chan := data_chan hdc
  have h3 : (k'.proc c).original_queue = (k.proc c).queue_level := data_original_queue hdc
  have h4 : (k'.proc c).queue_level = (k.proc c).queue_level := by
    have := data_queue_level hdc
    exact this
  refine ⟨k', hbody, h1, h2, h3, h4, hq, ?_⟩
  intro M hM
  by_cases hML : M = (k.proc c).queue_level
  · subst hML
    rw [setAt_same]
    exact fun hm => (List.Nodup.mem_erase_iff (queue_is_nodup (hwf.1 _ hM))).mp hm |>.1 rfl
  · rw [setAt_ne _ _ hML]
    exact hother M hM hML

/-- C6 at the concrete table `demo_sleeper`: the running slot 0 sleeps on
channel 9 at its level 0; at `sched()` it is `SLEEPING` with
`original_queue = 0`, and the level 0 queue still holds slot 2 only. -/
theorem C6_sleep_body_witness :
    ∃ k', sleep_body 5 demo_sleeper (some 9) = some k' ∧
      (k'.proc 0).state = procstate.SLEEPING ∧
      (k'.proc 0).chan = some 9 ∧
      (k'.proc 0).original_queue = 0 ∧
      (k'.proc 0).queue_level = 0 ∧
      queue_is k' 0 [2] :=
  have h := C6_sleep_body 5 demo_sleeper (some 9) 0 (fun L => if L = 0 then [2] else [])
    (by decide) (by decide) (by decide) (by decide) (by decide)
  h.elim fun k' hk => ⟨k', hk.1, hk.2.1, hk.2.2.1, hk.2.2.2.1, hk.2.2.2.2.1,
    hk.2.2.2.2.2.1.1 0 (by decide)⟩

/-! ## `allocproc` and `kfork` -/

theorem queues_wf_of_eq {k k' : Kernel} {ql : Int → List Nat} (h : queues_wf k ql)
    (hq : k'.queues = k.queues)
    (hn : ∀ x, (k'.proc x).next_in_queue = (k.proc x).next_in_queue) : queues_wf k' ql :=
  queues_wf_congr hq hn h

/-- A store into one PCB that keeps its link keeps the queues. -/
theorem queues_wf_store {k : Kernel} {ql : Int → List Nat} (h : queues_wf k ql) (i : Nat)
    (v : proc) (hv : v.next_in_queue = (k.proc i).next_in_queue) :
    queues_wf { k with proc := setAt k.proc i v } ql := by
  refine queues_wf_of_eq h rfl ?_
  intro x
  show (setAt k.proc i v x).next_in_queue = _
  by_cases hx : x = i
  · subst hx; rw [setAt_same, hv]
  · rw [setAt_ne _ _ hx]

theorem store_data_ne (ps : Nat → proc) {i j : Nat} (v : proc) (hj : j ≠ i) :
    proc_data (setAt ps i v j) = proc_data (ps j) := by
  rw [setAt_ne _ _ hj]

/-- `allocproc` with both allocations succeeding: it claims the first `UNUSED`
slot `i`, which must not be in a queue, appends it to the level 0 queue and
leaves it `USED` at level 0 with the level 0 quantum and the next pid. -/
theorem allocproc_success (cfg : Config) (tf pt : Nat) (k : Kernel) (i : Nat)
    (ql : Int → List Nat)
    (hfind : (List.range cfg.NPROC).find?
      (fun j => decide ((k.proc j).state = procstate.UNUSED)) = some i)
    (hwf : queues_wf k ql) (hfree : ∀ M ∈ scan_levels, i ∉ ql M) :
    ∃ k', allocproc cfg (some tf) (some pt) k = (some i, k') ∧
      queues_wf k' (setAt ql 0 (ql 0 ++ [i])) ∧
      (k'.proc i).state = procstate.USED ∧ (k'.proc i).pid = k.nextpid ∧
      (k'.proc i).queue_level = 0 ∧ (k'.proc i).remaining_ticks = cfg.Q0_TICKS ∧
      (k'.proc i).original_queue = 0 ∧
      (∀ j, j ≠ i → proc_data (k'.proc j) = proc_data (k.proc j)) ∧
      k'.nextpid = wrap32 (k.nextpid + 1) ∧ k'.cpu_proc = k.cpu_proc ∧
      k'.initproc = k.initproc ∧ k'.promote_needed = k.promote_needed := by
  have h0 : (0 : Int) ∈ scan_levels := by decide
  -- the state after the assignments at `found:`
  obtain ⟨k2, hk2⟩ : ∃ k2 : Kernel, k2 =
      { k with nextpid := wrap32 (k.nextpid + 1), proc := (setAt k.proc i
          { k.proc i with pid := k.nextpid, state := procstate.USED, queue_level := 0,
                           remaining_ticks := cfg.Q0_TICKS, original_queue := 0 }) } := ⟨_, rfl⟩
  have hmid : queues_wf k2 ql := by
    rw [hk2]
    refine queues_wf_of_eq hwf rfl ?_
    intro x
    simp only
    by_cases hx : x = i
    · subst hx; simp only [setAt_same]
    · rw [setAt_ne _ _ hx]
  obtain ⟨k3, hk3⟩ : ∃ k3 : Kernel, k3 = enqueue_proc k2 (some i) 0 := ⟨_, rfl⟩
  have henq : queues_wf k3 (setAt ql 0 (ql 0 ++ [i])) := by
    rw [hk3]; exact queues_wf_enqueue hmid h0 hfree
  have hd : ∀ j, proc_data (k3.proc j) = proc_data (k2.proc j) := by
    intro j; rw [hk3]; exact enqueue_proc_data _ _ _ _
  have hdi : proc_data (k3.proc i) = proc_data
      { k.proc i with pid := k.nextpid, state := procstate.USED, queue_level := 0,
                       remaining_ticks := cfg.Q0_TICKS, original_queue := 0 } := by
    rw [hd i, hk2]
    simp only [setAt_same]
  have halloc : allocproc cfg (some tf) (some pt) k = (some i,
      { k3 with proc := (setAt (setAt k3.proc i { k3.proc i with trapframe := some tf }) i
        { k3.proc i with trapframe := some tf, pagetable := some pt }) }) := by
    simp only [allocproc, hfind, allocpid, setAt_same]
    rw [← hk2, ← hk3]
  refine ⟨_, halloc, ?_, ?_, ?_, ?_, ?_, ?_, ?_, ?_, ?_, ?_, ?_⟩
  · refine queues_wf_of_eq henq rfl ?_
    intro x
    simp only
    by_cases hx : x = i
    · subst hx; simp only [setAt_same]
    · rw [setAt_ne _ _ hx, setAt_ne _ _ hx]
  · simp only [setAt_same]
    exact data_state hdi
  · simp only [setAt_same]
    exact data_pid hdi
  · simp only [setAt_same]
    exact data_queue_level hdi
  · simp only [setAt_same]
    exact data_remaining_ticks hdi
  · simp only [setAt_same]
    exact data_original_queue hdi
  · intro j hj
    simp only
    rw [setAt_ne _ _ hj, setAt_ne _ _ hj, hd j, hk2]
    simp only
    rw [setAt_ne _ _ hj]
  · simp only; rw [hk3, enqueue_proc_nextpid, hk2]
  · simp only; rw [hk3, enqueue_proc_cpu_proc, hk2]
  · simp only; rw [hk3, enqueue_proc_initproc, hk2]
  · simp only; rw [hk3, enqueue_proc_promote_needed, hk2]

/-- `kfork` with every collaborator succeeding: the child is the first
`UNUSED` slot; it ends `RUNNABLE` at level 0 with the level 0 quantum at the
tail of the level 0 queue, and the call returns the child's pid. -/
theorem kfork_success (cfg : Config) (tf pt : Nat) (k : Kernel) (p i : Nat)
    (ql : Int → List Nat) (hp : myproc k = some p)
    (hfind : (List.range cfg.NPROC).find?
      (fun j => decide ((k.proc j).state = procstate.UNUSED)) = some i)
    (hwf : queues_wf k ql) (hfree : ∀ M ∈ scan_levels, i ∉ ql M) :
    ∃ k', kfork cfg (some tf) (some pt) true k = some (k.nextpid, k') ∧
      queues_wf k' (setAt ql 0 (ql 0 ++ [i])) ∧
      (k'.proc i).state = procstate.RUNNABLE ∧ (k'.proc i).pid = k.nextpid ∧
      (k'.proc i).queue_level = 0 ∧ (k'.proc i).remaining_ticks = cfg.Q0_TICKS ∧
      (k'.proc i).original_queue = 0 ∧ (k'.proc i).parent = some p ∧
      (∀ j, j ≠ i → proc_data (k'.proc j) = proc_data (k.proc j)) ∧
      k'.nextpid = wrap32 (k.nextpid + 1) ∧ k'.cpu_proc = k.cpu_proc ∧
      k'.initproc = k.initproc ∧ k'.promote_needed = k.promote_needed := by
  obtain ⟨k1, hk1, hq, hst, hpid, hlv, htk, hoq, hdata, hnp, hcpu, hinit, hprom⟩ :=
    allocproc_success cfg tf pt k i ql hfind hwf hfree
  have hfork : kfork cfg (some tf) (some pt) true k = some (k.nextpid,
      { k1 with proc := (setAt (setAt (setAt k1.proc i
          { k1.proc i with sz := (k1.proc p).sz }) i
          { k1.proc i with sz := (k1.proc p).sz, parent := some p }) i
          { k1.proc i with sz := (k1.proc p).sz, parent := some p,
                            state := procstate.RUNNABLE }) }) := by
    simp only [kfork, hp, hk1, setAt_same, Bool.true_eq_false, if_false, hpid]
  refine ⟨_, hfork, ?_, ?_, ?_, ?_, ?_, ?_, ?_, ?_, hnp, hcpu, hinit, hprom⟩
  · refine queues_wf_of_eq hq rfl ?_
    intro x
    simp only
    by_cases hx : x = i
    · subst hx; simp only [setAt_same]
    · rw [setAt_ne _ _ hx, setAt_ne _ _ hx, setAt_ne _ _ hx]
  · simp only [setAt_same]
  · simp only [setAt_same]; exact hpid
  · simp only [setAt_same]; exact hlv
  · simp only [setAt_same]; exact htk
  · simp only [setAt_same]; exact hoq
  · simp only [setAt_same]
  · intro j hj
    simp only
    rw [setAt_ne _ _ hj, setAt_ne _ _ hj, setAt_ne _ _ hj]
    exact hdata j hj


/-- After a slot has left the state `UNUSED` and no other slot changed state,
the list of `UNUSED` slots in table order has lost its head. -/
theorem unused_after_claim (n : Nat) (k k' : Kernel) (i : Nat) (rest : List Nat)
    (hdata : ∀ j, j ≠ i → proc_data (k'.proc j) = proc_data (k.proc j))
    (hi : (k'.proc i).state ≠ procstate.UNUSED)
    (hl : (List.range n).filter (fun j => decide ((k.proc j).state = procstate.UNUSED))
      = i :: rest) :
    (List.range n).filter (fun j => decide ((k'.proc j).state = procstate.UNUSED)) = rest := by
  have hnd : (i :: rest).Nodup := by
    rw [← hl]; exact (List.nodup_range n).filter _
  have hirest : i ∉ rest := (List.nodup_cons.mp hnd).1
  have h1 : (List.range n).filter (fun j => decide ((k'.proc j).state = procstate.UNUSED))
      = ((List.range n).filter (fun j => decide ((k.proc j).state = procstate.UNUSED))).filter
          (fun j => decide (j ≠ i)) := by
    rw [List.filter_filter]
    apply List.filter_congr
    intro j _
    by_cases hj : j = i
    · subst hj; simp [hi]
    · rw [data_state (hdata j hj)]; simp [hj]
  rw [h1, hl, List.filter_cons_of_neg (by simp)]
  exact List.filter_eq_self.mpr (fun a ha => by
    have : a ≠ i := fun e => hirest (e ▸ ha)
    simpa using this)

/-- Three forks into slots that are in no queue.  Let the `UNUSED` slots in
table order start with `c1, c2, c3`, let the queues be well formed with level 0
holding `ql 0`, and let those three slots be in no queue.  Three consecutive
`kfork` calls of the current process, with the collaborators succeeding, create
the children in the slots `c1, c2, c3`; each call returns the pid of its child
(the value of `nextpid` at the call); after the third call every child is
`RUNNABLE` at `queue_level` 0 with `remaining_ticks = Q0_TICKS`, and the level
0 queue holds its previous list followed by `c1, c2, c3`. -/
theorem kfork_three_unlinked (cfg : Config) (k : Kernel) (ql : Int → List Nat) (p c1 c2 c3 : Nat)
    (rest : List Nat) (tf1 pt1 tf2 pt2 tf3 pt3 : Nat)
    (hp : myproc k = some p)
    (hunused : (List.range cfg.NPROC).filter
      (fun j => decide ((k.proc j).state = procstate.UNUSED)) = c1 :: c2 :: c3 :: rest)
    (hwf : queues_wf k ql)
    (hfree : ∀ c ∈ [c1, c2, c3], ∀ M ∈ scan_levels, c ∉ ql M) :
    ∃ k1 k2 k3,
      kfork cfg (some tf1) (some pt1) true k = some (k.nextpid, k1) ∧
      kfork cfg (some tf2) (some pt2) true k1 = some (k1.nextpid, k2) ∧
      kfork cfg (some tf3) (some pt3) true k2 = some (k2.nextpid, k3) ∧
      (k3.proc c1).pid = k.nextpid ∧ (k3.proc c2).pid = k1.nextpid ∧
      (k3.proc c3).pid = k2.nextpid ∧
      (∀ c ∈ [c1, c2, c3], (k3.proc c).state = procstate.RUNNABLE ∧
        (k3.proc c).queue_level = 0 ∧ (k3.proc c).remaining_ticks = cfg.Q0_TICKS ∧
        (k3.proc c).parent = some p) ∧
      queues_wf k3 (setAt ql 0 (ql 0 ++ [c1, c2, c3])) := by
  have hnd : (c1 :: c2 :: c3 :: rest).Nodup := by
    rw [← hunused]; exact (List.nodup_range _).filter _
  have h12 : c1 ≠ c2 := by
    intro e; simp [e] at hnd
  have h13 : c1 ≠ c3 := by
    intro e; simp [e] at hnd
  have h23 : c2 ≠ c3 := by
    intro e; simp [e] at hnd
  have hfind : ∀ (kk : Kernel) (c : Nat) (r : List Nat),
      (List.range cfg.NPROC).filter
        (fun j => decide ((kk.proc j).state = procstate.UNUSED)) = c :: r →
      (List.range cfg.NPROC).find?
        (fun j => decide ((kk.proc j).state = procstate.UNUSED)) = some c := by
    intro kk c r h
    rw [← List.filter_head?, h]; rfl
  -- first call
  obtain ⟨k1, hk1, hq1, hst1, hpid1, hlv1, htk1, _, hpar1, hd1, _, hcpu1, _, _⟩ :=
    kfork_success cfg tf1 pt1 k p c1 ql hp (hfind k c1 _ hunused) hwf
      (hfree c1 (by simp))
  have hun1 := unused_after_claim cfg.NPROC k k1 c1 _ hd1 (by rw [hst1]; simp) hunused
  have hp1 : myproc k1 = some p := by
    unfold myproc at hp ⊢; rw [hcpu1]; exact hp
  -- second call
  obtain ⟨k2, hk2, hq2, hst2, hpid2, hlv2, htk2, _, hpar2, hd2, _, hcpu2, _, _⟩ :=
    kfork_success cfg tf2 pt2 k1 p c2 _ hp1 (hfind k1 c2 _ hun1) hq1 (by
      intro M hM hm
      by_cases hM0 : M = 0
      · subst hM0
        rw [setAt_same] at hm
        rcases List.mem_append.mp hm with hm | hm
        · exact hfree c2 (by simp) 0 hM hm
        · exact h12 (List.mem_singleton.mp hm).symm
      · rw [setAt_ne _ _ hM0] at hm
        exact hfree c2 (by simp) M hM hm)
  have hun2 := unused_after_claim cfg.NPROC k1 k2 c2 _ hd2 (by rw [hst2]; simp) hun1
  have hp2 : myproc k2 = some p := by
    unfold myproc at hp1 ⊢; rw [hcpu2]; exact hp1
  -- third call
  obtain ⟨k3, hk3, hq3, hst3, hpid3, hlv3, htk3, _, hpar3, hd3, _, _, _, _⟩ :=
    kfork_success cfg tf3 pt3 k2 p c3 _ hp2 (hfind k2 c3 _ hun2) hq2 (by
      intro M hM hm
      by_cases hM0 : M = 0
      · subst hM0
        rw [setAt_same, setAt_same] at hm
        rcases List.mem_append.mp hm with hm | hm
        · rcases List.mem_append.mp hm with hm | hm
          · exact hfree c3 (by simp) 0 hM hm
          · exact h13 (List.mem_singleton.mp hm).symm
        · exact h23 (List.mem_singleton.mp hm).symm
      · rw [setAt_ne _ _ hM0, setAt_ne _ _ hM0] at hm
        exact hfree c3 (by simp) M hM hm)
  have e13 := hd3 c1 h13
  have e12 := hd2 c1 h12
  have e23 := hd3 c2 h23
  refine ⟨k1, k2, k3, hk1, hk2, hk3, ?_, ?_, hpid3, ?_, ?_⟩
  · rw [data_pid e13, data_pid e12, hpid1]
  · rw [data_pid e23, hpid2]
  · intro c hc
    simp only [List.mem_cons, List.mem_singleton, List.not_mem_nil, or_false] at hc
    rcases hc with rfl | rfl | rfl
    · exact ⟨by rw [data_state e13, data_state e12, hst1],
        by rw [data_queue_level e13, data_queue_level e12, hlv1],
        by rw [data_remaining_ticks e13, data_remaining_ticks e12, htk1],
        by rw [data_parent e13, data_parent e12, hpar1]⟩
    · exact ⟨by rw [data_state e23, hst2], by rw [data_queue_level e23, hlv2],
        by rw [data_remaining_ticks e23, htk2], by rw [data_parent e23, hpar2]⟩
    · exact ⟨hst3, hlv3, htk3, hpar3⟩
  · have hfun : setAt (setAt (setAt ql 0 (ql 0 ++ [c1])) 0
          (setAt ql 0 (ql 0 ++ [c1]) 0 ++ [c2])) 0
          (setAt (setAt ql 0 (ql 0 ++ [c1])) 0 (setAt ql 0 (ql 0 ++ [c1]) 0 ++ [c2]) 0 ++ [c3])
        = setAt ql 0 (ql 0 ++ [c1, c2, c3]) := by
      funext L
      by_cases hL : L = 0
      · subst hL; simp only [setAt_same]; simp
      · simp only [setAt_ne _ _ hL]
    rw [← hfun]
    exact hq3

/-- Three forks at the concrete table `demo_sleeper` enlarged to six slots:
slot 0 forks three times; the children are the slots 3, 4, 5 with the pids 4,
5, 6, and the level 0 queue holds its old member 2 followed by 3, 4, 5. -/
theorem kfork_three_unlinked_witness :
    ∃ k1 k2 k3,
      kfork { cfg4 with NPROC := 6 } (some 1) (some 2) true demo_sleeper = some (4, k1) ∧
      kfork { cfg4 with NPROC := 6 } (some 3) (some 4) true k1 = some (k1.nextpid, k2) ∧
      kfork { cfg4 with NPROC := 6 } (some 5) (some 6) true k2 = some (k2.nextpid, k3) ∧
      (k3.proc 3).state = procstate.RUNNABLE ∧ (k3.proc 4).state = procstate.RUNNABLE ∧
      (k3.proc 5).state = procstate.RUNNABLE ∧ queue_is k3 0 [2, 3, 4, 5] :=
  have h := kfork_three_unlinked { cfg4 with NPROC := 6 } demo_sleeper
    (fun L => if L = 0 then [2] else []) 0 3 4 5 [] 1 2 3 4 5 6
    (by decide) (by decide) (by decide) (by decide)
  h.elim fun k1 h1 => h1.elim fun k2 h2 => h2.elim fun k3 h3 =>
    ⟨k1, k2, k3, h3.1, h3.2.1, h3.2.2.1,
      (h3.2.2.2.2.2.2.1 3 (by decide)).1, (h3.2.2.2.2.2.2.1 4 (by decide)).1,
      (h3.2.2.2.2.2.2.1 5 (by decide)).1, h3.2.2.2.2.2.2.2.1 0 (by decide)⟩

/-! ## `promote_processes` -/

theorem getLast?_append_cons (a : List Nat) (c : Nat) (r : List Nat) :
    (a ++ c :: r).getLast? = (c :: r).getLast? :=
  List.getLast?_append_of_ne_nil a (by simp)

/-- The first loop of `promote_processes` on a well-formed queue.  `kept` are
the members already passed and left in the queue, `rem` the members still to
visit, `moved` the local list gathered so far. -/
theorem promote_sweep_spec (level : Int) (R : Nat → Bool) :
    ∀ (rem kept moved : List Nat) (fuel : Nat) (k : Kernel) (v : sweep_vars),
      (∀ x, R x = true ↔ (k.proc x).state = procstate.RUNNABLE) →
      chain k.proc (k.queues level).head (kept ++ rem) →
      (k.queues level).tail = (kept ++ rem).getLast? →
      v.prev = kept.getLast? → v.current = rem.head? →
      chain k.proc v.to_promote_head moved → v.to_promote_tail = moved.getLast? →
      (∀ x ∈ moved, x ∉ kept ++ rem) →
      rem.length < fuel →
      ∃ k' v', promote_sweep level fuel k v = some (k', v') ∧
        queue_is k' level (kept ++ rem.filter (fun x => !R x)) ∧
        chain k'.proc v'.to_promote_head (moved ++ rem.filter R) ∧
        (∀ j, proc_data (k'.proc j) = proc_data (k.proc j)) ∧
        (∀ j, j ∉ kept ++ rem → j ∉ moved → k'.proc j = k.proc j) ∧
        (∀ lv, lv ≠ level → k'.queues lv = k.queues lv) ∧
        k'.nextpid = k.nextpid ∧ k'.initproc = k.initproc ∧ k'.cpu_proc = k.cpu_proc ∧
        k'.promote_needed = k.promote_needed
  | [], kept, moved, fuel, k, v, _, hq, ht, _, hcur, hm, _, _, hf => by
    cases fuel with
    | zero => simp at hf
    | succ f =>
      simp only [List.head?_nil] at hcur
      refine ⟨k, v, by simp only [promote_sweep, hcur], ?_, ?_, fun _ => rfl, fun _ _ _ => rfl,
        fun _ _ => rfl, rfl, rfl, rfl, rfl⟩
      · simpa [queue_is] using And.intro hq ht
      · simpa using hm
  | c :: rem, kept, moved, fuel, k, v, hR, hq, ht, hprev, hcur, hm, hmt, hdisj, hf => by
    cases fuel with
    | zero => simp at hf
    | succ f =>
      have hf' : rem.length < f := by simpa using hf
      simp only [List.head?_cons] at hcur
      have hnd : (kept ++ c :: rem).Nodup := chain_nodup _ _ _ hq
      have hndm : moved.Nodup := chain_nodup _ _ _ hm
      have hcsplit := chain_split k.proc kept rem _ c hq
      rw [chain_cons] at hcsplit
      have hnext : chain k.proc (k.proc c).next_in_queue rem := hcsplit.2
      have hck : c ∉ kept := by
        intro h
        exact (List.nodup_append.mp hnd).2.2 h (List.mem_cons_self _ _) 
      have hcr : c ∉ rem := (List.nodup_cons.mp (List.nodup_append.mp hnd).2.1).1
      have hcm : c ∉ moved := fun h => hdisj c h (by simp)
      by_cases hst : (k.proc c).state = procstate.RUNNABLE
      · -- `c` is unlinked and appended to the local list
        have hRc : R c = true := (hR c).mpr hst
        have hpvk : ∀ pv, v.prev = some pv → pv ∈ kept := by
          intro pv h
          rw [hprev] at h
          exact List.mem_of_getLast?_eq_some h
        have htm : ∀ t, v.to_promote_tail = some t → t ∈ moved := by
          intro t h
          rw [hmt] at h
          exact List.mem_of_getLast?_eq_some h
        obtain ⟨PS, hPS⟩ : ∃ PS : Nat → proc, PS =
            (match v.to_promote_tail with
              | none => setNext (match v.prev with
                  | none => k.proc
                  | some pv => setNext k.proc pv (k.proc c).next_in_queue) c none
              | some t => setNext (setNext (match v.prev with
                  | none => k.proc
                  | some pv => setNext k.proc pv (k.proc c).next_in_queue) c none) t
                  (some c)) := ⟨_, rfl⟩
        obtain ⟨Q1, hQ1⟩ : ∃ Q1 : proc_queue, Q1 =
            (match v.prev with
              | none => ⟨(k.proc c).next_in_queue, (k.queues level).tail⟩
              | some _ => k.queues level) := ⟨_, rfl⟩
        obtain ⟨Q2, hQ2⟩ : ∃ Q2 : proc_queue, Q2 =
            (if Q1.tail = some c then ⟨Q1.head, v.prev⟩ else Q1) := ⟨_, rfl⟩
        obtain ⟨HD, hHD⟩ : ∃ HD : Option Nat, HD =
            (match v.to_promote_tail with
              | none => some c
              | some _ => v.to_promote_head) := ⟨_, rfl⟩
        have hstep : promote_sweep level (f + 1) k v =
            promote_sweep level f { k with queues := setAt k.queues level Q2, proc := PS }
              { prev := v.prev, current := (k.proc c).next_in_queue, to_promote_head := HD,
                to_promote_tail := some c } := by
          simp only [promote_sweep, hcur, if_pos hst, hPS, hQ2, hQ1, hHD]
        have F_data : ∀ j, proc_data (PS j) = proc_data (k.proc j) := by
          intro j
          rw [hPS]
          cases v.to_promote_tail <;> cases v.prev <;> simp only [setNext_data]
        have F_frame : ∀ j, j ≠ c → (∀ pv, v.prev = some pv → j ≠ pv) →
            (∀ t, v.to_promote_tail = some t → j ≠ t) → PS j = k.proc j := by
          intro j hjc hjk hjm
          rw [hPS]
          cases hpv : v.prev with
          | none =>
            cases htl : v.to_promote_tail with
            | none => simp only [setNext_ne _ _ hjc]
            | some t =>
              have hjt : j ≠ t := hjm t htl
              simp only [setNext_ne _ _ hjc, setNext_ne _ _ hjt]
          | some pv =>
            have hjp : j ≠ pv := hjk pv hpv
            cases htl : v.to_promote_tail with
            | none => simp only [setNext_ne _ _ hjc, setNext_ne _ _ hjp]
            | some t =>
              have hjt : j ≠ t := hjm t htl
              simp only [setNext_ne _ _ hjc, setNext_ne _ _ hjt, setNext_ne _ _ hjp]
        have F_c : (PS c).next_in_queue = none := by
          rw [hPS]
          cases htl : v.to_promote_tail with
          | none => simp only [setNext_next_same]
          | some t =>
            have hct : c ≠ t := fun e => hcm (e ▸ htm t htl)
            simp only [setNext_ne _ _ hct, setNext_next_same]
        have F_pv : ∀ pv, v.prev = some pv → (PS pv).next_in_queue = (k.proc c).next_in_queue := by
          intro pv hpv
          have hpc : pv ≠ c := fun e => hck (e ▸ hpvk pv hpv)
          rw [hPS]
          cases htl : v.to_promote_tail with
          | none => simp only [hpv, setNext_ne _ _ hpc, setNext_next_same]
          | some t =>
            have hpt : pv ≠ t := fun e =>
              hdisj t (htm t htl) (List.mem_append_left _ (e ▸ hpvk pv hpv))
            simp only [hpv, setNext_ne _ _ hpc, setNext_ne _ _ hpt, setNext_next_same]
        have F_t : ∀ t, v.to_promote_tail = some t → (PS t).next_in_queue = some c := by
          intro t htl
          rw [hPS]
          simp only [htl, setNext_next_same]
        have hQ1t : Q1.tail = (k.queues level).tail := by
          rw [hQ1]; cases v.prev <;> rfl
        have hremx : ∀ x ∈ rem, PS x = k.proc x := by
          intro x hx
          apply F_frame x (fun e => hcr (e ▸ hx))
          · intro pv hpv e
            exact (List.nodup_append.mp hnd).2.2 (e ▸ hpvk pv hpv) (List.mem_cons_of_mem _ hx)
          · intro t htl e
            exact hdisj x (e ▸ htm t htl) (by simp [hx])
        have ih := promote_sweep_spec level R rem kept (moved ++ [c]) f
          { k with queues := setAt k.queues level Q2, proc := PS }
          { prev := v.prev, current := (k.proc c).next_in_queue, to_promote_head := HD,
            to_promote_tail := some c }
          (by
            intro x
            rw [hR x]
            show _ ↔ (PS x).state = _
            rw [data_state (F_data x)])
          (by
            show chain PS (setAt k.queues level Q2 level).head (kept ++ rem)
            rw [setAt_same]
            rcases List.eq_nil_or_concat kept with hk | ⟨a, pv, hk⟩
            · subst hk
              have hpn : v.prev = none := by rw [hprev]; rfl
              have : Q2.head = (k.proc c).next_in_queue := by
                rw [hQ2, hQ1, hpn]; split <;> rfl
              rw [this, List.nil_append]
              exact chain_congr k.proc PS rem _ (fun x hx => by rw [hremx x hx]) hnext
            · rw [List.concat_eq_append] at hk
              subst hk
              have hpn : v.prev = some pv := by rw [hprev]; simp
              have : Q2.head = (k.queues level).head := by
                rw [hQ2, hQ1, hpn]; split <;> rfl
              rw [this, List.append_assoc, List.singleton_append]
              apply chain_unlink k.proc PS c pv rem a _ (by simpa using hq)
              · intro x hx
                have hxa : x ∈ a ++ [pv] := List.mem_append_left _ hx
                rw [F_frame x (fun e => hck (e ▸ hxa))]
                · intro pv2 hpv2 e
                  rw [hpn] at hpv2
                  have hpp : pv2 = pv := (Option.some.inj hpv2).symm
                  have hnd2 : (a ++ [pv]).Nodup := (List.nodup_append.mp hnd).1
                  exact (List.nodup_append.mp hnd2).2.2 hx (List.mem_singleton.mpr (e.trans hpp))
                · intro t htl e
                  exact hdisj x (e ▸ htm t htl) (List.mem_append_left _ hxa)
              · exact F_pv pv hpn
              · intro x hx; rw [hremx x hx])
          (by
            show (setAt k.queues level Q2 level).tail = _
            rw [setAt_same, hQ2, hQ1t, ht, getLast?_append_cons]
            cases rem with
            | nil =>
              rw [if_pos (by rfl)]
              simpa using hprev
            | cons y ys =>
              have hne : (c :: y :: ys).getLast? ≠ some c := by
                intro h
                rw [List.getLast?_cons_cons] at h
                exact hcr (List.mem_of_getLast?_eq_some h)
              rw [if_neg hne, hQ1t, ht, getLast?_append_cons, getLast?_append_cons,
                List.getLast?_cons_cons])
          hprev
          (by
            show (k.proc c).next_in_queue = rem.head?
            cases rem with
            | nil => exact hnext
            | cons y ys => exact hnext.1)
          (by
            show chain PS HD (moved ++ [c])
            rcases List.eq_nil_or_concat moved with hmv | ⟨m, t, hmv⟩
            · subst hmv
              have htn : v.to_promote_tail = none := by rw [hmt]; rfl
              rw [hHD, htn]
              simp only [List.nil_append, chain_cons, chain_nil]
              exact ⟨trivial, F_c⟩
            · rw [List.concat_eq_append] at hmv
              subst hmv
              have htn : v.to_promote_tail = some t := by rw [hmt]; simp
              rw [hHD, htn]
              apply chain_snoc k.proc PS c t m _ hm
              · intro x hx
                have hxm : x ∈ m ++ [t] := List.mem_append_left _ hx
                rw [F_frame x (fun e => hcm (e ▸ hxm))]
                · intro pv hpv e
                  exact hdisj x hxm (List.mem_append_left _ (e ▸ hpvk pv hpv))
                · intro t2 htl2 e
                  rw [htn] at htl2
                  have htt : t2 = t := (Option.some.inj htl2).symm
                  exact (List.nodup_append.mp hndm).2.2 hx (List.mem_singleton.mpr (e.trans htt))
              · exact F_t t htn
              · exact F_c)
          (by simp)
          (by
            intro x hx
            rcases List.mem_append.mp hx with hx | hx
            · have := hdisj x hx
              simp only [List.mem_append, List.mem_cons, not_or] at this ⊢
              exact ⟨this.1, this.2.2⟩
            · rw [List.mem_singleton.mp hx]
              simp only [List.mem_append, not_or]
              exact ⟨hck, hcr⟩)
          hf'
        obtain ⟨k', v', hk', h1, h2, h3, h4, h5, h6⟩ := ih
        refine ⟨k', v', by rw [hstep]; exact hk', ?_, ?_, ?_, ?_, ?_, h6⟩
        · simpa [hRc] using h1
        · simpa [hRc] using h2
        · intro j
          rw [h3 j]
          exact F_data j
        · intro j hj hjm
          have hj' : j ∉ kept ∧ j ≠ c ∧ j ∉ rem := by
            simpa [not_or] using hj
          rw [h4 j (by simp [hj'.1, hj'.2.2]) (by simp [hjm, hj'.2.1])]
          exact F_frame j hj'.2.1 (fun pv hpv e => hj'.1 (e ▸ hpvk pv hpv))
            (fun t htl e => hjm (e ▸ htm t htl))
        · intro lv hlv
          rw [h5 lv hlv]
          exact setAt_ne _ _ hlv
      · -- `c` stays
        have hRc : R c = false := by
          cases h : R c with
          | false => rfl
          | true => exact absurd ((hR c).mp h) hst
        have ih := promote_sweep_spec level R rem (kept ++ [c]) moved f k
          { prev := some c, current := (k.proc c).next_in_queue,
            to_promote_head := v.to_promote_head, to_promote_tail := v.to_promote_tail }
          hR (by simpa using hq) (by simpa using ht) (by simp)
          (by
            show (k.proc c).next_in_queue = rem.head?
            cases rem with
            | nil => exact hnext
            | cons y ys => exact hnext.1)
          hm hmt
          (by
            intro x hx
            have := hdisj x hx
            simpa using this)
          hf'
        obtain ⟨k', v', hk', h1, h2, h3, h4, h5, h6⟩ := ih
        refine ⟨k', v', ?_, ?_, ?_, h3, ?_, h5, h6⟩
        · simp only [promote_sweep, hcur, if_neg hst]
          exact hk'
        · simpa [hRc] using h1
        · simpa [hRc] using h2
        · intro j hj hjm
          exact h4 j (by simpa using hj) hjm

theorem ident_of_data {a b : proc} (h : proc_data a = proc_data b) :
    proc_ident a = proc_ident b := by
  have : proc_ident a = proc_ident (proc_data a) := rfl
  rw [this, h]; rfl

theorem ident_state {a b : proc} (h : proc_ident a = proc_ident b) : a.state = b.state := by
  have h2 := congrArg proc.state h
  exact h2

theorem ident_original_queue {a b : proc} (h : proc_ident a = proc_ident b) :
    a.original_queue = b.original_queue := by
  have h2 := congrArg proc.original_queue h
  exact h2

theorem promoted_ident (cfg : Config) (p : proc) : proc_ident (promoted cfg p) = proc_ident p :=
  rfl

theorem promoted_next (cfg : Config) (p : proc) :
    (promoted cfg p).next_in_queue = p.next_in_queue := rfl

theorem promoted_data_congr (cfg : Config) {p q : proc} (h : proc_data p = proc_data q) :
    proc_data (promoted cfg p) = proc_data (promoted cfg q) := by
  have e : ∀ r : proc, proc_data (promoted cfg r) = promoted cfg (proc_data r) := fun _ => rfl
  rw [e, e, h]

/-- `enqueue_proc` writes only the new slot and the old tail. -/
theorem enqueue_proc_frame (k : Kernel) (i : Nat) (level : Int) (j : Nat) (hji : j ≠ i)
    (hjt : ∀ t, (k.queues level).tail = some t → j ≠ t) :
    (enqueue_proc k (some i) level).proc j = k.proc j := by
  unfold enqueue_proc
  cases hh : (k.queues level).head with
  | none => simp only [setNext_ne _ _ hji]
  | some hd =>
    cases htl : (k.queues level).tail with
    | none => simp only [setNext_ne _ _ hji]
    | some t => simp only [setNext_ne _ _ hji, setNext_ne _ _ (hjt t htl)]

/-- The second loop of `promote_processes` on a local list that is disjoint
from the queues: every slot of the list is appended to level 0, and those that
are `RUNNABLE` get level 0 and the level 0 quantum. -/
theorem promote_requeue_spec (cfg : Config) :
    ∀ (rem : List Nat) (fuel : Nat) (k : Kernel) (cur : Option Nat) (ql : Int → List Nat),
      queues_wf k ql → chain k.proc cur rem →
      (∀ x ∈ rem, ∀ M ∈ scan_levels, x ∉ ql M) → rem.length < fuel →
      ∃ k', promote_requeue cfg fuel k cur = some k' ∧
        queues_wf k' (setAt ql 0 (ql 0 ++ rem)) ∧
        (∀ j, j ∈ rem → (k.proc j).state = procstate.RUNNABLE →
          proc_data (k'.proc j) = proc_data (promoted cfg (k.proc j))) ∧
        (∀ j, ¬ (j ∈ rem ∧ (k.proc j).state = procstate.RUNNABLE) →
          proc_data (k'.proc j) = proc_data (k.proc j)) ∧
        k'.nextpid = k.nextpid ∧ k'.initproc = k.initproc ∧ k'.cpu_proc = k.cpu_proc ∧
        k'.promote_needed = k.promote_needed
  | [], fuel, k, cur, ql, hwf, hc, _, hf => by
    cases fuel with
    | zero => simp at hf
    | succ f =>
      rw [chain_nil] at hc
      subst hc
      refine ⟨k, rfl, ?_, fun j hj => absurd hj (by simp), fun _ _ => rfl, rfl, rfl, rfl, rfl⟩
      have : setAt ql 0 (ql 0 ++ []) = ql := by
        funext L
        by_cases hL : L = 0
        · subst hL; rw [setAt_same, List.append_nil]
        · rw [setAt_ne _ _ hL]
      rw [this]; exact hwf
  | c :: rem, fuel, k, cur, ql, hwf, hc, hfree, hf => by
    cases fuel with
    | zero => simp at hf
    | succ f =>
      have hf' : rem.length < f := by simpa using hf
      have hnd : (c :: rem).Nodup := chain_nodup _ _ _ hc
      have hcr : c ∉ rem := (List.nodup_cons.mp hnd).1
      rw [chain_cons] at hc
      obtain ⟨rfl, hnext⟩ := hc
      have h0 : (0 : Int) ∈ scan_levels := by decide
      obtain ⟨k1, hk1⟩ : ∃ k1 : Kernel, k1 =
          (if (k.proc c).state = procstate.RUNNABLE then
            { k with proc := setAt k.proc c (promoted cfg (k.proc c)) }
           else k) := ⟨_, rfl⟩
      have hk1q : k1.queues = k.queues := by
        rw [hk1]; split <;> rfl
      have hk1n : ∀ x, (k1.proc x).next_in_queue = (k.proc x).next_in_queue := by
        intro x
        rw [hk1]
        split
        · show (setAt k.proc c _ x).next_in_queue = _
          by_cases hx : x = c
          · subst hx; rw [setAt_same, promoted_next]
          · rw [setAt_ne _ _ hx]
        · rfl
      have hk1ne : ∀ x, x ≠ c → k1.proc x = k.proc x := by
        intro x hx
        rw [hk1]
        split
        · show setAt k.proc c _ x = _
          rw [setAt_ne _ _ hx]
        · rfl
      have hwf1 : queues_wf k1 ql := queues_wf_of_eq hwf hk1q hk1n
      have hwf2 := queues_wf_enqueue hwf1 h0 (hfree c (List.mem_cons_self _ _))
      have hstep : promote_requeue cfg (f + 1) k (some c) =
          promote_requeue cfg f (enqueue_proc k1 (some c) 0) (k.proc c).next_in_queue := by
        simp only [promote_requeue, hk1]
        rfl
      have hframe : ∀ x ∈ rem, (enqueue_proc k1 (some c) 0).proc x = k.proc x := by
        intro x hx
        have hxc : x ≠ c := fun e => hcr (e ▸ hx)
        rw [enqueue_proc_frame k1 c 0 x hxc, hk1ne x hxc]
        intro t ht e
        have : t ∈ ql 0 := queues_wf_tail_mem hwf1 h0 ht
        exact hfree x (List.mem_cons_of_mem _ hx) 0 h0 (e ▸ this)
      obtain ⟨k', hk', hq', hd1, hd2, hrest⟩ := promote_requeue_spec cfg rem f
        (enqueue_proc k1 (some c) 0) (k.proc c).next_in_queue
        (setAt ql 0 (ql 0 ++ [c])) hwf2
        (chain_congr k.proc _ rem _ (fun x hx => by rw [hframe x hx]) hnext)
        (by
          intro x hx M hM hm
          by_cases hM0 : M = 0
          · subst hM0
            rw [setAt_same] at hm
            rcases List.mem_append.mp hm with hm | hm
            · exact hfree x (List.mem_cons_of_mem _ hx) 0 hM hm
            · exact hcr ((List.mem_singleton.mp hm) ▸ hx)
          · rw [setAt_ne _ _ hM0] at hm
            exact hfree x (List.mem_cons_of_mem _ hx) M hM hm)
        hf'
      have hdk1 : ∀ j, proc_data ((enqueue_proc k1 (some c) 0).proc j) = proc_data (k1.proc j) :=
        fun j => enqueue_proc_data _ _ _ _
      refine ⟨k', by rw [hstep]; exact hk', ?_, ?_, ?_, ?_⟩
      · have : setAt (setAt ql 0 (ql 0 ++ [c])) 0 (setAt ql 0 (ql 0 ++ [c]) 0 ++ rem)
            = setAt ql 0 (ql 0 ++ c :: rem) := by
          funext L
          by_cases hL : L = 0
          · subst hL; simp only [setAt_same]; simp
          · simp only [setAt_ne _ _ hL]
        rw [← this]; exact hq'
      · intro j hj hst
        by_cases hjc : j = c
        · subst hjc
          rw [hd2 j (fun h => hcr h.1), hdk1, hk1, if_pos hst]
          show proc_data (setAt k.proc j _ j) = _
          rw [setAt_same]
        · have hjr : j ∈ rem := by
            rcases List.mem_cons.mp hj with e | h
            · exact absurd e hjc
            · exact h
          have hst' : ((enqueue_proc k1 (some c) 0).proc j).state = procstate.RUNNABLE := by
            rw [hframe j hjr]; exact hst
          rw [hd1 j hjr hst', hframe j hjr]
      · intro j hj
        by_cases hjc : j = c
        · subst hjc
          have hst : (k.proc j).state ≠ procstate.RUNNABLE :=
            fun h => hj ⟨List.mem_cons_self _ _, h⟩
          rw [hd2 j (fun h => hcr h.1), hdk1, hk1, if_neg hst]
        · have hjd : proc_data ((enqueue_proc k1 (some c) 0).proc j) = proc_data (k.proc j) := by
            rw [hdk1, hk1ne j hjc]
          rw [hd2 j (fun h => hj ⟨List.mem_cons_of_mem _ h.1, by
            rw [← data_state hjd]; exact h.2⟩), hjd]
      · obtain ⟨h1, h2, h3, h4⟩ := hrest
        rw [h1, h2, h3, h4, enqueue_proc_nextpid, enqueue_proc_initproc, enqueue_proc_cpu_proc,
          enqueue_proc_promote_needed, hk1]
        split <;> exact ⟨rfl, rfl, rfl, rfl⟩

/-- The guard of the table scan of `promote_processes`. -/
theorem promote_running_one_eq (cfg : Config) (k : Kernel) (i : Nat) :
    promote_running_one cfg k i =
      if (k.proc i).state = procstate.RUNNING ∧ (k.proc i).queue_level > 0 then
        { k with proc := setAt k.proc i (promoted cfg (k.proc i)) }
      else k := rfl

/-- The table scan over a list of distinct slots: each running slot of the
list above level 0 is promoted, nothing else is written. -/
theorem promote_running_fold (cfg : Config) :
    ∀ (idx : List Nat) (k : Kernel), idx.Nodup →
      ((idx.foldl (promote_running_one cfg) k).queues = k.queues ∧
       (idx.foldl (promote_running_one cfg) k).nextpid = k.nextpid ∧
       (idx.foldl (promote_running_one cfg) k).initproc = k.initproc ∧
       (idx.foldl (promote_running_one cfg) k).cpu_proc = k.cpu_proc ∧
       (idx.foldl (promote_running_one cfg) k).promote_needed = k.promote_needed) ∧
      ∀ j, (idx.foldl (promote_running_one cfg) k).proc j =
        if j ∈ idx ∧ (k.proc j).state = procstate.RUNNING ∧ (k.proc j).queue_level > 0 then
          promoted cfg (k.proc j)
        else k.proc j
  | [], k, _ => ⟨⟨rfl, rfl, rfl, rfl, rfl⟩, fun j => by simp⟩
  | i :: rest, k, hnd => by
    obtain ⟨hi, hrest⟩ := List.nodup_cons.mp hnd
    obtain ⟨ihq, ihp⟩ := promote_running_fold cfg rest (promote_running_one cfg k i) hrest
    rw [List.foldl_cons]
    have hone : ∀ j, j ≠ i → (promote_running_one cfg k i).proc j = k.proc j := by
      intro j hj
      rw [promote_running_one_eq]
      split
      · show setAt k.proc i _ j = _
        rw [setAt_ne _ _ hj]
      · rfl
    constructor
    · obtain ⟨h1, h2, h3, h4, h5⟩ := ihq
      rw [h1, h2, h3, h4, h5, promote_running_one_eq]
      split <;> exact ⟨rfl, rfl, rfl, rfl, rfl⟩
    · intro j
      rw [ihp j]
      by_cases hji : j = i
      · subst hji
        rw [if_neg (fun h => hi h.1), promote_running_one_eq]
        by_cases hc : (k.proc j).state = procstate.RUNNING ∧ (k.proc j).queue_level > 0
        · rw [if_pos hc, if_pos ⟨List.mem_cons_self _ _, hc⟩]
          show setAt k.proc j _ j = _
          rw [setAt_same]
        · rw [if_neg hc, if_neg (fun h => hc h.2)]
      · rw [hone j hji]
        have hmem : j ∈ i :: rest ↔ j ∈ rest := by simp [hji]
        by_cases hc : j ∈ rest ∧ (k.proc j).state = procstate.RUNNING ∧
            (k.proc j).queue_level > 0
        · rw [if_pos hc, if_pos ⟨hmem.mpr hc.1, hc.2⟩]
        · rw [if_neg hc, if_neg (fun h => hc ⟨hmem.mp h.1, h.2⟩)]

/-- One round of the outer loop of `promote_processes` at a level `L` other
than 0, on well-formed queues: the round terminates; level `L` keeps its
members that are not `RUNNABLE`, level 0 gets the `RUNNABLE` members of `L`
appended in their order; the promoted slots (the moved ones and the running
ones above level 0) get level 0 and the level 0 quantum, no other data changes. -/
theorem promote_level_spec (cfg : Config) (fuel : Nat) (k : Kernel) (L : Int)
    (ql : Int → List Nat) (hwf : queues_wf k ql) (hL : L ∈ scan_levels) (hL0 : L ≠ 0)
    (hf : (ql L).length < fuel) :
    ∃ k', promote_level cfg fuel k L = some k' ∧
      queues_wf k' (setAt (setAt ql L ((ql L).filter
          (fun x => !decide ((k.proc x).state = procstate.RUNNABLE)))) 0
        (ql 0 ++ (ql L).filter (fun x => decide ((k.proc x).state = procstate.RUNNABLE)))) ∧
      (∀ j, proc_ident (k'.proc j) = proc_ident (k.proc j)) ∧
      (∀ j, (j ∈ ql L ∧ (k.proc j).state = procstate.RUNNABLE) ∨
          (j < cfg.NPROC ∧ (k.proc j).state = procstate.RUNNING ∧ (k.proc j).queue_level > 0) →
        (k'.proc j).queue_level = 0 ∧ (k'.proc j).remaining_ticks = cfg.Q0_TICKS) ∧
      (∀ j, ¬ ((j ∈ ql L ∧ (k.proc j).state = procstate.RUNNABLE) ∨
          (j < cfg.NPROC ∧ (k.proc j).state = procstate.RUNNING ∧ (k.proc j).queue_level > 0)) →
        proc_data (k'.proc j) = proc_data (k.proc j)) ∧
      k'.nextpid = k.nextpid ∧ k'.initproc = k.initproc ∧ k'.cpu_proc = k.cpu_proc ∧
      k'.promote_needed = k.promote_needed := by
  have h0 : (0 : Int) ∈ scan_levels := by decide
  obtain ⟨R, hRdef⟩ : ∃ R : Nat → Bool,
      R = fun x => decide ((k.proc x).state = procstate.RUNNABLE) := ⟨_, rfl⟩
  have hR : ∀ x, R x = true ↔ (k.proc x).state = procstate.RUNNABLE := by
    intro x; rw [hRdef]; simp
  have hqL := hwf.1 L hL
  -- first loop
  obtain ⟨k1, v1, hk1, hq1, hmv, hd1, hfr1, hqs1, hn1, hi1, hc1, hp1⟩ :=
    promote_sweep_spec L R (ql L) [] [] fuel k
      { prev := none, current := (k.queues L).head, to_promote_head := none,
        to_promote_tail := none }
      hR (by simpa using hqL.1) (by simpa using hqL.2) rfl (queue_is_head hqL)
      (by simp [chain]) rfl (by simp) hf
  simp only [List.nil_append] at hq1 hmv
  have hwf1 : queues_wf k1 (setAt ql L ((ql L).filter (fun x => !R x))) := by
    constructor
    · intro M hM
      by_cases hML : M = L
      · subst hML; rw [setAt_same]; exact hq1
      · rw [setAt_ne _ _ hML]
        refine queue_is_congr (hqs1 M hML) ?_ (hwf.1 M hM)
        intro x hx
        rw [hfr1 x (by
          simp only [List.nil_append]
          exact fun hxl => hwf.2 L hL M hM (Ne.symm hML) x hxl hx) (by simp)]
    · intro M hM N hN hMN x hx
      have hx' : x ∈ ql M := by
        by_cases hML : M = L
        · subst hML; rw [setAt_same] at hx; exact List.mem_of_mem_filter hx
        · rw [setAt_ne _ _ hML] at hx; exact hx
      intro hm
      have hm' : x ∈ ql N := by
        by_cases hNL : N = L
        · subst hNL; rw [setAt_same] at hm; exact List.mem_of_mem_filter hm
        · rw [setAt_ne _ _ hNL] at hm; exact hm
      exact hwf.2 M hM N hN hMN x hx' hm'
  -- second loop
  obtain ⟨k2, hk2, hq2, hd2a, hd2b, hn2, hi2, hc2, hp2⟩ :=
    promote_requeue_spec cfg ((ql L).filter R) fuel k1 v1.to_promote_head
      (setAt ql L ((ql L).filter (fun x => !R x))) hwf1 hmv
      (by
        intro x hx M hM hm
        have hxL : x ∈ ql L := List.mem_of_mem_filter hx
        by_cases hML : M = L
        · subst hML
          rw [setAt_same] at hm
          have h1 := (List.mem_filter.mp hx).2
          have h2 := (List.mem_filter.mp hm).2
          rw [h1] at h2
          exact absurd h2 (by simp)
        · rw [setAt_ne _ _ hML] at hm
          exact hwf.2 L hL M hM (Ne.symm hML) x hxL hm)
      (lt_of_le_of_lt (List.length_filter_le _ _) hf)
  rw [setAt_ne _ _ (Ne.symm hL0)] at hq2
  -- table scan
  obtain ⟨⟨hq3, hn3, hi3, hc3, hp3⟩, hpr3⟩ :=
    promote_running_fold cfg (List.range cfg.NPROC) k2 (List.nodup_range _)
  have hst1 : ∀ j, (k1.proc j).state = (k.proc j).state := fun j => data_state (hd1 j)
  have hk2data : ∀ j, ¬ (j ∈ ql L ∧ (k.proc j).state = procstate.RUNNABLE) →
      proc_data (k2.proc j) = proc_data (k.proc j) := by
    intro j hj
    rw [hd2b j (by
      intro h
      apply hj
      exact ⟨List.mem_of_mem_filter h.1, by rw [← hst1 j]; exact h.2⟩), hd1 j]
  have hk2prom : ∀ j, j ∈ ql L → (k.proc j).state = procstate.RUNNABLE →
      proc_data (k2.proc j) = proc_data (promoted cfg (k.proc j)) := by
    intro j hj hst
    rw [hd2a j (List.mem_filter.mpr ⟨hj, (hR j).mpr hst⟩) (by rw [hst1 j]; exact hst)]
    exact promoted_data_congr cfg (hd1 j)
  have hk2ident : ∀ j, proc_ident (k2.proc j) = proc_ident (k.proc j) := by
    intro j
    by_cases hj : j ∈ ql L ∧ (k.proc j).state = procstate.RUNNABLE
    · rw [ident_of_data (hk2prom j hj.1 hj.2)]; rfl
    · exact ident_of_data (hk2data j hj)
  refine ⟨promote_running cfg k2, ?_, ?_, ?_, ?_, ?_, ?_⟩
  · unfold promote_level
    rw [hk1]
    simp only
    rw [hk2]
  · unfold promote_running
    refine queues_wf_of_eq ?_ hq3 ?_
    · rw [hRdef] at hq2; exact hq2
    · intro x
      rw [hpr3 x]
      split
      · rfl
      · rfl
  · intro j
    unfold promote_running
    rw [hpr3 j]
    split
    · rw [promoted_ident]; exact hk2ident j
    · exact hk2ident j
  · intro j hj
    unfold promote_running
    rw [hpr3 j]
    by_cases hc : j ∈ List.range cfg.NPROC ∧ (k2.proc j).state = procstate.RUNNING ∧
        (k2.proc j).queue_level > 0
    · rw [if_pos hc]; exact ⟨rfl, rfl⟩
    · rw [if_neg hc]
      rcases hj with ⟨hjl, hst⟩ | ⟨hlt, hst, hlv⟩
      · have := hk2prom j hjl hst
        exact ⟨data_queue_level this, data_remaining_ticks this⟩
      · exfalso
        have hnr : ¬ (j ∈ ql L ∧ (k.proc j).state = procstate.RUNNABLE) := by
          intro h; rw [hst] at h; exact absurd h.2 (by simp)
        have hd := hk2data j hnr
        apply hc
        exact ⟨List.mem_range.mpr hlt, by rw [data_state hd]; exact hst,
          by rw [data_queue_level hd]; exact hlv⟩
  · intro j hj
    unfold promote_running
    rw [hpr3 j]
    have hnr : ¬ (j ∈ ql L ∧ (k.proc j).state = procstate.RUNNABLE) := fun h => hj (Or.inl h)
    have hd := hk2data j hnr
    rw [if_neg (by
      intro h
      apply hj
      right
      exact ⟨List.mem_range.mp h.1, by rw [← data_state hd]; exact h.2.1,
        by rw [← data_queue_level hd]; exact h.2.2⟩)]
    exact hd
  · unfold promote_running
    rw [hn3, hi3, hc3, hp3, hn2, hi2, hc2, hp2, hn1, hi1, hc1, hp1]
    exact ⟨rfl, rfl, rfl, rfl⟩

/-- `promote_processes` on well-formed queues: it terminates; level 0 holds its
old list, then the `RUNNABLE` members of level 1, then those of level 2; levels
1 and 2 keep their other members; every moved slot and every running slot
above level 0 gets level 0 and the level 0 quantum; nothing else changes but
links. -/
theorem promote_processes_spec (cfg : Config) (fuel : Nat) (k : Kernel)
    (ql : Int → List Nat) (hwf : queues_wf k ql)
    (hf1 : (ql 1).length < fuel) (hf2 : (ql 2).length < fuel) :
    ∃ k' ql', promote_processes cfg fuel k = some k' ∧ queues_wf k' ql' ∧
      ql' 0 = ql 0 ++ (ql 1).filter (fun x => decide ((k.proc x).state = procstate.RUNNABLE))
        ++ (ql 2).filter (fun x => decide ((k.proc x).state = procstate.RUNNABLE)) ∧
      ql' 1 = (ql 1).filter (fun x => !decide ((k.proc x).state = procstate.RUNNABLE)) ∧
      ql' 2 = (ql 2).filter (fun x => !decide ((k.proc x).state = procstate.RUNNABLE)) ∧
      (∀ j, proc_ident (k'.proc j) = proc_ident (k.proc j)) ∧
      (∀ j, (j ∈ ql 1 ∧ (k.proc j).state = procstate.RUNNABLE) ∨
          (j ∈ ql 2 ∧ (k.proc j).state = procstate.RUNNABLE) ∨
          (j < cfg.NPROC ∧ (k.proc j).state = procstate.RUNNING ∧ (k.proc j).queue_level > 0) →
        (k'.proc j).queue_level = 0 ∧ (k'.proc j).remaining_ticks = cfg.Q0_TICKS) ∧
      (∀ j, ¬ ((j ∈ ql 1 ∧ (k.proc j).state = procstate.RUNNABLE) ∨
          (j ∈ ql 2 ∧ (k.proc j).state = procstate.RUNNABLE) ∨
          (j < cfg.NPROC ∧ (k.proc j).state = procstate.RUNNING ∧ (k.proc j).queue_level > 0)) →
        proc_data (k'.proc j) = proc_data (k.proc j)) ∧
      k'.nextpid = k.nextpid ∧ k'.initproc = k.initproc ∧ k'.cpu_proc = k.cpu_proc ∧
      k'.promote_needed = k.promote_needed := by
  have hl1 : (1 : Int) ∈ scan_levels := by decide
  have hl2 : (2 : Int) ∈ scan_levels := by decide
  obtain ⟨k1, hk1, hq1, hid1, hpr1, hdt1, hn1, hi1, hc1, hp1⟩ :=
    promote_level_spec cfg fuel k 1 ql hwf hl1 (by decide) hf1
  have hst1 : ∀ j, (k1.proc j).state = (k.proc j).state := fun j => ident_state (hid1 j)
  have hql12 : setAt (setAt ql 1 ((ql 1).filter
      (fun x => !decide ((k.proc x).state = procstate.RUNNABLE)))) 0
      (ql 0 ++ (ql 1).filter (fun x => decide ((k.proc x).state = procstate.RUNNABLE))) 2
      = ql 2 := by
    rw [setAt_ne _ _ (by decide), setAt_ne _ _ (by decide)]
  obtain ⟨k2, hk2, hq2, hid2, hpr2, hdt2, hn2, hi2, hc2, hp2⟩ :=
    promote_level_spec cfg fuel k1 2 _ hq1 hl2 (by decide) (by rw [hql12]; exact hf2)
  rw [hql12] at hq2 hpr2 hdt2
  have hfR : (fun x => decide ((k1.proc x).state = procstate.RUNNABLE))
      = (fun x => decide ((k.proc x).state = procstate.RUNNABLE)) := by
    funext x; rw [hst1 x]
  have hfN : (fun x => !decide ((k1.proc x).state = procstate.RUNNABLE))
      = (fun x => !decide ((k.proc x).state = procstate.RUNNABLE)) := by
    funext x; rw [hst1 x]
  rw [hfR, hfN] at hq2
  refine ⟨k2, _, by unfold promote_processes; rw [hk1]; exact hk2, hq2, ?_, ?_, ?_, ?_, ?_, ?_, ?_⟩
  · rw [setAt_same, setAt_same]
  · rw [setAt_ne _ _ (by decide), setAt_ne _ _ (by decide), setAt_ne _ _ (by decide),
      setAt_same]
  · rw [setAt_ne _ _ (by decide), setAt_same]
  · intro j; rw [hid2 j, hid1 j]
  · intro j hj
    by_cases hc2' : (j ∈ ql 2 ∧ (k1.proc j).state = procstate.RUNNABLE) ∨
        (j < cfg.NPROC ∧ (k1.proc j).state = procstate.RUNNING ∧ (k1.proc j).queue_level > 0)
    · exact hpr2 j hc2'
    · have hd := hdt2 j hc2'
      rw [data_queue_level hd, data_remaining_ticks hd]
      rcases hj with h | h | h
      · exact hpr1 j (Or.inl h)
      · exfalso; exact hc2' (Or.inl ⟨h.1, by rw [hst1 j]; exact h.2⟩)
      · exact hpr1 j (Or.inr h)
  · intro j hj
    have hc1' : ¬ ((j ∈ ql 1 ∧ (k.proc j).state = procstate.RUNNABLE) ∨
        (j < cfg.NPROC ∧ (k.proc j).state = procstate.RUNNING ∧ (k.proc j).queue_level > 0)) := by
      rintro (h | h)
      · exact hj (Or.inl h)
      · exact hj (Or.inr (Or.inr h))
    have hd1 := hdt1 j hc1'
    have hc2' : ¬ ((j ∈ ql 2 ∧ (k1.proc j).state = procstate.RUNNABLE) ∨
        (j < cfg.NPROC ∧ (k1.proc j).state = procstate.RUNNING ∧
          (k1.proc j).queue_level > 0)) := by
      rintro (h | h)
      · exact hj (Or.inr (Or.inl ⟨h.1, by rw [← hst1 j]; exact h.2⟩))
      · exact hj (Or.inr (Or.inr ⟨h.1, by rw [← hst1 j]; exact h.2.1,
          by rw [← data_queue_level hd1]; exact h.2.2⟩))
    rw [hdt2 j hc2', hd1]
  · rw [hn2, hi2, hc2, hp2, hn1, hi1, hc1, hp1]
    exact ⟨rfl, rfl, rfl, rfl⟩

/-- C4: on well-formed queues `promote_processes` terminates (given fuel above
the lengths of levels 1 and 2) and leaves level 0 with its previous list
followed by the `RUNNABLE` members of the old level 1 and then those of the
old level 2, each in their old order; levels 1 and 2 keep exactly their
members that are not `RUNNABLE`, in order; every moved PCB is in neither of
those two queues any more, is in level 0, and has `queue_level = 0` and
`remaining_ticks = Q0_TICKS`; a single `RUNNABLE` PCB queued at level 2 ends
as the last member of level 0. -/
theorem C4_promote_queues (cfg : Config) (fuel : Nat) (k : Kernel) (ql : Int → List Nat)
    (hwf : queues_wf k ql) (hf1 : (ql 1).length < fuel) (hf2 : (ql 2).length < fuel) :
    ∃ k', promote_processes cfg fuel k = some k' ∧
      queue_is k' 0
        (ql 0 ++ (ql 1).filter (fun x => decide ((k.proc x).state = procstate.RUNNABLE))
          ++ (ql 2).filter (fun x => decide ((k.proc x).state = procstate.RUNNABLE))) ∧
      queue_is k' 1
        ((ql 1).filter (fun x => !decide ((k.proc x).state = procstate.RUNNABLE))) ∧
      queue_is k' 2
        ((ql 2).filter (fun x => !decide ((k.proc x).state = procstate.RUNNABLE))) ∧
      (∀ p, p ∈ ql 1 ∨ p ∈ ql 2 → (k.proc p).state = procstate.RUNNABLE →
        (k'.proc p).state = procstate.RUNNABLE ∧
        (k'.proc p).queue_level = 0 ∧ (k'.proc p).remaining_ticks = cfg.Q0_TICKS ∧
        p ∉ (ql 1).filter (fun x => !decide ((k.proc x).state = procstate.RUNNABLE)) ∧
        p ∉ (ql 2).filter (fun x => !decide ((k.proc x).state = procstate.RUNNABLE)) ∧
        p ∈ ql 0 ++ (ql 1).filter (fun x => decide ((k.proc x).state = procstate.RUNNABLE))
          ++ (ql 2).filter (fun x => decide ((k.proc x).state = procstate.RUNNABLE))) ∧
      (∀ p, ql 2 = [p] → (k.proc p).state = procstate.RUNNABLE →
        (ql 0 ++ (ql 1).filter (fun x => decide ((k.proc x).state = procstate.RUNNABLE))
          ++ (ql 2).filter (fun x => decide ((k.proc x).state = procstate.RUNNABLE))).getLast?
          = some p) := by
  obtain ⟨k', ql', hk', hq', e0, e1, e2, hid, hpr, _, _⟩ :=
    promote_processes_spec cfg fuel k ql hwf hf1 hf2
  refine ⟨k', hk', ?_, ?_, ?_, ?_, ?_⟩
  · rw [← e0]; exact hq'.1 0 (by decide)
  · rw [← e1]; exact hq'.1 1 (by decide)
  · rw [← e2]; exact hq'.1 2 (by decide)
  · intro p hp hst
    have hlv := hpr p (by
      rcases hp with h | h
      · exact Or.inl ⟨h, hst⟩
      · exact Or.inr (Or.inl ⟨h, hst⟩))
    refine ⟨by rw [ident_state (hid p)]; exact hst, hlv.1, hlv.2, ?_, ?_, ?_⟩
    · intro hm
      have := (List.mem_filter.mp hm).2
      simp [hst] at this
    · intro hm
      have := (List.mem_filter.mp hm).2
      simp [hst] at this
    · rcases hp with h | h
      · exact List.mem_append_left _ (List.mem_append_right _
          (List.mem_filter.mpr ⟨h, by simpa using hst⟩))
      · exact List.mem_append_right _ (List.mem_filter.mpr ⟨h, by simpa using hst⟩)
  · intro p hp hst
    rw [hp, List.filter_cons_of_pos (by simpa using hst), List.filter_nil]
    simp

/-- C4 at the concrete table `demo_levels`: after the sweep level 0 holds
3, 1, 2, level 1 holds the `USED` slot 4, level 2 is empty, and slot 2 has
level 0 and quantum 3. -/
theorem C4_promote_queues_witness :
    ∃ k', promote_processes cfg6 5 demo_levels = some k' ∧
      queue_is k' 0 [3, 1, 2] ∧ queue_is k' 1 [4] ∧ queue_is k' 2 [] ∧
      (k'.proc 2).queue_level = 0 ∧ (k'.proc 2).remaining_ticks = 3 :=
  have h := C4_promote_queues cfg6 5 demo_levels demo_levels_lists
    (by decide) (by decide) (by decide)
  h.elim fun k' hk =>
    ⟨k', hk.1, hk.2.1, hk.2.2.1, hk.2.2.2.1,
      (hk.2.2.2.2.1 2 (Or.inr (by decide)) (by decide)).2.1,
      (hk.2.2.2.2.1 2 (Or.inr (by decide)) (by decide)).2.2.1⟩

/-- C5: on well-formed queues `promote_processes` terminates and leaves a
`RUNNING` PCB `p` of the table `RUNNING`; if its `queue_level` was above 0
(1 or 2) it now has `queue_level = 0` and `remaining_ticks = Q0_TICKS`; if its
`queue_level` was 0 its level and `remaining_ticks` are unchanged; `p` is a
member of a level's queue after the sweep only if it was a member of that
level's queue before. -/
theorem C5_promote_running (cfg : Config) (fuel : Nat) (k : Kernel) (ql : Int → List Nat)
    (p : Nat) (hwf : queues_wf k ql) (hf1 : (ql 1).length < fuel)
    (hf2 : (ql 2).length < fuel) (hp : p < cfg.NPROC)
    (hst : (k.proc p).state = procstate.RUNNING) :
    ∃ k' ql', promote_processes cfg fuel k = some k' ∧ queues_wf k' ql' ∧
      (k'.proc p).state = procstate.RUNNING ∧
      ((k.proc p).queue_level = 1 ∨ (k.proc p).queue_level = 2 →
        (k'.proc p).queue_level = 0 ∧ (k'.proc p).remaining_ticks = cfg.Q0_TICKS) ∧
      (0 < (k.proc p).queue_level →
        (k'.proc p).queue_level = 0 ∧ (k'.proc p).remaining_ticks = cfg.Q0_TICKS) ∧
      ((k.proc p).queue_level = 0 →
        (k'.proc p).queue_level = 0 ∧
        (k'.proc p).remaining_ticks = (k.proc p).remaining_ticks) ∧
      (∀ L ∈ scan_levels, p ∈ ql' L ↔ p ∈ ql L) := by
  obtain ⟨k', ql', hk', hq', e0, e1, e2, hid, hpr, hdt, _⟩ :=
    promote_processes_spec cfg fuel k ql hwf hf1 hf2
  have hpos : 0 < (k.proc p).queue_level →
      (k'.proc p).queue_level = 0 ∧ (k'.proc p).remaining_ticks = cfg.Q0_TICKS :=
    fun h => hpr p (Or.inr (Or.inr ⟨hp, hst, h⟩))
  refine ⟨k', ql', hk', hq', by rw [ident_state (hid p)]; exact hst, ?_, hpos, ?_, ?_⟩
  · rintro (h | h)
    · exact hpos (by rw [h]; decide)
    · exact hpos (by rw [h]; decide)
  · intro h0
    have hd := hdt p (by
      rintro (h | h | h)
      · rw [hst] at h; exact absurd h.2 (by simp)
      · rw [hst] at h; exact absurd h.2 (by simp)
      · rw [h0] at h; exact absurd h.2.2 (by decide))
    exact ⟨by rw [data_queue_level hd]; exact h0, data_remaining_ticks hd⟩
  · intro L hL
    rcases (mem_scan_levels L).mp hL with rfl | rfl | rfl
    · rw [e0]
      simp [hst]
    · rw [e1]
      simp [hst]
    · rw [e2]
      simp [hst]

/-- C5 at the concrete table `demo_levels`: the running slot 0 at level 2 is
still `RUNNING` after the sweep, at level 0 with quantum 3. -/
theorem C5_promote_running_witness :
    ∃ k', promote_processes cfg6 5 demo_levels = some k' ∧
      (k'.proc 0).state = procstate.RUNNING ∧ (k'.proc 0).queue_level = 0 ∧
      (k'.proc 0).remaining_ticks = 3 :=
  have h := C5_promote_running cfg6 5 demo_levels demo_levels_lists 0
    (by decide) (by decide) (by decide) (by decide) (by decide)
  h.elim fun k' h1 => h1.elim fun _ hk =>
    ⟨k', hk.1, hk.2.2.1, (hk.2.2.2.1 (Or.inr (by decide))).1,
      (hk.2.2.2.1 (Or.inr (by decide))).2⟩

/-! ## The level scan of the scheduler -/

/-- C2, the code at a concrete table: level 0 holds the `USED` slot 0 followed
by the `RUNNABLE` slot 1, level 1 holds the `RUNNABLE` slot 2.  The scan
dequeues slot 0, finds it not `RUNNABLE`, goes on to level 1 and dispatches
slot 2 from there, while level 0 still holds the `RUNNABLE` slot 1; slot 0 is
in no queue any more. -/
theorem C2_scan_dispatches_below_nonempty_level :
    queues_wf demo_skip (fun L => if L = 0 then [0, 1] else if L = 1 then [2] else []) ∧
    (scheduler_scan scan_levels demo_skip).1 = some (2, 1) ∧
    ((scheduler_scan scan_levels demo_skip).2.proc 2).state = procstate.RUNNING ∧
    (scheduler_scan scan_levels demo_skip).2.cpu_proc = some 2 ∧
    queue_is (scheduler_scan scan_levels demo_skip).2 0 [1] ∧
    ((scheduler_scan scan_levels demo_skip).2.proc 1).state = procstate.RUNNABLE ∧
    queue_is (scheduler_scan scan_levels demo_skip).2 1 [] := by
  decide

/-! ## More fuel never changes a result -/

theorem find_prev_mono (ps : Nat → proc) (p : Nat) :
    ∀ (f : Nat) (h : Option Nat) (r : Option Nat) (n : Nat),
      find_prev ps p f h = some r → find_prev ps p (f + n) h = some r
  | 0, _, _, _, hr => by simp [find_prev] at hr
  | f + 1, none, r, n, hr => by
    rw [show f + 1 + n = (f + n) + 1 by omega]
    simpa [find_prev] using hr
  | f + 1, some v, r, n, hr => by
    rw [show f + 1 + n = (f + n) + 1 by omega]
    simp only [find_prev] at hr ⊢
    split
    · rename_i h1
      rw [if_pos h1] at hr
      exact hr
    · rename_i h1
      rw [if_neg h1] at hr
      exact find_prev_mono ps p f _ r n hr

theorem remove_from_queue_mono {f : Nat} {k k' : Kernel} {p : Option Nat} {level : Int}
    (n : Nat) (h : remove_from_queue f k p level = some k') :
    remove_from_queue (f + n) k p level = some k' := by
  unfold remove_from_queue at h ⊢
  cases p with
  | none => exact h
  | some i =>
    simp only at h ⊢
    split
    · rename_i h1
      rw [if_pos h1] at h
      exact h
    · rename_i h1
      rw [if_neg h1] at h
      cases hfp : find_prev k.proc i f (k.queues level).head with
      | none => rw [hfp] at h; exact absurd h (by simp)
      | some r =>
        rw [hfp] at h
        rw [find_prev_mono k.proc i f _ r n hfp]
        exact h

theorem promote_sweep_mono (level : Int) :
    ∀ (f : Nat) (k : Kernel) (v : sweep_vars) (r : Kernel × sweep_vars) (n : Nat),
      promote_sweep level f k v = some r → promote_sweep level (f + n) k v = some r
  | 0, _, _, _, _, hr => by simp [promote_sweep] at hr
  | f + 1, k, v, r, n, hr => by
    rw [show f + 1 + n = (f + n) + 1 by omega]
    simp only [promote_sweep] at hr ⊢
    cases hc : v.current with
    | none => rw [hc] at hr; exact hr
    | some c =>
      rw [hc] at hr
      simp only at hr ⊢
      split
      · rename_i h1
        rw [if_pos h1] at hr
        exact promote_sweep_mono level f _ _ r n hr
      · rename_i h1
        rw [if_neg h1] at hr
        exact promote_sweep_mono level f _ _ r n hr

theorem promote_requeue_mono (cfg : Config) :
    ∀ (f : Nat) (k : Kernel) (cur : Option Nat) (r : Kernel) (n : Nat),
      promote_requeue cfg f k cur = some r → promote_requeue cfg (f + n) k cur = some r
  | 0, _, _, _, _, hr => by simp [promote_requeue] at hr
  | f + 1, k, none, r, n, hr => by
    rw [show f + 1 + n = (f + n) + 1 by omega]
    simpa [promote_requeue] using hr
  | f + 1, k, some c, r, n, hr => by
    rw [show f + 1 + n = (f + n) + 1 by omega]
    simp only [promote_requeue] at hr ⊢
    exact promote_requeue_mono cfg f _ _ r n hr

theorem promote_level_mono (cfg : Config) {f : Nat} {k k' : Kernel} {level : Int} (n : Nat)
    (h : promote_level cfg f k level = some k') :
    promote_level cfg (f + n) k level = some k' := by
  unfold promote_level at h ⊢
  cases hs : promote_sweep level f k
      { prev := none, current := (k.queues level).head, to_promote_head := none,
        to_promote_tail := none } with
  | none => rw [hs] at h; exact absurd h (by simp)
  | some r =>
    rw [hs] at h
    rw [promote_sweep_mono level f _ _ r n hs]
    simp only at h ⊢
    cases hq : promote_requeue cfg f r.1 r.2.to_promote_head with
    | none => rw [hq] at h; exact absurd h (by simp)
    | some k2 =>
      rw [hq] at h
      rw [promote_requeue_mono cfg f _ _ k2 n hq]
      exact h

theorem promote_processes_mono (cfg : Config) {f : Nat} {k k' : Kernel} (n : Nat)
    (h : promote_processes cfg f k = some k') :
    promote_processes cfg (f + n) k = some k' := by
  unfold promote_processes at h ⊢
  cases h1 : promote_level cfg f k 1 with
  | none => rw [h1] at h; exact absurd h (by simp)
  | some k1 =>
    rw [h1] at h
    rw [promote_level_mono cfg n h1]
    exact promote_level_mono cfg n h

/-! ## The invariant of the scheduler data -/

theorem sched_inv_congr (cfg : Config) {k k' : Kernel} {ql : Int → List Nat}
    (h : sched_inv cfg k ql) (hp : k'.proc = k.proc) (hq : k'.queues = k.queues)
    (hc : k'.cpu_proc = k.cpu_proc) : sched_inv cfg k' ql := by
  obtain ⟨h1, h2, h3, h4, h5⟩ := h
  refine ⟨queues_wf_of_eq h1 hq (fun x => by rw [hp]), ?_, ?_, ?_, ?_⟩
  · intro L hL x hx; rw [hp]; exact h2 L hL x hx
  · intro x hx; rw [hp]; exact h3 x hx
  · intro x hx; rw [hp]; exact h4 x hx
  · intro c; rw [hc, hp]; exact h5 c

/-- Dropping the current process keeps the invariant. -/
theorem sched_inv_idle (cfg : Config) {k k' : Kernel} {ql : Int → List Nat}
    (h : sched_inv cfg k ql) (hp : k'.proc = k.proc) (hq : k'.queues = k.queues)
    (hc : k'.cpu_proc = none) : sched_inv cfg k' ql := by
  obtain ⟨h1, h2, h3, h4, _⟩ := h
  refine ⟨queues_wf_of_eq h1 hq (fun x => by rw [hp]), ?_, ?_, ?_, ?_⟩
  · intro L hL x hx; rw [hp]; exact h2 L hL x hx
  · intro x hx; rw [hp]; exact h3 x hx
  · intro x hx; rw [hp]; exact h4 x hx
  · intro c hcc; rw [hc] at hcc; exact absurd hcc (by simp)

/-- A store into one PCB keeps the invariant when it keeps the link and the
new state fits the slot's place. -/
theorem sched_inv_store (cfg : Config) {k k' : Kernel} {ql : Int → List Nat}
    (h : sched_inv cfg k ql) (i : Nat) (v : proc)
    (hp : k'.proc = setAt k.proc i v) (hq : k'.queues = k.queues)
    (hc : k'.cpu_proc = k.cpu_proc ∨ k'.cpu_proc = none)
    (hn : v.next_in_queue = (k.proc i).next_in_queue)
    (hmem : (∃ L ∈ scan_levels, i ∈ ql L) →
      v.state = procstate.USED ∨ v.state = procstate.RUNNABLE)
    (hrun : v.state = procstate.RUNNABLE → ∃ L ∈ scan_levels, i ∈ ql L)
    (hlv : v.queue_level ∈ scan_levels ∧ v.original_queue ∈ scan_levels)
    (hcpu : k'.cpu_proc = some i → v.state = procstate.RUNNING) :
    sched_inv cfg k' ql := by
  obtain ⟨h1, h2, h3, h4, h5⟩ := h
  have hcases : ∀ x, k'.proc x = if x = i then v else k.proc x := by
    intro x; rw [hp]; rfl
  refine ⟨queues_wf_of_eq h1 hq ?_, ?_, ?_, ?_, ?_⟩
  · intro x
    rw [hcases x]
    split
    · rename_i hx; rw [hn, hx]
    · rfl
  · intro L hL x hx
    refine ⟨(h2 L hL x hx).1, ?_⟩
    rw [hcases x]
    split
    · rename_i hxi; exact hmem ⟨L, hL, hxi ▸ hx⟩
    · exact (h2 L hL x hx).2
  · intro x hx
    rw [hcases x]
    split
    · rename_i hxi; intro hr; rw [hxi]; exact hrun hr
    · exact h3 x hx
  · intro x hx
    rw [hcases x]
    split
    · exact hlv
    · exact h4 x hx
  · intro c hcc
    have hck : k.cpu_proc = some c := by
      rcases hc with e | e
      · rw [← e]; exact hcc
      · rw [e] at hcc; exact absurd hcc (by simp)
    refine ⟨(h5 c hck).1, ?_⟩
    rw [hcases c]
    split
    · rename_i hci; exact hcpu (hci ▸ hcc)
    · exact (h5 c hck).2

/-- A store into a PCB that is in no queue, followed by `enqueue_proc` of that
PCB, keeps the invariant when the stored state is `USED` or `RUNNABLE`. -/
theorem sched_inv_store_enqueue (cfg : Config) {k k1 : Kernel} {ql : Int → List Nat}
    (h : sched_inv cfg k ql) (i : Nat) (v : proc) (L : Int)
    (hp : k1.proc = setAt k.proc i v) (hq : k1.queues = k.queues)
    (hc : k1.cpu_proc = k.cpu_proc ∨ k1.cpu_proc = none)
    (hi : i < cfg.NPROC) (hfree : ∀ M ∈ scan_levels, i ∉ ql M)
    (hn : v.next_in_queue = (k.proc i).next_in_queue)
    (hst : v.state = procstate.USED ∨ v.state = procstate.RUNNABLE)
    (hlv : v.queue_level ∈ scan_levels ∧ v.original_queue ∈ scan_levels)
    (hL : L ∈ scan_levels) (hcpu : k1.cpu_proc ≠ some i) :
    sched_inv cfg (enqueue_proc k1 (some i) L) (setAt ql L (ql L ++ [i])) := by
  obtain ⟨h1, h2, h3, h4, h5⟩ := h
  have hcases : ∀ x, k1.proc x = if x = i then v else k.proc x := by
    intro x; rw [hp]; rfl
  have hwf1 : queues_wf k1 ql := by
    refine queues_wf_of_eq h1 hq ?_
    intro x
    rw [hcases x]
    split
    · rename_i hx; rw [hn, hx]
    · rfl
  have hd : ∀ x, proc_data ((enqueue_proc k1 (some i) L).proc x) = proc_data (k1.proc x) :=
    fun x => enqueue_proc_data _ _ _ _
  have hmemiff : ∀ M x, x ∈ setAt ql L (ql L ++ [i]) M → x ∈ ql M ∨ x = i := by
    intro M x hx
    by_cases hML : M = L
    · subst hML
      rw [setAt_same] at hx
      rcases List.mem_append.mp hx with hx | hx
      · exact Or.inl hx
      · exact Or.inr (List.mem_singleton.mp hx)
    · rw [setAt_ne _ _ hML] at hx
      exact Or.inl hx
  refine ⟨queues_wf_enqueue hwf1 hL hfree, ?_, ?_, ?_, ?_⟩
  · intro M hM x hx
    rw [data_state (hd x), hcases x]
    rcases hmemiff M x hx with hx | hx
    · have hxi : x ≠ i := fun e => hfree M hM (e ▸ hx)
      rw [if_neg hxi]
      exact h2 M hM x hx
    · rw [if_pos hx, hx]
      exact ⟨hi, hst⟩
  · intro x hx
    rw [data_state (hd x), hcases x]
    by_cases hxi : x = i
    · intro _
      refine ⟨L, hL, ?_⟩
      rw [setAt_same, hxi]
      simp
    · rw [if_neg hxi]
      intro hr
      obtain ⟨M, hM, hm⟩ := h3 x hx hr
      refine ⟨M, hM, ?_⟩
      by_cases hML : M = L
      · subst hML; rw [setAt_same]; exact List.mem_append_left _ hm
      · rw [setAt_ne _ _ hML]; exact hm
  · intro x hx
    rw [data_queue_level (hd x), data_original_queue (hd x), hcases x]
    split
    · exact hlv
    · exact h4 x hx
  · intro c hcc
    rw [enqueue_proc_cpu_proc] at hcc
    have hck : k.cpu_proc = some c := by
      rcases hc with e | e
      · rw [← e]; exact hcc
      · rw [e] at hcc; exact absurd hcc (by simp)
    have hci : c ≠ i := fun e => hcpu (e ▸ hcc)
    refine ⟨(h5 c hck).1, ?_⟩
    rw [data_state (hd c), hcases c, if_neg hci]
    exact (h5 c hck).2

theorem procinit_table_zero (n : Nat) :
    procinit_table n (fun _ => proc_zero) = fun _ => proc_zero := by
  unfold procinit_table
  induction n with
  | zero => rfl
  | succ m ih =>
    rw [List.range_succ, List.foldl_append, ih]
    funext j
    simp only [List.foldl_cons, List.foldl_nil, setAt]
    split <;> rfl

/-- `procinit` leaves the zero-filled boot image as it is: every slot is
`UNUSED` already and the three queues are empty already. -/
theorem procinit_boot (cfg : Config) : procinit cfg boot_image = boot_image := by
  unfold procinit
  have hq : (List.range 3).foldl
      (fun acc (i : Nat) => setAt acc (i : Int) (⟨none, none⟩ : proc_queue)) boot_image.queues
      = boot_image.queues := by
    funext L
    simp only [List.range_succ, List.range_zero, List.nil_append, List.cons_append,
      List.foldl_cons, List.foldl_nil, setAt, boot_image]
    split_ifs <;> rfl
  simp only [hq]
  have hp : procinit_table cfg.NPROC boot_image.proc = boot_image.proc :=
    procinit_table_zero cfg.NPROC
  rw [hp]

/-- The state left by `procinit` satisfies the invariant with empty queues. -/
theorem sched_inv_boot (cfg : Config) :
    sched_inv cfg (procinit cfg boot_image) (fun _ => []) := by
  rw [procinit_boot]
  refine ⟨⟨?_, ?_⟩, ?_, ?_, ?_, ?_⟩
  · intro L _
    exact ⟨rfl, rfl⟩
  · intro L _ M _ _ x hx
    exact absurd hx (by simp)
  · intro L _ x hx
    exact absurd hx (by simp)
  · intro x _ hr
    exact absurd hr (by simp [boot_image, proc_zero])
  · intro x _
    have h0 : (0 : Int) ∈ scan_levels := by decide
    exact ⟨h0, h0⟩
  · intro c hc
    exact absurd hc (by simp [boot_image])

theorem sched_inv_not_member (cfg : Config) {k : Kernel} {ql : Int → List Nat}
    (h : sched_inv cfg k ql) {i : Nat}
    (hs : (k.proc i).state ≠ procstate.USED ∧ (k.proc i).state ≠ procstate.RUNNABLE) :
    ∀ M ∈ scan_levels, i ∉ ql M := by
  intro M hM hm
  rcases (h.2.1 M hM i hm).2 with e | e
  · exact hs.1 e
  · exact hs.2 e

/-- One step of the loop of `wakeup` keeps the invariant. -/
theorem sched_inv_wakeup_one (cfg : Config) (chan : Option Nat) {k : Kernel}
    {ql : Int → List Nat} (h : sched_inv cfg k ql) {i : Nat} (hi : i < cfg.NPROC) :
    ∃ ql', sched_inv cfg (wakeup_one cfg chan k i) ql' := by
  by_cases hw : wakes k chan i
  · rw [wakeup_one_of_wakes cfg hw]
    have hoq := (h.2.2.2.1 i hi).2
    refine ⟨_, sched_inv_store_enqueue cfg h i (wake_proc cfg (k.proc i))
      (k.proc i).original_queue rfl rfl (Or.inl rfl) hi ?_ (wake_proc_next cfg _)
      (Or.inr (wake_proc_state cfg _)) ?_ hoq ?_⟩
    · exact sched_inv_not_member cfg h (by rw [hw.2.1]; simp)
    · rw [wake_proc_queue_level, wake_proc_original_queue]; exact ⟨hoq, hoq⟩
    · exact fun e => hw.1 e.symm
  · rw [wakeup_one_of_not_wakes cfg hw]
    exact ⟨ql, h⟩

theorem sched_inv_wakeup_fold (cfg : Config) (chan : Option Nat) :
    ∀ (idx : List Nat) (k : Kernel) (ql : Int → List Nat), sched_inv cfg k ql →
      (∀ i ∈ idx, i < cfg.NPROC) →
      ∃ ql', sched_inv cfg (idx.foldl (wakeup_one cfg chan) k) ql'
  | [], k, ql, h, _ => ⟨ql, h⟩
  | i :: rest, k, ql, h, hidx => by
    obtain ⟨ql1, h1⟩ := sched_inv_wakeup_one cfg chan h (hidx i (List.mem_cons_self _ _))
    rw [List.foldl_cons]
    exact sched_inv_wakeup_fold cfg chan rest _ ql1 h1
      (fun j hj => hidx j (List.mem_cons_of_mem _ hj))

/-- `wakeup` keeps the invariant. -/
theorem sched_inv_wakeup (cfg : Config) (chan : Option Nat) {k : Kernel}
    {ql : Int → List Nat} (h : sched_inv cfg k ql) :
    ∃ ql', sched_inv cfg (wakeup cfg k chan) ql' :=
  sched_inv_wakeup_fold cfg chan _ k ql h (fun _ hi => List.mem_range.mp hi)

theorem wakeup_cpu_proc (cfg : Config) (k : Kernel) (chan : Option Nat) :
    (wakeup cfg k chan).cpu_proc = k.cpu_proc :=
  wakeup_fold_cpu_proc cfg chan _ k

theorem wakeup_initproc (cfg : Config) (k : Kernel) (chan : Option Nat) :
    (wakeup cfg k chan).initproc = k.initproc := by
  unfold wakeup
  generalize List.range cfg.NPROC = idx
  induction idx generalizing k with
  | nil => rfl
  | cons i rest ih =>
    rw [List.foldl_cons, ih]
    by_cases hw : wakes k chan i
    · rw [wakeup_one_of_wakes cfg hw, enqueue_proc_initproc]
    · rw [wakeup_one_of_not_wakes cfg hw]

/-- One step of the loop of `reparent` keeps the invariant and the current
process. -/
theorem sched_inv_reparent_one (cfg : Config) (p : Option Nat) {k : Kernel}
    {ql : Int → List Nat} (h : sched_inv cfg k ql) {i : Nat} (hi : i < cfg.NPROC) :
    (∃ ql', sched_inv cfg (reparent_one cfg p k i) ql') ∧
    (reparent_one cfg p k i).cpu_proc = k.cpu_proc ∧
    (reparent_one cfg p k i).initproc = k.initproc := by
  unfold reparent_one
  split
  · have hs : sched_inv cfg
        ({ k with proc := setAt k.proc i { k.proc i with parent := k.initproc } } : Kernel)
        ql := by
      refine sched_inv_store cfg h i _ rfl rfl (Or.inl rfl) rfl ?_ ?_ ?_ ?_
      · rintro ⟨L, hL, hm⟩; exact (h.2.1 L hL i hm).2
      · intro hr; exact h.2.2.1 i hi hr
      · exact h.2.2.2.1 i hi
      · intro hc; exact (h.2.2.2.2 i hc).2
    exact ⟨sched_inv_wakeup cfg _ hs, by rw [wakeup_cpu_proc], by rw [wakeup_initproc]⟩
  · exact ⟨⟨ql, h⟩, rfl, rfl⟩

theorem sched_inv_reparent_fold (cfg : Config) (p : Option Nat) :
    ∀ (idx : List Nat) (k : Kernel) (ql : Int → List Nat), sched_inv cfg k ql →
      (∀ i ∈ idx, i < cfg.NPROC) →
      (∃ ql', sched_inv cfg (idx.foldl (reparent_one cfg p) k) ql') ∧
      (idx.foldl (reparent_one cfg p) k).cpu_proc = k.cpu_proc ∧
      (idx.foldl (reparent_one cfg p) k).initproc = k.initproc
  | [], k, ql, h, _ => ⟨⟨ql, h⟩, rfl, rfl⟩
  | i :: rest, k, ql, h, hidx => by
    obtain ⟨⟨ql1, h1⟩, hc1, hi1⟩ :=
      sched_inv_reparent_one cfg p h (hidx i (List.mem_cons_self _ _))
    rw [List.foldl_cons]
    obtain ⟨h2, hc2, hi2⟩ := sched_inv_reparent_fold cfg p rest _ ql1 h1
      (fun j hj => hidx j (List.mem_cons_of_mem _ hj))
    exact ⟨h2, by rw [hc2, hc1], by rw [hi2, hi1]⟩

/-- `kkill` on a PCB that is not `SLEEPING` keeps the invariant. -/
theorem sched_inv_kkill (cfg : Config) (pid : Int) {k : Kernel} {ql : Int → List Nat}
    (h : sched_inv cfg k ql)
    (hint : ∀ p, (List.range cfg.NPROC).find?
      (fun i => decide ((k.proc i).pid = pid)) = some p →
      (k.proc p).state ≠ procstate.SLEEPING) :
    sched_inv cfg (kkill cfg k pid).2 ql := by
  unfold kkill
  rw [kkill_scan_eq]
  cases hf : (List.range cfg.NPROC).find? (fun i => decide ((k.proc i).pid = pid)) with
  | none => exact h
  | some p =>
    have hns := hint p hf
    have hp : p < cfg.NPROC := by
      rw [List.find?_range_eq_some] at hf
      exact List.mem_range.mp hf.2.1
    simp only [if_neg hns]
    refine sched_inv_store cfg h p _ rfl rfl (Or.inl rfl) rfl ?_ ?_ ?_ ?_
    · rintro ⟨L, hL, hm⟩; exact (h.2.1 L hL p hm).2
    · intro hr; exact h.2.2.1 p hp hr
    · exact h.2.2.2.1 p hp
    · intro hc; exact (h.2.2.2.2 p hc).2

/-- `sleep_tidy` keeps the invariant. -/
theorem sched_inv_sleep_tidy (cfg : Config) {k k' : Kernel} {ql : Int → List Nat}
    (h : sched_inv cfg k ql) (hs : sleep_tidy k = some k') : sched_inv cfg k' ql := by
  unfold sleep_tidy at hs
  cases hc : myproc k with
  | none => rw [hc] at hs; exact absurd hs (by simp)
  | some c =>
    rw [hc] at hs
    simp only [Option.some.injEq] at hs
    subst hs
    have hcpu := h.2.2.2.2 c hc
    refine sched_inv_store cfg h c _ rfl rfl (Or.inl rfl) rfl ?_ ?_ ?_ ?_
    · rintro ⟨L, hL, hm⟩; exact (h.2.1 L hL c hm).2
    · intro hr; exact h.2.2.1 c hcpu.1 hr
    · exact h.2.2.2.1 c hcpu.1
    · intro _; exact hcpu.2

/-- `yield` keeps the invariant. -/
theorem sched_inv_yield (cfg : Config) {k k' : Kernel} {ql : Int → List Nat}
    (h : sched_inv cfg k ql) (hs : yield k = some k') : ∃ ql', sched_inv cfg k' ql' := by
  unfold yield yield_body at hs
  cases hc : myproc k with
  | none => rw [hc] at hs; exact absurd hs (by simp)
  | some c =>
    rw [hc] at hs
    simp only [Option.some_bind] at hs
    unfold sched at hs
    have hmy : myproc ({ k with proc := (setAt k.proc c
        { k.proc c with state := procstate.RUNNABLE }) } : Kernel) = some c := hc
    rw [hmy] at hs
    simp only [setAt_same, reduceCtorEq, if_false, Option.some.injEq] at hs
    subst hs
    rw [scheduler_return_runnable (by simp only [setAt_same])]
    simp only [setAt_same]
    have hcpu := h.2.2.2.2 c hc
    refine ⟨_, sched_inv_store_enqueue cfg h c { k.proc c with state := procstate.RUNNABLE }
      (k.proc c).queue_level rfl rfl (Or.inr rfl) hcpu.1 ?_ rfl (Or.inr rfl)
      (h.2.2.2.1 c hcpu.1) (h.2.2.2.1 c hcpu.1).1 (by simp)⟩
    exact sched_inv_not_member cfg h (by rw [hcpu.2]; simp)

/-- `remove_from_queue` of a slot that is in no queue keeps the queues, for any
amount of fuel with which it terminates. -/
theorem remove_non_member {fuel : Nat} {k k1 : Kernel} {ql : Int → List Nat} {c : Nat}
    {L : Int} (hwf : queues_wf k ql) (hL : L ∈ scan_levels)
    (hfree : ∀ M ∈ scan_levels, c ∉ ql M)
    (hr : remove_from_queue fuel k (some c) L = some k1) :
    queues_wf k1 ql ∧ (∀ j, proc_data (k1.proc j) = proc_data (k.proc j)) ∧
    k1.cpu_proc = k.cpu_proc := by
  obtain ⟨k2, hk2, hq2, _⟩ := queues_wf_remove hwf hL c (fuel + ((ql L).length + 1))
    (fun M hM _ => hfree M hM) (by omega)
  have hmono := remove_from_queue_mono ((ql L).length + 1) hr
  rw [hmono] at hk2
  simp only [Option.some.injEq] at hk2
  subst hk2
  obtain ⟨hd, _, _, hc, _, _⟩ := remove_from_queue_frame hr
  refine ⟨?_, hd, hc⟩
  have : setAt ql L ((ql L).erase c) = ql := by
    funext M
    by_cases hML : M = L
    · subst hML; rw [setAt_same, List.erase_of_not_mem (hfree M hL)]
    · rw [setAt_ne _ _ hML]
  rw [this] at hq2
  exact hq2

/-- `sleep` keeps the invariant. -/
theorem sched_inv_sleep (cfg : Config) {fuel : Nat} {k k' : Kernel} {chan : Option Nat}
    {ql : Int → List Nat} (h : sched_inv cfg k ql) (hs : sleep fuel k chan = some k') :
    sched_inv cfg k' ql := by
  unfold sleep at hs
  obtain ⟨k1, hk1, hs2⟩ := Option.bind_eq_some.mp hs
  unfold sleep_body at hk1
  cases hc : myproc k with
  | none => rw [hc] at hk1; exact absurd hk1 (by simp)
  | some c =>
    rw [hc] at hk1
    simp only [setAt_same] at hk1
    have hcpu := h.2.2.2.2 c hc
    have hfree : ∀ M ∈ scan_levels, c ∉ ql M :=
      sched_inv_not_member cfg h (by rw [hcpu.2]; simp)
    have hlv := h.2.2.2.1 c hcpu.1
    -- the stores of `sleep`, seen with the current-process slot already cleared
    have hmid : queues_wf
        ({ k with proc := (setAt (setAt k.proc c
            { k.proc c with chan := chan, state := procstate.SLEEPING }) c
            { k.proc c with chan := chan, state := procstate.SLEEPING,
                             original_queue := (k.proc c).queue_level }) } : Kernel) ql := by
      refine queues_wf_of_eq h.1 rfl ?_
      intro x
      simp only
      by_cases hx : x = c
      · subst hx; simp only [setAt_same]
      · rw [setAt_ne _ _ hx, setAt_ne _ _ hx]
    obtain ⟨hq1, hd1, hc1⟩ := remove_non_member hmid hlv.1 hfree hk1
    have hdc := hd1 c
    simp only [setAt_same] at hdc
    have hst : (k1.proc c).state = procstate.SLEEPING := data_state hdc
    have hmy : myproc k1 = some c := by
      unfold myproc at hc ⊢
      rw [hc1]; exact hc
    unfold sched at hs2
    rw [hmy] at hs2
    simp only [hst, reduceCtorEq, if_false, Option.some.injEq] at hs2
    subst hs2
    rw [scheduler_return_not_runnable (by rw [hst]; simp)]
    have hdata : ∀ j, j ≠ c → proc_data (k1.proc j) = proc_data (k.proc j) := by
      intro j hj
      rw [hd1 j]
      simp only
      rw [setAt_ne _ _ hj, setAt_ne _ _ hj]
    refine ⟨queues_wf_of_eq hq1 rfl (fun _ => rfl), ?_, ?_, ?_, ?_⟩
    · intro M hM x hx
      have hxc : x ≠ c := fun e => hfree M hM (e ▸ hx)
      show _ ∧ ((k1.proc x).state = _ ∨ (k1.proc x).state = _)
      rw [data_state (hdata x hxc)]
      exact h.2.1 M hM x hx
    · intro x hx
      show (k1.proc x).state = _ → _
      by_cases hxc : x = c
      · subst hxc; rw [hst]; intro e; exact absurd e (by simp)
      · rw [data_state (hdata x hxc)]
        exact h.2.2.1 x hx
    · intro x hx
      show (k1.proc x).queue_level ∈ _ ∧ (k1.proc x).original_queue ∈ _
      by_cases hxc : x = c
      · subst hxc
        have e1 : (k1.proc x).queue_level = (k.proc x).queue_level := by
          have := data_queue_level hdc
          exact this
        have e2 : (k1.proc x).original_queue = (k.proc x).queue_level := by
          have := data_original_queue hdc
          exact this
        rw [e1, e2]
        exact ⟨hlv.1, hlv.1⟩
      · rw [data_queue_level (hdata x hxc), data_original_queue (hdata x hxc)]
        exact h.2.2.2.1 x hx
    · intro x hx
      exact absurd hx (by simp)

theorem freeproc_next (k : Kernel) (i j : Nat) :
    ((freeproc k i).proc j).next_in_queue = (k.proc j).next_in_queue := by
  unfold freeproc
  simp only
  by_cases hj : j = i
  · subst hj; rw [setAt_same]
  · rw [setAt_ne _ _ hj]

/-- The scan of `kwait` either returns early with the globals unchanged or with
one `ZOMBIE` slot of the list released, or it finishes. -/
theorem kwait_scan_cases (p : Nat) (addr : Nat) (ok : Bool) :
    ∀ (idx : List Nat) (hk : Bool) (k : Kernel) (v : Int) (k1 : Kernel),
      kwait_scan p addr ok idx hk k = Sum.inl (v, k1) →
      k1 = k ∨ ∃ i ∈ idx, (k.proc i).state = procstate.ZOMBIE ∧ k1 = freeproc k i
  | [], _, _, _, _, h => by simp [kwait_scan] at h
  | i :: rest, hk, k, v, k1, h => by
    simp only [kwait_scan] at h
    split at h
    · split at h
      · split at h
        · simp only [Sum.inl.injEq, Prod.mk.injEq] at h
          exact Or.inl h.2.symm
        · rename_i hz _
          simp only [Sum.inl.injEq, Prod.mk.injEq] at h
          exact Or.inr ⟨i, List.mem_cons_self _ _, hz, h.2.symm⟩
      · rcases kwait_scan_cases p addr ok rest true k v k1 h with e | ⟨j, hj, hz, e⟩
        · exact Or.inl e
        · exact Or.inr ⟨j, List.mem_cons_of_mem _ hj, hz, e⟩
    · rcases kwait_scan_cases p addr ok rest hk k v k1 h with e | ⟨j, hj, hz, e⟩
      · exact Or.inl e
      · exact Or.inr ⟨j, List.mem_cons_of_mem _ hj, hz, e⟩

/-- Releasing a `ZOMBIE` slot keeps the invariant. -/
theorem sched_inv_freeproc_zombie (cfg : Config) {k : Kernel} {ql : Int → List Nat}
    (h : sched_inv cfg k ql) {i : Nat} (hi : i < cfg.NPROC)
    (hz : (k.proc i).state = procstate.ZOMBIE) : sched_inv cfg (freeproc k i) ql := by
  unfold freeproc
  refine sched_inv_store cfg h i _ rfl rfl (Or.inl rfl) rfl ?_ ?_ ?_ ?_
  · rintro ⟨L, hL, hm⟩
    exfalso
    exact sched_inv_not_member cfg h (by rw [hz]; simp) L hL hm
  · intro hr; exact absurd hr (by simp)
  · exact h.2.2.2.1 i hi
  · intro hc
    have := (h.2.2.2.2 i hc).2
    rw [hz] at this
    exact absurd this (by simp)

/-- One round of `kwait` keeps the invariant. -/
theorem sched_inv_kwait (cfg : Config) {fuel : Nat} {k k' : Kernel} {addr : Nat} {ok : Bool}
    {r : wait_result} {ql : Int → List Nat} (h : sched_inv cfg k ql)
    (hs : kwait cfg fuel k addr ok = some (r, k')) : sched_inv cfg k' ql := by
  unfold kwait at hs
  cases hc : myproc k with
  | none => rw [hc] at hs; exact absurd hs (by simp)
  | some c =>
    rw [hc] at hs
    simp only at hs
    cases hsc : kwait_scan c addr ok (List.range cfg.NPROC) false k with
    | inl vk =>
      rw [hsc] at hs
      obtain ⟨v, k1⟩ := vk
      simp only [Option.some.injEq, Prod.mk.injEq] at hs
      obtain ⟨_, rfl⟩ := hs
      rcases kwait_scan_cases c addr ok _ _ k v k1 hsc with e | ⟨i, hi, hz, e⟩
      · rw [e]; exact h
      · rw [e]; exact sched_inv_freeproc_zombie cfg h (List.mem_range.mp hi) hz
    | inr hk =>
      rw [hsc] at hs
      simp only at hs
      split at hs
      · simp only [Option.some.injEq, Prod.mk.injEq] at hs
        rw [← hs.2]; exact h
      · obtain ⟨k1, hk1, he⟩ := Option.map_eq_some'.mp hs
        simp only [Prod.mk.injEq] at he
        rw [← he.2]
        exact sched_inv_sleep cfg h hk1

/-- `kexit` keeps the invariant. -/
theorem sched_inv_kexit (cfg : Config) {k k' : Kernel} {status : Int}
    {ql : Int → List Nat} (h : sched_inv cfg k ql) (hs : kexit cfg k status = some k') :
    ∃ ql', sched_inv cfg k' ql' := by
  unfold kexit at hs
  obtain ⟨k3, hk3, hs2⟩ := Option.bind_eq_some.mp hs
  unfold kexit_body at hk3
  cases hc : myproc k with
  | none => rw [hc] at hk3; exact absurd hk3 (by simp)
  | some c =>
    rw [hc] at hk3
    simp only at hk3
    split at hk3
    · exact absurd hk3 (by simp)
    · simp only [Option.some.injEq] at hk3
      obtain ⟨⟨ql1, h1⟩, hc1, _⟩ := sched_inv_reparent_fold cfg (some c)
        (List.range cfg.NPROC) k ql h (fun _ hi => List.mem_range.mp hi)
      have hrep : (List.range cfg.NPROC).foldl (reparent_one cfg (some c)) k
          = reparent cfg k (some c) := rfl
      rw [hrep] at h1 hc1
      obtain ⟨ql2, h2⟩ := sched_inv_wakeup cfg
        ((reparent cfg k (some c)).proc c).parent h1
      have hc2 : (wakeup cfg (reparent cfg k (some c))
          ((reparent cfg k (some c)).proc c).parent).cpu_proc = some c := by
        rw [wakeup_cpu_proc, hc1]; exact hc
      have hcpu := h2.2.2.2.2 c hc2
      subst hk3
      unfold sched at hs2
      have hmy : myproc ({ wakeup cfg (reparent cfg k (some c))
          ((reparent cfg k (some c)).proc c).parent with
          proc := (setAt (wakeup cfg (reparent cfg k (some c))
            ((reparent cfg k (some c)).proc c).parent).proc c
            { (wakeup cfg (reparent cfg k (some c))
                ((reparent cfg k (some c)).proc c).parent).proc c with
              xstate := status, state := procstate.ZOMBIE }) } : Kernel) = some c := hc2
      rw [hmy] at hs2
      simp only [setAt_same, reduceCtorEq, if_false, Option.some.injEq] at hs2
      subst hs2
      rw [scheduler_return_not_runnable (by simp only [setAt_same]; simp)]
      refine ⟨ql2, sched_inv_store cfg h2 c _ rfl rfl (Or.inr rfl) rfl ?_ ?_
        (h2.2.2.2.1 c hcpu.1) ?_⟩
      · rintro ⟨L, hL, hm⟩
        exfalso
        exact sched_inv_not_member cfg h2 (by rw [hcpu.2]; simp) L hL hm
      · intro hr; exact absurd hr (by simp)
      · intro hcc; exact absurd hcc (by simp)

/-- `promote_processes` keeps the invariant, for any amount of fuel with which
it terminates. -/
theorem sched_inv_promote (cfg : Config) {fuel : Nat} {k k' : Kernel} {ql : Int → List Nat}
    (h : sched_inv cfg k ql) (hs : promote_processes cfg fuel k = some k') :
    ∃ ql', sched_inv cfg k' ql' := by
  obtain ⟨k2, ql', hk2, hq, e0, e1, e2, hid, hpr, hdt, _, _, hc, _⟩ :=
    promote_processes_spec cfg (fuel + ((ql 1).length + (ql 2).length + 1)) k ql h.1
      (by omega) (by omega)
  rw [promote_processes_mono cfg _ hs] at hk2
  simp only [Option.some.injEq] at hk2
  subst hk2
  have hst : ∀ j, (k'.proc j).state = (k.proc j).state := fun j => ident_state (hid j)
  have h0 : (0 : Int) ∈ scan_levels := by decide
  have h1 : (1 : Int) ∈ scan_levels := by decide
  have h2 : (2 : Int) ∈ scan_levels := by decide
  have hsub : ∀ L ∈ scan_levels, ∀ x ∈ ql' L, ∃ M ∈ scan_levels, x ∈ ql M := by
    intro L hL x hx
    rcases (mem_scan_levels L).mp hL with rfl | rfl | rfl
    · rw [e0] at hx
      rcases List.mem_append.mp hx with hx | hx
      · rcases List.mem_append.mp hx with hx | hx
        · exact ⟨0, h0, hx⟩
        · exact ⟨1, h1, List.mem_of_mem_filter hx⟩
      · exact ⟨2, h2, List.mem_of_mem_filter hx⟩
    · rw [e1] at hx; exact ⟨1, h1, List.mem_of_mem_filter hx⟩
    · rw [e2] at hx; exact ⟨2, h2, List.mem_of_mem_filter hx⟩
  refine ⟨ql', hq, ?_, ?_, ?_, ?_⟩
  · intro L hL x hx
    obtain ⟨M, hM, hm⟩ := hsub L hL x hx
    rw [hst x]
    exact h.2.1 M hM x hm
  · intro x hx hr
    rw [hst x] at hr
    obtain ⟨M, hM, hm⟩ := h.2.2.1 x hx hr
    refine ⟨0, h0, ?_⟩
    rw [e0]
    rcases (mem_scan_levels M).mp hM with rfl | rfl | rfl
    · exact List.mem_append_left _ (List.mem_append_left _ hm)
    · exact List.mem_append_left _ (List.mem_append_right _
        (List.mem_filter.mpr ⟨hm, by simpa using hr⟩))
    · exact List.mem_append_right _ (List.mem_filter.mpr ⟨hm, by simpa using hr⟩)
  · intro x hx
    rw [ident_original_queue (hid x)]
    refine ⟨?_, (h.2.2.2.1 x hx).2⟩
    by_cases hcnd : (x ∈ ql 1 ∧ (k.proc x).state = procstate.RUNNABLE) ∨
        (x ∈ ql 2 ∧ (k.proc x).state = procstate.RUNNABLE) ∨
        (x < cfg.NPROC ∧ (k.proc x).state = procstate.RUNNING ∧ (k.proc x).queue_level > 0)
    · rw [(hpr x hcnd).1]; exact h0
    · rw [data_queue_level (hdt x hcnd)]; exact (h.2.2.2.1 x hx).1
  · intro c hcc
    rw [hc] at hcc
    rw [hst c]
    exact h.2.2.2.2 c hcc

/-- The level scan of the scheduler keeps the invariant when it starts without
a current process. -/
theorem sched_inv_scan (cfg : Config) :
    ∀ (levels : List Int) (k : Kernel) (ql : Int → List Nat),
      (∀ L ∈ levels, L ∈ scan_levels) → sched_inv cfg k ql → k.cpu_proc = none →
      ∃ ql', sched_inv cfg (scheduler_scan levels k).2 ql'
  | [], k, ql, _, h, _ => ⟨ql, h⟩
  | L :: rest, k, ql, hlv, h, hidle => by
    have hL := hlv L (List.mem_cons_self _ _)
    have hrest : ∀ M ∈ rest, M ∈ scan_levels := fun M hM => hlv M (List.mem_cons_of_mem _ hM)
    obtain ⟨hfst, hq1⟩ := queues_wf_dequeue h.1 hL
    have hd1 := dequeue_proc_data k L
    have hc1 : (dequeue_proc k L).2.cpu_proc = none := by
      unfold dequeue_proc
      cases (k.queues L).head <;> exact hidle
    unfold scheduler_scan
    cases hl : ql L with
    | nil =>
      have hnil : dequeue_proc k L = (none, k) := dequeue_proc_nil (hl ▸ h.1.1 L hL)
      rw [hnil]
      exact sched_inv_scan cfg rest k ql hrest h hidle
    | cons x xs =>
      rw [hl] at hfst hq1
      have hxs : x ∉ xs := by
        have := queue_is_nodup (h.1.1 L hL)
        rw [hl] at this
        exact (List.nodup_cons.mp this).1
      have hxmem : x ∈ ql L := by rw [hl]; exact List.mem_cons_self _ _
      have hxinfo := h.2.1 L hL x hxmem
      simp only [List.head?_cons, List.tail_cons] at hfst hq1
      have hsplit : dequeue_proc k L = (some x, (dequeue_proc k L).2) := by
        rw [← hfst]
      -- membership in the lists after the dequeue
      have hmem1 : ∀ M ∈ scan_levels, ∀ y, y ∈ setAt ql L xs M ↔ (y ∈ ql M ∧ y ≠ x) := by
        intro M hM y
        by_cases hML : M = L
        · subst hML
          rw [setAt_same, hl]
          constructor
          · intro hy; exact ⟨List.mem_cons_of_mem _ hy, fun e => hxs (e ▸ hy)⟩
          · rintro ⟨hy, hne⟩
            rcases List.mem_cons.mp hy with e | hy
            · exact absurd e hne
            · exact hy
        · rw [setAt_ne _ _ hML]
          constructor
          · intro hy
            exact ⟨hy, fun e => h.1.2 L hL M hM (Ne.symm hML) x hxmem (e ▸ hy)⟩
          · exact fun hy => hy.1
      rw [hsplit]
      simp only
      by_cases hrun : ((dequeue_proc k L).2.proc x).state = procstate.RUNNABLE
      · rw [if_pos hrun]
        simp only
        refine ⟨setAt ql L xs, queues_wf_of_eq hq1 rfl ?_, ?_, ?_, ?_, ?_⟩
        · intro y
          simp only
          by_cases hy : y = x
          · subst hy; rw [setAt_same]
          · rw [setAt_ne _ _ hy]
        · intro M hM y hy
          obtain ⟨hym, hyx⟩ := (hmem1 M hM y).mp hy
          simp only
          rw [setAt_ne _ _ hyx, data_state (hd1 y)]
          exact h.2.1 M hM y hym
        · intro y hy
          simp only
          by_cases hyx : y = x
          · subst hyx; rw [setAt_same]; intro e; exact absurd e (by simp)
          · rw [setAt_ne _ _ hyx, data_state (hd1 y)]
            intro hr
            obtain ⟨M, hM, hm⟩ := h.2.2.1 y hy hr
            exact ⟨M, hM, (hmem1 M hM y).mpr ⟨hm, hyx⟩⟩
        · intro y hy
          simp only
          by_cases hyx : y = x
          · subst hyx
            rw [setAt_same]
            show ((dequeue_proc k L).2.proc y).queue_level ∈ _ ∧
              ((dequeue_proc k L).2.proc y).original_queue ∈ _
            rw [data_queue_level (hd1 y), data_original_queue (hd1 y)]
            exact h.2.2.2.1 y hy
          · rw [setAt_ne _ _ hyx, data_queue_level (hd1 y), data_original_queue (hd1 y)]
            exact h.2.2.2.1 y hy
        · intro c hc
          simp only [Option.some.injEq] at hc
          subst hc
          simp only [setAt_same]
          exact ⟨hxinfo.1, trivial⟩
      · rw [if_neg hrun]
        have hinv1 : sched_inv cfg (dequeue_proc k L).2 (setAt ql L xs) := by
          refine ⟨hq1, ?_, ?_, ?_, ?_⟩
          · intro M hM y hy
            obtain ⟨hym, _⟩ := (hmem1 M hM y).mp hy
            rw [data_state (hd1 y)]
            exact h.2.1 M hM y hym
          · intro y hy hr
            have hyx : y ≠ x := by
              intro e; subst e; exact hrun hr
            rw [data_state (hd1 y)] at hr
            obtain ⟨M, hM, hm⟩ := h.2.2.1 y hy hr
            exact ⟨M, hM, (hmem1 M hM y).mpr ⟨hm, hyx⟩⟩
          · intro y hy
            rw [data_queue_level (hd1 y), data_original_queue (hd1 y)]
            exact h.2.2.2.1 y hy
          · intro c hc
            rw [hc1] at hc
            exact absurd hc (by simp)
        exact sched_inv_scan cfg rest _ _ hrest hinv1 hc1

/-- One scheduler iteration up to `swtch` keeps the invariant. -/
theorem sched_inv_dispatch (cfg : Config) {fuel : Nat} {k : Kernel}
    {r : Option (Nat × Int) × Kernel} {ql : Int → List Nat} (h : sched_inv cfg k ql)
    (hidle : k.cpu_proc = none) (hs : scheduler_dispatch cfg fuel k = some r) :
    ∃ ql', sched_inv cfg r.2 ql' := by
  unfold scheduler_dispatch at hs
  obtain ⟨kp, hkp, he⟩ := Option.map_eq_some'.mp hs
  subst he
  unfold scheduler_promote at hkp
  split at hkp
  · obtain ⟨ql1, h1⟩ := sched_inv_promote cfg
      (@sched_inv_congr cfg k { k with promote_needed := 0 } ql h rfl rfl rfl) hkp
    have hc : kp.cpu_proc = none := by
      obtain ⟨k2, _, hk2, _, _, _, _, _, _, _, _, _, hcc, _⟩ :=
        promote_processes_spec cfg (fuel + ((ql 1).length + (ql 2).length + 1))
          { k with promote_needed := 0 } ql h.1 (by omega) (by omega)
      rw [promote_processes_mono cfg _ hkp] at hk2
      simp only [Option.some.injEq] at hk2
      subst hk2
      rw [hcc]; exact hidle
    exact sched_inv_scan cfg scan_levels kp ql1 (fun _ hL => hL) h1 hc
  · simp only [Option.some.injEq] at hkp
    subst hkp
    exact sched_inv_scan cfg scan_levels k ql (fun _ hL => hL) h hidle

theorem allocproc_full (cfg : Config) (tf pt : Option Nat) (k : Kernel)
    (hfind : (List.range cfg.NPROC).find?
      (fun j => decide ((k.proc j).state = procstate.UNUSED)) = none) :
    allocproc cfg tf pt k = (none, k) := by
  simp only [allocproc, hfind]

/-- A claimed slot at the tail of level 0 keeps the invariant. -/
theorem sched_inv_claim (cfg : Config) {k k' : Kernel} {ql : Int → List Nat}
    (h : sched_inv cfg k ql) {i : Nat} (hi : i < cfg.NPROC)
    (hun : (k.proc i).state = procstate.UNUSED)
    (hq : queues_wf k' (setAt ql 0 (ql 0 ++ [i])))
    (hst : (k'.proc i).state = procstate.USED ∨ (k'.proc i).state = procstate.RUNNABLE)
    (hlv : (k'.proc i).queue_level = 0) (hoq : (k'.proc i).original_queue = 0)
    (hd : ∀ j, j ≠ i → proc_data (k'.proc j) = proc_data (k.proc j))
    (hc : k'.cpu_proc = k.cpu_proc) :
    sched_inv cfg k' (setAt ql 0 (ql 0 ++ [i])) := by
  have h0 : (0 : Int) ∈ scan_levels := by decide
  have hfree : ∀ M ∈ scan_levels, i ∉ ql M :=
    sched_inv_not_member cfg h (by rw [hun]; simp)
  have hmem : ∀ M y, y ∈ setAt ql 0 (ql 0 ++ [i]) M → y ∈ ql M ∨ y = i := by
    intro M y hy
    by_cases hM : M = 0
    · subst hM
      rw [setAt_same] at hy
      rcases List.mem_append.mp hy with hy | hy
      · exact Or.inl hy
      · exact Or.inr (List.mem_singleton.mp hy)
    · rw [setAt_ne _ _ hM] at hy
      exact Or.inl hy
  refine ⟨hq, ?_, ?_, ?_, ?_⟩
  · intro M hM y hy
    rcases hmem M y hy with hy | hy
    · have hyi : y ≠ i := fun e => hfree M hM (e ▸ hy)
      rw [data_state (hd y hyi)]
      exact h.2.1 M hM y hy
    · rw [hy]; exact ⟨hi, hst⟩
  · intro y hy hr
    by_cases hyi : y = i
    · refine ⟨0, h0, ?_⟩
      rw [setAt_same, hyi]; simp
    · rw [data_state (hd y hyi)] at hr
      obtain ⟨M, hM, hm⟩ := h.2.2.1 y hy hr
      refine ⟨M, hM, ?_⟩
      by_cases hM0 : M = 0
      · subst hM0; rw [setAt_same]; exact List.mem_append_left _ hm
      · rw [setAt_ne _ _ hM0]; exact hm
  · intro y hy
    by_cases hyi : y = i
    · rw [hyi, hlv, hoq]; exact ⟨h0, h0⟩
    · rw [data_queue_level (hd y hyi), data_original_queue (hd y hyi)]
      exact h.2.2.2.1 y hy
  · intro c hcc
    rw [hc] at hcc
    have hcpu := h.2.2.2.2 c hcc
    have hci : c ≠ i := by
      intro e
      rw [e, hun] at hcpu
      exact absurd hcpu.2 (by simp)
    rw [data_state (hd c hci)]
    exact hcpu

/-- `allocproc` with successful allocations keeps the invariant. -/
theorem sched_inv_allocproc (cfg : Config) (tf pt : Option Nat) {k : Kernel}
    {ql : Int → List Nat} (h : sched_inv cfg k ql) (htf : tf ≠ none) (hpt : pt ≠ none) :
    ∃ ql', sched_inv cfg (allocproc cfg tf pt k).2 ql' := by
  obtain ⟨a, rfl⟩ := Option.ne_none_iff_exists'.mp htf
  obtain ⟨b, rfl⟩ := Option.ne_none_iff_exists'.mp hpt
  cases hf : (List.range cfg.NPROC).find?
      (fun j => decide ((k.proc j).state = procstate.UNUSED)) with
  | none =>
    rw [allocproc_full cfg _ _ k hf]
    exact ⟨ql, h⟩
  | some i =>
    have hfi := List.find?_range_eq_some.mp hf
    have hi : i < cfg.NPROC := List.mem_range.mp hfi.2.1
    have hun : (k.proc i).state = procstate.UNUSED := by simpa using hfi.1
    obtain ⟨k', hk', hq, hst, _, hlv, _, hoq, hd, _, hc, _⟩ :=
      allocproc_success cfg a b k i ql hf h.1 (sched_inv_not_member cfg h (by rw [hun]; simp))
    rw [hk']
    exact ⟨_, sched_inv_claim cfg h hi hun hq (Or.inl hst) hlv hoq hd hc⟩

/-- `userinit` with successful allocations keeps the invariant. -/
theorem sched_inv_userinit (cfg : Config) (tf pt : Option Nat) {k k' : Kernel}
    {ql : Int → List Nat} (h : sched_inv cfg k ql) (htf : tf ≠ none) (hpt : pt ≠ none)
    (hs : userinit cfg tf pt k = some k') : ∃ ql', sched_inv cfg k' ql' := by
  obtain ⟨a, rfl⟩ := Option.ne_none_iff_exists'.mp htf
  obtain ⟨b, rfl⟩ := Option.ne_none_iff_exists'.mp hpt
  unfold userinit at hs
  cases hf : (List.range cfg.NPROC).find?
      (fun j => decide ((k.proc j).state = procstate.UNUSED)) with
  | none =>
    rw [allocproc_full cfg _ _ k hf] at hs
    exact absurd hs (by simp)
  | some i =>
    have hfi := List.find?_range_eq_some.mp hf
    have hi : i < cfg.NPROC := List.mem_range.mp hfi.2.1
    have hun : (k.proc i).state = procstate.UNUSED := by simpa using hfi.1
    obtain ⟨k1, hk1, hq, _, _, hlv, _, hoq, hd, _, hc, _⟩ :=
      allocproc_success cfg a b k i ql hf h.1 (sched_inv_not_member cfg h (by rw [hun]; simp))
    rw [hk1] at hs
    simp only [Option.some.injEq] at hs
    subst hs
    refine ⟨_, sched_inv_claim cfg h hi hun ?_ (Or.inr ?_) ?_ ?_ ?_ hc⟩
    · refine queues_wf_of_eq hq rfl ?_
      intro x
      simp only
      by_cases hx : x = i
      · subst hx; rw [setAt_same]
      · rw [setAt_ne _ _ hx]
    · simp only [setAt_same]
    · simp only [setAt_same]; exact hlv
    · simp only [setAt_same]; exact hoq
    · intro j hj
      simp only
      rw [setAt_ne _ _ hj]
      exact hd j hj

/-- `kfork` with successful collaborators keeps the invariant. -/
theorem sched_inv_kfork (cfg : Config) (tf pt : Option Nat) {k : Kernel}
    {r : Int × Kernel} {ql : Int → List Nat} (h : sched_inv cfg k ql)
    (htf : tf ≠ none) (hpt : pt ≠ none)
    (hs : kfork cfg tf pt true k = some r) : ∃ ql', sched_inv cfg r.2 ql' := by
  obtain ⟨a, rfl⟩ := Option.ne_none_iff_exists'.mp htf
  obtain ⟨b, rfl⟩ := Option.ne_none_iff_exists'.mp hpt
  cases hp : myproc k with
  | none =>
    unfold kfork at hs
    rw [hp] at hs
    exact absurd hs (by simp)
  | some p =>
    cases hf : (List.range cfg.NPROC).find?
        (fun j => decide ((k.proc j).state = procstate.UNUSED)) with
    | none =>
      unfold kfork at hs
      rw [hp, allocproc_full cfg _ _ k hf] at hs
      simp only [Option.some.injEq] at hs
      subst hs
      exact ⟨ql, h⟩
    | some i =>
      have hfi := List.find?_range_eq_some.mp hf
      have hi : i < cfg.NPROC := List.mem_range.mp hfi.2.1
      have hun : (k.proc i).state = procstate.UNUSED := by simpa using hfi.1
      obtain ⟨k', hk', hq, hst, _, hlv, _, hoq, _, hd, _, hc, _⟩ :=
        kfork_success cfg a b k p i ql hp hf h.1
          (sched_inv_not_member cfg h (by rw [hun]; simp))
      rw [hk'] at hs
      simp only [Option.some.injEq] at hs
      subst hs
      exact ⟨_, sched_inv_claim cfg h hi hun hq (Or.inr hst) hlv hoq hd hc⟩

/-- Every event on an intended path keeps the invariant. -/
theorem sched_inv_apply_op (cfg : Config) (fuel : Nat) (op : Op) {k k' : Kernel}
    {ql : Int → List Nat} (h : sched_inv cfg k ql) (hint : op_intended cfg op k)
    (hs : apply_op cfg fuel op k = some k') : ∃ ql', sched_inv cfg k' ql' := by
  cases op with
  | allocproc tf pt =>
    simp only [apply_op, Option.some.injEq] at hs
    subst hs
    exact sched_inv_allocproc cfg tf pt h hint.1 hint.2
  | userinit tf pt =>
    exact sched_inv_userinit cfg tf pt h hint.1 hint.2 hs
  | kfork tf pt ok =>
    simp only [apply_op] at hs
    obtain ⟨r, hr, he⟩ := Option.map_eq_some'.mp hs
    subst he
    have hok : ok = true := hint.2.2
    subst hok
    exact sched_inv_kfork cfg tf pt h hint.1 hint.2.1 hr
  | dispatch =>
    simp only [apply_op] at hs
    split at hs
    · rename_i hidle
      obtain ⟨r, hr, he⟩ := Option.map_eq_some'.mp hs
      subst he
      exact sched_inv_dispatch cfg h hidle hr
    · exact absurd hs (by simp)
  | yield => exact sched_inv_yield cfg h hs
  | sleep chan => exact ⟨ql, sched_inv_sleep cfg h hs⟩
  | sleep_tidy => exact ⟨ql, sched_inv_sleep_tidy cfg h hs⟩
  | wakeup chan =>
    simp only [apply_op, Option.some.injEq] at hs
    subst hs
    exact sched_inv_wakeup cfg chan h
  | kkill pid =>
    simp only [apply_op, Option.some.injEq] at hs
    subst hs
    exact ⟨ql, sched_inv_kkill cfg pid h hint⟩
  | kexit status => exact sched_inv_kexit cfg h hs
  | kwait addr ok =>
    simp only [apply_op] at hs
    obtain ⟨r, hr, he⟩ := Option.map_eq_some'.mp hs
    subst he
    obtain ⟨w, k2⟩ := r
    exact ⟨ql, sched_inv_kwait cfg h hr⟩
  | promote_processes => exact sched_inv_promote cfg h hs

/-- The invariant holds in every state reached along intended paths. -/
theorem sched_inv_run (cfg : Config) :
    ∀ (ops : List (Nat × Op)) (k k' : Kernel) (ql : Int → List Nat),
      sched_inv cfg k ql → run_intended cfg ops k = some k' → ∃ ql', sched_inv cfg k' ql'
  | [], k, k', ql, h, hr => by
    simp only [run_intended, Option.some.injEq] at hr
    rw [← hr]; exact ⟨ql, h⟩
  | (fuel, op) :: rest, k, k', ql, h, hr => by
    simp only [run_intended] at hr
    split at hr
    · rename_i hint
      obtain ⟨k1, hk1, hrest⟩ := Option.bind_eq_some.mp hr
      obtain ⟨ql1, h1⟩ := sched_inv_apply_op cfg fuel op h hint hk1
      exact sched_inv_run cfg rest k1 k' ql1 h1 hrest
    · exact absurd hr (by simp)

/-! ## C1: queue membership and process state -/

/-- A duplicate-free list of slots of the table is no longer than the table. -/
theorem length_le_of_nodup_lt {l : List Nat} {n : Nat} (hnd : l.Nodup)
    (hlt : ∀ x ∈ l, x < n) : l.length ≤ n := by
  have hsub : l ⊆ List.range n := fun x hx => List.mem_range.mpr (hlt x hx)
  have := (List.subperm_of_subset hnd hsub).length_le
  simpa using this

/-- Under the invariant a slot is linked into a level's queue exactly if it is
in that level's list. -/
theorem linked_iff_mem (cfg : Config) {k : Kernel} {ql : Int → List Nat}
    (h : sched_inv cfg k ql) {L : Int} (hL : L ∈ scan_levels) (i : Nat) :
    linked cfg k i L ↔ i ∈ ql L := by
  unfold linked
  rw [walk_of_queue_is (h.1.1 L hL)
    (length_le_of_nodup_lt (queue_is_nodup (h.1.1 L hL)) (fun x hx => (h.2.1 L hL x hx).1))]

/-- C1 as stated fails: after `procinit` and one `allocproc` (allocations
succeeding) slot 0 is linked into the level 0 queue and its state is `USED`,
not `RUNNABLE`. -/
theorem C1_linked_iff_runnable_fails :
    ¬ (∀ (ops : List (Nat × Op)) (k : Kernel),
        run_ops cfg4 ops (procinit cfg4 boot_image) = some k →
        ∀ i, i < cfg4.NPROC →
          ((∃ L ∈ scan_levels, linked cfg4 k i L) ↔
            (k.proc i).state = procstate.RUNNABLE)) := by
  intro hall
  have h := hall [(0, Op.allocproc (some 1) (some 2))]
    (allocproc cfg4 (some 1) (some 2) (procinit cfg4 boot_image)).2 rfl 0 (by decide)
  have hl : ∃ L ∈ scan_levels,
      linked cfg4 (allocproc cfg4 (some 1) (some 2) (procinit cfg4 boot_image)).2 0 L :=
    ⟨0, by decide, by decide⟩
  exact absurd (h.mp hl) (by decide)

/-- C1 amended: in every state reached from the state left by `procinit`
through the operations of the file along their intended paths (collaborator
allocations and copies succeed, `kkill` does not hit a `SLEEPING` PCB), the
three queues are well formed, every PCB linked into a queue is `USED` or
`RUNNABLE`, every `RUNNABLE` PCB of the table is linked into a queue, and no
PCB is linked into two queues. -/
theorem C1_linked_used_or_runnable (cfg : Config) (ops : List (Nat × Op)) (k : Kernel)
    (hr : run_intended cfg ops (procinit cfg boot_image) = some k) :
    (∃ ql, queues_wf k ql ∧ ∀ L ∈ scan_levels, ∀ i, linked cfg k i L ↔ i ∈ ql L) ∧
    (∀ i, (∃ L ∈ scan_levels, linked cfg k i L) →
      i < cfg.NPROC ∧
      ((k.proc i).state = procstate.USED ∨ (k.proc i).state = procstate.RUNNABLE)) ∧
    (∀ i, i < cfg.NPROC → (k.proc i).state = procstate.RUNNABLE →
      ∃ L ∈ scan_levels, linked cfg k i L) ∧
    (∀ i, ∀ L ∈ scan_levels, ∀ M ∈ scan_levels,
      linked cfg k i L → linked cfg k i M → L = M) := by
  obtain ⟨ql, h⟩ := sched_inv_run cfg ops _ k _ (sched_inv_boot cfg) hr
  refine ⟨⟨ql, h.1, fun L hL i => linked_iff_mem cfg h hL i⟩, ?_, ?_, ?_⟩
  · rintro i ⟨L, hL, hl⟩
    exact h.2.1 L hL i ((linked_iff_mem cfg h hL i).mp hl)
  · intro i hi hrun
    obtain ⟨L, hL, hm⟩ := h.2.2.1 i hi hrun
    exact ⟨L, hL, (linked_iff_mem cfg h hL i).mpr hm⟩
  · intro i L hL M hM hl hm
    by_contra hne
    exact h.1.2 L hL M hM hne i ((linked_iff_mem cfg h hL i).mp hl)
      ((linked_iff_mem cfg h hM i).mp hm)

theorem option_eq_some_getD {α : Type} (o : Option α) (d : α) (h : o.isSome = true) :
    o = some (o.getD d) := by
  cases o with
  | none => simp at h
  | some a => rfl

/-- C1 amended, at the run `demo_run` on a table of four slots: in the state it
reaches every `RUNNABLE` slot is linked into a queue and every linked slot is
`USED` or `RUNNABLE`. -/
theorem C1_linked_used_or_runnable_witness :
    (∀ i, (∃ L ∈ scan_levels, linked cfg4
        ((run_intended cfg4 demo_run (procinit cfg4 boot_image)).getD boot_image) i L) →
      i < cfg4.NPROC ∧
      ((((run_intended cfg4 demo_run (procinit cfg4 boot_image)).getD boot_image).proc
          i).state = procstate.USED ∨
       (((run_intended cfg4 demo_run (procinit cfg4 boot_image)).getD boot_image).proc
          i).state = procstate.RUNNABLE)) ∧
    (∀ i, i < cfg4.NPROC →
      (((run_intended cfg4 demo_run (procinit cfg4 boot_image)).getD boot_image).proc
        i).state = procstate.RUNNABLE →
      ∃ L ∈ scan_levels, linked cfg4
        ((run_intended cfg4 demo_run (procinit cfg4 boot_image)).getD boot_image) i L) :=
  have h := C1_linked_used_or_runnable cfg4 demo_run
    ((run_intended cfg4 demo_run (procinit cfg4 boot_image)).getD boot_image)
    (option_eq_some_getD _ _ (by decide))
  ⟨h.2.1, h.2.2.1⟩

/-! ## Two paths that leave the invariant -/

/-- A failed `kalloc` inside `allocproc`: the slot is released to `UNUSED`
with pid 0 while it is still the member of the level 0 queue. -/
theorem allocproc_failure_leaves_slot_linked :
    (allocproc cfg4 none (some 2) (procinit cfg4 boot_image)).1 = none ∧
    ((allocproc cfg4 none (some 2) (procinit cfg4 boot_image)).2.proc 0).state
      = procstate.UNUSED ∧
    ((allocproc cfg4 none (some 2) (procinit cfg4 boot_image)).2.proc 0).pid = 0 ∧
    queue_is (allocproc cfg4 none (some 2) (procinit cfg4 boot_image)).2 0 [0] := by
  decide

/-- `kkill` of a `SLEEPING` PCB: after `userinit`, a dispatch, `sleep` on channel
7 and `kkill(1)`, slot 0 is `RUNNABLE` and all three queues are empty. -/
theorem kkill_sleeping_leaves_runnable_unlinked :
    ∃ k, run_ops cfg4
        [(1, Op.userinit (some 1) (some 2)), (1, Op.dispatch), (2, Op.sleep (some 7)),
         (1, Op.kkill 1)] (procinit cfg4 boot_image) = some k ∧
      (k.proc 0).state = procstate.RUNNABLE ∧ (k.proc 0).killed = 1 ∧
      queue_is k 0 [] ∧ queue_is k 1 [] ∧ queue_is k 2 [] :=
  ⟨(run_ops cfg4
      [(1, Op.userinit (some 1) (some 2)), (1, Op.dispatch), (2, Op.sleep (some 7)),
       (1, Op.kkill 1)] (procinit cfg4 boot_image)).getD boot_image,
    option_eq_some_getD _ _ (by decide), by decide, by decide, by decide, by decide, by decide⟩

/-- When every queue member is `RUNNABLE`, the level scan dispatches the head
of the first non-empty level of its list: the levels visited before are empty
and stay as they are. -/
theorem scheduler_scan_first_nonempty :
    ∀ (levels : List Int) (k : Kernel) (ql : Int → List Nat) (p : Nat) (L : Int),
      (∀ M ∈ levels, M ∈ scan_levels) → queues_wf k ql →
      (∀ M ∈ scan_levels, ∀ x ∈ ql M, (k.proc x).state = procstate.RUNNABLE) →
      (scheduler_scan levels k).1 = some (p, L) →
      ∃ pre post, levels = pre ++ L :: post ∧ (∀ M ∈ pre, ql M = []) ∧
        (ql L).head? = some p ∧
        queues_wf (scheduler_scan levels k).2 (setAt ql L (ql L).tail)
  | [], k, ql, p, L, _, _, _, hd => by simp [scheduler_scan] at hd
  | L0 :: rest, k, ql, p, L, hlv, hwf, hrun, hd => by
    have hL0 := hlv L0 (List.mem_cons_self _ _)
    unfold scheduler_scan at hd ⊢
    cases hl : ql L0 with
    | nil =>
      have hnil : dequeue_proc k L0 = (none, k) := dequeue_proc_nil (hl ▸ hwf.1 L0 hL0)
      rw [hnil] at hd ⊢
      simp only at hd ⊢
      obtain ⟨pre, post, e, hpre, hh, hq⟩ := scheduler_scan_first_nonempty rest k ql p L
        (fun M hM => hlv M (List.mem_cons_of_mem _ hM)) hwf hrun hd
      refine ⟨L0 :: pre, post, by rw [e]; rfl, ?_, hh, hq⟩
      intro M hM
      rcases List.mem_cons.mp hM with e2 | hM
      · rw [e2]; exact hl
      · exact hpre M hM
    | cons x xs =>
      obtain ⟨hfst, hq1⟩ := queues_wf_dequeue hwf hL0
      rw [hl] at hfst hq1
      simp only [List.head?_cons, List.tail_cons] at hfst hq1
      have hsplit : dequeue_proc k L0 = (some x, (dequeue_proc k L0).2) := by
        rw [← hfst]
      have hxrun : ((dequeue_proc k L0).2.proc x).state = procstate.RUNNABLE := by
        rw [data_state (dequeue_proc_data k L0 x)]
        exact hrun L0 hL0 x (by rw [hl]; exact List.mem_cons_self _ _)
      rw [hsplit] at hd ⊢
      simp only [if_pos hxrun] at hd ⊢
      simp only [Option.some.injEq, Prod.mk.injEq] at hd
      obtain ⟨rfl, rfl⟩ := hd
      refine ⟨[], rest, rfl, fun M hM => absurd hM (by simp), by rw [hl]; rfl, ?_⟩
      rw [hl]
      refine queues_wf_of_eq hq1 rfl ?_
      intro y
      simp only
      by_cases hy : y = x
      · subst hy; rw [setAt_same]
      · rw [setAt_ne _ _ hy]

/-- Strict priority of the level scan on queues whose members are all
`RUNNABLE`: when the scan dispatches PCB `p` from level `L`, `p` was the head of
level `L` and every level above `L` is empty at that moment. -/
theorem scheduler_scan_strict_priority (k : Kernel) (ql : Int → List Nat) (p : Nat) (L : Int)
    (hwf : queues_wf k ql)
    (hrun : ∀ M ∈ scan_levels, ∀ x ∈ ql M, (k.proc x).state = procstate.RUNNABLE)
    (hd : (scheduler_scan scan_levels k).1 = some (p, L)) :
    L ∈ scan_levels ∧ (ql L).head? = some p ∧
    ∀ M ∈ scan_levels, M < L →
      ql M = [] ∧ queue_is (scheduler_scan scan_levels k).2 M [] := by
  obtain ⟨pre, post, e, hpre, hh, hq⟩ :=
    scheduler_scan_first_nonempty scan_levels k ql p L (fun _ h => h) hwf hrun hd
  have hLm : L ∈ scan_levels := by rw [e]; simp
  have hbefore : ∀ M ∈ scan_levels, M < L → M ∈ pre := by
    intro M hM hlt
    have hs : List.Pairwise (fun a b : Int => a < b) scan_levels := by decide
    rw [e] at hs hM
    have hpost : ∀ b ∈ post, L < b := (List.pairwise_cons.mp (List.pairwise_append.mp hs).2.1).1
    rcases List.mem_append.mp hM with h | h
    · exact h
    · rcases List.mem_cons.mp h with h | h
      · omega
      · have := hpost M h
        omega
  refine ⟨hLm, hh, ?_⟩
  intro M hM hlt
  have hnil := hpre M (hbefore M hM hlt)
  refine ⟨hnil, ?_⟩
  have := hq.1 M hM
  rw [setAt_ne _ _ (by omega), hnil] at this
  exact this

/-- The strict-priority statement at `demo_levels` with the levels 0 and 1
emptied: the scan dispatches slot 2 from level 2, and the levels 0 and 1 are
empty at that moment. -/
theorem scheduler_scan_strict_priority_witness :
    (∀ M ∈ scan_levels, M < (2 : Int) →
      (if M = 2 then [2] else ([] : List Nat)) = [] ∧
      queue_is (scheduler_scan scan_levels
        { demo_levels with
          queues := setAt (setAt demo_levels.queues 0 ⟨none, none⟩) 1 ⟨none, none⟩ }).2 M []) :=
  (scheduler_scan_strict_priority
    { demo_levels with
      queues := setAt (setAt demo_levels.queues 0 ⟨none, none⟩) 1 ⟨none, none⟩ }
    (fun M => if M = 2 then [2] else []) 2 2
    (by decide) (by decide) (by decide)).2.2

/-! ## `kwait` -/

/-- Dropping the head of a filtered duplicate-free list: when the predicate
changes at the head element only. -/
theorem filter_drop_head (l : List Nat) (P Q : Nat → Bool) (i : Nat) (rest : List Nat)
    (hnd : l.Nodup) (hP : l.filter P = i :: rest) (hQi : Q i = false)
    (hQ : ∀ j, j ≠ i → Q j = P j) : l.filter Q = rest := by
  have hnd2 : (i :: rest).Nodup := by
    rw [← hP]; exact hnd.filter _
  have hirest : i ∉ rest := (List.nodup_cons.mp hnd2).1
  have h1 : l.filter Q = (l.filter P).filter (fun j => decide (j ≠ i)) := by
    rw [List.filter_filter]
    apply List.filter_congr
    intro j _
    by_cases hj : j = i
    · subst hj; simp [hQi]
    · rw [hQ j hj]; simp [hj]
  rw [h1, hP, List.filter_cons_of_neg (by simp)]
  exact List.filter_eq_self.mpr (fun a ha => by
    have : a ≠ i := fun e => hirest (e ▸ ha)
    simpa using this)

/-- `freeproc(&proc[i])` writes slot `i` only. -/
theorem freeproc_other (k : Kernel) {i j : Nat} (h : j ≠ i) :
    (freeproc k i).proc j = k.proc j := by
  simp only [freeproc]
  rw [setAt_ne _ _ h]

/-- The scan of `kwait` stops at the first `ZOMBIE` child and frees it. -/
theorem kwait_scan_zombie (p addr : Nat) (ok : Bool) (hok : addr = 0 ∨ ok = true) :
    ∀ (idx : List Nat) (hk : Bool) (k : Kernel) (i : Nat) (rest : List Nat),
      idx.filter (fun j => decide ((k.proc j).parent = some p ∧
        (k.proc j).state = procstate.ZOMBIE)) = i :: rest →
      kwait_scan p addr ok idx hk k = Sum.inl ((k.proc i).pid, freeproc k i) ∧
      kwait_copyout_src p idx k = some (k.proc i).xstate
  | [], _, _, _, _, h => by simp at h
  | j :: l, hk, k, i, rest, h => by
    by_cases hj : (k.proc j).parent = some p ∧ (k.proc j).state = procstate.ZOMBIE
    · rw [List.filter_cons_of_pos (by simpa using hj)] at h
      have hji : j = i := (List.cons.inj h).1
      subst hji
      have hno : ¬ (addr ≠ 0 ∧ ok = false) := by
        rintro ⟨h1, h2⟩
        rcases hok with h | h
        · exact h1 h
        · rw [h] at h2; exact absurd h2 (by decide)
      simp only [kwait_scan, kwait_copyout_src, if_pos hj.1, if_pos hj.2, if_neg hno]
      exact ⟨trivial, trivial⟩
    · rw [List.filter_cons_of_neg (by simpa using hj)] at h
      by_cases hpar : (k.proc j).parent = some p
      · have hst : (k.proc j).state ≠ procstate.ZOMBIE := fun e => hj ⟨hpar, e⟩
        simp only [kwait_scan, kwait_copyout_src, if_pos hpar, if_neg hst]
        exact kwait_scan_zombie p addr ok hok l true k i rest h
      · simp only [kwait_scan, kwait_copyout_src, if_neg hpar]
        exact kwait_scan_zombie p addr ok hok l hk k i rest h

/-- The scan of `kwait` over slots none of which is a `ZOMBIE` child ends with
`havekids` telling whether a child was met. -/
theorem kwait_scan_none (p addr : Nat) (ok : Bool) :
    ∀ (idx : List Nat) (hk : Bool) (k : Kernel),
      (∀ i ∈ idx, (k.proc i).parent = some p → (k.proc i).state ≠ procstate.ZOMBIE) →
      kwait_scan p addr ok idx hk k =
        Sum.inr (hk || idx.any (fun i => decide ((k.proc i).parent = some p)))
  | [], hk, _, _ => by simp [kwait_scan]
  | j :: l, hk, k, h => by
    by_cases hpar : (k.proc j).parent = some p
    · have hst := h j (List.mem_cons_self _ _) hpar
      simp only [kwait_scan, if_pos hpar, if_neg hst]
      rw [kwait_scan_none p addr ok l true k (fun i hi => h i (List.mem_cons_of_mem _ hi))]
      simp [hpar]
    · simp only [kwait_scan, if_neg hpar]
      rw [kwait_scan_none p addr ok l hk k (fun i hi => h i (List.mem_cons_of_mem _ hi))]
      simp [hpar]

/-- The first `ZOMBIE` child is freed by one `kwait` call. -/
theorem kwait_reap_one (cfg : Config) (fuel : Nat) (k : Kernel) (p i : Nat)
    (rest : List Nat) (addr : Nat) (ok : Bool) (hp : myproc k = some p)
    (hz : zombie_children cfg k p = i :: rest) (hok : addr = 0 ∨ ok = true) :
    kwait cfg fuel k addr ok = some (wait_result.returned (k.proc i).pid, freeproc k i) ∧
    zombie_children cfg (freeproc k i) p = rest := by
  constructor
  · simp only [kwait, hp]
    rw [(kwait_scan_zombie p addr ok hok _ false k i rest hz).1]
  · unfold zombie_children at hz ⊢
    refine filter_drop_head _ _ _ i rest (List.nodup_range _) hz ?_ ?_
    · simp [freeproc]
    · intro j hj
      simp only [freeproc_other k hj]

/-- Reaping `m` of the `ZOMBIE` children takes `m` calls. -/
theorem kwait_calls_reap (cfg : Config) (fuel : Nat) (p : Nat) (addr : Nat) (ok : Bool)
    (hok : addr = 0 ∨ ok = true) :
    ∀ (m : Nat) (zs : List Nat) (k : Kernel), myproc k = some p →
      zombie_children cfg k p = zs → m ≤ zs.length →
      ∃ k', kwait_calls cfg fuel addr ok m k =
          some ((zs.take m).map (fun j => wait_result.returned (k.proc j).pid), k') ∧
        zombie_children cfg k' p = zs.drop m ∧
        (∀ j ∈ zs.take m, (k'.proc j).state = procstate.UNUSED) ∧
        (∀ j, j ∉ zs.take m → k'.proc j = k.proc j) ∧
        k'.queues = k.queues ∧ myproc k' = some p
  | 0, zs, k, hp, hz, _ => ⟨k, by simp [kwait_calls], by simpa using hz, by simp, by simp, rfl, hp⟩
  | m + 1, [], k, _, _, hm => by simp at hm
  | m + 1, i :: rest, k, hp, hz, hm => by
    obtain ⟨h1, h2⟩ := kwait_reap_one cfg fuel k p i rest addr ok hp hz hok
    have hnd : (i :: rest).Nodup := by
      rw [← hz]; exact (List.nodup_range _).filter _
    obtain ⟨hirest, -⟩ := List.nodup_cons.mp hnd
    obtain ⟨k', hk', hz', hun, hfr, hq, hp'⟩ :=
      kwait_calls_reap cfg fuel p addr ok hok m rest (freeproc k i) hp h2
        (Nat.le_of_succ_le_succ hm)
    have hmap : (rest.take m).map
          (fun j => wait_result.returned (((freeproc k i).proc j).pid)) =
        (rest.take m).map (fun j => wait_result.returned ((k.proc j).pid)) := by
      apply List.map_congr_left
      intro j hj
      have hji : j ≠ i := fun e => hirest (e ▸ List.mem_of_mem_take hj)
      simp only [freeproc]
      rw [setAt_ne _ _ hji]
    refine ⟨k', ?_, ?_, ?_, ?_, ?_, hp'⟩
    · simp only [kwait_calls, h1, hk', hmap, Option.map_some', List.take_succ_cons,
        List.map_cons]
    · simpa using hz'
    · intro j hj
      rw [List.take_succ_cons] at hj
      rcases List.mem_cons.mp hj with rfl | hj
      · have hni : j ∉ rest.take m := fun h => hirest (List.mem_of_mem_take h)
        rw [hfr j hni]
        simp [freeproc]
      · exact hun j hj
    · intro j hj
      rw [List.take_succ_cons] at hj
      have hji : j ≠ i := fun e => hj (e ▸ List.mem_cons_self _ _)
      rw [hfr j (fun h => hj (List.mem_cons_of_mem _ h))]
      simp only [freeproc]
      rw [setAt_ne _ _ hji]
    · rw [hq]; rfl

/-- C12: let `p` be the current process and let its `ZOMBIE` children in table
order be `i :: rest`; let the copy-out succeed or the address be 0.  One
`kwait` call returns the pid of `i`; the word handed to `copyout` is the exit
status of `i`; slot `i` becomes `UNUSED` with pid 0, no parent, killed 0 and
exit status 0; no other PCB and no queue changes, and the `ZOMBIE` children
left are `rest`.  For every `m` up to the number of `ZOMBIE` children, `m`
calls all succeed, return the pids of the first `m` of them in table order and
leave exactly the others as `ZOMBIE` children; so reaping all `n` takes `n`
calls. -/
theorem C12_kwait_reaps (cfg : Config) (fuel : Nat) (k : Kernel) (p i : Nat)
    (rest : List Nat) (addr : Nat) (ok : Bool) (hp : myproc k = some p)
    (hz : zombie_children cfg k p = i :: rest) (hok : addr = 0 ∨ ok = true) :
    kwait cfg fuel k addr ok = some (wait_result.returned (k.proc i).pid, freeproc k i) ∧
    kwait_copyout_src p (List.range cfg.NPROC) k = some (k.proc i).xstate ∧
    ((freeproc k i).proc i).state = procstate.UNUSED ∧
    ((freeproc k i).proc i).pid = 0 ∧ ((freeproc k i).proc i).parent = none ∧
    ((freeproc k i).proc i).killed = 0 ∧ ((freeproc k i).proc i).xstate = 0 ∧
    (∀ j, j ≠ i → (freeproc k i).proc j = k.proc j) ∧
    (freeproc k i).queues = k.queues ∧
    zombie_children cfg (freeproc k i) p = rest ∧
    (∀ m, m ≤ (i :: rest).length →
      ∃ k', kwait_calls cfg fuel addr ok m k =
          some (((i :: rest).take m).map (fun j => wait_result.returned (k.proc j).pid), k') ∧
        zombie_children cfg k' p = (i :: rest).drop m ∧
        (∀ j ∈ (i :: rest).take m, (k'.proc j).state = procstate.UNUSED) ∧
        (∀ j, j ∉ (i :: rest).take m → k'.proc j = k.proc j) ∧
        k'.queues = k.queues) := by
  obtain ⟨h1, h2⟩ := kwait_reap_one cfg fuel k p i rest addr ok hp hz hok
  refine ⟨h1, (kwait_scan_zombie p addr ok hok _ false k i rest hz).2, ?_, ?_, ?_, ?_, ?_,
    ?_, rfl, h2, ?_⟩
  · simp [freeproc]
  · simp [freeproc]
  · simp [freeproc]
  · simp [freeproc]
  · simp [freeproc]
  · intro j hj
    simp only [freeproc]
    rw [setAt_ne _ _ hj]
  · intro m hm
    obtain ⟨k', a, b, c, d, e, _⟩ :=
      kwait_calls_reap cfg fuel p addr ok hok m (i :: rest) k hp hz hm
    exact ⟨k', a, b, c, d, e⟩

/-- C12 at the concrete table `demo_zombies`: the running slot 0 has the
`ZOMBIE` children 1 and 3 and the `RUNNABLE` child 2.  The first `kwait`
returns pid 2 and hands exit status 5 to `copyout`; two calls return the pids
2 and 4, after which no `ZOMBIE` child is left and slot 2 is untouched. -/
theorem C12_kwait_reaps_witness :
    kwait cfg4 0 demo_zombies 8 true = some (wait_result.returned 2, freeproc demo_zombies 1) ∧
    kwait_copyout_src 0 (List.range cfg4.NPROC) demo_zombies = some 5 ∧
    ((freeproc demo_zombies 1).proc 1).state = procstate.UNUSED ∧
    ((freeproc demo_zombies 1).proc 3).state = procstate.ZOMBIE ∧
    ∃ k', kwait_calls cfg4 0 8 true 2 demo_zombies =
        some ([wait_result.returned 2, wait_result.returned 4], k') ∧
      zombie_children cfg4 k' 0 = [] ∧ k'.proc 2 = demo_zombies.proc 2 :=
  have h := C12_kwait_reaps cfg4 0 demo_zombies 0 1 [3] 8 true (by decide) (by decide)
    (Or.inr rfl)
  ⟨h.1, h.2.1, h.2.2.1, (h.2.2.2.2.2.2.2.1 3 (by decide)) ▸ (by decide),
    (h.2.2.2.2.2.2.2.2.2.2 2 (by decide)).elim fun k' hk =>
      ⟨k', hk.1, hk.2.1, hk.2.2.2.1 2 (by decide)⟩⟩

/-- C13: let `p` be the current process.  If no slot of the table has `p` as
parent, or if `p` has children, none of them `ZOMBIE`, and the killed flag of
`p` is set, one call of `kwait` returns -1 without blocking, and the globals
(every PCB field, every queue) are the ones before the call. -/
theorem C13_kwait_fails (cfg : Config) (fuel : Nat) (k : Kernel) (p : Nat) (addr : Nat)
    (ok : Bool) (hp : myproc k = some p)
    (h : (∀ i, i < cfg.NPROC → (k.proc i).parent ≠ some p) ∨
      ((∃ i, i < cfg.NPROC ∧ (k.proc i).parent = some p) ∧
       (∀ i, i < cfg.NPROC → (k.proc i).parent = some p →
          (k.proc i).state ≠ procstate.ZOMBIE) ∧
       (k.proc p).killed ≠ 0)) :
    kwait cfg fuel k addr ok = some (wait_result.returned (-1), k) := by
  simp only [kwait, hp]
  rcases h with h | ⟨_, hnz, hkill⟩
  · rw [kwait_scan_none p addr ok _ false k (fun i hi hpar =>
      absurd hpar (h i (List.mem_range.mp hi)))]
    have hany : (List.range cfg.NPROC).any (fun i => decide ((k.proc i).parent = some p))
        = false := by
      rw [List.any_eq_false]
      intro i hi
      simpa using h i (List.mem_range.mp hi)
    simp [hany]
  · rw [kwait_scan_none p addr ok _ false k (fun i hi hpar =>
      hnz i (List.mem_range.mp hi) hpar)]
    simp [hkill]

/-- C13 at concrete tables: in `demo_levels` the running slot 0 has no child;
in `demo_killed` it has the children 1 and 2, neither a `ZOMBIE`, and its
killed flag is set.  Both calls return -1 and leave the globals alone. -/
theorem C13_kwait_fails_witness :
    kwait cfg6 0 demo_levels 8 true = some (wait_result.returned (-1), demo_levels) ∧
    kwait cfg4 0 demo_killed 8 true = some (wait_result.returned (-1), demo_killed) :=
  ⟨C13_kwait_fails cfg6 0 demo_levels 0 8 true (by decide) (Or.inl (by decide)),
   C13_kwait_fails cfg4 0 demo_killed 0 8 true (by decide)
     (Or.inr ⟨⟨1, by decide, by decide⟩, by decide, by decide⟩)⟩

/-! ## `remove_from_queue` as a list operation -/

/-- C17: let the queue of `level` be well formed with contents `l`, and let the
search loop have more steps of fuel than the queue has members.  Then
`remove_from_queue(&proc[i], level)` returns, and afterwards the queue is well
formed with contents `l.erase i`, its tail pointer designating the last member
of that list (null when the list is empty) and the link of slot `i` is null.
If `i` is a member, `l` splits as `a ++ i :: b` with `i` in neither part and
the new contents are `a ++ b`: exactly `i` is gone and the order of the others
is kept.  If `i` is not a member the contents are `l` as before.  No other
field of any PCB changes. -/
theorem C17_remove_from_queue (k : Kernel) (level : Int) (l : List Nat) (i fuel : Nat)
    (h : queue_is k level l) (hf : l.length < fuel) :
    ∃ k', remove_from_queue fuel k (some i) level = some k' ∧
      queue_is k' level (l.erase i) ∧
      (k'.queues level).tail = (l.erase i).getLast? ∧
      (l.erase i = [] → (k'.queues level).head = none ∧ (k'.queues level).tail = none) ∧
      (k'.proc i).next_in_queue = none ∧
      (i ∈ l → ∃ a b, l = a ++ i :: b ∧ i ∉ a ∧ i ∉ b ∧ l.erase i = a ++ b) ∧
      (i ∉ l → l.erase i = l) ∧
      (∀ j, proc_data (k'.proc j) = proc_data (k.proc j)) := by
  obtain ⟨k', hk', hq, hd, hn, -⟩ := remove_from_queue_spec i fuel h hf
  refine ⟨k', hk', hq, hq.2, ?_, hn, ?_, List.erase_of_not_mem, hd⟩
  · intro he
    rw [he] at hq
    exact (queue_is_nil_iff k' level).mp hq
  · intro hi
    obtain ⟨a, b, ha, hl, he⟩ := List.exists_erase_eq hi
    refine ⟨a, b, hl, ha, ?_, he⟩
    have hnd : (a ++ i :: b).Nodup := hl ▸ chain_nodup k.proc l _ h.1
    have h2 := (List.nodup_append.mp hnd).2.1
    exact (List.nodup_cons.mp h2).1

/-- C17 at the concrete table `demo_levels`, whose level 1 queue holds the
slots 1 and 4: removing the tail 4 leaves `[1]` with the tail pointer at slot
1; removing the head 1 leaves `[4]`; removing the non-member 3 leaves `[1, 4]`. -/
theorem C17_remove_from_queue_witness :
    (∃ k', remove_from_queue 3 demo_levels (some 4) 1 = some k' ∧
      queue_is k' 1 [1] ∧ (k'.queues 1).tail = some 1 ∧ (k'.proc 4).next_in_queue = none) ∧
    (∃ k', remove_from_queue 3 demo_levels (some 1) 1 = some k' ∧
      queue_is k' 1 [4] ∧ (k'.proc 1).next_in_queue = none) ∧
    (∃ k', remove_from_queue 3 demo_levels (some 3) 1 = some k' ∧ queue_is k' 1 [1, 4]) :=
  ⟨(C17_remove_from_queue demo_levels 1 [1, 4] 4 3 (by decide) (by decide)).elim
      fun k' hk => ⟨k', hk.1, hk.2.1, hk.2.2.1, hk.2.2.2.2.1⟩,
   (C17_remove_from_queue demo_levels 1 [1, 4] 1 3 (by decide) (by decide)).elim
      fun k' hk => ⟨k', hk.1, hk.2.1, hk.2.2.2.2.1⟩,
   (C17_remove_from_queue demo_levels 1 [1, 4] 3 3 (by decide) (by decide)).elim
      fun k' hk => ⟨k', hk.1, hk.2.1⟩⟩

/-! ## Failed creation -/

/-- C15, the code at three failing creations.  At boot, with the level 0 queue
empty, `allocproc` with a failing `kalloc` and `allocproc` with a failing
`proc_pagetable` both return null and leave slot 0 `UNUSED` with pid 0, but
the level 0 queue then holds slot 0.  In `demo_sleeper`, whose level 0 queue
holds slot 2, `kfork` with a failing `uvmcopy` returns -1 and leaves the
claimed slot 3 `UNUSED` with pid 0, but the level 0 queue then holds the slots
2 and 3: `freeproc` ran on a PCB that `allocproc` had linked, and nothing
unlinked it. -/
theorem C15_failed_creation_leaves_slot_linked :
    (queue_is (procinit cfg4 boot_image) 0 [] ∧
     (allocproc cfg4 none (some 2) (procinit cfg4 boot_image)).1 = none ∧
     ((allocproc cfg4 none (some 2) (procinit cfg4 boot_image)).2.proc 0).state
       = procstate.UNUSED ∧
     ((allocproc cfg4 none (some 2) (procinit cfg4 boot_image)).2.proc 0).pid = 0 ∧
     queue_is (allocproc cfg4 none (some 2) (procinit cfg4 boot_image)).2 0 [0] ∧
     linked cfg4 (allocproc cfg4 none (some 2) (procinit cfg4 boot_image)).2 0 0) ∧
    ((allocproc cfg4 (some 1) none (procinit cfg4 boot_image)).1 = none ∧
     ((allocproc cfg4 (some 1) none (procinit cfg4 boot_image)).2.proc 0).state
       = procstate.UNUSED ∧
     ((allocproc cfg4 (some 1) none (procinit cfg4 boot_image)).2.proc 0).pid = 0 ∧
     queue_is (allocproc cfg4 (some 1) none (procinit cfg4 boot_image)).2 0 [0] ∧
     linked cfg4 (allocproc cfg4 (some 1) none (procinit cfg4 boot_image)).2 0 0) ∧
    (queue_is demo_sleeper 0 [2] ∧
     kfork cfg4 (some 1) (some 2) false demo_sleeper =
       some (-1, freeproc (allocproc cfg4 (some 1) (some 2) demo_sleeper).2 3) ∧
     ((freeproc (allocproc cfg4 (some 1) (some 2) demo_sleeper).2 3).proc 3).state
       = procstate.UNUSED ∧
     ((freeproc (allocproc cfg4 (some 1) (some 2) demo_sleeper).2 3).proc 3).pid = 0 ∧
     queue_is (freeproc (allocproc cfg4 (some 1) (some 2) demo_sleeper).2 3) 0 [2, 3] ∧
     linked cfg4 (freeproc (allocproc cfg4 (some 1) (some 2) demo_sleeper).2 3) 3 0) :=
  ⟨⟨by decide, by decide, by decide, by decide, by decide, by decide⟩,
   ⟨by decide, by decide, by decide, by decide, by decide⟩,
   ⟨by decide, rfl, by decide, by decide, by decide, by decide⟩⟩

/-! ## `allocproc` -/

theorem locks_after_append (evs1 : List lock_event) :
    ∀ (held : List Nat) (evs2 : List lock_event),
      locks_after held (evs1 ++ evs2) = locks_after (locks_after held evs1) evs2 := by
  induction evs1 with
  | nil => intro held evs2; rfl
  | cons e rest ih =>
    intro held evs2
    cases e with
    | acquire i => exact ih (i :: held) evs2
    | release i => exact ih (held.erase i) evs2

/-- The scan of `allocproc` ends holding the lock of the first `UNUSED` slot
and no other lock it took. -/
theorem allocproc_scan_locks_held (k : Kernel) :
    ∀ (idx held : List Nat),
      locks_after held (allocproc_scan_locks idx k) =
        match idx.find? (fun i => decide ((k.proc i).state = procstate.UNUSED)) with
        | none => held
        | some i => i :: held
  | [], held => rfl
  | j :: rest, held => by
    by_cases hj : (k.proc j).state = procstate.UNUSED
    · simp only [allocproc_scan_locks, if_pos hj, List.find?_cons, decide_eq_true hj,
        locks_after]
    · simp only [allocproc_scan_locks, if_neg hj, List.find?_cons, decide_eq_false hj,
        locks_after, List.erase_cons_head]
      exact allocproc_scan_locks_held k rest held

/-- `allocproc` is the scan, the assignments at `found:`, and the two
allocations, each followed by `freeproc` when it fails. -/
theorem allocproc_eq_found (cfg : Config) (tf pt : Option Nat) (k : Kernel) :
    allocproc cfg tf pt k =
      match (List.range cfg.NPROC).find?
          (fun i => decide ((k.proc i).state = procstate.UNUSED)) with
      | none => (none, k)
      | some i =>
        match tf with
        | none =>
          (none, freeproc { allocproc_found cfg k i with
            proc := (setAt (allocproc_found cfg k i).proc i
              { (allocproc_found cfg k i).proc i with trapframe := none }) } i)
        | some t =>
          match pt with
          | none =>
            (none, freeproc { allocproc_found cfg k i with
              proc := (setAt (allocproc_found cfg k i).proc i
                { (allocproc_found cfg k i).proc i with
                  trapframe := some t, pagetable := none }) } i)
          | some g =>
            (some i, { allocproc_found cfg k i with
              proc := (setAt (allocproc_found cfg k i).proc i
                { (allocproc_found cfg k i).proc i with
                  trapframe := some t, pagetable := some g }) }) := by
  unfold allocproc
  cases hf : (List.range cfg.NPROC).find?
      (fun i => decide ((k.proc i).state = procstate.UNUSED)) with
  | none => rfl
  | some i =>
    cases tf with
    | none => rfl
    | some t =>
      cases pt with
      | none =>
        simp only [allocproc_found, allocpid, freeproc, setAt_same]
        congr 2
        funext j
        by_cases hj : j = i
        · subst hj; simp only [setAt_same]
        · simp only [setAt_ne _ _ hj]
      | some g =>
        simp only [allocproc_found, allocpid, setAt_same]
        congr 2
        funext j
        by_cases hj : j = i
        · subst hj; simp only [setAt_same]
        · simp only [setAt_ne _ _ hj]

/-- The PCB of the claimed slot after the assignments at `found:`. -/
theorem allocproc_found_data (cfg : Config) (k : Kernel) (i j : Nat) :
    proc_data ((allocproc_found cfg k i).proc j) =
      if j = i then
        proc_data { k.proc i with
          pid := k.nextpid, state := procstate.USED, queue_level := 0,
          remaining_ticks := cfg.Q0_TICKS, original_queue := 0 }
      else proc_data (k.proc j) := by
  simp only [allocproc_found, allocpid]
  rw [enqueue_proc_data]
  by_cases hj : j = i
  · subst hj; simp only [setAt_same, if_true]
  · simp only [setAt_ne _ _ hj, if_neg hj]

theorem allocproc_found_nextpid (cfg : Config) (k : Kernel) (i : Nat) :
    (allocproc_found cfg k i).nextpid = wrap32 (k.nextpid + 1) := by
  simp only [allocproc_found, allocpid]
  rw [enqueue_proc_nextpid]

theorem wrap32_id {x : Int} (h1 : -2147483648 ≤ x) (h2 : x < 2147483648) : wrap32 x = x := by
  unfold wrap32
  omega

/-- C14 as the code has it: on the 32 bit counter the increment at the largest
`int` wraps.  With `nextpid = 2147483647`, `allocproc` gives slot 0 that pid
and leaves the counter at `-2147483648`, which is not one larger; the next
`allocproc` gives slot 1 the pid `-2147483648`, which is neither positive nor
greater than the pid assigned before. -/
theorem C14_counter_wraps_at_int_max :
    (allocproc cfg4 (some 1) (some 2) demo_lastpid).1 = some 0 ∧
    ((allocproc cfg4 (some 1) (some 2) demo_lastpid).2.proc 0).pid = 2147483647 ∧
    (allocproc cfg4 (some 1) (some 2) demo_lastpid).2.nextpid = -2147483648 ∧
    (allocproc cfg4 (some 1) (some 2) demo_lastpid).2.nextpid ≠ demo_lastpid.nextpid + 1 ∧
    (allocproc cfg4 (some 3) (some 4) (allocproc cfg4 (some 1) (some 2) demo_lastpid).2).1
      = some 1 ∧
    ((allocproc cfg4 (some 3) (some 4)
      (allocproc cfg4 (some 1) (some 2) demo_lastpid).2).2.proc 1).pid = -2147483648 :=
  ⟨by decide, by decide, by decide, by decide, by decide, by decide⟩

/-! ## Every operation is made of the assignment sites -/

theorem procs_reach_refl (cfg : Config) (k : Kernel) : procs_reach cfg k k :=
  fun _ => Relation.ReflTransGen.refl

theorem procs_reach_trans (cfg : Config) {k1 k2 k3 : Kernel} (h1 : procs_reach cfg k1 k2)
    (h2 : procs_reach cfg k2 k3) : procs_reach cfg k1 k3 :=
  fun j => (h1 j).trans (h2 j)

/-- Kernels with the same table are related. -/
theorem procs_reach_of_proc_eq (cfg : Config) {k k' : Kernel} (h : k'.proc = k.proc) :
    procs_reach cfg k k' := by
  intro j
  rw [h]

theorem procs_reach_of_eq_left (cfg : Config) {k k0 k' : Kernel} (h : procs_reach cfg k0 k')
    (hp : k0.proc = k.proc) : procs_reach cfg k k' := by
  intro j
  rw [← hp]; exact h j

theorem pcb_reach_of_data (cfg : Config) {a b : proc} (h : proc_data b = proc_data a) :
    Relation.ReflTransGen (pcb_update cfg) a b := by
  have e : ({ a with next_in_queue := b.next_in_queue } : proc) = b :=
    proc_eq_of_data (by rw [h]; rfl) rfl
  have s : Relation.ReflTransGen (pcb_update cfg) a { a with next_in_queue := b.next_in_queue } :=
    Relation.ReflTransGen.single (pcb_update.link a b.next_in_queue)
  rw [e] at s
  exact s

theorem procs_reach_of_data (cfg : Config) {k k' : Kernel}
    (h : ∀ j, proc_data (k'.proc j) = proc_data (k.proc j)) : procs_reach cfg k k' :=
  fun j => pcb_reach_of_data cfg (h j)

/-- A store into one slot whose new value comes from the old by assignment sites. -/
theorem procs_reach_store (cfg : Config) {k k' : Kernel} {i : Nat} {v : proc}
    (hp : k'.proc = setAt k.proc i v)
    (h : Relation.ReflTransGen (pcb_update cfg) (k.proc i) v) : procs_reach cfg k k' := by
  intro j
  rw [hp]
  by_cases hj : j = i
  · subst hj; rw [setAt_same]; exact h
  · rw [setAt_ne _ _ hj]

theorem procs_reach_foldl (cfg : Config) (f : Kernel → Nat → Kernel)
    (hf : ∀ k i, procs_reach cfg k (f k i)) :
    ∀ (idx : List Nat) (k : Kernel), procs_reach cfg k (idx.foldl f k)
  | [], k => procs_reach_refl cfg k
  | i :: rest, k => by
    rw [List.foldl_cons]
    exact procs_reach_trans cfg (hf k i) (procs_reach_foldl cfg f hf rest (f k i))

theorem procs_reach_enqueue (cfg : Config) (k : Kernel) (p : Option Nat) (level : Int) :
    procs_reach cfg k (enqueue_proc k p level) :=
  procs_reach_of_data cfg (enqueue_proc_data k p level)

theorem procs_reach_dequeue (cfg : Config) (k : Kernel) (level : Int) :
    procs_reach cfg k (dequeue_proc k level).2 :=
  procs_reach_of_data cfg (dequeue_proc_data k level)

theorem procs_reach_remove (cfg : Config) {fuel : Nat} {k k' : Kernel} {p : Option Nat}
    {level : Int} (h : remove_from_queue fuel k p level = some k') : procs_reach cfg k k' :=
  procs_reach_of_data cfg (remove_from_queue_frame h).1

theorem procs_reach_freeproc (cfg : Config) (k : Kernel) (i : Nat) :
    procs_reach cfg k (freeproc k i) :=
  procs_reach_store cfg (i := i) rfl (Relation.ReflTransGen.single (pcb_update.free _))

theorem procs_reach_allocproc_found (cfg : Config) (k : Kernel) (i : Nat)
    (h : (k.proc i).state = procstate.UNUSED) : procs_reach cfg k (allocproc_found cfg k i) := by
  obtain ⟨k2, hk2⟩ : ∃ k2 : Kernel, k2 =
      { k with nextpid := wrap32 (k.nextpid + 1), proc := (setAt k.proc i
          { k.proc i with pid := k.nextpid, state := procstate.USED, queue_level := 0,
                           remaining_ticks := cfg.Q0_TICKS, original_queue := 0 }) } := ⟨_, rfl⟩
  have h1 : procs_reach cfg k k2 :=
    procs_reach_store cfg (i := i) (by rw [hk2])
      (Relation.ReflTransGen.single (pcb_update.claim _ k.nextpid h))
  have h2 : allocproc_found cfg k i = enqueue_proc k2 (some i) 0 := by
    rw [hk2]; rfl
  rw [h2]
  exact procs_reach_trans cfg h1 (procs_reach_enqueue cfg k2 _ _)

theorem procs_reach_allocproc (cfg : Config) (tf pt : Option Nat) (k : Kernel) :
    procs_reach cfg k (allocproc cfg tf pt k).2 := by
  rw [allocproc_eq_found]
  cases hf : (List.range cfg.NPROC).find?
      (fun i => decide ((k.proc i).state = procstate.UNUSED)) with
  | none => exact procs_reach_refl cfg k
  | some i =>
    have hun : (k.proc i).state = procstate.UNUSED := by
      simpa using List.find?_some hf
    have h1 := procs_reach_allocproc_found cfg k i hun
    cases tf with
    | none =>
      refine procs_reach_trans cfg h1 (procs_reach_trans cfg ?_ (procs_reach_freeproc cfg _ i))
      exact procs_reach_store cfg (i := i) rfl
        (Relation.ReflTransGen.single (pcb_update.trapframe _ none))
    | some t =>
      have h2 : Relation.ReflTransGen (pcb_update cfg) ((allocproc_found cfg k i).proc i)
          { (allocproc_found cfg k i).proc i with trapframe := some t } :=
        Relation.ReflTransGen.single (pcb_update.trapframe _ (some t))
      cases pt with
      | none =>
        refine procs_reach_trans cfg h1 (procs_reach_trans cfg ?_ (procs_reach_freeproc cfg _ i))
        exact procs_reach_store cfg (i := i) rfl
          (h2.tail (pcb_update.pagetable _ none))
      | some g =>
        refine procs_reach_trans cfg h1 ?_
        exact procs_reach_store cfg (i := i) rfl
          (h2.tail (pcb_update.pagetable _ (some g)))

theorem procs_reach_userinit (cfg : Config) (tf pt : Option Nat) {k k' : Kernel}
    (h : userinit cfg tf pt k = some k') : procs_reach cfg k k' := by
  unfold userinit at h
  have h1 := procs_reach_allocproc cfg tf pt k
  cases ha : allocproc cfg tf pt k with
  | mk o k1 =>
    rw [ha] at h h1
    cases o with
    | none => exact absurd h (by simp)
    | some i =>
      simp only [Option.some.injEq] at h
      rw [← h]
      exact procs_reach_trans cfg h1 (procs_reach_store cfg (i := i) rfl
        (Relation.ReflTransGen.single (pcb_update.runnable _)))

theorem procs_reach_kfork (cfg : Config) (tf pt : Option Nat) (ok : Bool) {k : Kernel}
    {r : Int × Kernel} (h : kfork cfg tf pt ok k = some r) : procs_reach cfg k r.2 := by
  unfold kfork at h
  cases hc : myproc k with
  | none => rw [hc] at h; exact absurd h (by simp)
  | some p =>
    rw [hc] at h
    have h1 := procs_reach_allocproc cfg tf pt k
    cases ha : allocproc cfg tf pt k with
    | mk o k1 =>
      rw [ha] at h h1
      cases o with
      | none =>
        simp only [Option.some.injEq] at h
        rw [← h]; exact h1
      | some np =>
        simp only at h
        split at h
        · simp only [Option.some.injEq] at h
          rw [← h]
          exact procs_reach_trans cfg h1 (procs_reach_freeproc cfg k1 np)
        · simp only [Option.some.injEq] at h
          rw [← h]
          refine procs_reach_trans cfg h1 ?_
          refine procs_reach_store cfg (i := np)
            (v := { k1.proc np with sz := (k1.proc p).sz, parent := some p,
                                     state := procstate.RUNNABLE }) ?_ ?_
          · funext j
            by_cases hj : j = np
            · subst hj; simp only [setAt_same]
            · simp only [setAt_ne _ _ hj]
          · exact ((Relation.ReflTransGen.single (pcb_update.size _ (k1.proc p).sz)).tail
              (pcb_update.parent _ (some p))).tail (pcb_update.runnable _)

theorem procs_reach_scheduler_scan (cfg : Config) :
    ∀ (levels : List Int) (k : Kernel), procs_reach cfg k (scheduler_scan levels k).2
  | [], k => procs_reach_refl cfg k
  | level :: rest, k => by
    have hd := procs_reach_dequeue cfg k level
    simp only [scheduler_scan]
    cases hq : dequeue_proc k level with
    | mk o k1 =>
      rw [hq] at hd
      cases o with
      | none => exact procs_reach_trans cfg hd (procs_reach_scheduler_scan cfg rest k1)
      | some p =>
        simp only
        split
        · rename_i hr
          exact procs_reach_trans cfg hd (procs_reach_store cfg (i := p) rfl
            (Relation.ReflTransGen.single (pcb_update.dispatch _ hr)))
        · exact procs_reach_trans cfg hd (procs_reach_scheduler_scan cfg rest k1)

/-- The first loop of `promote_processes` writes links only. -/
theorem promote_sweep_data (level : Int) :
    ∀ (fuel : Nat) (k : Kernel) (v : sweep_vars) (k' : Kernel) (v' : sweep_vars),
      promote_sweep level fuel k v = some (k', v') →
      ∀ j, proc_data (k'.proc j) = proc_data (k.proc j)
  | 0, _, _, _, _, h => by simp [promote_sweep] at h
  | fuel + 1, k, v, k', v', h => by
    simp only [promote_sweep] at h
    cases hc : v.current with
    | none =>
      rw [hc] at h
      simp only [Option.some.injEq, Prod.mk.injEq] at h
      intro j; rw [← h.1]
    | some c =>
      rw [hc] at h
      simp only at h
      split at h
      · intro j
        rw [promote_sweep_data level fuel _ _ k' v' h j]
        simp only
        cases v.to_promote_tail <;> cases v.prev <;> simp only [setNext_data]
      · exact promote_sweep_data level fuel _ _ k' v' h

theorem procs_reach_promote_requeue (cfg : Config) :
    ∀ (fuel : Nat) (k : Kernel) (c : Option Nat) (k' : Kernel),
      promote_requeue cfg fuel k c = some k' → procs_reach cfg k k'
  | 0, _, _, _, h => by simp [promote_requeue] at h
  | _ + 1, k, none, k', h => by
    simp only [promote_requeue, Option.some.injEq] at h
    rw [← h]; exact procs_reach_refl cfg k
  | fuel + 1, k, some c, k', h => by
    simp only [promote_requeue] at h
    refine procs_reach_trans cfg ?_ (procs_reach_promote_requeue cfg fuel _ _ k' h)
    refine procs_reach_trans cfg ?_ (procs_reach_enqueue cfg _ _ _)
    split
    · exact procs_reach_store cfg (i := c) rfl
        (Relation.ReflTransGen.single (pcb_update.promote _))
    · exact procs_reach_refl cfg k

theorem procs_reach_promote_running_one (cfg : Config) (k : Kernel) (i : Nat) :
    procs_reach cfg k (promote_running_one cfg k i) := by
  unfold promote_running_one
  split
  · exact procs_reach_store cfg (i := i) rfl
      (Relation.ReflTransGen.single (pcb_update.promote _))
  · exact procs_reach_refl cfg k

theorem procs_reach_promote_level (cfg : Config) {fuel : Nat} {k k' : Kernel} {level : Int}
    (h : promote_level cfg fuel k level = some k') : procs_reach cfg k k' := by
  unfold promote_level at h
  cases hs : promote_sweep level fuel k
      { prev := none, current := (k.queues level).head, to_promote_head := none,
        to_promote_tail := none } with
  | none => rw [hs] at h; exact absurd h (by simp)
  | some r =>
    obtain ⟨k1, v⟩ := r
    rw [hs] at h
    simp only at h
    cases hr : promote_requeue cfg fuel k1 v.to_promote_head with
    | none => rw [hr] at h; exact absurd h (by simp)
    | some k2 =>
      rw [hr] at h
      simp only [Option.some.injEq] at h
      rw [← h]
      exact procs_reach_trans cfg
        (procs_reach_of_data cfg (promote_sweep_data level fuel _ _ _ _ hs))
        (procs_reach_trans cfg (procs_reach_promote_requeue cfg fuel _ _ _ hr)
          (procs_reach_foldl cfg _ (procs_reach_promote_running_one cfg) _ _))

theorem procs_reach_promote_processes (cfg : Config) {fuel : Nat} {k k' : Kernel}
    (h : promote_processes cfg fuel k = some k') : procs_reach cfg k k' := by
  unfold promote_processes at h
  cases h1 : promote_level cfg fuel k 1 with
  | none => rw [h1] at h; exact absurd h (by simp)
  | some k1 =>
    rw [h1] at h
    exact procs_reach_trans cfg (procs_reach_promote_level cfg h1)
      (procs_reach_promote_level cfg h)

theorem procs_reach_scheduler_dispatch (cfg : Config) {fuel : Nat} {k : Kernel}
    {r : Option (Nat × Int) × Kernel} (h : scheduler_dispatch cfg fuel k = some r) :
    procs_reach cfg k r.2 := by
  unfold scheduler_dispatch at h
  obtain ⟨k1, hk1, hr⟩ := Option.map_eq_some'.mp h
  rw [← hr]
  refine procs_reach_trans cfg ?_ (procs_reach_scheduler_scan cfg _ k1)
  unfold scheduler_promote at hk1
  split at hk1
  · exact procs_reach_of_eq_left cfg (procs_reach_promote_processes cfg hk1) rfl
  · simp only [Option.some.injEq] at hk1
    rw [← hk1]; exact procs_reach_refl cfg k

theorem procs_reach_scheduler_return (cfg : Config) (k : Kernel) (p : Nat) :
    procs_reach cfg k (scheduler_return k p) := by
  unfold scheduler_return
  simp only
  split
  · exact procs_reach_of_eq_left cfg (procs_reach_enqueue cfg _ _ _) rfl
  · exact procs_reach_of_proc_eq cfg rfl

theorem procs_reach_sched (cfg : Config) {k k' : Kernel} (h : sched k = some k') :
    procs_reach cfg k k' := by
  unfold sched at h
  cases hc : myproc k with
  | none => rw [hc] at h; exact absurd h (by simp)
  | some p =>
    rw [hc] at h
    simp only at h
    split at h
    · exact absurd h (by simp)
    · simp only [Option.some.injEq] at h
      rw [← h]; exact procs_reach_scheduler_return cfg k p

theorem procs_reach_yield (cfg : Config) {k k' : Kernel} (h : yield k = some k') :
    procs_reach cfg k k' := by
  unfold yield at h
  obtain ⟨k1, hk1, hs⟩ := Option.bind_eq_some.mp h
  refine procs_reach_trans cfg ?_ (procs_reach_sched cfg hs)
  unfold yield_body at hk1
  cases hc : myproc k with
  | none => rw [hc] at hk1; exact absurd hk1 (by simp)
  | some p =>
    rw [hc] at hk1
    simp only [Option.some.injEq] at hk1
    rw [← hk1]
    exact procs_reach_store cfg (i := p) rfl
      (Relation.ReflTransGen.single (pcb_update.runnable _))

theorem procs_reach_sleep_body (cfg : Config) {fuel : Nat} {k k' : Kernel} {chan : Option Nat}
    (h : sleep_body fuel k chan = some k') : procs_reach cfg k k' := by
  unfold sleep_body at h
  cases hc : myproc k with
  | none => rw [hc] at h; exact absurd h (by simp)
  | some p =>
    rw [hc] at h
    simp only at h
    refine procs_reach_trans cfg ?_ (procs_reach_remove cfg h)
    refine procs_reach_store cfg (i := p)
      (v := { k.proc p with chan := chan, state := procstate.SLEEPING,
                             original_queue := (k.proc p).queue_level }) ?_
      (Relation.ReflTransGen.single (pcb_update.sleep _ chan))
    funext j
    by_cases hj : j = p
    · subst hj; simp only [setAt_same]
    · simp only [setAt_ne _ _ hj]

theorem procs_reach_sleep (cfg : Config) {fuel : Nat} {k k' : Kernel} {chan : Option Nat}
    (h : sleep fuel k chan = some k') : procs_reach cfg k k' := by
  unfold sleep at h
  obtain ⟨k1, hk1, hs⟩ := Option.bind_eq_some.mp h
  exact procs_reach_trans cfg (procs_reach_sleep_body cfg hk1) (procs_reach_sched cfg hs)

theorem procs_reach_sleep_tidy (cfg : Config) {k k' : Kernel} (h : sleep_tidy k = some k') :
    procs_reach cfg k k' := by
  unfold sleep_tidy at h
  cases hc : myproc k with
  | none => rw [hc] at h; exact absurd h (by simp)
  | some p =>
    rw [hc] at h
    simp only [Option.some.injEq] at h
    rw [← h]
    exact procs_reach_store cfg (i := p) rfl
      (Relation.ReflTransGen.single (pcb_update.tidy _))

theorem procs_reach_wakeup_one (cfg : Config) (chan : Option Nat) (k : Kernel) (i : Nat) :
    procs_reach cfg k (wakeup_one cfg chan k i) := by
  by_cases h : wakes k chan i
  · rw [wakeup_one_of_wakes cfg h]
    exact procs_reach_trans cfg
      (procs_reach_store cfg (i := i) rfl
        (Relation.ReflTransGen.single (pcb_update.wake _ h.2.1)))
      (procs_reach_enqueue cfg _ _ _)
  · rw [wakeup_one_of_not_wakes cfg h]
    exact procs_reach_refl cfg k

theorem procs_reach_wakeup (cfg : Config) (k : Kernel) (chan : Option Nat) :
    procs_reach cfg k (wakeup cfg k chan) :=
  procs_reach_foldl cfg _ (procs_reach_wakeup_one cfg chan) _ k

theorem procs_reach_reparent_one (cfg : Config) (p : Option Nat) (k : Kernel) (i : Nat) :
    procs_reach cfg k (reparent_one cfg p k i) := by
  unfold reparent_one
  split
  · exact procs_reach_trans cfg
      (procs_reach_store cfg (i := i) rfl
        (Relation.ReflTransGen.single (pcb_update.parent _ k.initproc)))
      (procs_reach_wakeup cfg _ _)
  · exact procs_reach_refl cfg k

theorem procs_reach_reparent (cfg : Config) (k : Kernel) (p : Option Nat) :
    procs_reach cfg k (reparent cfg k p) :=
  procs_reach_foldl cfg _ (procs_reach_reparent_one cfg p) _ k

theorem procs_reach_kkill (cfg : Config) (k : Kernel) (pid : Int) :
    procs_reach cfg k (kkill cfg k pid).2 := by
  unfold kkill
  rw [kkill_scan_eq]
  cases (List.range cfg.NPROC).find? (fun i => decide ((k.proc i).pid = pid)) with
  | none => exact procs_reach_refl cfg k
  | some p =>
    exact procs_reach_store cfg (i := p) rfl
      (Relation.ReflTransGen.single (pcb_update.kill _))

theorem procs_reach_kexit (cfg : Config) {k k' : Kernel} {status : Int}
    (h : kexit cfg k status = some k') : procs_reach cfg k k' := by
  unfold kexit at h
  obtain ⟨k1, hk1, hs⟩ := Option.bind_eq_some.mp h
  refine procs_reach_trans cfg ?_ (procs_reach_sched cfg hs)
  unfold kexit_body at hk1
  cases hc : myproc k with
  | none => rw [hc] at hk1; exact absurd hk1 (by simp)
  | some p =>
    rw [hc] at hk1
    simp only at hk1
    split at hk1
    · exact absurd hk1 (by simp)
    · simp only [Option.some.injEq] at hk1
      rw [← hk1]
      exact procs_reach_trans cfg (procs_reach_reparent cfg k (some p))
        (procs_reach_trans cfg (procs_reach_wakeup cfg _ _)
          (procs_reach_store cfg (i := p) rfl
            (Relation.ReflTransGen.single (pcb_update.exit _ status))))

theorem procs_reach_kwait (cfg : Config) {fuel : Nat} {k : Kernel} {addr : Nat} {ok : Bool}
    {r : wait_result × Kernel} (h : kwait cfg fuel k addr ok = some r) :
    procs_reach cfg k r.2 := by
  unfold kwait at h
  cases hc : myproc k with
  | none => rw [hc] at h; exact absurd h (by simp)
  | some p =>
    rw [hc] at h
    simp only at h
    cases hs : kwait_scan p addr ok (List.range cfg.NPROC) false k with
    | inl x =>
      obtain ⟨v, k1⟩ := x
      rw [hs] at h
      simp only [Option.some.injEq] at h
      rw [← h]
      rcases kwait_scan_cases p addr ok _ _ _ _ _ hs with e | ⟨i, _, _, e⟩
      · rw [e]; exact procs_reach_refl cfg k
      · rw [e]; exact procs_reach_freeproc cfg k i
    | inr hk =>
      rw [hs] at h
      simp only at h
      split at h
      · simp only [Option.some.injEq] at h
        rw [← h]; exact procs_reach_refl cfg k
      · obtain ⟨k1, hk1, hr⟩ := Option.map_eq_some'.mp h
        rw [← hr]
        exact procs_reach_sleep cfg hk1

/-- Every operation changes each PCB by a sequence of assignment sites. -/
theorem procs_reach_apply_op (cfg : Config) (fuel : Nat) (op : Op) {k k' : Kernel}
    (h : apply_op cfg fuel op k = some k') : procs_reach cfg k k' := by
  cases op with
  | allocproc tf pt =>
    simp only [apply_op, Option.some.injEq] at h
    rw [← h]; exact procs_reach_allocproc cfg tf pt k
  | userinit tf pt => exact procs_reach_userinit cfg tf pt h
  | kfork tf pt ok =>
    simp only [apply_op] at h
    obtain ⟨r, hr, e⟩ := Option.map_eq_some'.mp h
    rw [← e]; exact procs_reach_kfork cfg tf pt ok hr
  | dispatch =>
    simp only [apply_op] at h
    split at h
    · obtain ⟨r, hr, e⟩ := Option.map_eq_some'.mp h
      rw [← e]; exact procs_reach_scheduler_dispatch cfg hr
    · exact absurd h (by simp)
  | yield => exact procs_reach_yield cfg h
  | sleep chan => exact procs_reach_sleep cfg h
  | sleep_tidy => exact procs_reach_sleep_tidy cfg h
  | wakeup chan =>
    simp only [apply_op, Option.some.injEq] at h
    rw [← h]; exact procs_reach_wakeup cfg k chan
  | kkill pid =>
    simp only [apply_op, Option.some.injEq] at h
    rw [← h]; exact procs_reach_kkill cfg k pid
  | kexit status => exact procs_reach_kexit cfg h
  | kwait addr ok =>
    simp only [apply_op] at h
    obtain ⟨r, hr, e⟩ := Option.map_eq_some'.mp h
    rw [← e]; exact procs_reach_kwait cfg hr
  | promote_processes => exact procs_reach_promote_processes cfg h

theorem procs_reach_run_ops (cfg : Config) :
    ∀ (ops : List (Nat × Op)) (k k' : Kernel), run_ops cfg ops k = some k' →
      procs_reach cfg k k'
  | [], k, k', h => by
    simp only [run_ops, Option.some.injEq] at h
    rw [← h]; exact procs_reach_refl cfg k
  | (fuel, op) :: rest, k, k', h => by
    simp only [run_ops] at h
    obtain ⟨k1, hk1, hrest⟩ := Option.bind_eq_some.mp h
    exact procs_reach_trans cfg (procs_reach_apply_op cfg fuel op hk1)
      (procs_reach_run_ops cfg rest k1 k' hrest)

/-- A property of single PCBs that every assignment site keeps holds along
every sequence of them. -/
theorem pcb_reach_invariant (cfg : Config) (P : proc → Prop)
    (hstep : ∀ a b, pcb_update cfg a b → P a → P b) {a b : proc}
    (h : Relation.ReflTransGen (pcb_update cfg) a b) (ha : P a) : P b := by
  induction h with
  | refl => exact ha
  | tail _ hbc ih => exact hstep _ _ hbc ih

/-- Every assignment site keeps `queue_level` and `original_queue` among the
levels of the queue array. -/
theorem pcb_update_levels (cfg : Config) (a b : proc) (h : pcb_update cfg a b)
    (ha : a.queue_level ∈ scan_levels ∧ a.original_queue ∈ scan_levels) :
    b.queue_level ∈ scan_levels ∧ b.original_queue ∈ scan_levels := by
  have h0 : (0 : Int) ∈ scan_levels := by decide
  cases h with
  | link v => exact ha
  | claim pid _ => exact ⟨h0, h0⟩
  | trapframe v => exact ha
  | pagetable v => exact ha
  | free => exact ha
  | size v => exact ha
  | parent v => exact ha
  | runnable => exact ha
  | promote => exact ⟨h0, ha.2⟩
  | wake _ =>
    rw [wake_proc_queue_level, wake_proc_original_queue]
    exact ⟨ha.2, ha.2⟩
  | sleep chan => exact ⟨ha.1, ha.1⟩
  | tidy => exact ha
  | kill => split <;> exact ha
  | exit status => exact ha
  | dispatch _ => exact ha

/-- Every assignment site keeps the pid of an `UNUSED` PCB at 0. -/
theorem pcb_update_unused_pid (cfg : Config) (a b : proc) (h : pcb_update cfg a b)
    (ha : a.state = procstate.UNUSED → a.pid = 0) :
    b.state = procstate.UNUSED → b.pid = 0 := by
  cases h with
  | link v => exact ha
  | claim pid _ => intro h; exact absurd h (by simp)
  | trapframe v => exact ha
  | pagetable v => exact ha
  | free => intro _; rfl
  | size v => exact ha
  | parent v => exact ha
  | runnable => intro h; exact absurd h (by simp)
  | promote => exact ha
  | wake _ => intro h; rw [wake_proc_state] at h; exact absurd h (by simp)
  | sleep chan => intro h; exact absurd h (by simp)
  | tidy => exact ha
  | kill =>
    split
    · intro h; exact absurd h (by simp)
    · exact ha
  | exit status => intro h; exact absurd h (by simp)
  | dispatch _ => intro h; exact absurd h (by simp)

/-! ## Levels stay in range -/

/-- C19: in every state reached from the table left by `procinit` at boot by
any sequence of the operations (`allocproc`, `userinit`, `kfork`, a scheduler
pass, `yield`, `sleep`, `wakeup`, `kkill`, `kexit`, `kwait`,
`promote_processes`), whatever their collaborators return, every PCB has
`queue_level` and `original_queue` among the levels 0, 1, 2 of the queue
array, that is at least 0 and below `NQUEUE`; and the same holds in every table
that assignment sites of the file make out of such a state, which covers the
states in the middle of an operation.  The queue calls index the array with
the constant 0, with the loop counter of the level scan (0, 1, 2) or of
`promote_processes` (1, 2), with `p->queue_level`, or (in `wakeup`) with
`p->queue_level` just set from `p->original_queue`; each of these is in
bounds. -/
theorem C19_levels_in_range (cfg : Config) (ops : List (Nat × Op)) (k : Kernel)
    (h : run_ops cfg ops (procinit cfg boot_image) = some k) :
    (∀ j, (k.proc j).queue_level ∈ scan_levels ∧ (k.proc j).original_queue ∈ scan_levels ∧
      (0 ≤ (k.proc j).queue_level ∧ (k.proc j).queue_level < (NQUEUE : Int)) ∧
      (0 ≤ (k.proc j).original_queue ∧ (k.proc j).original_queue < (NQUEUE : Int)) ∧
      (wake_proc cfg (k.proc j)).queue_level ∈ scan_levels) ∧
    (∀ k', procs_reach cfg k k' → ∀ j,
      (k'.proc j).queue_level ∈ scan_levels ∧ (k'.proc j).original_queue ∈ scan_levels) ∧
    (∀ L ∈ scan_levels, 0 ≤ L ∧ L < (NQUEUE : Int)) ∧
    (0 : Int) ∈ scan_levels ∧ (1 : Int) ∈ scan_levels ∧ (2 : Int) ∈ scan_levels := by
  have h0 : (0 : Int) ∈ scan_levels := by decide
  have hl : ∀ j, (k.proc j).queue_level ∈ scan_levels ∧
      (k.proc j).original_queue ∈ scan_levels := by
    intro j
    have hr := procs_reach_run_ops cfg ops _ k h j
    rw [procinit_boot] at hr
    exact pcb_reach_invariant cfg
      (fun p => p.queue_level ∈ scan_levels ∧ p.original_queue ∈ scan_levels)
      (pcb_update_levels cfg) hr ⟨h0, h0⟩
  have hb : ∀ L : Int, L ∈ scan_levels → 0 ≤ L ∧ L < (NQUEUE : Int) := by
    intro L hL
    rcases (mem_scan_levels L).mp hL with e | e | e <;> subst e <;> decide
  refine ⟨fun j => ⟨(hl j).1, (hl j).2, hb _ (hl j).1, hb _ (hl j).2, ?_⟩, ?_, hb, h0,
    by decide, by decide⟩
  · rw [wake_proc_queue_level]
    exact (hl j).2
  · intro k' hk' j
    exact pcb_reach_invariant cfg
      (fun p => p.queue_level ∈ scan_levels ∧ p.original_queue ∈ scan_levels)
      (pcb_update_levels cfg) (hk' j) (hl j)

/-- C19 at the run `demo_run_failures` on a table of four slots, which takes a
failing `kfork` and two `kkill` calls: it runs to its end, and in the state it
reaches every PCB has both levels in range. -/
theorem C19_levels_in_range_witness :
    (run_ops cfg4 demo_run_failures (procinit cfg4 boot_image)).isSome = true ∧
    ∀ j,
      (((run_ops cfg4 demo_run_failures (procinit cfg4 boot_image)).getD boot_image).proc
        j).queue_level ∈ scan_levels ∧
      (((run_ops cfg4 demo_run_failures (procinit cfg4 boot_image)).getD boot_image).proc
        j).original_queue ∈ scan_levels :=
  ⟨by decide, fun j =>
    have h := (C19_levels_in_range cfg4 demo_run_failures
      ((run_ops cfg4 demo_run_failures (procinit cfg4 boot_image)).getD boot_image)
      (option_eq_some_getD _ _ (by decide))).1 j
    ⟨h.1, h.2.1⟩⟩

/-! ## `kkill` of a pid that no process has -/

/-- When no slot of the table has the pid field `pid`, `kkill(pid)` returns -1
and the globals are the ones before the call. -/
theorem kkill_no_match (cfg : Config) (k : Kernel) (pid : Int)
    (h : ∀ i, i < cfg.NPROC → (k.proc i).pid ≠ pid) : kkill cfg k pid = (-1, k) := by
  have hf : (List.range cfg.NPROC).find? (fun i => decide ((k.proc i).pid = pid)) = none := by
    rw [List.find?_eq_none]
    intro i hi
    simpa using h i (List.mem_range.mp hi)
  unfold kkill
  rw [kkill_scan_eq, hf]

/-- In every state reached from the boot table an `UNUSED` slot has pid 0. -/
theorem reachable_unused_pid (cfg : Config) (ops : List (Nat × Op)) (k : Kernel)
    (h : run_ops cfg ops (procinit cfg boot_image) = some k) (j : Nat)
    (hj : (k.proc j).state = procstate.UNUSED) : (k.proc j).pid = 0 := by
  have hr := procs_reach_run_ops cfg ops _ k h j
  rw [procinit_boot] at hr
  exact pcb_reach_invariant cfg (fun p => p.state = procstate.UNUSED → p.pid = 0)
    (pcb_update_unused_pid cfg) hr (fun _ => rfl) hj

/-- In a reachable state, `kkill` of a pid other than 0 that no allocated PCB
has returns -1 and changes nothing. -/
theorem kkill_unknown_nonzero (cfg : Config) (ops : List (Nat × Op)) (k : Kernel)
    (h : run_ops cfg ops (procinit cfg boot_image) = some k) (pid : Int) (hz : pid ≠ 0)
    (hp : ∀ i, i < cfg.NPROC → (k.proc i).state ≠ procstate.UNUSED → (k.proc i).pid ≠ pid) :
    kkill cfg k pid = (-1, k) := by
  apply kkill_no_match
  intro i hi
  by_cases hu : (k.proc i).state = procstate.UNUSED
  · rw [reachable_unused_pid cfg ops k h i hu]
    exact fun e => hz e.symm
  · exact hp i hi hu

/-- C11, the code at pid 0.  In `demo_first_running`, reached from boot by
`userinit` and one dispatch, the only allocated PCB is slot 0 with pid 1, so 0
is the pid of no allocated PCB.  `kkill(0)` nevertheless returns 0 and sets
`killed` in slot 1, the first `UNUSED` slot, whose pid field is 0.  The flag
survives `allocproc`: the child that the next `kfork` creates in slot 1 is
`RUNNABLE` with pid 2 and `killed = 1`. -/
theorem C11_kkill_zero_hits_unused_slot :
    (run_ops cfg4 [(1, Op.userinit (some 1) (some 2)), (1, Op.dispatch)]
      (procinit cfg4 boot_image)).isSome = true ∧
    (∀ i, i < cfg4.NPROC → (demo_first_running.proc i).state ≠ procstate.UNUSED →
      (demo_first_running.proc i).pid ≠ 0) ∧
    (demo_first_running.proc 1).state = procstate.UNUSED ∧
    (demo_first_running.proc 1).killed = 0 ∧
    (kkill cfg4 demo_first_running 0).1 = 0 ∧
    ((kkill cfg4 demo_first_running 0).2.proc 1).killed = 1 ∧
    (kfork cfg4 (some 3) (some 4) true (kkill cfg4 demo_first_running 0).2).map
        (fun r => (r.1, (r.2.proc 1).state, (r.2.proc 1).killed))
      = some (2, procstate.RUNNABLE, 1) :=
  ⟨by decide, by decide, by decide, by decide, by decide, by decide, by decide⟩

/-! ## State changes follow the edges of the graph -/

theorem states_follow_of_eq (E : procstate → procstate → Prop) {k k' : Kernel}
    (h : ∀ j, (k'.proc j).state = (k.proc j).state) : states_follow E k k' :=
  fun j => Or.inl (h j)

theorem states_follow_of_data (E : procstate → procstate → Prop) {k k' : Kernel}
    (h : ∀ j, proc_data (k'.proc j) = proc_data (k.proc j)) : states_follow E k k' :=
  fun j => Or.inl (data_state (h j))

/-- Steps that keep every state may be put before a step along edges. -/
theorem states_follow_left (E : procstate → procstate → Prop) {k k1 k' : Kernel}
    (h1 : ∀ j, (k1.proc j).state = (k.proc j).state) (h2 : states_follow E k1 k') :
    states_follow E k k' := by
  intro j
  have h := h2 j
  rw [h1 j] at h
  exact h

/-- Steps that keep every state may be put after a step along edges. -/
theorem states_follow_right (E : procstate → procstate → Prop) {k k1 k' : Kernel}
    (h1 : states_follow E k k1) (h2 : ∀ j, (k'.proc j).state = (k1.proc j).state) :
    states_follow E k k' := by
  intro j
  rw [h2 j]
  exact h1 j

/-- A store into one slot that moves its state along an edge. -/
theorem states_follow_store (E : procstate → procstate → Prop) {k k' : Kernel} {i : Nat}
    {v : proc} (hp : k'.proc = setAt k.proc i v)
    (h : v.state = (k.proc i).state ∨ E (k.proc i).state v.state) : states_follow E k k' := by
  intro j
  rw [hp]
  by_cases hj : j = i
  · subst hj; rw [setAt_same]; exact h
  · rw [setAt_ne _ _ hj]; exact Or.inl rfl

theorem states_follow_mono {E F : procstate → procstate → Prop}
    (hEF : ∀ a b, E a b → F a b) {k k' : Kernel} (h : states_follow E k k') :
    states_follow F k k' :=
  fun j => (h j).imp id (hEF _ _)

theorem allocproc_found_states (cfg : Config) (k : Kernel) (i : Nat)
    (h : (k.proc i).state = procstate.UNUSED) :
    states_follow spec_state_edge k (allocproc_found cfg k i) ∧
    ((allocproc_found cfg k i).proc i).state = procstate.USED := by
  have hd := allocproc_found_data cfg k i
  have hi : ((allocproc_found cfg k i).proc i).state = procstate.USED := by
    have h1 := hd i
    rw [if_pos rfl] at h1
    exact data_state h1
  refine ⟨?_, hi⟩
  intro j
  by_cases hj : j = i
  · subst hj
    rw [hi, h]
    exact Or.inr (by decide)
  · have h1 := hd j
    rw [if_neg hj] at h1
    exact Or.inl (data_state h1)

/-- The steps of `allocproc`: nothing at all when the table is full; otherwise
the claim of an `UNUSED` slot, which leaves it `USED` in a state `X`, and then
either the return of the slot or `freeproc` on it. -/
theorem allocproc_steps (cfg : Config) (tf pt : Option Nat) (k : Kernel) :
    allocproc cfg tf pt k = (none, k) ∨
    ∃ i X, (k.proc i).state = procstate.UNUSED ∧ states_follow spec_state_edge k X ∧
      (X.proc i).state = procstate.USED ∧
      (allocproc cfg tf pt k = (some i, X) ∨ allocproc cfg tf pt k = (none, freeproc X i)) := by
  rw [allocproc_eq_found]
  cases hf : (List.range cfg.NPROC).find?
      (fun i => decide ((k.proc i).state = procstate.UNUSED)) with
  | none => exact Or.inl rfl
  | some i =>
    have hun : (k.proc i).state = procstate.UNUSED := by
      simpa using List.find?_some hf
    obtain ⟨h1, h2⟩ := allocproc_found_states cfg k i hun
    have hst : ∀ v : proc, v.state = ((allocproc_found cfg k i).proc i).state →
        states_follow spec_state_edge k
          { allocproc_found cfg k i with proc := setAt (allocproc_found cfg k i).proc i v } ∧
        (setAt (allocproc_found cfg k i).proc i v i).state = procstate.USED := by
      intro v hv
      refine ⟨states_follow_right _ h1 ?_, by rw [setAt_same, hv, h2]⟩
      intro j
      show (setAt _ i v j).state = _
      by_cases hj : j = i
      · subst hj; rw [setAt_same, hv]
      · rw [setAt_ne _ _ hj]
    right
    cases tf with
    | none =>
      have hx := hst { (allocproc_found cfg k i).proc i with trapframe := none } rfl
      exact ⟨i, _, hun, hx.1, hx.2, Or.inr rfl⟩
    | some t =>
      cases pt with
      | none =>
        have hx := hst { (allocproc_found cfg k i).proc i with
          trapframe := some t, pagetable := none } rfl
        exact ⟨i, _, hun, hx.1, hx.2, Or.inr rfl⟩
      | some g =>
        have hx := hst { (allocproc_found cfg k i).proc i with
          trapframe := some t, pagetable := some g } rfl
        exact ⟨i, _, hun, hx.1, hx.2, Or.inl rfl⟩

/-- The slot `allocproc` returns is `USED`. -/
theorem allocproc_some_used (cfg : Config) (tf pt : Option Nat) (k : Kernel) (i : Nat)
    (h : (allocproc cfg tf pt k).1 = some i) :
    ((allocproc cfg tf pt k).2.proc i).state = procstate.USED := by
  rcases allocproc_steps cfg tf pt k with e | ⟨i', X, _, _, hX, e | e⟩
  · rw [e] at h; exact absurd h (by simp)
  · rw [e] at h ⊢
    simp only [Option.some.injEq] at h
    rw [← h]; exact hX
  · rw [e] at h; exact absurd h (by simp)

theorem freeproc_states (k : Kernel) (i : Nat) :
    ((k.proc i).state = procstate.ZOMBIE → states_follow spec_state_edge k (freeproc k i)) ∧
    ((k.proc i).state = procstate.USED → states_follow code_state_edge k (freeproc k i)) := by
  constructor
  · intro h
    refine states_follow_store _ (i := i) rfl (Or.inr ?_)
    rw [h]
    show spec_state_edge procstate.ZOMBIE procstate.UNUSED
    decide
  · intro h
    refine states_follow_store _ (i := i) rfl (Or.inr ?_)
    rw [h]
    show code_state_edge procstate.USED procstate.UNUSED
    decide

theorem userinit_steps (cfg : Config) (tf pt : Option Nat) (k k' : Kernel)
    (h : userinit cfg tf pt k = some k') :
    ∃ i, (allocproc cfg tf pt k).1 = some i ∧
      ((allocproc cfg tf pt k).2.proc i).state = procstate.USED ∧
      states_follow spec_state_edge (allocproc cfg tf pt k).2 k' := by
  unfold userinit at h
  cases ha : allocproc cfg tf pt k with
  | mk o k1 =>
    rw [ha] at h
    cases o with
    | none => exact absurd h (by simp)
    | some i =>
      simp only [Option.some.injEq] at h
      have hu := allocproc_some_used cfg tf pt k i (by rw [ha])
      rw [ha] at hu
      refine ⟨i, rfl, hu, ?_⟩
      rw [← h]
      refine states_follow_store _ (i := i) rfl (Or.inr ?_)
      simp only at hu ⊢
      rw [hu]; decide

theorem kfork_steps (cfg : Config) (tf pt : Option Nat) (ok : Bool) (k : Kernel)
    (r : Int × Kernel) (h : kfork cfg tf pt ok k = some r) :
    ((allocproc cfg tf pt k).1 = none ∧ r.2 = (allocproc cfg tf pt k).2) ∨
    ∃ np, (allocproc cfg tf pt k).1 = some np ∧
      ((allocproc cfg tf pt k).2.proc np).state = procstate.USED ∧
      ((ok = false ∧ r.2 = freeproc (allocproc cfg tf pt k).2 np) ∨
       (ok = true ∧ states_follow spec_state_edge (allocproc cfg tf pt k).2 r.2)) := by
  unfold kfork at h
  cases hc : myproc k with
  | none => rw [hc] at h; exact absurd h (by simp)
  | some p =>
    rw [hc] at h
    cases ha : allocproc cfg tf pt k with
    | mk o k1 =>
      rw [ha] at h
      cases o with
      | none =>
        simp only [Option.some.injEq] at h
        rw [← h]; exact Or.inl ⟨rfl, rfl⟩
      | some np =>
        have hu := allocproc_some_used cfg tf pt k np (by rw [ha])
        rw [ha] at hu
        simp only at h hu
        right
        refine ⟨np, rfl, hu, ?_⟩
        split at h
        · rename_i hok
          simp only [Option.some.injEq] at h
          rw [← h]; exact Or.inl ⟨hok, rfl⟩
        · rename_i hok
          simp only [Option.some.injEq] at h
          rw [← h]
          refine Or.inr ⟨by simpa using hok, ?_⟩
          refine states_follow_store _ (i := np)
            (v := { k1.proc np with sz := (k1.proc p).sz, parent := some p,
                                     state := procstate.RUNNABLE }) ?_ (Or.inr ?_)
          · funext j
            by_cases hj : j = np
            · subst hj; simp only [setAt_same]
            · simp only [setAt_ne _ _ hj]
          · simp only
            rw [hu]; decide

theorem scheduler_scan_states :
    ∀ (levels : List Int) (k : Kernel),
      states_follow spec_state_edge k (scheduler_scan levels k).2
  | [], k => fun _ => Or.inl rfl
  | level :: rest, k => by
    have hd : ∀ j, ((dequeue_proc k level).2.proc j).state = (k.proc j).state :=
      fun j => data_state (dequeue_proc_data k level j)
    simp only [scheduler_scan]
    cases hq : dequeue_proc k level with
    | mk o k1 =>
      rw [hq] at hd
      cases o with
      | none => exact states_follow_left _ hd (scheduler_scan_states rest k1)
      | some p =>
        simp only
        split
        · rename_i hr
          refine states_follow_left _ hd (states_follow_store _ (i := p) rfl (Or.inr ?_))
          simp only at hr ⊢
          rw [hr]; decide
        · exact states_follow_left _ hd (scheduler_scan_states rest k1)

theorem scheduler_return_states (k : Kernel) (p j : Nat) :
    ((scheduler_return k p).proc j).state = (k.proc j).state := by
  unfold scheduler_return
  simp only
  split
  · exact data_state (enqueue_proc_data _ _ _ j)
  · rfl

theorem yield_body_states (k k' : Kernel) (c : Nat) (hc : myproc k = some c)
    (hr : (k.proc c).state = procstate.RUNNING) (h : yield_body k = some k') :
    states_follow spec_state_edge k k' := by
  unfold yield_body at h
  rw [hc] at h
  simp only [Option.some.injEq] at h
  rw [← h]
  refine states_follow_store _ (i := c) rfl (Or.inr ?_)
  simp only
  rw [hr]; decide

theorem sleep_body_states (fuel : Nat) (k k' : Kernel) (chan : Option Nat) (c : Nat)
    (hc : myproc k = some c) (hr : (k.proc c).state = procstate.RUNNING)
    (h : sleep_body fuel k chan = some k') : states_follow spec_state_edge k k' := by
  unfold sleep_body at h
  rw [hc] at h
  simp only at h
  refine states_follow_right _ ?_ (fun j => data_state ((remove_from_queue_frame h).1 j))
  refine states_follow_store _ (i := c)
    (v := { k.proc c with chan := chan, state := procstate.SLEEPING,
                           original_queue := (k.proc c).queue_level }) ?_ (Or.inr ?_)
  · funext j
    by_cases hj : j = c
    · subst hj; simp only [setAt_same]
    · simp only [setAt_ne _ _ hj]
  · simp only
    rw [hr]; decide

theorem wakeup_states (cfg : Config) (k : Kernel) (chan : Option Nat) :
    states_follow spec_state_edge k (wakeup cfg k chan) := by
  intro j
  have hd := wakeup_fold_data cfg chan (List.range cfg.NPROC) k j (List.nodup_range _)
  unfold wakeup
  by_cases hw : j ∈ List.range cfg.NPROC ∧ wakes k chan j
  · rw [if_pos hw] at hd
    right
    rw [data_state hd, wake_proc_state, hw.2.2.1]
    decide
  · rw [if_neg hw] at hd
    exact Or.inl (data_state hd)

theorem kkill_states (cfg : Config) (k : Kernel) (pid : Int) :
    states_follow spec_state_edge k (kkill cfg k pid).2 := by
  unfold kkill
  rw [kkill_scan_eq]
  cases (List.range cfg.NPROC).find? (fun i => decide ((k.proc i).pid = pid)) with
  | none => exact fun _ => Or.inl rfl
  | some p =>
    refine states_follow_store _ (i := p) rfl ?_
    by_cases hs : (k.proc p).state = procstate.SLEEPING
    · rw [if_pos hs, hs]
      exact Or.inr (show spec_state_edge procstate.SLEEPING procstate.RUNNABLE by decide)
    · rw [if_neg hs]
      exact Or.inl rfl

theorem reparent_one_states (cfg : Config) (p : Option Nat) (k : Kernel) (i : Nat) :
    states_follow spec_state_edge k (reparent_one cfg p k i) := by
  unfold reparent_one
  split
  · refine states_follow_left _ ?_ (wakeup_states cfg _ _)
    intro j
    show (setAt k.proc i _ j).state = _
    by_cases hj : j = i
    · subst hj; rw [setAt_same]
    · rw [setAt_ne _ _ hj]
  · exact fun _ => Or.inl rfl

/-- `wakeup` never touches the PCB of the caller. -/
theorem wakeup_caller (cfg : Config) (k : Kernel) (chan : Option Nat) (c : Nat)
    (hc : myproc k = some c) :
    proc_data ((wakeup cfg k chan).proc c) = proc_data (k.proc c) := by
  have hd := wakeup_fold_data cfg chan (List.range cfg.NPROC) k c (List.nodup_range _)
  rw [if_neg (fun h => h.2.1 hc.symm)] at hd
  exact hd

theorem reparent_one_myproc (cfg : Config) (p : Option Nat) (k : Kernel) (i : Nat) :
    myproc (reparent_one cfg p k i) = myproc k := by
  unfold reparent_one myproc
  split
  · rw [wakeup_cpu_proc]
  · rfl

/-- `reparent` keeps the caller's state, and keeps the caller current. -/
theorem reparent_fold_caller (cfg : Config) (p : Option Nat) (c : Nat) :
    ∀ (idx : List Nat) (k : Kernel), myproc k = some c →
      myproc (idx.foldl (reparent_one cfg p) k) = some c ∧
      ((idx.foldl (reparent_one cfg p) k).proc c).state = (k.proc c).state
  | [], _, hc => ⟨hc, rfl⟩
  | i :: rest, k, hc => by
    have hc1 : myproc (reparent_one cfg p k i) = some c := by
      rw [reparent_one_myproc]; exact hc
    have hs1 : ((reparent_one cfg p k i).proc c).state = (k.proc c).state := by
      unfold reparent_one
      split
      · have hw := wakeup_caller cfg
          { k with proc := setAt k.proc i { k.proc i with parent := k.initproc } }
          k.initproc c hc
        rw [data_state hw]
        show (setAt k.proc i _ c).state = _
        by_cases hj : c = i
        · subst hj; rw [setAt_same]
        · rw [setAt_ne _ _ hj]
      · rfl
    obtain ⟨h1, h2⟩ := reparent_fold_caller cfg p c rest _ hc1
    rw [List.foldl_cons]
    exact ⟨h1, by rw [h2, hs1]⟩

theorem kexit_body_states (cfg : Config) (k k' : Kernel) (status : Int) (c : Nat)
    (hc : myproc k = some c) (hr : (k.proc c).state = procstate.RUNNING)
    (h : kexit_body cfg k status = some k') :
    ((wakeup cfg (reparent cfg k (some c)) ((reparent cfg k (some c)).proc c).parent).proc
      c).state = procstate.RUNNING ∧
    states_follow spec_state_edge
      (wakeup cfg (reparent cfg k (some c)) ((reparent cfg k (some c)).proc c).parent) k' := by
  obtain ⟨hm, hs⟩ := reparent_fold_caller cfg (some c) c (List.range cfg.NPROC) k hc
  have hw := wakeup_caller cfg (reparent cfg k (some c))
    ((reparent cfg k (some c)).proc c).parent c hm
  have hrun : ((wakeup cfg (reparent cfg k (some c))
      ((reparent cfg k (some c)).proc c).parent).proc c).state = procstate.RUNNING := by
    rw [data_state hw]
    show ((List.foldl (reparent_one cfg (some c)) k (List.range cfg.NPROC)).proc c).state = _
    rw [hs, hr]
  refine ⟨hrun, ?_⟩
  unfold kexit_body at h
  rw [hc] at h
  simp only at h
  split at h
  · exact absurd h (by simp)
  · simp only [Option.some.injEq] at h
    rw [← h]
    refine states_follow_store _ (i := c) rfl (Or.inr ?_)
    simp only
    rw [hrun]; decide

theorem kwait_steps (cfg : Config) (fuel : Nat) (k : Kernel) (addr : Nat) (ok : Bool)
    (r : wait_result × Kernel) (h : kwait cfg fuel k addr ok = some r) :
    r.2 = k ∨ (∃ i, (k.proc i).state = procstate.ZOMBIE ∧ r.2 = freeproc k i) ∨
    sleep fuel k (myproc k) = some r.2 := by
  unfold kwait at h
  cases hc : myproc k with
  | none => rw [hc] at h; exact absurd h (by simp)
  | some p =>
    rw [hc] at h
    simp only at h
    cases hs : kwait_scan p addr ok (List.range cfg.NPROC) false k with
    | inl x =>
      obtain ⟨v, k1⟩ := x
      rw [hs] at h
      simp only [Option.some.injEq] at h
      rw [← h]
      rcases kwait_scan_cases p addr ok _ _ _ _ _ hs with e | ⟨i, _, hz, e⟩
      · exact Or.inl e
      · exact Or.inr (Or.inl ⟨i, hz, e⟩)
    | inr hk =>
      rw [hs] at h
      simp only at h
      split at h
      · simp only [Option.some.injEq] at h
        rw [← h]; exact Or.inl rfl
      · obtain ⟨k1, hk1, hr⟩ := Option.map_eq_some'.mp h
        rw [← hr]
        exact Or.inr (Or.inr hk1)

/-- C16 as the code has it: in `demo_sleeper` the running slot 0 calls `kfork`
and the address-space copy fails.  `allocproc` has returned slot 3 in state
`USED`; `kfork` then calls `freeproc` on it, which takes the slot from `USED`
to `UNUSED`.  That pair is not an edge of the specification's graph. -/
theorem C16_rollback_leaves_graph :
    (allocproc cfg4 (some 1) (some 2) demo_sleeper).1 = some 3 ∧
    ((allocproc cfg4 (some 1) (some 2) demo_sleeper).2.proc 3).state = procstate.USED ∧
    kfork cfg4 (some 1) (some 2) false demo_sleeper =
      some (-1, freeproc (allocproc cfg4 (some 1) (some 2) demo_sleeper).2 3) ∧
    ((freeproc (allocproc cfg4 (some 1) (some 2) demo_sleeper).2 3).proc 3).state
      = procstate.UNUSED ∧
    ¬ spec_state_edge procstate.USED procstate.UNUSED ∧
    ¬ states_follow spec_state_edge (allocproc cfg4 (some 1) (some 2) demo_sleeper).2
        (freeproc (allocproc cfg4 (some 1) (some 2) demo_sleeper).2 3) :=
  ⟨by decide, by decide, rfl, by decide, by decide,
    fun h => (h 3).elim (by decide) (by decide)⟩

/-- C16, amended: every change of a PCB's state follows one edge of the graph
of the specification or the edge `USED → UNUSED`, which `freeproc` takes when
`allocproc` or `kfork` roll back a failed creation.  Operation by operation,
from any state `k`: `allocproc` does nothing on a full table, and otherwise
claims an `UNUSED` slot, which is `USED` in the state `X` it reaches, and
either returns it or calls `freeproc` on it (`USED → UNUSED`); `userinit` and
a succeeding `kfork` take the `USED` slot returned by `allocproc` to
`RUNNABLE`, and a `kfork` whose copy fails calls `freeproc` on it; the level
scan of the scheduler takes at most a `RUNNABLE` PCB to `RUNNING`, and its code
after `swtch` changes no state; `yield`, `sleep` and `kexit`, called by the
current process in state `RUNNING`, take it to `RUNNABLE`, `SLEEPING` and
`ZOMBIE`; `wakeup` and `kkill` take `SLEEPING` PCBs to `RUNNABLE`; each round
of the loop of `reparent` and the `wakeup` in `kexit` do the same and leave the
caller `RUNNING`; `kwait` changes nothing, or calls `freeproc` on a `ZOMBIE`, or
sleeps. -/
theorem C16_state_changes_follow_code_edges (cfg : Config) (k : Kernel) :
    (∀ tf pt, allocproc cfg tf pt k = (none, k) ∨
      ∃ i X, (k.proc i).state = procstate.UNUSED ∧ states_follow spec_state_edge k X ∧
        (X.proc i).state = procstate.USED ∧
        (allocproc cfg tf pt k = (some i, X) ∨
         (allocproc cfg tf pt k = (none, freeproc X i) ∧
          states_follow code_state_edge X (freeproc X i)))) ∧
    (∀ tf pt k', userinit cfg tf pt k = some k' →
      ∃ i, (allocproc cfg tf pt k).1 = some i ∧
        ((allocproc cfg tf pt k).2.proc i).state = procstate.USED ∧
        states_follow spec_state_edge (allocproc cfg tf pt k).2 k') ∧
    (∀ tf pt ok r, kfork cfg tf pt ok k = some r →
      ((allocproc cfg tf pt k).1 = none ∧ r.2 = (allocproc cfg tf pt k).2) ∨
      ∃ np, (allocproc cfg tf pt k).1 = some np ∧
        ((allocproc cfg tf pt k).2.proc np).state = procstate.USED ∧
        ((ok = false ∧ r.2 = freeproc (allocproc cfg tf pt k).2 np ∧
          states_follow code_state_edge (allocproc cfg tf pt k).2
            (freeproc (allocproc cfg tf pt k).2 np)) ∨
         (ok = true ∧ states_follow spec_state_edge (allocproc cfg tf pt k).2 r.2))) ∧
    (∀ levels, states_follow spec_state_edge k (scheduler_scan levels k).2) ∧
    (∀ p j, ((scheduler_return k p).proc j).state = (k.proc j).state) ∧
    (∀ c k', myproc k = some c → (k.proc c).state = procstate.RUNNING →
      yield_body k = some k' → states_follow spec_state_edge k k') ∧
    (∀ fuel chan c k', myproc k = some c → (k.proc c).state = procstate.RUNNING →
      sleep_body fuel k chan = some k' → states_follow spec_state_edge k k') ∧
    (∀ chan, states_follow spec_state_edge k (wakeup cfg k chan)) ∧
    (∀ pid, states_follow spec_state_edge k (kkill cfg k pid).2) ∧
    (∀ p i, states_follow spec_state_edge k (reparent_one cfg p k i)) ∧
    (∀ status c k', myproc k = some c → (k.proc c).state = procstate.RUNNING →
      kexit_body cfg k status = some k' →
      ((wakeup cfg (reparent cfg k (some c)) ((reparent cfg k (some c)).proc c).parent).proc
        c).state = procstate.RUNNING ∧
      states_follow spec_state_edge
        (wakeup cfg (reparent cfg k (some c)) ((reparent cfg k (some c)).proc c).parent) k') ∧
    (∀ fuel addr ok r, kwait cfg fuel k addr ok = some r →
      r.2 = k ∨
      (∃ i, (k.proc i).state = procstate.ZOMBIE ∧ r.2 = freeproc k i ∧
        states_follow spec_state_edge k (freeproc k i)) ∨
      sleep fuel k (myproc k) = some r.2) := by
  refine ⟨?_, fun tf pt => userinit_steps cfg tf pt k, ?_,
    fun levels => scheduler_scan_states levels k,
    scheduler_return_states k, fun c k' => yield_body_states k k' c,
    fun fuel chan c k' => sleep_body_states fuel k k' chan c, wakeup_states cfg k,
    kkill_states cfg k, fun p i => reparent_one_states cfg p k i,
    fun status c k' => kexit_body_states cfg k k' status c, ?_⟩
  · intro tf pt
    rcases allocproc_steps cfg tf pt k with e | ⟨i, X, h1, h2, h3, e | e⟩
    · exact Or.inl e
    · exact Or.inr ⟨i, X, h1, h2, h3, Or.inl e⟩
    · exact Or.inr ⟨i, X, h1, h2, h3, Or.inr ⟨e, (freeproc_states X i).2 h3⟩⟩
  · intro tf pt ok r h
    rcases kfork_steps cfg tf pt ok k r h with e | ⟨np, h1, h2, ⟨h3, e⟩ | h3⟩
    · exact Or.inl e
    · exact Or.inr ⟨np, h1, h2, Or.inl ⟨h3, e, (freeproc_states _ np).2 h2⟩⟩
    · exact Or.inr ⟨np, h1, h2, Or.inr h3⟩
  · intro fuel addr ok r h
    rcases kwait_steps cfg fuel k addr ok r h with e | ⟨i, hz, e⟩ | e
    · exact Or.inl e
    · exact Or.inr (Or.inl ⟨i, hz, e, (freeproc_states k i).1 hz⟩)
    · exact Or.inr (Or.inr e)

/-- C16 amended, at the concrete table `demo_sleeper`: `wakeup(7)` moves
states along edges of the graph only (slot 1 goes from `SLEEPING` to
`RUNNABLE`), and so does the `yield` of the running slot 0. -/
theorem C16_state_changes_follow_code_edges_witness :
    states_follow spec_state_edge demo_sleeper (wakeup cfg4 demo_sleeper (some 7)) ∧
    ((wakeup cfg4 demo_sleeper (some 7)).proc 1).state = procstate.RUNNABLE ∧
    states_follow spec_state_edge demo_sleeper ((yield_body demo_sleeper).getD boot_image) :=
  have h := C16_state_changes_follow_code_edges cfg4 demo_sleeper
  ⟨h.2.2.2.2.2.2.2.1 (some 7), by decide,
    h.2.2.2.2.2.1 0 _ (by decide) (by decide) (option_eq_some_getD _ _ (by decide))⟩

/-! ## `kexit` -/

theorem wake_proc_parent (cfg : Config) (p : proc) : (wake_proc cfg p).parent = p.parent := by
  unfold wake_proc
  simp only
  split_ifs <;> rfl

theorem wakeup_parent (cfg : Config) (k : Kernel) (chan : Option Nat) (j : Nat) :
    ((wakeup cfg k chan).proc j).parent = (k.proc j).parent := by
  have hd := wakeup_fold_data cfg chan (List.range cfg.NPROC) k j (List.nodup_range _)
  unfold wakeup
  by_cases hw : j ∈ List.range cfg.NPROC ∧ wakes k chan j
  · rw [if_pos hw] at hd
    rw [data_parent hd, wake_proc_parent]
  · rw [if_neg hw] at hd
    exact data_parent hd

theorem reparent_one_initproc (cfg : Config) (p : Option Nat) (k : Kernel) (i : Nat) :
    (reparent_one cfg p k i).initproc = k.initproc := by
  unfold reparent_one
  split
  · rw [wakeup_initproc]
  · rfl

theorem reparent_one_parent (cfg : Config) (p : Option Nat) (k : Kernel) (i j : Nat) :
    ((reparent_one cfg p k i).proc j).parent =
      if j = i ∧ (k.proc i).parent = p then k.initproc else (k.proc j).parent := by
  unfold reparent_one
  by_cases hp : (k.proc i).parent = p
  · rw [if_pos hp, wakeup_parent]
    show (setAt k.proc i _ j).parent = _
    by_cases hj : j = i
    · subst hj; rw [setAt_same, if_pos ⟨rfl, hp⟩]
    · rw [setAt_ne _ _ hj, if_neg (fun h => hj h.1)]
  · rw [if_neg hp, if_neg (fun h => hp h.2)]

/-- `reparent(p)` over duplicate-free slots: exactly the slots whose parent was
`p` get `initproc` as parent. -/
theorem reparent_fold_parent (cfg : Config) (p : Option Nat) :
    ∀ (idx : List Nat) (k : Kernel) (j : Nat), idx.Nodup →
      ((idx.foldl (reparent_one cfg p) k).proc j).parent =
        if j ∈ idx ∧ (k.proc j).parent = p then k.initproc else (k.proc j).parent
  | [], k, j, _ => by simp
  | i :: rest, k, j, hnd => by
    obtain ⟨hi, hrest⟩ := List.nodup_cons.mp hnd
    rw [List.foldl_cons, reparent_fold_parent cfg p rest _ j hrest, reparent_one_initproc,
      reparent_one_parent]
    by_cases hji : j = i
    · subst hji
      by_cases hp : (k.proc j).parent = p
      · simp [hp, hi]
      · simp [hp, hi]
    · simp [hji]

/-- `wakeup` keeps the queues well formed, the sleepers out of them and the
caller out of them. -/
theorem wakeup_keeps_unlinked (cfg : Config) (k : Kernel) (chan : Option Nat)
    (ql : Int → List Nat) (c : Nat) (hc : myproc k = some c) (hwf : queues_wf k ql)
    (hsl : sleepers_unlinked cfg k ql) (hfree : ∀ M ∈ scan_levels, c ∉ ql M) :
    ∃ ql', queues_wf (wakeup cfg k chan) ql' ∧ sleepers_unlinked cfg (wakeup cfg k chan) ql' ∧
      ∀ M ∈ scan_levels, c ∉ ql' M := by
  refine ⟨fun L => ql L ++ (List.range cfg.NPROC).filter
    (fun i => decide (wakes k chan i ∧ (k.proc i).original_queue = L)), ?_, ?_, ?_⟩
  · exact wakeup_fold_wf cfg chan _ k ql (List.nodup_range _) hwf
      (fun i hi hw => hsl i (List.mem_range.mp hi) hw.2.1)
  · intro i hi hs
    have hd := wakeup_fold_data cfg chan (List.range cfg.NPROC) k i (List.nodup_range _)
    have hs2 : ((List.foldl (wakeup_one cfg chan) k (List.range cfg.NPROC)).proc i).state
        = procstate.SLEEPING := hs
    by_cases hw : i ∈ List.range cfg.NPROC ∧ wakes k chan i
    · rw [if_pos hw] at hd
      rw [data_state hd, wake_proc_state] at hs2
      exact absurd hs2 (by simp)
    · rw [if_neg hw] at hd
      rw [data_state hd] at hs2
      obtain ⟨h1, h2⟩ := hsl i hi hs2
      have hnw : ¬ wakes k chan i := fun h => hw ⟨List.mem_range.mpr hi, h⟩
      refine ⟨?_, ?_⟩
      · show ((List.foldl (wakeup_one cfg chan) k (List.range cfg.NPROC)).proc
          i).original_queue ∈ scan_levels
        rw [data_original_queue hd]; exact h1
      · intro M hM hm
        rcases List.mem_append.mp hm with hm | hm
        · exact h2 M hM hm
        · have := (List.mem_filter.mp hm).2
          simp only [decide_eq_true_eq] at this
          exact hnw this.1
  · intro M hM hm
    rcases List.mem_append.mp hm with hm | hm
    · exact hfree M hM hm
    · have := (List.mem_filter.mp hm).2
      simp only [decide_eq_true_eq] at this
      exact this.1.1 hc.symm

theorem reparent_fold_keeps_unlinked (cfg : Config) (p : Option Nat) (c : Nat) :
    ∀ (idx : List Nat) (k : Kernel) (ql : Int → List Nat), myproc k = some c →
      queues_wf k ql → sleepers_unlinked cfg k ql → (∀ M ∈ scan_levels, c ∉ ql M) →
      ∃ ql', queues_wf (idx.foldl (reparent_one cfg p) k) ql' ∧
        sleepers_unlinked cfg (idx.foldl (reparent_one cfg p) k) ql' ∧
        ∀ M ∈ scan_levels, c ∉ ql' M
  | [], _, ql, _, hwf, hsl, hfree => ⟨ql, hwf, hsl, hfree⟩
  | i :: rest, k, ql, hc, hwf, hsl, hfree => by
    rw [List.foldl_cons]
    have hc1 : myproc (reparent_one cfg p k i) = some c := by
      rw [reparent_one_myproc]; exact hc
    have h1 : ∃ ql1, queues_wf (reparent_one cfg p k i) ql1 ∧
        sleepers_unlinked cfg (reparent_one cfg p k i) ql1 ∧
        ∀ M ∈ scan_levels, c ∉ ql1 M := by
      unfold reparent_one
      split
      · refine wakeup_keeps_unlinked cfg _ _ ql c hc (queues_wf_store hwf i _ rfl) ?_ hfree
        intro j hj hs
        have e : (setAt k.proc i { k.proc i with parent := k.initproc } j).state
            = (k.proc j).state ∧
            (setAt k.proc i { k.proc i with parent := k.initproc } j).original_queue
            = (k.proc j).original_queue := by
          by_cases hji : j = i
          · subst hji; rw [setAt_same]; exact ⟨rfl, rfl⟩
          · rw [setAt_ne _ _ hji]; exact ⟨rfl, rfl⟩
        have hs2 : (setAt k.proc i { k.proc i with parent := k.initproc } j).state
            = procstate.SLEEPING := hs
        rw [e.1] at hs2
        obtain ⟨a, b⟩ := hsl j hj hs2
        refine ⟨?_, b⟩
        show (setAt k.proc i { k.proc i with parent := k.initproc } j).original_queue
          ∈ scan_levels
        rw [e.2]; exact a
      · exact ⟨ql, hwf, hsl, hfree⟩
    obtain ⟨ql1, a, b, d⟩ := h1
    exact reparent_fold_keeps_unlinked cfg p c rest _ ql1 hc1 a b d

/-- The slots met by a walk along a well-formed chain are members of it. -/
theorem walk_subset_chain (ps : Nat → proc) :
    ∀ (l : List Nat) (h : Option Nat) (fuel : Nat), chain ps h l →
      ∀ x ∈ walk ps fuel h, x ∈ l
  | _, _, 0, _, x, hx => by simp [walk] at hx
  | [], h, fuel + 1, hc, x, hx => by
    rw [chain_nil] at hc; subst hc
    simp [walk] at hx
  | y :: ys, h, fuel + 1, hc, x, hx => by
    rw [chain_cons] at hc
    obtain ⟨rfl, hc2⟩ := hc
    simp only [walk, List.mem_cons] at hx
    rcases hx with e | hx
    · exact e ▸ List.mem_cons_self _ _
    · exact List.mem_cons_of_mem _ (walk_subset_chain ps ys _ fuel hc2 x hx)

/-- C18: let the current process `c` not be the root process, let the queues
be well formed, every `SLEEPING` slot be in no queue with its
`original_queue` among the levels, and `c` be in no queue.  Then `kexit(status)`
reaches `sched()`, and at that moment: every slot of the table whose parent was
`c` has the root process (`initproc`) as parent and no other PCB has changed
parent; `c.xstate = status`; `c.state = ZOMBIE`; the queues are well formed and
`c` is linked into none of them.  The scheduler then takes over without
enqueuing `c`: the state after `kexit` is that one with no current process. -/
theorem C18_kexit (cfg : Config) (k : Kernel) (status : Int) (c : Nat) (ql : Int → List Nat)
    (hc : myproc k = some c) (hroot : some c ≠ k.initproc) (hwf : queues_wf k ql)
    (hsl : sleepers_unlinked cfg k ql) (hfree : ∀ M ∈ scan_levels, c ∉ ql M) :
    ∃ k', kexit_body cfg k status = some k' ∧
      (∀ j, j < cfg.NPROC → (k.proc j).parent = some c → (k'.proc j).parent = k.initproc) ∧
      (∀ j, ¬ (j < cfg.NPROC ∧ (k.proc j).parent = some c) →
        (k'.proc j).parent = (k.proc j).parent) ∧
      (k'.proc c).xstate = status ∧ (k'.proc c).state = procstate.ZOMBIE ∧
      (∃ ql', queues_wf k' ql' ∧ ∀ M ∈ scan_levels, c ∉ ql' M) ∧
      (∀ M ∈ scan_levels, ¬ linked cfg k' c M) ∧
      kexit cfg k status = some { k' with cpu_proc := none } := by
  obtain ⟨k1, hk1⟩ : ∃ k1 : Kernel, k1 = reparent cfg k (some c) := ⟨_, rfl⟩
  obtain ⟨k2, hk2⟩ : ∃ k2 : Kernel, k2 = wakeup cfg k1 (k1.proc c).parent := ⟨_, rfl⟩
  have hbody : kexit_body cfg k status = some { k2 with proc := (setAt k2.proc c
      { k2.proc c with xstate := status, state := procstate.ZOMBIE }) } := by
    simp only [kexit_body, hc, if_neg hroot]
    rw [← hk1, ← hk2]
  have hpar : ∀ j, (k2.proc j).parent =
      if j ∈ List.range cfg.NPROC ∧ (k.proc j).parent = some c then k.initproc
      else (k.proc j).parent := by
    intro j
    rw [hk2, wakeup_parent, hk1]
    exact reparent_fold_parent cfg (some c) _ k j (List.nodup_range _)
  have hpar' : ∀ j, ((setAt k2.proc c
      { k2.proc c with xstate := status, state := procstate.ZOMBIE }) j).parent =
      (k2.proc j).parent := by
    intro j
    by_cases hj : j = c
    · subst hj; rw [setAt_same]
    · rw [setAt_ne _ _ hj]
  obtain ⟨hm1, -⟩ := reparent_fold_caller cfg (some c) c (List.range cfg.NPROC) k hc
  have hm1' : myproc k1 = some c := by rw [hk1]; exact hm1
  obtain ⟨ql1, a1, b1, d1⟩ :=
    reparent_fold_keeps_unlinked cfg (some c) c (List.range cfg.NPROC) k ql hc hwf hsl hfree
  have a1' : queues_wf k1 ql1 := by rw [hk1]; exact a1
  have b1' : sleepers_unlinked cfg k1 ql1 := by rw [hk1]; exact b1
  obtain ⟨ql2, a2, -, d2⟩ :=
    wakeup_keeps_unlinked cfg k1 (k1.proc c).parent ql1 c hm1' a1' b1' d1
  rw [← hk2] at a2
  have hwf3 : queues_wf ({ k2 with proc := (setAt k2.proc c
      { k2.proc c with xstate := status, state := procstate.ZOMBIE }) } : Kernel) ql2 :=
    queues_wf_store a2 c _ rfl
  have hm2 : myproc k2 = some c := by
    rw [hk2]; unfold myproc; rw [wakeup_cpu_proc]; exact hm1'
  refine ⟨_, hbody, ?_, ?_, ?_, ?_, ⟨ql2, hwf3, d2⟩, ?_, ?_⟩
  · intro j hj hp
    show ((setAt k2.proc c _) j).parent = _
    rw [hpar', hpar, if_pos ⟨List.mem_range.mpr hj, hp⟩]
  · intro j hj
    show ((setAt k2.proc c _) j).parent = _
    rw [hpar', hpar, if_neg (fun h => hj ⟨List.mem_range.mp h.1, h.2⟩)]
  · show ((setAt k2.proc c _) c).xstate = _
    rw [setAt_same]
  · show ((setAt k2.proc c _) c).state = _
    rw [setAt_same]
  · intro M hM hl
    exact d2 M hM (walk_subset_chain _ _ _ _ (hwf3.1 M hM).1 c hl)
  · unfold kexit
    rw [hbody]
    simp only [Option.some_bind, sched]
    have hm3 : myproc ({ k2 with proc := (setAt k2.proc c
        { k2.proc c with xstate := status, state := procstate.ZOMBIE }) } : Kernel)
        = some c := hm2
    rw [hm3]
    simp only [setAt_same, scheduler_return]
    simp

/-- C18 at the concrete table `demo_exit`: slot 1 exits with status 7.  Its
children, the slots 2 and 3, get the root slot 0 as parent; slot 0 keeps its
own; slot 1 is a `ZOMBIE` with exit status 7 and is linked into no queue. -/
theorem C18_kexit_witness :
    ∃ k', kexit_body cfg4 demo_exit 7 = some k' ∧
      (k'.proc 2).parent = some 0 ∧ (k'.proc 3).parent = some 0 ∧
      (k'.proc 0).parent = none ∧
      (k'.proc 1).xstate = 7 ∧ (k'.proc 1).state = procstate.ZOMBIE ∧
      ¬ linked cfg4 k' 1 0 ∧ ¬ linked cfg4 k' 1 1 ∧ ¬ linked cfg4 k' 1 2 :=
  have h := C18_kexit cfg4 demo_exit 7 1 (fun L => if L = 0 then [2] else [])
    (by decide) (by decide) (by decide) (by decide) (by decide)
  h.elim fun k' hk =>
    ⟨k', hk.1, hk.2.1 2 (by decide) (by decide), hk.2.1 3 (by decide) (by decide),
      hk.2.2.1 0 (by decide), hk.2.2.2.1, hk.2.2.2.2.1,
      hk.2.2.2.2.2.2.1 0 (by decide), hk.2.2.2.2.2.2.1 1 (by decide),
      hk.2.2.2.2.2.2.1 2 (by decide)⟩

/-! ## PCB locks in the scheduler loop -/

/-- C20, the code at two failing inputs.  In `demo_skip` level 0 starts with
slot 0 in state `USED` and level 1 holds the `RUNNABLE` slot 2: the level loop
locks slot 0, finds it not `RUNNABLE`, does not unlock it, goes on to level 1
and locks slot 2, which it dispatches; at that moment the core holds the locks
of the slots 0 and 2.  In `demo_failed_fork`, reached from boot, level 0 holds
the `UNUSED` slot 1 and then the `RUNNABLE` slot 0: one iteration locks slot 1
and dispatches nothing, and the next iteration locks slot 0 while the lock of
slot 1 is still held. -/
theorem C20_scheduler_holds_two_locks :
    ((demo_skip.proc 0).state = procstate.USED ∧
     (scheduler_scan scan_levels demo_skip).1 = some (2, 1) ∧
     scheduler_scan_locks scan_levels demo_skip
       = [lock_event.acquire 0, lock_event.acquire 2] ∧
     locks_after [] (scheduler_scan_locks scan_levels demo_skip) = [2, 0] ∧
     holds_two [] (scheduler_scan_locks scan_levels demo_skip)) ∧
    ((run_ops cfg4
       [(1, Op.userinit (some 1) (some 2)), (1, Op.dispatch),
        (1, Op.kfork none (some 4) true), (1, Op.yield)]
       (procinit cfg4 boot_image)).isSome = true ∧
     queue_is demo_failed_fork 0 [1, 0] ∧
     (demo_failed_fork.proc 1).state = procstate.UNUSED ∧
     (scheduler_scan scan_levels demo_failed_fork).1 = none ∧
     scheduler_scan_locks scan_levels demo_failed_fork = [lock_event.acquire 1] ∧
     (scheduler_scan scan_levels (scheduler_scan scan_levels demo_failed_fork).2).1
       = some (0, 0) ∧
     scheduler_scan_locks scan_levels (scheduler_scan scan_levels demo_failed_fork).2
       = [lock_event.acquire 0] ∧
     holds_two [] (scheduler_scan_locks scan_levels demo_failed_fork ++
       scheduler_scan_locks scan_levels (scheduler_scan scan_levels demo_failed_fork).2)) :=
  ⟨⟨by decide, by decide, by decide, by decide, ⟨2, 0, 2, by decide, by decide, by decide⟩⟩,
   ⟨by decide, by decide, by decide, by decide, by decide, by decide, by decide,
    ⟨2, 1, 0, by decide, by decide, by decide⟩⟩⟩

/-! ## The scheduler's code after `swtch` returns -/

/-- C21: when control returns to the scheduler loop from the dispatched PCB
`p`, in any state `k`: the current-process slot of the core is cleared, and no
PCB changes in anything but its queue link.  If `p` is `RUNNABLE`, the code is
`enqueue_proc(p, p->queue_level)` with the level read at that moment (the
level `p` was dequeued from is not an input): on a well-formed queue of that
level that does not hold `p`, `p` is appended at the tail, and when the three
queues are well formed and `p` is in none, the other levels keep their lists.
If `p` is not `RUNNABLE`, the queue array and every link are as before. -/
theorem C21_scheduler_return (k : Kernel) (p : Nat) :
    (scheduler_return k p).cpu_proc = none ∧
    (∀ j, proc_data ((scheduler_return k p).proc j) = proc_data (k.proc j)) ∧
    ((k.proc p).state = procstate.RUNNABLE →
      scheduler_return k p =
        enqueue_proc { k with cpu_proc := none } (some p) (k.proc p).queue_level ∧
      (∀ l, queue_is k (k.proc p).queue_level l → p ∉ l →
        queue_is (scheduler_return k p) (k.proc p).queue_level (l ++ [p])) ∧
      (∀ ql, queues_wf k ql → (k.proc p).queue_level ∈ scan_levels →
        (∀ M ∈ scan_levels, p ∉ ql M) →
        queues_wf (scheduler_return k p)
          (setAt ql (k.proc p).queue_level (ql (k.proc p).queue_level ++ [p])))) ∧
    ((k.proc p).state ≠ procstate.RUNNABLE →
      (scheduler_return k p).queues = k.queues ∧ (scheduler_return k p).proc = k.proc) := by
  refine ⟨?_, ?_, ?_, ?_⟩
  · by_cases h : (k.proc p).state = procstate.RUNNABLE
    · rw [scheduler_return_runnable h, enqueue_proc_cpu_proc]
    · rw [scheduler_return_not_runnable h]
  · intro j
    by_cases h : (k.proc p).state = procstate.RUNNABLE
    · rw [scheduler_return_runnable h, enqueue_proc_data]
    · rw [scheduler_return_not_runnable h]
  · intro h
    refine ⟨scheduler_return_runnable h, ?_, ?_⟩
    · intro l hq hp
      rw [scheduler_return_runnable h]
      have hq' : queue_is ({ k with cpu_proc := none } : Kernel) (k.proc p).queue_level l := hq
      exact enqueue_proc_queue_is hq' hp
    · intro ql hwf hL hfree
      rw [scheduler_return_runnable h]
      have hwf' : queues_wf ({ k with cpu_proc := none } : Kernel) ql := hwf
      exact queues_wf_enqueue hwf' hL hfree
  · intro h
    rw [scheduler_return_not_runnable h]
    exact ⟨rfl, rfl⟩

/-- C21 at concrete tables.  In `demo_yielded` slot 0 comes back `RUNNABLE`
with `queue_level` 2 and is appended to the level 2 queue, which held slot 2.
In `demo_promoted_yielded` a promotion sweep has set its `queue_level` to 0
while it ran, and it is appended to the level 0 queue, which held the slots
3, 1, 2, while the level 2 queue stays empty.  In `demo_asleep` slot 0 comes
back `SLEEPING` and the queue array is untouched.  The current-process slot is
cleared each time. -/
theorem C21_scheduler_return_witness :
    (scheduler_return demo_yielded 0).cpu_proc = none ∧
    queue_is (scheduler_return demo_yielded 0) 2 [2, 0] ∧
    (scheduler_return demo_promoted_yielded 0).cpu_proc = none ∧
    queue_is (scheduler_return demo_promoted_yielded 0) 0 [3, 1, 2, 0] ∧
    queue_is (scheduler_return demo_promoted_yielded 0) 2 [] ∧
    (demo_asleep.proc 0).state = procstate.SLEEPING ∧
    (scheduler_return demo_asleep 0).queues = demo_asleep.queues :=
  have h1 := C21_scheduler_return demo_yielded 0
  have h2 := C21_scheduler_return demo_promoted_yielded 0
  have h3 := C21_scheduler_return demo_asleep 0
  ⟨h1.1, (h1.2.2.1 (by decide)).2.1 [2] (by decide) (by decide),
    h2.1, (h2.2.2.1 (by decide)).2.1 [3, 1, 2] (by decide) (by decide),
    by decide, by decide, (h3.2.2.2 (by decide)).1⟩

/-! ## PCB locks over one whole scheduler iteration -/

/-- When every queue member is `RUNNABLE`, one scheduler iteration releases
the lock it takes: the core ends the iteration with the locks it started with. -/
theorem scheduler_iteration_locks_runnable :
    ∀ (levels : List Int) (k : Kernel) (ql : Int → List Nat) (held : List Nat),
      (∀ M ∈ levels, M ∈ scan_levels) → queues_wf k ql →
      (∀ M ∈ scan_levels, ∀ x ∈ ql M, (k.proc x).state = procstate.RUNNABLE) →
      locks_after held (scheduler_iteration_locks levels k) = held
  | [], _, _, _, _, _, _ => rfl
  | L0 :: rest, k, ql, held, hlv, hwf, hrun => by
    have hL0 := hlv L0 (List.mem_cons_self _ _)
    unfold scheduler_iteration_locks
    cases hl : ql L0 with
    | nil =>
      have hnil : dequeue_proc k L0 = (none, k) := dequeue_proc_nil (hl ▸ hwf.1 L0 hL0)
      rw [hnil]
      exact scheduler_iteration_locks_runnable rest k ql held
        (fun M hM => hlv M (List.mem_cons_of_mem _ hM)) hwf hrun
    | cons x xs =>
      have hq : queue_is k L0 (x :: xs) := hl ▸ hwf.1 L0 hL0
      have hfst := (dequeue_proc_cons hq).1
      have hx : (k.proc x).state = procstate.RUNNABLE :=
        hrun L0 hL0 x (by rw [hl]; exact List.mem_cons_self _ _)
      have hx1 : ((dequeue_proc k L0).2.proc x).state = procstate.RUNNABLE := by
        rw [data_state (dequeue_proc_data k L0 x)]; exact hx
      cases hd : dequeue_proc k L0 with
      | mk o k1 =>
        rw [hd] at hfst hx1
        simp only at hfst hx1
        subst hfst
        simp only [if_pos hx1, locks_after, List.erase_cons_head]

/-- One scheduler iteration never releases a lock the core held when the
iteration began: the locks held afterwards are those, with more in front. -/
theorem scheduler_iteration_locks_keep :
    ∀ (levels : List Int) (k : Kernel) (held : List Nat),
      ∃ more, locks_after held (scheduler_iteration_locks levels k) = more ++ held
  | [], _, held => ⟨[], rfl⟩
  | L :: rest, k, held => by
    unfold scheduler_iteration_locks
    cases hd : dequeue_proc k L with
    | mk o k1 =>
      cases o with
      | none => exact scheduler_iteration_locks_keep rest k1 held
      | some p =>
        simp only
        split
        · exact ⟨[], by simp only [locks_after, List.erase_cons_head, List.nil_append]⟩
        · obtain ⟨more, hm⟩ := scheduler_iteration_locks_keep rest k1 (p :: held)
          exact ⟨more ++ [p], by
            simp only [locks_after, hm, List.append_assoc, List.singleton_append]⟩

/-- Whatever the state of a dequeued PCB other than `RUNNABLE` (`USED`,
`UNUSED`, `SLEEPING`, `ZOMBIE`, `RUNNING`), the iteration that skips it ends
with its lock held. -/
theorem scheduler_iteration_skip_leaks (L : Int) (rest : List Int) (k : Kernel) (p : Nat)
    (held : List Nat) (hd : (dequeue_proc k L).1 = some p)
    (hs : ((dequeue_proc k L).2.proc p).state ≠ procstate.RUNNABLE) :
    p ∈ locks_after held (scheduler_iteration_locks (L :: rest) k) := by
  unfold scheduler_iteration_locks
  cases hq : dequeue_proc k L with
  | mk o k1 =>
    rw [hq] at hd hs
    simp only at hd hs
    subst hd
    simp only [if_neg hs, locks_after]
    obtain ⟨more, hm⟩ := scheduler_iteration_locks_keep rest k1 (p :: held)
    rw [hm]
    exact List.mem_append_right _ (List.mem_cons_self _ _)

/-- C22, the code at two failing inputs.  In `demo_skip` the iteration locks
slot 0, which is `USED`, skips it without unlocking, then locks, dispatches and
unlocks slot 2: when the scan over the levels has finished the core still
holds the lock of slot 0.  In `demo_failed_fork`, reached from boot, the
iteration locks the `UNUSED` slot 1 and finds nothing to dispatch: it ends
holding the lock of slot 1, and the next iteration, which dispatches slot 0,
ends still holding it. -/
theorem C22_scheduler_iteration_leaks_lock :
    ((demo_skip.proc 0).state = procstate.USED ∧
     scheduler_iteration_locks scan_levels demo_skip
       = [lock_event.acquire 0, lock_event.acquire 2, lock_event.release 2] ∧
     locks_after [] (scheduler_iteration_locks scan_levels demo_skip) = [0]) ∧
    ((demo_failed_fork.proc 1).state = procstate.UNUSED ∧
     scheduler_iteration_locks scan_levels demo_failed_fork = [lock_event.acquire 1] ∧
     locks_after [] (scheduler_iteration_locks scan_levels demo_failed_fork) = [1] ∧
     scheduler_iteration_locks scan_levels (scheduler_scan scan_levels demo_failed_fork).2
       = [lock_event.acquire 0, lock_event.release 0] ∧
     locks_after [1]
       (scheduler_iteration_locks scan_levels (scheduler_scan scan_levels demo_failed_fork).2)
       = [1]) :=
  ⟨⟨by decide, by decide, by decide⟩,
   ⟨by decide, by decide, by decide, by decide, by decide⟩⟩

/-! ## The structural invariant of the queues -/

/-- The last slot of a chain has a null link. -/
theorem chain_last_next (ps : Nat → proc) :
    ∀ (l : List Nat) (h : Option Nat) (t : Nat), chain ps h l → l.getLast? = some t →
      (ps t).next_in_queue = none
  | [], _, _, _, ht => by simp at ht
  | [x], h, t, hc, ht => by
    simp only [List.getLast?_singleton, Option.some.injEq] at ht
    subst ht
    rw [chain_cons, chain_nil] at hc
    exact hc.2
  | x :: y :: ys, h, t, hc, ht => by
    rw [List.getLast?_cons_cons] at ht
    rw [chain_cons] at hc
    exact chain_last_next ps (y :: ys) _ t hc.2 ht

/-- The structural invariant in the words of the specification is the
well-formedness used throughout: the queue holds some list. -/
theorem queue_structure_iff (k : Kernel) (level : Int) :
    queue_structure k level ↔ ∃ l, queue_is k level l := by
  constructor
  · rintro ⟨_, l, hc, _, hl, _⟩
    exact ⟨l, hc, hl.symm⟩
  · rintro ⟨l, hc, ht⟩
    refine ⟨?_, l, hc, chain_nodup k.proc l _ hc, ht.symm, ?_⟩
    · cases l with
      | nil =>
        rw [chain_nil] at hc
        simp only [List.getLast?_nil] at ht
        rw [hc, ht]
      | cons x xs =>
        rw [chain_cons] at hc
        have hne : (x :: xs).getLast? ≠ none := by
          rw [Ne, List.getLast?_eq_none_iff]; simp
        rw [hc.1, ht]
        exact ⟨fun h => absurd h (by simp), fun h => absurd h hne⟩
    · intro t htl
      rw [ht] at htl
      exact chain_last_next k.proc l _ t hc htl

theorem queues_wf_structure {k : Kernel} {ql : Int → List Nat} (h : queues_wf k ql) :
    ∀ L ∈ scan_levels, queue_structure k L :=
  fun L hL => (queue_structure_iff k L).mpr ⟨ql L, h.1 L hL⟩

/-- `procinit` leaves the three queues empty, whatever the globals were. -/
theorem procinit_queues (cfg : Config) (k : Kernel) :
    queues_wf (procinit cfg k) (fun _ => []) := by
  have hq : ∀ L ∈ scan_levels, (procinit cfg k).queues L = ⟨none, none⟩ := by
    intro L hL
    rcases (mem_scan_levels L).mp hL with e | e | e <;> subst e <;>
      simp [procinit, List.range_succ, setAt]
  constructor
  · intro L hL
    rw [queue_is_nil_iff, hq L hL]
    exact ⟨rfl, rfl⟩
  · intro L _ M _ _ x hx
    simp at hx

/-- In well-formed queues whose members are slots of the table, the walk that
defines `linked` finds exactly the members. -/
theorem linked_iff_mem_wf (cfg : Config) {k : Kernel} {ql : Int → List Nat}
    (hwf : queues_wf k ql) (hlt : ∀ L ∈ scan_levels, ∀ x ∈ ql L, x < cfg.NPROC)
    {L : Int} (hL : L ∈ scan_levels) (i : Nat) : linked cfg k i L ↔ i ∈ ql L := by
  unfold linked
  rw [walk_of_queue_is (hwf.1 L hL)
    (length_le_of_nodup_lt (queue_is_nodup (hwf.1 L hL)) (hlt L hL))]

/-- One queue call made under its condition, from well-formed and pairwise
disjoint queues of table slots: it returns, and the queues are again well
formed, pairwise disjoint and made of table slots. -/
theorem queue_call_keeps (cfg : Config) (fuel : Nat) (hfuel : cfg.NPROC < fuel)
    (c : queue_call) (k : Kernel) (ql : Int → List Nat) (hwf : queues_wf k ql)
    (hlt : ∀ L ∈ scan_levels, ∀ x ∈ ql L, x < cfg.NPROC) (hok : queue_call_ok cfg c k) :
    ∃ k' ql', apply_queue_call cfg fuel c k = some k' ∧ queues_wf k' ql' ∧
      ∀ L ∈ scan_levels, ∀ x ∈ ql' L, x < cfg.NPROC := by
  have hlen : ∀ L ∈ scan_levels, (ql L).length < fuel := fun L hL =>
    Nat.lt_of_le_of_lt
      (length_le_of_nodup_lt (queue_is_nodup (hwf.1 L hL)) (hlt L hL)) hfuel
  cases c with
  | enqueue i level =>
    obtain ⟨hi, hL, hfree⟩ := hok
    have hfree' : ∀ M ∈ scan_levels, i ∉ ql M := fun M hM hm =>
      hfree M hM ((linked_iff_mem_wf cfg hwf hlt hM i).mpr hm)
    refine ⟨_, _, rfl, queues_wf_enqueue hwf hL hfree', ?_⟩
    intro M hM x hx
    by_cases hML : M = level
    · subst hML
      rw [setAt_same] at hx
      rcases List.mem_append.mp hx with hx | hx
      · exact hlt M hM x hx
      · rw [List.mem_singleton.mp hx]; exact hi
    · rw [setAt_ne _ _ hML] at hx
      exact hlt M hM x hx
  | dequeue level =>
    have hL : level ∈ scan_levels := hok
    refine ⟨_, _, rfl, (queues_wf_dequeue hwf hL).2, ?_⟩
    intro M hM x hx
    by_cases hML : M = level
    · subst hML
      rw [setAt_same] at hx
      exact hlt M hM x (List.mem_of_mem_tail hx)
    · rw [setAt_ne _ _ hML] at hx
      exact hlt M hM x hx
  | remove i level =>
    obtain ⟨hL, hfree⟩ := hok
    have hfree' : ∀ M ∈ scan_levels, M ≠ level → i ∉ ql M := fun M hM hne hm =>
      hfree M hM hne ((linked_iff_mem_wf cfg hwf hlt hM i).mpr hm)
    obtain ⟨k', hk', hq, -⟩ := queues_wf_remove hwf hL i fuel hfree' (hlen level hL)
    refine ⟨k', _, hk', hq, ?_⟩
    intro M hM x hx
    by_cases hML : M = level
    · subst hML
      rw [setAt_same] at hx
      exact hlt M hM x (List.mem_of_mem_erase hx)
    · rw [setAt_ne _ _ hML] at hx
      exact hlt M hM x hx
  | promote =>
    obtain ⟨k', ql', hk', hq, h0, h1, h2, -⟩ :=
      promote_processes_spec cfg fuel k ql hwf (hlen 1 (by decide)) (hlen 2 (by decide))
    refine ⟨k', ql', hk', hq, ?_⟩
    intro M hM x hx
    rcases (mem_scan_levels M).mp hM with e | e | e <;> subst e
    · rw [h0] at hx
      rcases List.mem_append.mp hx with hx | hx
      · rcases List.mem_append.mp hx with hx | hx
        · exact hlt 0 (by decide) x hx
        · exact hlt 1 (by decide) x (List.mem_of_mem_filter hx)
      · exact hlt 2 (by decide) x (List.mem_of_mem_filter hx)
    · rw [h1] at hx
      exact hlt 1 (by decide) x (List.mem_of_mem_filter hx)
    · rw [h2] at hx
      exact hlt 2 (by decide) x (List.mem_of_mem_filter hx)

/-- A sequence of queue calls, each made under its condition, from well-formed
and pairwise disjoint queues of table slots: the sequence runs to its end and
the queues are again well formed and pairwise disjoint. -/
theorem run_queue_calls_keeps (cfg : Config) (fuel : Nat) (hfuel : cfg.NPROC < fuel) :
    ∀ (calls : List queue_call) (k : Kernel) (ql : Int → List Nat), queues_wf k ql →
      (∀ L ∈ scan_levels, ∀ x ∈ ql L, x < cfg.NPROC) → calls_ok cfg fuel calls k →
      ∃ k' ql', run_queue_calls cfg fuel calls k = some k' ∧ queues_wf k' ql'
  | [], k, ql, hwf, _, _ => ⟨k, ql, rfl, hwf⟩
  | c :: rest, k, ql, hwf, hlt, hok => by
    obtain ⟨hc, hrest⟩ := hok
    obtain ⟨k1, ql1, hk1, hwf1, hlt1⟩ := queue_call_keeps cfg fuel hfuel c k ql hwf hlt hc
    rw [hk1] at hrest
    obtain ⟨k', ql', hk', hwf'⟩ :=
      run_queue_calls_keeps cfg fuel hfuel rest k1 ql1 hwf1 hlt1 hrest
    exact ⟨k', ql', by simp only [run_queue_calls, hk1, Option.some_bind, hk'], hwf'⟩

/-- Queues that each have the structure and pairwise share no member are
well-formed queues holding some lists, and conversely. -/
theorem queues_wf_iff_structure (k : Kernel) :
    (∃ ql, queues_wf k ql) ↔
      ((∀ L ∈ scan_levels, queue_structure k L) ∧
       ∀ L ∈ scan_levels, ∀ M ∈ scan_levels, L ≠ M → ∀ l m, queue_is k L l →
         queue_is k M m → ∀ x ∈ l, x ∉ m) := by
  constructor
  · rintro ⟨ql, hwf⟩
    refine ⟨queues_wf_structure hwf, ?_⟩
    intro L hL M hM hne l m hl hm x hx
    rw [queue_is_unique hl (hwf.1 L hL)] at hx
    rw [queue_is_unique hm (hwf.1 M hM)]
    exact hwf.2 L hL M hM hne x hx
  · rintro ⟨hs, hd⟩
    have hex : ∀ L, ∃ l, L ∈ scan_levels → queue_is k L l := by
      intro L
      by_cases hL : L ∈ scan_levels
      · obtain ⟨l, hl⟩ := (queue_structure_iff k L).mp (hs L hL)
        exact ⟨l, fun _ => hl⟩
      · exact ⟨[], fun h => absurd h hL⟩
    choose ql hql using hex
    exact ⟨ql, fun L hL => hql L hL,
      fun L hL M hM hne x hx => hd L hL M hM hne _ _ (hql L hL) (hql M hM) x hx⟩

/-- C23: the structural invariant of each priority queue (head null exactly
when tail is null, the chain from head finite and acyclic, its last element
tail, the link of tail null).  The state left by `procinit` has it on all three
levels, whatever the globals were before.  From any state in which the three
queues have it and share no member (they then hold lists `ql`), it holds again
on all three levels, and the queues again share no member, after:
`enqueue_proc` of a PCB that is in no queue; `dequeue_proc`;
`remove_from_queue` of a PCB that is in no other level's queue, which returns
given more fuel than the level has members; and `promote_processes`, which
returns given more fuel than the levels 1 and 2 have members.  Hence every
sequence of such calls, made on queues of table slots with more fuel than the
table has slots, runs to its end and leaves all three queues with the
structure; in particular every such sequence from the state left by
`procinit`. -/
theorem C23_queue_structure (cfg : Config) :
    (∀ k, ∀ L ∈ scan_levels, queue_structure (procinit cfg k) L) ∧
    (∀ k ql, queues_wf k ql →
      (∀ L ∈ scan_levels, queue_structure k L) ∧
      (∀ L ∈ scan_levels, ∀ i, (∀ M ∈ scan_levels, i ∉ ql M) →
        (∃ ql', queues_wf (enqueue_proc k (some i) L) ql') ∧
        ∀ M ∈ scan_levels, queue_structure (enqueue_proc k (some i) L) M) ∧
      (∀ L ∈ scan_levels,
        (∃ ql', queues_wf (dequeue_proc k L).2 ql') ∧
        ∀ M ∈ scan_levels, queue_structure (dequeue_proc k L).2 M) ∧
      (∀ L ∈ scan_levels, ∀ i fuel, (∀ M ∈ scan_levels, M ≠ L → i ∉ ql M) →
        (ql L).length < fuel →
        ∃ k', remove_from_queue fuel k (some i) L = some k' ∧ (∃ ql', queues_wf k' ql') ∧
          ∀ M ∈ scan_levels, queue_structure k' M) ∧
      (∀ fuel, (ql 1).length < fuel → (ql 2).length < fuel →
        ∃ k', promote_processes cfg fuel k = some k' ∧ (∃ ql', queues_wf k' ql') ∧
          ∀ M ∈ scan_levels, queue_structure k' M)) ∧
    (∀ k, (∃ ql, queues_wf k ql) ↔
      ((∀ L ∈ scan_levels, queue_structure k L) ∧
       ∀ L ∈ scan_levels, ∀ M ∈ scan_levels, L ≠ M → ∀ l m, queue_is k L l →
         queue_is k M m → ∀ x ∈ l, x ∉ m)) ∧
    (∀ fuel calls k ql, cfg.NPROC < fuel → queues_wf k ql →
      (∀ L ∈ scan_levels, ∀ x ∈ ql L, x < cfg.NPROC) → calls_ok cfg fuel calls k →
      ∃ k', run_queue_calls cfg fuel calls k = some k' ∧
        ∀ L ∈ scan_levels, queue_structure k' L) ∧
    (∀ fuel calls k0, cfg.NPROC < fuel → calls_ok cfg fuel calls (procinit cfg k0) →
      ∃ k', run_queue_calls cfg fuel calls (procinit cfg k0) = some k' ∧
        ∀ L ∈ scan_levels, queue_structure k' L) := by
  refine ⟨fun k => queues_wf_structure (procinit_queues cfg k), ?_, queues_wf_iff_structure,
    ?_, ?_⟩
  · intro k ql hwf
    refine ⟨queues_wf_structure hwf, ?_, ?_, ?_, ?_⟩
    · intro L hL i hi
      have h := queues_wf_enqueue hwf hL hi
      exact ⟨⟨_, h⟩, queues_wf_structure h⟩
    · intro L hL
      have h := (queues_wf_dequeue hwf hL).2
      exact ⟨⟨_, h⟩, queues_wf_structure h⟩
    · intro L hL i fuel hi hf
      obtain ⟨k', hk', hq, -⟩ := queues_wf_remove hwf hL i fuel hi hf
      exact ⟨k', hk', ⟨_, hq⟩, queues_wf_structure hq⟩
    · intro fuel hf1 hf2
      obtain ⟨k', ql', hk', hq, -⟩ := promote_processes_spec cfg fuel k ql hwf hf1 hf2
      exact ⟨k', hk', ⟨ql', hq⟩, queues_wf_structure hq⟩
  · intro fuel calls k ql hfuel hwf hlt hok
    obtain ⟨k', ql', hk', hq⟩ := run_queue_calls_keeps cfg fuel hfuel calls k ql hwf hlt hok
    exact ⟨k', hk', queues_wf_structure hq⟩
  · intro fuel calls k0 hfuel hok
    obtain ⟨k', ql', hk', hq⟩ := run_queue_calls_keeps cfg fuel hfuel calls _ _
      (procinit_queues cfg k0) (fun _ _ x hx => absurd hx (by simp)) hok
    exact ⟨k', hk', queues_wf_structure hq⟩

/-- C23 at concrete inputs.  From the state left by `procinit` on a table of
four slots the sequence `demo_calls` runs to its end and leaves the levels 0,
1, 2 holding `[]`, `[0, 1]`, `[2]`, each with the structure.  From
`demo_levels`, whose queues hold `[3]`, `[1, 4]`, `[2]`, a promotion sweep,
`dequeue_proc(0)`, `enqueue_proc` of slot 3 at level 2 and `remove_from_queue`
of slot 4 at level 1 leave all three queues with the structure. -/
theorem C23_queue_structure_witness :
    (∃ k', run_queue_calls cfg4 5 demo_calls (procinit cfg4 boot_image) = some k' ∧
      ∀ L ∈ scan_levels, queue_structure k' L) ∧
    queue_is ((run_queue_calls cfg4 5 demo_calls (procinit cfg4 boot_image)).getD boot_image)
      1 [0, 1] ∧
    queue_is ((run_queue_calls cfg4 5 demo_calls (procinit cfg4 boot_image)).getD boot_image)
      2 [2] ∧
    (∃ k', run_queue_calls cfg6 7
        [queue_call.promote, queue_call.dequeue 0, queue_call.enqueue 3 2,
          queue_call.remove 4 1] demo_levels = some k' ∧
      ∀ L ∈ scan_levels, queue_structure k' L) :=
  have h := C23_queue_structure cfg4
  have h6 := C23_queue_structure cfg6
  ⟨h.2.2.2.2 5 demo_calls boot_image (by decide) (by decide), by decide, by decide,
    h6.2.2.2.1 7 _ demo_levels demo_levels_lists (by decide) (by decide) (by decide)
      (by decide)⟩

/-! ## Three forks after a failed one -/

/-- C9, the code at a failing input.  `demo_fork_failed` is reached from boot
by `userinit`, a dispatch and a `kfork` whose `kalloc` fails: slot 0 runs, the
`UNUSED` slots are 1, 2, 3, the queues are well formed and level 0 holds
`q = [1]`.  Three `kfork` calls of slot 0, all collaborators succeeding, return
the pids 3, 4, 5 and leave the children, in the slots 1, 2, 3, `RUNNABLE` at
`queue_level` 0 with `remaining_ticks = Q0_TICKS`.  But level 0 then holds
`[1, 2, 3]`, not `q` followed by the three children: the first child's slot was
still linked as the tail, and `enqueue_proc` on the tail leaves the list as it
is. -/
theorem C9_forks_after_failed_fork :
    (run_ops cfg4
      [(1, Op.userinit (some 1) (some 2)), (1, Op.dispatch), (1, Op.kfork none (some 4) true)]
      (procinit cfg4 boot_image)).isSome = true ∧
    myproc demo_fork_failed = some 0 ∧
    (demo_fork_failed.proc 0).state = procstate.RUNNING ∧
    (List.range cfg4.NPROC).filter
      (fun j => decide ((demo_fork_failed.proc j).state = procstate.UNUSED)) = [1, 2, 3] ∧
    queues_wf demo_fork_failed (fun L => if L = 0 then [1] else []) ∧
    (kfork cfg4 (some 5) (some 6) true (demo_forks 0)).map Prod.fst = some 3 ∧
    (kfork cfg4 (some 5) (some 6) true (demo_forks 1)).map Prod.fst = some 4 ∧
    (kfork cfg4 (some 5) (some 6) true (demo_forks 2)).map Prod.fst = some 5 ∧
    (run_ops cfg4 (List.replicate 3 (1, Op.kfork (some 5) (some 6) true))
      demo_fork_failed).isSome = true ∧
    (∀ c ∈ [1, 2, 3], ((demo_forks 3).proc c).state = procstate.RUNNABLE ∧
      ((demo_forks 3).proc c).queue_level = 0 ∧
      ((demo_forks 3).proc c).remaining_ticks = cfg4.Q0_TICKS ∧
      ((demo_forks 3).proc c).parent = some 0) ∧
    ((demo_forks 3).proc 1).pid = 3 ∧ ((demo_forks 3).proc 2).pid = 4 ∧
    ((demo_forks 3).proc 3).pid = 5 ∧
    queue_is (demo_forks 3) 0 [1, 2, 3] ∧
    ¬ queue_is (demo_forks 3) 0 ([1] ++ [1, 2, 3]) :=
  ⟨by decide, by decide, by decide, by decide, by decide, by decide, by decide, by decide,
    by decide, by decide, by decide, by decide, by decide, by decide, by decide⟩

/-! ## The pid counter and the pids of the table along a run -/

theorem pids_step_refl (k : Kernel) : pids_step none k k :=
  ⟨rfl, fun _ => Or.inl rfl⟩

/-- Steps that assign no pid may follow any step. -/
theorem pids_step_trans {n : Option Int} {k1 k2 k3 : Kernel} (h1 : pids_step n k1 k2)
    (h2 : pids_step none k2 k3) : pids_step n k1 k3 := by
  refine ⟨?_, ?_⟩
  · have e : k3.nextpid = k2.nextpid := h2.1
    rw [e]; exact h1.1
  · intro j
    rcases h2.2 j with e | e | e
    · rw [e]; exact h1.2 j
    · exact Or.inr (Or.inl e)
    · exact absurd e (by simp)

theorem pids_step_of_eq_left {n : Option Int} {k k0 k' : Kernel} (h : pids_step n k0 k')
    (hp : k0.proc = k.proc) (hn : k0.nextpid = k.nextpid) : pids_step n k k' := by
  obtain ⟨h1, h2⟩ := h
  rw [hn] at h1
  rw [hp] at h2
  exact ⟨h1, h2⟩

theorem pids_step_of_data {k k' : Kernel} (hn : k'.nextpid = k.nextpid)
    (h : ∀ j, proc_data (k'.proc j) = proc_data (k.proc j)) : pids_step none k k' :=
  ⟨hn, fun j => Or.inl (data_pid (h j))⟩

/-- A store into one slot that keeps the pid or clears it. -/
theorem pids_step_store {k k' : Kernel} {i : Nat} {v : proc} (hp : k'.proc = setAt k.proc i v)
    (hn : k'.nextpid = k.nextpid) (h : v.pid = (k.proc i).pid ∨ v.pid = 0) :
    pids_step none k k' := by
  refine ⟨hn, ?_⟩
  intro j
  rw [hp]
  by_cases hj : j = i
  · subst hj; rw [setAt_same]
    exact h.elim Or.inl (fun e => Or.inr (Or.inl e))
  · rw [setAt_ne _ _ hj]; exact Or.inl rfl

theorem pids_step_foldl (f : Kernel → Nat → Kernel)
    (hf : ∀ k i, pids_step none k (f k i)) :
    ∀ (idx : List Nat) (k : Kernel), pids_step none k (idx.foldl f k)
  | [], k => pids_step_refl k
  | i :: rest, k => by
    rw [List.foldl_cons]
    exact pids_step_trans (hf k i) (pids_step_foldl f hf rest (f k i))

theorem dequeue_proc_nextpid (k : Kernel) (level : Int) :
    (dequeue_proc k level).2.nextpid = k.nextpid := by
  unfold dequeue_proc
  cases (k.queues level).head <;> rfl

theorem pids_step_enqueue (k : Kernel) (p : Option Nat) (level : Int) :
    pids_step none k (enqueue_proc k p level) :=
  pids_step_of_data (enqueue_proc_nextpid k p level) (enqueue_proc_data k p level)

theorem pids_step_dequeue (k : Kernel) (level : Int) :
    pids_step none k (dequeue_proc k level).2 :=
  pids_step_of_data (dequeue_proc_nextpid k level) (dequeue_proc_data k level)

theorem pids_step_remove {fuel : Nat} {k k' : Kernel} {p : Option Nat} {level : Int}
    (h : remove_from_queue fuel k p level = some k') : pids_step none k k' :=
  pids_step_of_data (remove_from_queue_frame h).2.1 (remove_from_queue_frame h).1

theorem pids_step_freeproc (k : Kernel) (i : Nat) : pids_step none k (freeproc k i) :=
  pids_step_store (i := i) rfl rfl (Or.inr rfl)

/-- `allocproc` takes the pid `allocproc_pid` from the counter; the claimed slot
gets it, or pid 0 when the creation is rolled back. -/
theorem pids_step_allocproc (cfg : Config) (tf pt : Option Nat) (k : Kernel) :
    pids_step (allocproc_pid cfg k) k (allocproc cfg tf pt k).2 := by
  rw [allocproc_eq_found]
  unfold allocproc_pid
  cases hf : (List.range cfg.NPROC).find?
      (fun i => decide ((k.proc i).state = procstate.UNUSED)) with
  | none => exact pids_step_refl k
  | some i =>
    have hnp := allocproc_found_nextpid cfg k i
    have hd := allocproc_found_data cfg k i
    have hpi : ((allocproc_found cfg k i).proc i).pid = k.nextpid := by
      have h := hd i
      rw [if_pos rfl] at h
      exact data_pid h
    have hpj : ∀ j, j ≠ i → ((allocproc_found cfg k i).proc j).pid = (k.proc j).pid := by
      intro j hj
      have h := hd j
      rw [if_neg hj] at h
      exact data_pid h
    have hstore : ∀ v : proc, v.pid = k.nextpid ∨ v.pid = 0 →
        pids_step (some k.nextpid) k
          { allocproc_found cfg k i with proc := setAt (allocproc_found cfg k i).proc i v } := by
      intro v hv
      refine ⟨hnp, ?_⟩
      intro j
      show (setAt (allocproc_found cfg k i).proc i v j).pid = (k.proc j).pid ∨
        (setAt (allocproc_found cfg k i).proc i v j).pid = 0 ∨
        some k.nextpid = some (setAt (allocproc_found cfg k i).proc i v j).pid
      by_cases hj : j = i
      · rw [hj, setAt_same]
        rcases hv with e | e
        · exact Or.inr (Or.inr (congrArg some e.symm))
        · exact Or.inr (Or.inl e)
      · rw [setAt_ne _ _ hj]
        exact Or.inl (hpj j hj)
    simp only [Option.map_some']
    cases tf with
    | none =>
      exact pids_step_trans
        (hstore { (allocproc_found cfg k i).proc i with trapframe := none } (Or.inl hpi))
        (pids_step_freeproc _ i)
    | some t =>
      cases pt with
      | none =>
        exact pids_step_trans
          (hstore { (allocproc_found cfg k i).proc i with
            trapframe := some t, pagetable := none } (Or.inl hpi))
          (pids_step_freeproc _ i)
      | some g =>
        exact hstore { (allocproc_found cfg k i).proc i with
          trapframe := some t, pagetable := some g } (Or.inl hpi)

theorem pids_step_userinit (cfg : Config) (tf pt : Option Nat) {k k' : Kernel}
    (h : userinit cfg tf pt k = some k') : pids_step (allocproc_pid cfg k) k k' := by
  unfold userinit at h
  have h1 := pids_step_allocproc cfg tf pt k
  cases ha : allocproc cfg tf pt k with
  | mk o k1 =>
    rw [ha] at h h1
    cases o with
    | none => exact absurd h (by simp)
    | some i =>
      simp only [Option.some.injEq] at h
      rw [← h]
      exact pids_step_trans h1 (pids_step_store (i := i) rfl rfl (Or.inl rfl))

theorem pids_step_kfork (cfg : Config) (tf pt : Option Nat) (ok : Bool) {k : Kernel}
    {r : Int × Kernel} (h : kfork cfg tf pt ok k = some r) :
    pids_step (allocproc_pid cfg k) k r.2 := by
  unfold kfork at h
  cases hc : myproc k with
  | none => rw [hc] at h; exact absurd h (by simp)
  | some p =>
    rw [hc] at h
    have h1 := pids_step_allocproc cfg tf pt k
    cases ha : allocproc cfg tf pt k with
    | mk o k1 =>
      rw [ha] at h h1
      cases o with
      | none =>
        simp only [Option.some.injEq] at h
        rw [← h]; exact h1
      | some np =>
        simp only at h
        split at h
        · simp only [Option.some.injEq] at h
          rw [← h]
          exact pids_step_trans h1 (pids_step_freeproc k1 np)
        · simp only [Option.some.injEq] at h
          rw [← h]
          refine pids_step_trans h1 ?_
          refine pids_step_store (i := np)
            (v := { k1.proc np with sz := (k1.proc p).sz, parent := some p,
                                     state := procstate.RUNNABLE }) ?_ rfl (Or.inl rfl)
          funext j
          by_cases hj : j = np
          · subst hj; simp only [setAt_same]
          · simp only [setAt_ne _ _ hj]

theorem pids_step_scheduler_scan :
    ∀ (levels : List Int) (k : Kernel), pids_step none k (scheduler_scan levels k).2
  | [], k => pids_step_refl k
  | level :: rest, k => by
    have hd := pids_step_dequeue k level
    simp only [scheduler_scan]
    cases hq : dequeue_proc k level with
    | mk o k1 =>
      rw [hq] at hd
      cases o with
      | none => exact pids_step_trans hd (pids_step_scheduler_scan rest k1)
      | some p =>
        simp only
        split
        · exact pids_step_trans hd (pids_step_store (i := p) rfl rfl (Or.inl rfl))
        · exact pids_step_trans hd (pids_step_scheduler_scan rest k1)

theorem promote_sweep_nextpid (level : Int) :
    ∀ (fuel : Nat) (k : Kernel) (v : sweep_vars) (k' : Kernel) (v' : sweep_vars),
      promote_sweep level fuel k v = some (k', v') → k'.nextpid = k.nextpid
  | 0, _, _, _, _, h => by simp [promote_sweep] at h
  | fuel + 1, k, v, k', v', h => by
    simp only [promote_sweep] at h
    cases hc : v.current with
    | none =>
      rw [hc] at h
      simp only [Option.some.injEq, Prod.mk.injEq] at h
      rw [← h.1]
    | some c =>
      rw [hc] at h
      simp only at h
      split at h
      · rw [promote_sweep_nextpid level fuel _ _ k' v' h]
      · rw [promote_sweep_nextpid level fuel _ _ k' v' h]

theorem pids_step_promote_requeue (cfg : Config) :
    ∀ (fuel : Nat) (k : Kernel) (c : Option Nat) (k' : Kernel),
      promote_requeue cfg fuel k c = some k' → pids_step none k k'
  | 0, _, _, _, h => by simp [promote_requeue] at h
  | _ + 1, k, none, k', h => by
    simp only [promote_requeue, Option.some.injEq] at h
    rw [← h]; exact pids_step_refl k
  | fuel + 1, k, some c, k', h => by
    simp only [promote_requeue] at h
    refine pids_step_trans ?_ (pids_step_promote_requeue cfg fuel _ _ k' h)
    refine pids_step_trans ?_ (pids_step_enqueue _ _ _)
    split
    · exact pids_step_store (i := c) rfl rfl (Or.inl rfl)
    · exact pids_step_refl k

theorem pids_step_promote_running_one (cfg : Config) (k : Kernel) (i : Nat) :
    pids_step none k (promote_running_one cfg k i) := by
  unfold promote_running_one
  split
  · exact pids_step_store (i := i) rfl rfl (Or.inl rfl)
  · exact pids_step_refl k

theorem pids_step_promote_level (cfg : Config) {fuel : Nat} {k k' : Kernel} {level : Int}
    (h : promote_level cfg fuel k level = some k') : pids_step none k k' := by
  unfold promote_level at h
  cases hs : promote_sweep level fuel k
      { prev := none, current := (k.queues level).head, to_promote_head := none,
        to_promote_tail := none } with
  | none => rw [hs] at h; exact absurd h (by simp)
  | some r =>
    obtain ⟨k1, v⟩ := r
    rw [hs] at h
    simp only at h
    cases hr : promote_requeue cfg fuel k1 v.to_promote_head with
    | none => rw [hr] at h; exact absurd h (by simp)
    | some k2 =>
      rw [hr] at h
      simp only [Option.some.injEq] at h
      rw [← h]
      exact pids_step_trans
        (pids_step_of_data (promote_sweep_nextpid level fuel _ _ _ _ hs)
          (promote_sweep_data level fuel _ _ _ _ hs))
        (pids_step_trans (pids_step_promote_requeue cfg fuel _ _ _ hr)
          (pids_step_foldl _ (pids_step_promote_running_one cfg) _ _))

theorem pids_step_promote_processes (cfg : Config) {fuel : Nat} {k k' : Kernel}
    (h : promote_processes cfg fuel k = some k') : pids_step none k k' := by
  unfold promote_processes at h
  cases h1 : promote_level cfg fuel k 1 with
  | none => rw [h1] at h; exact absurd h (by simp)
  | some k1 =>
    rw [h1] at h
    exact pids_step_trans (pids_step_promote_level cfg h1) (pids_step_promote_level cfg h)

theorem pids_step_scheduler_dispatch (cfg : Config) {fuel : Nat} {k : Kernel}
    {r : Option (Nat × Int) × Kernel} (h : scheduler_dispatch cfg fuel k = some r) :
    pids_step none k r.2 := by
  unfold scheduler_dispatch at h
  obtain ⟨k1, hk1, hr⟩ := Option.map_eq_some'.mp h
  rw [← hr]
  refine pids_step_trans ?_ (pids_step_scheduler_scan _ k1)
  unfold scheduler_promote at hk1
  split at hk1
  · exact pids_step_of_eq_left (pids_step_promote_processes cfg hk1) rfl rfl
  · simp only [Option.some.injEq] at hk1
    rw [← hk1]; exact pids_step_refl k

theorem pids_step_scheduler_return (k : Kernel) (p : Nat) :
    pids_step none k (scheduler_return k p) := by
  unfold scheduler_return
  simp only
  split
  · exact pids_step_of_eq_left (pids_step_enqueue _ _ _) rfl rfl
  · exact ⟨rfl, fun _ => Or.inl rfl⟩

theorem pids_step_sched {k k' : Kernel} (h : sched k = some k') : pids_step none k k' := by
  unfold sched at h
  cases hc : myproc k with
  | none => rw [hc] at h; exact absurd h (by simp)
  | some p =>
    rw [hc] at h
    simp only at h
    split at h
    · exact absurd h (by simp)
    · simp only [Option.some.injEq] at h
      rw [← h]; exact pids_step_scheduler_return k p

theorem pids_step_yield {k k' : Kernel} (h : yield k = some k') : pids_step none k k' := by
  unfold yield at h
  obtain ⟨k1, hk1, hs⟩ := Option.bind_eq_some.mp h
  refine pids_step_trans ?_ (pids_step_sched hs)
  unfold yield_body at hk1
  cases hc : myproc k with
  | none => rw [hc] at hk1; exact absurd hk1 (by simp)
  | some p =>
    rw [hc] at hk1
    simp only [Option.some.injEq] at hk1
    rw [← hk1]
    exact pids_step_store (i := p) rfl rfl (Or.inl rfl)

theorem pids_step_sleep {fuel : Nat} {k k' : Kernel} {chan : Option Nat}
    (h : sleep fuel k chan = some k') : pids_step none k k' := by
  unfold sleep at h
  obtain ⟨k1, hk1, hs⟩ := Option.bind_eq_some.mp h
  refine pids_step_trans ?_ (pids_step_sched hs)
  unfold sleep_body at hk1
  cases hc : myproc k with
  | none => rw [hc] at hk1; exact absurd hk1 (by simp)
  | some p =>
    rw [hc] at hk1
    simp only at hk1
    refine pids_step_trans ?_ (pids_step_remove hk1)
    refine pids_step_store (i := p)
      (v := { k.proc p with chan := chan, state := procstate.SLEEPING,
                             original_queue := (k.proc p).queue_level }) ?_ rfl (Or.inl rfl)
    funext j
    by_cases hj : j = p
    · subst hj; simp only [setAt_same]
    · simp only [setAt_ne _ _ hj]

theorem pids_step_sleep_tidy {k k' : Kernel} (h : sleep_tidy k = some k') :
    pids_step none k k' := by
  unfold sleep_tidy at h
  cases hc : myproc k with
  | none => rw [hc] at h; exact absurd h (by simp)
  | some p =>
    rw [hc] at h
    simp only [Option.some.injEq] at h
    rw [← h]
    exact pids_step_store (i := p) rfl rfl (Or.inl rfl)

theorem wake_proc_pid (cfg : Config) (p : proc) : (wake_proc cfg p).pid = p.pid := by
  unfold wake_proc
  simp only
  split_ifs <;> rfl

theorem pids_step_wakeup_one (cfg : Config) (chan : Option Nat) (k : Kernel) (i : Nat) :
    pids_step none k (wakeup_one cfg chan k i) := by
  by_cases h : wakes k chan i
  · rw [wakeup_one_of_wakes cfg h]
    refine pids_step_trans ?_ (pids_step_enqueue _ _ _)
    exact pids_step_store (i := i) rfl rfl (Or.inl (wake_proc_pid cfg _))
  · rw [wakeup_one_of_not_wakes cfg h]
    exact pids_step_refl k

theorem pids_step_wakeup (cfg : Config) (k : Kernel) (chan : Option Nat) :
    pids_step none k (wakeup cfg k chan) :=
  pids_step_foldl _ (pids_step_wakeup_one cfg chan) _ k

theorem pids_step_reparent_one (cfg : Config) (p : Option Nat) (k : Kernel) (i : Nat) :
    pids_step none k (reparent_one cfg p k i) := by
  unfold reparent_one
  split
  · refine pids_step_trans ?_ (pids_step_wakeup cfg _ _)
    exact pids_step_store (i := i) rfl rfl (Or.inl rfl)
  · exact pids_step_refl k

theorem pids_step_kkill (cfg : Config) (k : Kernel) (pid : Int) :
    pids_step none k (kkill cfg k pid).2 := by
  unfold kkill
  rw [kkill_scan_eq]
  cases (List.range cfg.NPROC).find? (fun i => decide ((k.proc i).pid = pid)) with
  | none => exact pids_step_refl k
  | some p =>
    refine pids_step_store (i := p) rfl rfl (Or.inl ?_)
    split <;> rfl

theorem pids_step_kexit (cfg : Config) {k k' : Kernel} {status : Int}
    (h : kexit cfg k status = some k') : pids_step none k k' := by
  unfold kexit at h
  obtain ⟨k1, hk1, hs⟩ := Option.bind_eq_some.mp h
  refine pids_step_trans ?_ (pids_step_sched hs)
  unfold kexit_body at hk1
  cases hc : myproc k with
  | none => rw [hc] at hk1; exact absurd hk1 (by simp)
  | some p =>
    rw [hc] at hk1
    simp only at hk1
    split at hk1
    · exact absurd hk1 (by simp)
    · simp only [Option.some.injEq] at hk1
      rw [← hk1]
      exact pids_step_trans
        (pids_step_foldl _ (pids_step_reparent_one cfg (some p)) _ k)
        (pids_step_trans (pids_step_wakeup cfg _ _)
          (pids_step_store (i := p) rfl rfl (Or.inl rfl)))

theorem pids_step_kwait (cfg : Config) {fuel : Nat} {k : Kernel} {addr : Nat} {ok : Bool}
    {r : wait_result × Kernel} (h : kwait cfg fuel k addr ok = some r) :
    pids_step none k r.2 := by
  rcases kwait_steps cfg fuel k addr ok r h with e | ⟨i, _, e⟩ | e
  · rw [e]; exact pids_step_refl k
  · rw [e]; exact pids_step_freeproc k i
  · exact pids_step_sleep e

/-- Every event moves the pid counter and the pids of the table as
`op_allocpid` says. -/
theorem pids_step_apply_op (cfg : Config) (fuel : Nat) (op : Op) {k k' : Kernel}
    (h : apply_op cfg fuel op k = some k') : pids_step (op_allocpid cfg op k) k k' := by
  cases op with
  | allocproc tf pt =>
    simp only [apply_op, Option.some.injEq] at h
    rw [← h]; exact pids_step_allocproc cfg tf pt k
  | userinit tf pt => exact pids_step_userinit cfg tf pt h
  | kfork tf pt ok =>
    simp only [apply_op] at h
    obtain ⟨r, hr, e⟩ := Option.map_eq_some'.mp h
    rw [← e]; exact pids_step_kfork cfg tf pt ok hr
  | dispatch =>
    simp only [apply_op] at h
    split at h
    · obtain ⟨r, hr, e⟩ := Option.map_eq_some'.mp h
      rw [← e]; exact pids_step_scheduler_dispatch cfg hr
    · exact absurd h (by simp)
  | yield => exact pids_step_yield h
  | sleep chan => exact pids_step_sleep h
  | sleep_tidy => exact pids_step_sleep_tidy h
  | wakeup chan =>
    simp only [apply_op, Option.some.injEq] at h
    rw [← h]; exact pids_step_wakeup cfg k chan
  | kkill pid =>
    simp only [apply_op, Option.some.injEq] at h
    rw [← h]; exact pids_step_kkill cfg k pid
  | kexit status => exact pids_step_kexit cfg h
  | kwait addr ok =>
    simp only [apply_op] at h
    obtain ⟨r, hr, e⟩ := Option.map_eq_some'.mp h
    rw [← e]; exact pids_step_kwait cfg hr
  | promote_processes => exact pids_step_promote_processes cfg h

theorem op_allocpid_eq (cfg : Config) (op : Op) (k : Kernel) (n : Int)
    (h : op_allocpid cfg op k = some n) : n = k.nextpid := by
  have ha : ∀ m, allocproc_pid cfg k = some m → m = k.nextpid := by
    intro m hm
    unfold allocproc_pid at hm
    obtain ⟨_, _, e⟩ := Option.map_eq_some'.mp hm
    exact e.symm
  cases op <;> first | exact ha n h | exact absurd h (by simp [op_allocpid])

/-- Along a run in which the counter does not pass the largest `int`, the
counter has grown by the number of pids assigned, the pids assigned are the
consecutive values of the counter, and every pid in the table is the pid the
slot had at the start, or 0, or one of the pids assigned. -/
theorem run_ops_pids (cfg : Config) :
    ∀ (ops : List (Nat × Op)) (k0 k : Kernel), run_ops cfg ops k0 = some k →
      -2147483648 ≤ k0.nextpid →
      k0.nextpid + (assigned_pids cfg ops k0).length ≤ 2147483647 →
      k.nextpid = k0.nextpid + (assigned_pids cfg ops k0).length ∧
      assigned_pids cfg ops k0 =
        (List.range (assigned_pids cfg ops k0).length).map (fun (n : Nat) => k0.nextpid + (n : Int)) ∧
      ∀ j, (k.proc j).pid = (k0.proc j).pid ∨ (k.proc j).pid = 0 ∨
        (k.proc j).pid ∈ assigned_pids cfg ops k0
  | [], k0, k, h, _, _ => by
    simp only [run_ops, Option.some.injEq] at h
    subst h
    simp [assigned_pids]
  | (fuel, op) :: rest, k0, k, h, hlo, hhi => by
    simp only [run_ops] at h
    obtain ⟨k1, hk1, hrest⟩ := Option.bind_eq_some.mp h
    have hstep := pids_step_apply_op cfg fuel op hk1
    have hass : assigned_pids cfg ((fuel, op) :: rest) k0 =
        (op_allocpid cfg op k0).toList ++ assigned_pids cfg rest k1 := by
      simp only [assigned_pids, hk1]
    rw [hass] at hhi ⊢
    cases hn : op_allocpid cfg op k0 with
    | none =>
      rw [hn] at hstep hhi
      simp only [Option.toList_none, List.nil_append] at hhi ⊢
      have e1 : k1.nextpid = k0.nextpid := hstep.1
      obtain ⟨a, b, c⟩ := run_ops_pids cfg rest k1 k hrest (by rw [e1]; exact hlo)
        (by rw [e1]; exact hhi)
      rw [e1] at a b
      refine ⟨a, b, ?_⟩
      intro j
      rcases c j with e | e | e
      · rw [e]
        rcases hstep.2 j with e2 | e2 | e2
        · exact Or.inl e2
        · exact Or.inr (Or.inl e2)
        · exact absurd e2 (by simp)
      · exact Or.inr (Or.inl e)
      · exact Or.inr (Or.inr e)
    | some n =>
      have hnk : n = k0.nextpid := op_allocpid_eq cfg op k0 n hn
      rw [hn] at hstep hhi
      simp only [Option.toList_some, List.singleton_append, List.length_cons,
        Nat.cast_add, Nat.cast_one] at hhi ⊢
      have e1 : k1.nextpid = k0.nextpid + 1 := by
        have := hstep.1
        simp only at this
        rw [this]
        exact wrap32_id (by omega) (by omega)
      obtain ⟨a, b, c⟩ := run_ops_pids cfg rest k1 k hrest (by rw [e1]; omega)
        (by rw [e1]; omega)
      rw [e1] at a b
      refine ⟨by rw [a]; omega, ?_, ?_⟩
      · rw [List.range_succ_eq_map, List.map_cons, List.map_map, hnk]
        congr 1
        · simp
        · rw [b]
          simp only [List.length_map, List.length_range]
          apply List.map_congr_left
          intro m _
          simp only [Function.comp_apply, Nat.cast_succ]
          omega
      · intro j
        rcases c j with e | e | e
        · rw [e]
          rcases hstep.2 j with e2 | e2 | e2
          · exact Or.inl e2
          · exact Or.inr (Or.inl e2)
          · simp only [Option.some.injEq] at e2
            exact Or.inr (Or.inr (by rw [← e2]; exact List.mem_cons_self _ _))
        · exact Or.inr (Or.inl e)
        · exact Or.inr (Or.inr (List.mem_cons_of_mem _ e))


theorem assigned_pids_append (cfg : Config) (ops2 : List (Nat × Op)) :
    ∀ (ops : List (Nat × Op)) (k0 k : Kernel), run_ops cfg ops k0 = some k →
      assigned_pids cfg (ops ++ ops2) k0 = assigned_pids cfg ops k0 ++ assigned_pids cfg ops2 k
  | [], k0, k, h => by
    simp only [run_ops, Option.some.injEq] at h
    subst h
    simp [assigned_pids]
  | (fuel, op) :: rest, k0, k, h => by
    simp only [run_ops] at h
    obtain ⟨k1, hk1, hrest⟩ := Option.bind_eq_some.mp h
    have ih := assigned_pids_append cfg ops2 rest k1 k hrest
    rw [List.cons_append]
    simp only [assigned_pids, hk1]
    rw [ih, List.append_assoc]

/-- In a state reached from boot with at most `2147483646` pids assigned, the
counter is one more than the number of pids assigned, the pids assigned are
`1, 2, …` in this order, and the counter is positive, greater than every pid
assigned and greater than every pid in the table. -/
theorem nextpid_fresh (cfg : Config) (ops : List (Nat × Op)) (k : Kernel)
    (hrun : run_ops cfg ops (procinit cfg boot_image) = some k)
    (hlen : (assigned_pids cfg ops (procinit cfg boot_image)).length ≤ 2147483646) :
    k.nextpid = 1 + ((assigned_pids cfg ops (procinit cfg boot_image)).length : Int) ∧
    assigned_pids cfg ops (procinit cfg boot_image) =
      (List.range (assigned_pids cfg ops (procinit cfg boot_image)).length).map
        (fun (n : Nat) => 1 + (n : Int)) ∧
    0 < k.nextpid ∧
    (∀ q ∈ assigned_pids cfg ops (procinit cfg boot_image), q < k.nextpid) ∧
    ∀ j, (k.proc j).pid < k.nextpid := by
  rw [procinit_boot] at hrun hlen ⊢
  have h1 : boot_image.nextpid = 1 := rfl
  obtain ⟨a, b, c⟩ := run_ops_pids cfg ops boot_image k hrun (by rw [h1]; decide)
    (by rw [h1]; omega)
  rw [h1] at a b
  have hmem : ∀ q ∈ assigned_pids cfg ops boot_image, 0 < q ∧ q < k.nextpid := by
    intro q hq
    rw [b] at hq
    obtain ⟨n, hn, e⟩ := List.mem_map.mp hq
    have hn2 := List.mem_range.mp hn
    rw [a, ← e]
    omega
  refine ⟨a, b, by rw [a]; omega, fun q hq => (hmem q hq).2, ?_⟩
  intro j
  have h0 : (boot_image.proc j).pid = 0 := rfl
  rcases c j with e | e | e
  · rw [e, h0, a]; omega
  · rw [e, a]; omega
  · exact (hmem _ e).2

/-- C14, amended: let `i` be the lowest-indexed `UNUSED` slot of the table and
let both allocations succeed.  Then `allocproc` returns slot `i` holding
exactly the lock of `i`; the slot is `USED` with the pid `nextpid` had before
the call, `queue_level = 0`, `remaining_ticks = Q0_TICKS` and
`original_queue = 0`; no other PCB changes in anything but its queue link.
The counter is `nextpid + 1` wrapped to 32 bits: one larger whenever `nextpid`
was below `2147483647`.  And whenever the state was reached from boot by a run
in which at most `2147483646` pids were assigned, so that the counter has not
wrapped, the pid is the one the call adds to the pids assigned, the pids
assigned earlier are `1, 2, …` in this order, and the pid is positive, greater
than every pid assigned earlier and greater than every pid in the table.  When
the table has no `UNUSED` slot, `allocproc` returns null with no lock held and
the globals (PCBs, queues, pid counter) are the ones before the call, whatever
the allocations would return. -/
theorem C14_allocproc (cfg : Config) (tf pt : Nat) (k : Kernel) (i : Nat)
    (hlt : i < cfg.NPROC) (hun : (k.proc i).state = procstate.UNUSED)
    (hfirst : ∀ j, j < i → (k.proc j).state ≠ procstate.UNUSED) :
    (∃ k', allocproc cfg (some tf) (some pt) k = (some i, k') ∧
      locks_after [] (allocproc_locks cfg (some tf) (some pt) k) = [i] ∧
      (k'.proc i).state = procstate.USED ∧ (k'.proc i).pid = k.nextpid ∧
      (k'.proc i).queue_level = 0 ∧ (k'.proc i).remaining_ticks = cfg.Q0_TICKS ∧
      (k'.proc i).original_queue = 0 ∧
      (∀ j, j ≠ i → proc_data (k'.proc j) = proc_data (k.proc j)) ∧
      k'.nextpid = wrap32 (k.nextpid + 1) ∧
      (-2147483648 ≤ k.nextpid → k.nextpid < 2147483647 → k'.nextpid = k.nextpid + 1) ∧
      (∀ (ops : List (Nat × Op)), run_ops cfg ops (procinit cfg boot_image) = some k →
        (assigned_pids cfg ops (procinit cfg boot_image)).length ≤ 2147483646 →
        (∀ fuel, assigned_pids cfg (ops ++ [(fuel, Op.allocproc (some tf) (some pt))])
            (procinit cfg boot_image) =
          assigned_pids cfg ops (procinit cfg boot_image) ++ [(k'.proc i).pid]) ∧
        assigned_pids cfg ops (procinit cfg boot_image) =
          (List.range (assigned_pids cfg ops (procinit cfg boot_image)).length).map
            (fun (n : Nat) => 1 + (n : Int)) ∧
        0 < (k'.proc i).pid ∧
        (∀ q ∈ assigned_pids cfg ops (procinit cfg boot_image), q < (k'.proc i).pid) ∧
        (∀ j, (k.proc j).pid < (k'.proc i).pid))) ∧
    (∀ (k0 : Kernel) (tf0 pt0 : Option Nat),
      (∀ j, j < cfg.NPROC → (k0.proc j).state ≠ procstate.UNUSED) →
      allocproc cfg tf0 pt0 k0 = (none, k0) ∧
      locks_after [] (allocproc_locks cfg tf0 pt0 k0) = []) := by
  have hfind : (List.range cfg.NPROC).find?
      (fun j => decide ((k.proc j).state = procstate.UNUSED)) = some i := by
    rw [List.find?_range_eq_some]
    refine ⟨by simpa using hun, List.mem_range.mpr hlt, ?_⟩
    intro j hj
    simpa using hfirst j hj
  have hdi := allocproc_found_data cfg k i i
  rw [if_pos rfl] at hdi
  have hnp := allocproc_found_nextpid cfg k i
  have hpid : ((allocproc_found cfg k i).proc i).pid = k.nextpid := data_pid hdi
  have halloc : allocproc cfg (some tf) (some pt) k =
      (some i, { allocproc_found cfg k i with
        proc := (setAt (allocproc_found cfg k i).proc i
          { (allocproc_found cfg k i).proc i with
            trapframe := some tf, pagetable := some pt }) }) := by
    rw [allocproc_eq_found, hfind]
  constructor
  · refine ⟨_, halloc, ?_, ?_, ?_, ?_, ?_, ?_, ?_, hnp, ?_, ?_⟩
    · unfold allocproc_locks
      rw [locks_after_append, allocproc_scan_locks_held]
      simp only [hfind, decide_eq_true_eq]
      rfl
    · simp only [setAt_same]
      exact data_state hdi
    · simp only [setAt_same]
      exact data_pid hdi
    · simp only [setAt_same]
      exact data_queue_level hdi
    · simp only [setAt_same]
      exact data_remaining_ticks hdi
    · simp only [setAt_same]
      exact data_original_queue hdi
    · intro j hj
      simp only
      rw [setAt_ne _ _ hj]
      have h := allocproc_found_data cfg k i j
      rw [if_neg hj] at h
      exact h
    · intro h1 h2
      show (allocproc_found cfg k i).nextpid = _
      rw [hnp]
      exact wrap32_id (by omega) (by omega)
    · intro ops hrun hlen
      obtain ⟨_, b, c, d, e⟩ := nextpid_fresh cfg ops k hrun hlen
      simp only [setAt_same]
      rw [hpid]
      refine ⟨?_, b, c, d, e⟩
      intro fuel
      rw [assigned_pids_append cfg _ ops _ k hrun]
      congr 1
      simp only [assigned_pids, apply_op, op_allocpid, allocproc_pid, hfind, Option.map_some',
        Option.toList_some, List.append_nil]
  · intro k0 tf0 pt0 hfull
    have hnone : (List.range cfg.NPROC).find?
        (fun j => decide ((k0.proc j).state = procstate.UNUSED)) = none := by
      rw [List.find?_eq_none]
      intro j hj
      simpa using hfull j (List.mem_range.mp hj)
    refine ⟨allocproc_full cfg tf0 pt0 k0 hnone, ?_⟩
    unfold allocproc_locks
    rw [locks_after_append, allocproc_scan_locks_held]
    simp only [decide_eq_true_eq] at hnone ⊢
    rw [hnone]
    rfl

/-- C14 at concrete tables with four slots.  `demo_first_running` is reached
from boot by `userinit` and a dispatch, a run that assigns the pid 1; there
`allocproc` claims slot 1, the lowest `UNUSED` one, which ends `USED` with pid
2, greater than the pid assigned earlier and than every pid in the table, the
counter going from 2 to 3, and returns holding the lock of slot 1.  In
`demo_zombies`, whose four slots are all in use, it returns null and changes
nothing. -/
theorem C14_allocproc_witness :
    run_ops cfg4 [(1, Op.userinit (some 1) (some 2)), (1, Op.dispatch)]
      (procinit cfg4 boot_image) = some demo_first_running ∧
    assigned_pids cfg4 [(1, Op.userinit (some 1) (some 2)), (1, Op.dispatch)]
      (procinit cfg4 boot_image) = [1] ∧
    (∃ k', allocproc cfg4 (some 5) (some 6) demo_first_running = (some 1, k') ∧
      locks_after [] (allocproc_locks cfg4 (some 5) (some 6) demo_first_running) = [1] ∧
      (k'.proc 1).state = procstate.USED ∧ (k'.proc 1).pid = 2 ∧ k'.nextpid = 3 ∧
      assigned_pids cfg4 ([(1, Op.userinit (some 1) (some 2)), (1, Op.dispatch)] ++
          [(1, Op.allocproc (some 5) (some 6))]) (procinit cfg4 boot_image) =
        assigned_pids cfg4 [(1, Op.userinit (some 1) (some 2)), (1, Op.dispatch)]
          (procinit cfg4 boot_image) ++ [(k'.proc 1).pid] ∧
      0 < (k'.proc 1).pid ∧
      (∀ q ∈ assigned_pids cfg4 [(1, Op.userinit (some 1) (some 2)), (1, Op.dispatch)]
        (procinit cfg4 boot_image), q < (k'.proc 1).pid) ∧
      (∀ j, (demo_first_running.proc j).pid < (k'.proc 1).pid)) ∧
    allocproc cfg4 (some 1) none demo_zombies = (none, demo_zombies) :=
  have hrun : run_ops cfg4 [(1, Op.userinit (some 1) (some 2)), (1, Op.dispatch)]
      (procinit cfg4 boot_image) = some demo_first_running :=
    option_eq_some_getD _ _ (by decide)
  have h := C14_allocproc cfg4 5 6 demo_first_running 1 (by decide) (by decide) (by decide)
  ⟨hrun, by decide,
    h.1.elim fun k' hk =>
      have hf := hk.2.2.2.2.2.2.2.2.2.2 _ hrun (by decide)
      ⟨k', hk.1, hk.2.1, hk.2.2.1, hk.2.2.2.1.trans (by decide),
        hk.2.2.2.2.2.2.2.2.2.1 (by decide) (by decide),
        hf.1 1, hf.2.2.1, hf.2.2.2.1, hf.2.2.2.2⟩,
    (h.2 demo_zombies (some 1) none (by decide)).1⟩

end MLFQ
